import Mathlib

/-!
# Path algebra and command-line completion of vifm, non-Windows build

A shallow embedding of the lexical path functions of `src/utils/path.c`
(`canonicalize_path`, `skip_dotdir_if_any`, `make_rel_path`, `chosp`,
`path_starts_with`, `paths_are_equal`, `is_path_absolute`, `escape_filename`,
`replace_home_part`, `expand_tilde`, `get_last_path_component`, `find_ext_dot`,
`get_ext`, `split_ext`, `cut_extension`, `find_cmd_in_path`) and of the completion
engine of `src/commands_completion.c` (`complete_args` and its completers,
`cmd_ends_with_space`, `filename_completion`, `filename_completion_internal`,
`complete_command_name`, `complete_highlight_arg`, `fast_run_complete`,
`get_cmd_path`), together with theorems about them.

Conventions of the embedding.

* A C string is a `List Char`; the terminating NUL is implicit: reading at or
  past the end of the list yields `NUL`.  A pointer into a C string is the
  suffix of the list that starts at the pointed character, so `p++` is
  `List.tail` and `p[i]` is `peek p i`.
* The destination buffer is a piece of memory `Nat → Char` (`cells i` is
  `buf[i]`), whose initial content is a parameter, together with the byte
  `pre` stored just before it (`buf[-1]`), which the C code reads through
  `*q` while `q == buf - 1`.  The bytes of the buffer beyond `q` matter too:
  inside its loop `canonicalize_path` calls `strcmp(buf, "../")` on a buffer
  that is not NUL-terminated at `q + 1`.
* The destination pointer `q` is represented by `qn = (q + 1) - buf`, the
  number of live characters of the output; `q == buf - 1` is `qn = 0`.
* `size_t` is 64 bits wide; `buf_size - 1` wraps around at `buf_size = 0`.
* Only the `#ifndef _WIN32` code is embedded.  `PATH_MAX` (`fs_limits.h`) is a
  parameter; `strnoscmp` (`str.h`) is taken to be `strncmp`.
* What a function reads from its surroundings is a parameter: `cfg.home_dir`,
  the identity database behind `getpwnam` and the size `NAME_MAX` for
  `expand_tilde` (`TildeEnv`); the list of `get_paths`, the test
  `executable_exists` and `PATH_MAX` for the search of a command (`PathEnv`).
  A function that may return its argument pointer itself returns an `Option`.
* Where the language leaves the order of evaluation of two function arguments open and
  the result depends on it (`replace_home_part`), the order is a parameter.  A copy that
  the C code does not bound is not bounded here either: the index reached is returned
  (`canonicalize_mem`), or the number of bytes stored is kept next to the size of the
  block (`SplitDirFile`), so that a theorem can tell whether the block is overrun.
* The completion engine talks to collaborators that are not part of it: the match
  session (`vle_compl_*`), the file system (`opendir`, `vifm_chdir`, `closedir`), the
  completers of options, functions and variables.  The embedding records the calls
  made to them, in order, in a `World`, which also holds the working directory of the
  process; what the collaborators answer is a parameter (`CompEnv`).  A directory
  entry (`Dirent`) carries its name together with the answers of the tests the
  walker makes on it.  Where a function reads the match session back
  (`fast_run_complete`), the entries of the session are computed from the recorded
  calls, in the order in which they were added.

Plan of the development.

* Definitions: the embedding of the C functions; an item-level description of
  `canonicalize_path` on plain lists (`items`, `stepItem`, `canonItems`); the
  specification-level notions the theorems are stated with.
* Theorems: `escape_filename`; the proof that the loop of `canonicalize_path`
  computes the item-level description when nothing is truncated
  (`canonicalize_path_eq_items`); idempotence; `make_rel_path` on canonical
  absolute paths; facts about `canonicalize_path` that hold for every capacity;
  the reference normaliser on absolute paths; the bounded loops of the
  embedding stop before their bound is reached; un-escaping and the size of
  the block of `escape_filename`; the unbounded `strcat` loop of
  `make_rel_path`; `expand_tilde`; the extension functions; the search of a
  command; the walker of directory entries; `filename_completion`;
  `complete_args`; `complete_highlight_arg`; the completers of keywords and names;
  `fast_run_complete`; `escape_filename` and the tilde; `canonicalize_path` on
  relative paths and with room to spare; `cmd_ends_with_space`;
  `get_last_path_component`; `path_starts_with`; `replace_home_part`.
-/

namespace Vifm

/-- The terminating byte of a C string. -/
def NUL : Char := Char.ofNat 0

/-- The character `p[i]` of a C string given as the suffix `p`. -/
def peek (p : List Char) (i : Nat) : Char := p.getD i NUL

/-- The modulus of `size_t` arithmetic. -/
def SIZE_MOD : Nat := 2 ^ 64

/-- Destination memory: `pre` is `buf[-1]`, `cells i` is `buf[i]`. -/
structure Mem where
  pre : Char
  cells : Nat → Char

/-- The assignment `buf[i] = c`. -/
def Mem.write (m : Mem) (i : Nat) (c : Char) : Mem :=
  { m with cells := fun j => if j = i then c else m.cells j }

/-- The value of `*q` for `q = buf + qn - 1`. -/
def Mem.last (m : Mem) (qn : Nat) : Char :=
  match qn with
  | 0 => m.pre
  | n + 1 => m.cells n

/-- Memory that holds `NUL` everywhere. -/
def Mem.zero : Mem := { pre := NUL, cells := fun _ => NUL }

/-- The characters `buf[0] .. buf[n-1]`. -/
def Mem.prefix_ (m : Mem) (n : Nat) : List Char := (List.range n).map m.cells

/-- The function `strlen` over at most `fuel` cells of memory starting at `i`. -/
def Mem.strlenFrom (m : Mem) : Nat → Nat → Nat
  | 0, _ => 0
  | fuel + 1, i => if m.cells i = NUL then 0 else 1 + Mem.strlenFrom m fuel (i + 1)

/-- Number of leading `'.'` characters: the `while` loop of `skip_dotdir_if_any`. -/
def dotCount : List Char → Nat
  | [] => 0
  | c :: rest => if c = '.' then 1 + dotCount rest else 0

/-- The test `strchr("/", c) != NULL`: true for `'/'` and for the terminator. -/
def strchrSlash (c : Char) : Bool := c = '/' || c = NUL

/-- The function `skip_dotdir_if_any(&p, fully)`: the new `p` and the result. -/
def skip_dotdir_if_any (path : List Char) (fully : Bool) : List Char × Bool :=
  let dot_count := dotCount path
  if dot_count = 1 && strchrSlash (peek path dot_count) then
    let dot_count := if !fully then dot_count - 1 else dot_count
    if peek path dot_count = NUL then
      (path.drop (dot_count - 1), fully)
    else
      (path.drop dot_count, fully)
  else
    (path, false)

/-- The test `strcmp(buf, "../") == 0`. -/
def bufIsDotDotSlash (m : Mem) : Bool :=
  m.cells 0 = '.' && m.cells 1 = '.' && m.cells 2 = '/' && m.cells 3 = NUL

/-- The test `strncmp(p, "../", 3) == 0 || strcmp(p, "..") == 0`. -/
def startsWithDotDot (p : List Char) : Bool :=
  (peek p 0 = '.' && peek p 1 = '.' && peek p 2 = '/') ||
  (peek p 0 = '.' && peek p 1 = '.' && peek p 2 = NUL)

/-- The loop `while(q >= buf && *q != '/') q--;`. -/
def backToSlash (m : Mem) : Nat → Nat
  | 0 => 0
  | n + 1 => if m.cells n ≠ '/' then backToSlash m n else n + 1

/-- The value `buf_size - 1` in `size_t` arithmetic. -/
def sizeLimit (buf_size : Nat) : Nat := (buf_size + SIZE_MOD - 1) % SIZE_MOD

/-- The inner copy loop
`while(p[1] != '\0' && p[1] != '/' && (size_t)((q + 1) - buf) < buf_size - 1) *++q = *++p;`
run on the suffix `p`; returns the new `p`, memory and `qn`. -/
def copyRest (buf_size : Nat) : List Char → Mem → Nat → List Char × Mem × Nat
  | [], m, qn => ([], m, qn)
  | c :: rest, m, qn =>
    if peek rest 0 ≠ NUL && peek rest 0 ≠ '/' && decide (qn < sizeLimit buf_size) then
      copyRest buf_size rest (m.write qn (peek rest 0)) (qn + 1)
    else
      (c :: rest, m, qn)

/-- State of the main loop of `canonicalize_path`. -/
structure CanonState where
  p : List Char
  m : Mem
  qn : Nat

/-- The loop condition `*p != '\0' && (size_t)((q + 1) - buf) < buf_size - 1`. -/
def canonCond (buf_size : Nat) (s : CanonState) : Bool :=
  peek s.p 0 ≠ NUL && decide (s.qn < sizeLimit buf_size)

/-- One iteration of the main loop of `canonicalize_path` (body and the final `p++`). -/
def canonBody (buf_size : Nat) (s : CanonState) : CanonState :=
  let prev_dir_present : Bool := s.qn ≠ 0 && s.m.last s.qn = '/'
  let sk := skip_dotdir_if_any s.p prev_dir_present
  if sk.2 then
    { s with p := sk.1.tail }
  else if prev_dir_present && startsWithDotDot sk.1 && !bufIsDotDotSlash s.m then
    { s with p := sk.1.tail.tail, qn := backToSlash s.m (s.qn - 1) }
  else if peek sk.1 0 = '/' then
    if !prev_dir_present then
      { p := sk.1.tail, m := s.m.write s.qn '/', qn := s.qn + 1 }
    else
      { s with p := sk.1.tail }
  else
    let r := copyRest buf_size sk.1 (s.m.write s.qn (peek sk.1 0)) (s.qn + 1)
    { p := r.1.tail, m := r.2.1, qn := r.2.2 }

/-- The main loop of `canonicalize_path`, at most `fuel` iterations. -/
def canonLoop (buf_size : Nat) : Nat → CanonState → CanonState
  | 0, s => s
  | fuel + 1, s =>
    if canonCond buf_size s then canonLoop buf_size fuel (canonBody buf_size s) else s

/-- The function `canonicalize_path(directory, buf, buf_size)`: the memory after the call
and the index at which the terminating NUL was stored.  Every iteration of the loop
consumes at least one character, so `directory.length` iterations are enough. -/
def canonicalize_mem (directory : List Char) (m : Mem) (buf_size : Nat) : Mem × Nat :=
  let s := canonLoop buf_size directory.length
    { p := directory, m := m.write 0 NUL, qn := 0 }
  let r : Mem × Nat :=
    if s.m.last s.qn ≠ '/' then (s.m.write s.qn '/', s.qn + 1) else (s.m, s.qn)
  (r.1.write r.2 NUL, r.2)

/-- The string that `canonicalize_path(directory, buf, buf_size)` leaves in `buf`. -/
def canonicalize_path (directory : List Char) (m : Mem) (buf_size : Nat) : List Char :=
  let r := canonicalize_mem directory m buf_size
  r.1.prefix_ r.2

/-! ## `chosp`, `make_rel_path` -/

/-- The function `strlen(buf)`, scanning at most `bound` cells. -/
def Mem.strlen (m : Mem) (bound : Nat) : Nat := Mem.strlenFrom m bound 0

/-- The function `chosp(buf)`: removes one trailing slash.  `bound` bounds the scan of
`strlen`. -/
def chosp (m : Mem) (bound : Nat) : Mem :=
  if m.cells 0 = NUL then m
  else
    let len := m.strlen bound
    if m.cells (len - 1) = '/' then m.write (len - 1) NUL else m

/-- A character of a path component: neither the separator nor the terminator. -/
def isReg (c : Char) : Bool := c ≠ '/' && c ≠ NUL

/-- Index of the first character at or after index `i` of `s` that is `'/'` or the
terminator: where the scan of `strchr(s + i, '/')` stops. -/
def nextSlash (s : List Char) (i : Nat) : Nat :=
  i + ((s.drop i).takeWhile isReg).length

/-- The function `strlen` of a C string given as a list. -/
def cstrlen (s : List Char) : Nat := (s.takeWhile (fun c => c ≠ NUL)).length

/-- The pointer `strchr(s + i, '/')`, replaced by `s + strlen(s)` when it is `NULL`. -/
def strchrOrEnd (s : List Char) (i : Nat) : Nat :=
  let j := nextSlash s i
  if peek s j = '/' then j else cstrlen s

/-- The test `strncmp(a, b, n) == 0`. -/
def strncmpEq : List Char → List Char → Nat → Bool
  | _, _, 0 => true
  | a, b, n + 1 =>
    if peek a 0 ≠ peek b 0 then false
    else if peek a 0 = NUL then true
    else strncmpEq a.tail b.tail n

/-- Modelled from the spec: `strnoscmp` of `utils/str.h` is not part of the sources at
hand; the spec says the shared prefix is compared verbatim, which on the non-Windows
build is `strncmp`. -/
def strnoscmpEq (a b : List Char) (n : Nat) : Bool := strncmpEq a b n

/-- The first loop of `make_rel_path` on the offsets `p - path` and `b - base`:
at most `fuel` iterations. -/
def relLoop (path base : List Char) : Nat → Nat → Nat → Nat × Nat
  | 0, p, b => (p, b)
  | fuel + 1, p, b =>
    if peek path p ≠ NUL && peek path (p + 1) ≠ NUL &&
        peek base b ≠ NUL && peek base (b + 1) ≠ NUL then
      let p1 := strchrOrEnd path (p + 1)
      let b1 := strchrOrEnd base (b + 1)
      if p1 ≠ b1 || !strnoscmpEq path base p1 then (p, b)
      else relLoop path base fuel p1 b1
    else (p, b)

/-- Number of `'/'` among `buf[0] .. buf[n-1]`. -/
def countSlashes (m : Mem) (n : Nat) : Nat := (m.prefix_ n).count '/'

/-- One `strcat(buf, "../")` for a buffer that holds a string of length `len`. -/
def strcatUp (m : Mem) (len : Nat) : Mem :=
  (((m.write len '.').write (len + 1) '.').write (len + 2) '/').write (len + 3) NUL

/-- The loop `while(nslashes-- > 0) strcat(buf, "../");` started on a string of length
`len`. -/
def strcatUps (m : Mem) : Nat → Nat → Mem
  | 0, _ => m
  | n + 1, len => strcatUps (strcatUp m len) n (len + 3)

/-- The memory seen through the pointer `buf + off`. -/
def Mem.shift (m : Mem) (off : Nat) : Mem :=
  { pre := m.last off, cells := fun i => m.cells (off + i) }

/-- The memory at `buf` after the code has worked on `buf + off` and left `m2` there. -/
def Mem.unshift (m m2 : Mem) (off : Nat) : Mem :=
  { pre := m.pre, cells := fun i => if i < off then m.cells i else m2.cells (i - off) }

/-- The code of `make_rel_path` from `canonicalize_path(b, buf, sizeof(buf))` to the end
of the `strcat` loop, for the pointer `b` that the first loop leaves: the static buffer
after the `strcat` loop, and the value of `nslashes` counted before it.  `m0` is the
state of the static buffer before the call and `PATH_MAX` its size. -/
def relCount (PATH_MAX : Nat) (b : List Char) (m0 : Mem) : Mem × Nat :=
  let c1 := canonicalize_mem b m0 PATH_MAX
  let m1 := chosp c1.1 (c1.2 + 1)
  let nslashes := countSlashes m1 (m1.strlen (c1.2 + 1))
  (strcatUps (m1.write 0 NUL) nslashes 0, nslashes)

/-- The code of `make_rel_path` after the `strcat` loop, for the pointer `p` that the
first loop leaves and the buffer `m2` that holds `nslashes` times `"../"` (so that
`strlen(buf)` is `3 * nslashes`): the static buffer at the end and the length of the
string it holds. -/
def relAppend (PATH_MAX : Nat) (p : List Char) (m2 : Mem) (nslashes : Nat) : Mem × Nat :=
  let off := 3 * nslashes
  let p := if peek p 0 = '/' then p.tail else p
  let c2 := canonicalize_mem p (m2.shift off) ((PATH_MAX + SIZE_MOD - off % SIZE_MOD) % SIZE_MOD)
  let m3 := m2.unshift c2.1 off
  let m4 := chosp m3 (off + c2.2 + 1)
  if m4.cells 0 = NUL then
    ((m4.write 0 '.').write 1 NUL, 1)
  else
    (m4, m4.strlen (off + c2.2 + 1))

/-- The function `make_rel_path(path, base)`: the memory of the static buffer after the
call and the length of the string it holds.  `m0` is the state of the static buffer
before the call and `PATH_MAX` its size. -/
def make_rel_path_mem (PATH_MAX : Nat) (path base : List Char) (m0 : Mem) : Mem × Nat :=
  let pb := relLoop path base (cstrlen path) 0 0
  let r := relCount PATH_MAX (base.drop pb.2) m0
  relAppend PATH_MAX (path.drop pb.1) r.1 r.2

/-- The string that `make_rel_path(path, base)` returns. -/
def make_rel_path (PATH_MAX : Nat) (path base : List Char) (m0 : Mem) : List Char :=
  let r := make_rel_path_mem PATH_MAX path base m0
  r.1.prefix_ r.2

/-! ## `escape_filename` -/

/-- The character `'\\'`. -/
def BACKSLASH : Char := Char.ofNat 92

/-- The apostrophe. -/
def APOSTROPHE : Char := Char.ofNat 39

/-- The double quote. -/
def DQUOTE : Char := Char.ofNat 34

/-- The backtick. -/
def BACKTICK : Char := Char.ofNat 96

/-- The characters that `escape_filename` escapes anywhere in the line: the `case`
labels that lead to `*dup++ = '\\'`. -/
def isShellMeta (c : Char) : Bool :=
  c = APOSTROPHE || c = BACKSLASH || c = '\r' || c = '\n' || c = '\t' || c = DQUOTE ||
  c = ';' || c = ' ' || c = '?' || c = '|' || c = '[' || c = ']' || c = '{' || c = '}' ||
  c = '<' || c = '>' || c = BACKTICK || c = '!' || c = '$' || c = '&' || c = '*' ||
  c = '(' || c = ')' || c = '#'

/-- The `for` loop of `escape_filename`: `n` is the number of iterations left,
`string` the source pointer and `out` the bytes stored so far (`dup == ret` is
`out = []`). -/
def escapeLoop (quote_percent : Bool) : Nat → List Char → List Char → List Char
  | 0, _, out => out
  | n + 1, string, out =>
    let c := peek string 0
    let out :=
      if c = '%' then (if quote_percent then out ++ ['%'] else out)
      else if isShellMeta c then out ++ [BACKSLASH]
      else if c = '~' then (if out = [] then out ++ [BACKSLASH] else out)
      else out
    escapeLoop quote_percent n string.tail (out ++ [c])

/-- The bytes that `escape_filename(string, quote_percent)` stores in the block it
allocates, the final NUL included. -/
def escape_filename_bytes (string : List Char) (quote_percent : Bool) : List Char :=
  let len := cstrlen string
  let start : List Char × List Char :=
    if peek string 0 = '-' then (['.', '/'], string)
    else if peek string 0 = '~' then ([peek string 0], string.tail)
    else ([], string)
  escapeLoop quote_percent len start.2 start.1 ++ [NUL]

/-- The C string that `escape_filename(string, quote_percent)` returns. -/
def escape_filename (string : List Char) (quote_percent : Bool) : List Char :=
  (escape_filename_bytes string quote_percent).takeWhile (fun c => c ≠ NUL)

/-! ## Item-level description of `canonicalize_path`

The main loop of `canonicalize_path` handles its input one path item at a time: a
separator, or a component (a maximal run of characters other than `'/'`) together with
the separator that ends it.  The definitions below describe what the loop does to the
output, item by item, on plain lists; `canonicalize_path_eq_items` proves that the
embedding of the C code computes exactly this whenever nothing is truncated. -/

/-- The items of a path. -/
inductive Item where
  /-- A separator that does not end a component. -/
  | slash : Item
  /-- A component followed by a separator. -/
  | compSlash : List Char → Item
  /-- A component that ends the path. -/
  | compEnd : List Char → Item
  deriving DecidableEq, Repr

/-- The items of the C string held by a list. -/
def items : List Char → List Item
  | [] => []
  | c :: r =>
    if c = NUL then []
    else if c = '/' then Item.slash :: items r
    else
      match items r with
      | [] => [Item.compEnd [c]]
      | Item.slash :: ts => Item.compSlash [c] :: ts
      | Item.compSlash w :: ts => Item.compSlash (c :: w) :: ts
      | Item.compEnd w :: ts => Item.compEnd (c :: w) :: ts

/-- The output side of the loop state: the live characters `buf[0 .. q]` and whether
`buf[3]` still holds a NUL. -/
structure FState where
  out : List Char
  z : Bool
  deriving DecidableEq, Repr

/-- The test `q != buf - 1 && *q == '/'` on the live characters. -/
def endsSlash (out : List Char) : Bool := out.getLast? = some '/'

/-- The live characters after the removal of the last component: the final separator is
dropped, then everything back to the separator before it. -/
def popLast (out : List Char) : List Char :=
  (out.dropLast.reverse.dropWhile (fun c => c ≠ '/')).reverse

/-- Appending the characters `w` to the output. -/
def FState.push (a : FState) (w : List Char) : FState :=
  { out := a.out ++ w, z := a.z && decide (a.out.length + w.length ≤ 3) }

/-- What the loop does with a separator. -/
def stepSlash (a : FState) : FState :=
  if endsSlash a.out then a else a.push ['/']

/-- What the loop does with the component `c`. -/
def stepComp (a : FState) (c : List Char) : FState :=
  if endsSlash a.out && decide (c = ['.']) then a
  else if endsSlash a.out && decide (c = ['.', '.']) &&
      !(decide (a.out = ['.', '.', '/']) && a.z) then
    { a with out := popLast a.out }
  else a.push c

/-- What the loop does with one item. -/
def stepItem (a : FState) : Item → FState
  | Item.slash => stepSlash a
  | Item.compSlash c => stepSlash (stepComp a c)
  | Item.compEnd c => stepComp a c

/-- The code after the loop: `if(*q != '/') *++q = '/';`, where `pre` is `buf[-1]`. -/
def finish (pre : Char) (out : List Char) : List Char :=
  if out.getLast?.getD pre ≠ '/' then out ++ ['/'] else out

/-- The item-level description of `canonicalize_path(directory, buf, _)` for a buffer
with `buf[-1] = pre` and `buf[3] = NUL` exactly when `z3`. -/
def canonItems (directory : List Char) (pre : Char) (z3 : Bool) : List Char :=
  finish pre ((items directory).foldl stepItem { out := [], z := z3 }).out

/-- The loop state `s` of the embedded C code and the item-level state `a` describe the
same output, in a buffer with `buf[-1] = pre`. -/
structure Rel (s : CanonState) (a : FState) (pre : Char) : Prop where
  out_eq : s.m.prefix_ s.qn = a.out
  z_eq : a.z = decide (s.m.cells 3 = NUL)
  pre_eq : s.m.pre = pre
  nonul : ∀ c ∈ a.out, c ≠ NUL

/-! ## Canonical strings -/

/-- A path component: a non-empty run of characters other than `'/'` and NUL. -/
def Proper (c : List Char) : Prop := c ≠ [] ∧ ∀ x ∈ c, isReg x = true

instance (c : List Char) : Decidable (Proper c) :=
  inferInstanceAs (Decidable (c ≠ [] ∧ ∀ x ∈ c, isReg x = true))

/-- The string made of a leading `'/'` when `abs` is set, followed by every component
with a `'/'` after it. -/
def render (abs : Bool) (comps : List (List Char)) : List Char :=
  (if abs then ['/'] else []) ++ comps.flatMap (fun c => c ++ ['/'])

/-- The component `c` can stand after the components `pre` in an output of
`canonicalize_path`: `"."` only as the first component of a relative path, `".."` only
as the first component of a relative path or after a single `".."` when `buf[3]` held a
NUL at the start (`z0`). -/
def okAfter (z0 abs : Bool) (pre : List (List Char)) (c : List Char) : Prop :=
  Proper c ∧ (c = ['.'] → pre = [] ∧ abs = false) ∧
    (c = ['.', '.'] → abs = false ∧ (pre = [] ∨ (pre = [['.', '.']] ∧ z0 = true)))

/-- Every component of `rest` can stand where it is, after `pre` and the components of
`rest` before it. -/
def KcAux (z0 abs : Bool) : List (List Char) → List (List Char) → Prop
  | _, [] => True
  | pre, c :: rest => okAfter z0 abs pre c ∧ KcAux z0 abs (pre ++ [c]) rest

/-- The components of an output of `canonicalize_path`. -/
def Kc (z0 abs : Bool) (comps : List (List Char)) : Prop := KcAux z0 abs [] comps

/-- The item-level state holds an output of `canonicalize_path` that ends a component:
`render abs comps` for components that can stand where they are. -/
def InvC (z0 : Bool) (a : FState) : Prop :=
  ∃ abs comps, a.out = render abs comps ∧ Kc z0 abs comps ∧ (a.z = true → z0 = true)

/-! ## Specification-level definitions -/

/-- The C string held by a list: its characters up to the first NUL. -/
def cstr (s : List Char) : List Char := s.takeWhile (fun c => c ≠ NUL)

/-- The characters `s[0] .. s[n-1]` as the C code reads them (NUL past the end). -/
def readN (s : List Char) (n : Nat) : List Char := (List.range n).map (peek s)

/-- What the escaped form of a text holds for one character of the text: a shell
metacharacter preceded by one backslash, a percent sign doubled when `quote_percent`
is set, every other character alone. -/
def escChar (quote_percent : Bool) (c : Char) : List Char :=
  if c = '%' then (if quote_percent then ['%', '%'] else ['%'])
  else if isShellMeta c then [BACKSLASH, c]
  else [c]

/-- The escaped form of a text: each character replaced by `escChar`. -/
def escapedForm (quote_percent : Bool) (text : List Char) : List Char :=
  text.flatMap (escChar quote_percent)

/-- The components of a path split on `'/'` (empty components included). -/
def splitOnSlash : List Char → List (List Char)
  | [] => [[]]
  | c :: r =>
    if c = '/' then [] :: splitOnSlash r
    else
      match splitOnSlash r with
      | [] => [[c]]
      | w :: ws => (c :: w) :: ws

/-- One step of the reference normaliser: empty and `"."` components are dropped, `".."`
removes the most recently kept component (nothing when none is kept), any other
component is kept. -/
def refStep (kept : List (List Char)) (c : List Char) : List (List Char) :=
  if c = [] ∨ c = ['.'] then kept
  else if c = ['.', '.'] then kept.dropLast
  else kept ++ [c]

/-- The reference normaliser of absolute paths: `"/"` followed by each kept component
with a trailing `"/"`. -/
def refNormalise (p : List Char) : List Char :=
  '/' :: ((splitOnSlash p).foldl refStep []).flatMap (fun c => c ++ ['/'])

/-- The string `"../"` repeated `n` times. -/
def dotDotSlashes : Nat → List Char
  | 0 => []
  | n + 1 => '.' :: '.' :: '/' :: dotDotSlashes n

/-- The memory holds the C string `s` at `buf`. -/
def Holds (m : Mem) (s : List Char) : Prop :=
  m.prefix_ s.length = s ∧ m.cells s.length = NUL ∧ ∀ c ∈ s, c ≠ NUL

/-- The effect of `chosp` on a string: one trailing `'/'` is removed. -/
def chospStr (s : List Char) : List Char :=
  if s.getLast? = some '/' then s.dropLast else s

/-- A component of a canonical absolute path: proper, and neither `"."` nor `".."`. -/
def Clean (c : List Char) : Prop := Proper c ∧ c ≠ ['.'] ∧ c ≠ ['.', '.']

instance (c : List Char) : Decidable (Clean c) :=
  inferInstanceAs (Decidable (Proper c ∧ c ≠ ['.'] ∧ c ≠ ['.', '.']))

/-- The absolute path with the components `cs`: `"/"` for no component, otherwise each
component preceded by `'/'` (so without a trailing `'/'`). -/
def absPath (cs : List (List Char)) : List Char :=
  if cs = [] then ['/'] else cs.flatMap (fun c => '/' :: c)

/-- Every component preceded by `'/'`. -/
def slashed (cs : List (List Char)) : List Char := cs.flatMap (fun c => '/' :: c)

/-- Length of the longest sequence of leading components shared by two paths. -/
def commonLen : List (List Char) → List (List Char) → Nat
  | c :: cs, d :: ds => if c = d then commonLen cs ds + 1 else 0
  | _, _ => 0

/-- The relative path from the base with components `ds` to the path with components
`cs`, in the spec's words: one `"../"` per component of the base beyond the shared leading
components, then the remaining components of the path each followed by `'/'`, with the
trailing `'/'` removed; `"."` when that is empty. -/
def relRef (cs ds : List (List Char)) : List Char :=
  let k := commonLen cs ds
  let s := dotDotSlashes (ds.length - k) ++ (cs.drop k).flatMap (fun c => c ++ ['/'])
  if s = [] then ['.'] else s.dropLast

/-- No two adjacent `'/'` among `buf[0] .. buf[q-1]`. -/
def NoDouble (m : Mem) (q : Nat) : Prop :=
  ∀ i, i + 1 < q → ¬ (m.cells i = '/' ∧ m.cells (i + 1) = '/')

/-! ## Library functions used by the functions below -/

/-- The C library function `strchr(s, c)` for a character `c` other than NUL, as an
index into `s`; `none` is `NULL`. -/
def strchr : List Char → Char → Option Nat
  | [], _ => none
  | x :: r, c =>
    if x = c then some 0
    else if x = NUL then none
    else (strchr r c).map (fun i => i + 1)

/-- The C library function `strrchr(s, c)` for a character `c` other than NUL, as an
index into `s`; `none` is `NULL`. -/
def strrchr : List Char → Char → Option Nat
  | [], _ => none
  | x :: r, c =>
    if x = NUL then none
    else
      match strrchr r c with
      | some i => some (i + 1)
      | none => if x = c then some 0 else none

/-- The string that the C library call `snprintf(dst, size, "%s", src)` leaves in `dst`
(for `size > 0`): at most `size - 1` characters of `src`. -/
def snprintf_s (size : Nat) (src : List Char) : List Char := (cstr src).take (size - 1)

/-- The string that the C library call `snprintf(dst, size, "%s/%s", a, b)` leaves in
`dst` (for `size > 0`): at most `size - 1` characters of `a`, `'/'` and `b`. -/
def snprintf_s_slash_s (size : Nat) (a b : List Char) : List Char :=
  (cstr a ++ '/' :: cstr b).take (size - 1)

/-- Modelled from the spec: `copy_str` of `utils/str.h` is not part of the sources at
hand; as its calls `copy_str(buf, sizeof(buf), src)` show, it is taken to copy at most
`dst_len - 1` characters of `src` to `dst` and to terminate them, and to store nothing
when `dst_len` is 0.  `old` is the string that `dst` holds before the call, the result
the string it holds after. -/
def copy_str (old : List Char) (dst_len : Nat) (src : List Char) : List Char :=
  if dst_len = 0 then old else (cstr src).take (dst_len - 1)

/-- Modelled from the spec: `format_str` of `utils/str.h` is not part of the sources at
hand; it is taken to return a newly allocated string that holds the formatted text.
This is the call `format_str("%s%s", a, b)`. -/
def format_str_ss (a b : List Char) : List Char := cstr a ++ cstr b

/-- Modelled from the spec: the call `format_str("%s/%s", a, b)` of the function
`format_str`, which is not part of the sources at hand. -/
def format_str_s_slash_s (a b : List Char) : List Char := cstr a ++ '/' :: cstr b

/-- Modelled from the spec: `stroscmp` of `utils/str.h` is not part of the sources at
hand; on the non-Windows build it is taken to be `strcmp`.  This is the test
`stroscmp(a, b) == 0`. -/
def stroscmpEq (a b : List Char) : Bool := cstr a = cstr b

/-- Modelled from the spec: `starts_with` of `utils/str.h` is not part of the sources at
hand; it is taken to tell whether the string `str` begins with the string `pre`. -/
def starts_with (str pre : List Char) : Bool := (cstr pre).isPrefixOf (cstr str)

/-! ## `escape_filename`: the size of the block -/

/-- The argument of `malloc` in `escape_filename`: `len*2 + 2 + 1` in `size_t`
arithmetic. -/
def escape_filename_alloc (string : List Char) : Nat :=
  ((cstrlen string * 2) % SIZE_MOD + 2 + 1) % SIZE_MOD

/-! ## `expand_tilde` -/

/-- What `try_replace_tilde` reads besides its argument. -/
structure TildeEnv where
  /-- The string `cfg.home_dir`. -/
  home_dir : List Char
  /-- The identity database: `getpwnam(name)->pw_dir`, or `none` when `getpwnam(name)`
  is `NULL`. -/
  getpwnam : List Char → Option (List Char)
  /-- The size of the array `name` (positive). -/
  NAME_MAX : Nat

/-- The function `try_replace_tilde(path)`: `none` when it returns the pointer `path`
itself, otherwise the newly allocated string.  The array `name` is filled by `copy_str`,
bounded by `sizeof(name)`, when `path` has no `'/'`, and by `snprintf` with the size
`p - (path + 1) + 1`, which does not depend on `sizeof(name)`, when it has one; in the
second case the string is recorded here even when it is longer than the array. -/
def try_replace_tilde (env : TildeEnv) (path : List Char) : Option (List Char) :=
  if peek path 0 ≠ '~' then none
  else if peek path 1 = NUL ∨ peek path 1 = '/' then
    some (format_str_ss env.home_dir (if peek path 1 = '/' then path.drop 2 else []))
  else
    let np : List Char × List Char :=
      match strchr path '/' with
      | none => (copy_str [] env.NAME_MAX (path.drop 1), path.drop (cstrlen path))
      | some i => (snprintf_s (i - 1 + 1) (path.drop 1), path.drop (i + 1))
    match env.getpwnam np.1 with
    | none => none
    | some pw_dir => some (format_str_s_slash_s (chospStr (cstr pw_dir)) np.2)

/-- The function `expand_tilde(path)`: the string it returns, which is a copy of `path`
when `try_replace_tilde` returns `path` itself. -/
def expand_tilde (env : TildeEnv) (path : List Char) : List Char :=
  match try_replace_tilde env path with
  | none => cstr path
  | some expanded_path => expanded_path

/-! ## `find_ext_dot`, `get_ext`, `split_ext`, `cut_extension` -/

/-- The function `find_ext_dot(path)`: the index of the dot, `none` for `NULL`.  With
`slash == NULL` the comparison `dot == slash + 1` is false. -/
def find_ext_dot (path : List Char) : Option Nat :=
  let slash := strrchr path '/'
  let dot := strrchr path '.'
  let no_ext : Bool :=
    dot.isNone ||
    (match slash, dot with
      | some s, some d => decide (d < s)
      | _, _ => false) ||
    decide (dot = some 0) ||
    (match slash with
      | some s => decide (dot = some (s + 1))
      | none => false)
  if no_ext then none else dot

/-- The function `get_ext(path)`: the pointer it returns, as a suffix of `path`. -/
def get_ext (path : List Char) : List Char :=
  match find_ext_dot path with
  | none => path.drop (cstrlen path)
  | some dot => path.drop (dot + 1)

/-- The conversion of a `size_t` or pointer difference to `int` (32 bits). -/
def toCInt (n : Nat) : Int := ((n + 2 ^ 31) % 2 ^ 32 : Nat) - 2 ^ 31

/-- What `split_ext` leaves behind: the array `path`, `*root_len` and `*ext_pos`
(a pointer into `path`, as a suffix). -/
structure SplitExt where
  /-- The array `path` after the call. -/
  path : List Char
  /-- The value stored in `*root_len`. -/
  root_len : Int
  /-- The pointer stored in `*ext_pos`. -/
  ext_pos : List Char

/-- The function `split_ext(path, &root_len, &ext_pos)`. -/
def split_ext (path : List Char) : SplitExt :=
  match find_ext_dot path with
  | none =>
    { path := path, root_len := toCInt (cstrlen path), ext_pos := path.drop (cstrlen path) }
  | some dot =>
    { path := path.set dot NUL, root_len := toCInt dot,
      ext_pos := (path.set dot NUL).drop (dot + 1) }

/-- The function `cut_extension(path)`: the array `path` after the call and the pointer
that is returned, as a suffix of that array. -/
def cut_extension (path : List Char) : List Char × List Char :=
  match strrchr path '.' with
  | none => (path, path.drop (cstrlen path))
  | some ext =>
    let path1 := path.set ext NUL
    match strrchr path1 '.' with
    | none => (path1, path1.drop (ext + 1))
    | some e =>
      if stroscmpEq (path1.drop (e + 1)) ['t', 'a', 'r'] then
        ((path1.set ext '.').set e NUL, ((path1.set ext '.').set e NUL).drop (e + 1))
      else (path1, path1.drop (ext + 1))

/-! ## `find_cmd_in_path`, `get_cmd_path` -/

/-- What the search for a command reads besides its arguments. -/
structure PathEnv where
  /-- The directories that `get_paths` returns, in order. -/
  paths : List (List Char)
  /-- The test `executable_exists`. -/
  executable_exists : List Char → Bool
  /-- The size of the array `tmp_path` (positive). -/
  PATH_MAX : Nat

/-- The outcome of `find_cmd_in_path` and `get_cmd_path`. -/
structure CmdPath where
  /-- The value returned. -/
  ret : Nat
  /-- The string in the array `path` after the call; `none` when `path` is `NULL`. -/
  path : Option (List Char)
  /-- The strings passed to `executable_exists`, in the order of the calls. -/
  probed : List (List Char)

/-- The `for` loop of `find_cmd_in_path` over the directories not yet tried; `probed`
holds the strings tested so far and `path` the output array as it was passed in. -/
def findLoop (env : PathEnv) (cmd : List Char) (path_len : Nat) (path : Option (List Char)) :
    List (List Char) → List (List Char) → CmdPath
  | [], probed => { ret := 1, path := path, probed := probed }
  | d :: rest, probed =>
    let tmp_path := snprintf_s_slash_s env.PATH_MAX d cmd
    if env.executable_exists tmp_path then
      { ret := 0, path := path.map (fun old => copy_str old path_len tmp_path),
        probed := probed ++ [tmp_path] }
    else findLoop env cmd path_len path rest (probed ++ [tmp_path])

/-- The function `find_cmd_in_path(cmd, path_len, path)`. -/
def find_cmd_in_path (env : PathEnv) (cmd : List Char) (path_len : Nat)
    (path : Option (List Char)) : CmdPath :=
  findLoop env cmd path_len path env.paths []

/-- The function `contains_slash(path)` of the non-Windows build. -/
def contains_slash (path : List Char) : Bool := (strchr path '/').isSome

/-- The function `get_cmd_path(cmd, path_len, path)`; `path` is the string that the
output array holds before the call. -/
def get_cmd_path (env : PathEnv) (cmd : List Char) (path_len : Nat) (path : List Char) :
    CmdPath :=
  let cmd := if starts_with cmd ['!', '!'] then cmd.drop 2 else cmd
  if contains_slash cmd then
    { ret := 0, path := some (copy_str path path_len cmd), probed := [] }
  else find_cmd_in_path env cmd path_len (some path)

/-! ## Notions used to state the theorems about these functions -/

/-- Un-escaping as a shell does it outside quotes, in the words of the spec: each
backslash is dropped and the character after it is taken literally. -/
def shellUnescape : List Char → List Char
  | [] => []
  | [c] => if c = BACKSLASH then [] else [c]
  | c :: d :: r => if c = BACKSLASH then d :: shellUnescape r else c :: shellUnescape (d :: r)

/-- The text with every `'%'` doubled. -/
def doublePercent (text : List Char) : List Char :=
  text.flatMap (fun c => if c = '%' then ['%', '%'] else [c])

/-! ## Environments of the examples -/

/-- The home directory `/home/u/` and an identity database whose only entry is `bob`,
with the home directory `/home/bob`. -/
def tildeEnvBob : TildeEnv :=
  { home_dir := "/home/u/".toList
    getpwnam := fun n => if n = "bob".toList then some "/home/bob".toList else none
    NAME_MAX := 255 }

/-- The home directory `/home/u`, stored without a `'/'` at its end, and an empty
identity database. -/
def tildeEnvBare : TildeEnv :=
  { home_dir := "/home/u".toList
    getpwnam := fun _ => none
    NAME_MAX := 255 }

/-- An identity database whose only entry is the name made of 254 letters `a`, with the
home directory `/home/a`. -/
def tildeEnvLong : TildeEnv :=
  { home_dir := "/home/u/".toList
    getpwnam := fun n => if n = List.replicate 254 'a' then some "/home/a".toList else none
    NAME_MAX := 255 }

/-- The search list `/usr/bin`, `/bin` on a system whose only executable is `/bin/ls`. -/
def pathEnvBin : PathEnv :=
  { paths := ["/usr/bin".toList, "/bin".toList]
    executable_exists := fun s => s = "/bin/ls".toList
    PATH_MAX := 4096 }

/-- The search list with the one directory `/dd…d` (`n` letters `d`), on a system whose
only executable is the file `l` in that directory; `PATH_MAX` is `n + 4`, the length of
the candidate for the command `ls`. -/
def pathEnvDeep (n : Nat) : PathEnv :=
  { paths := ['/' :: List.replicate n 'd']
    executable_exists := fun s => s = '/' :: List.replicate n 'd' ++ ['/', 'l']
    PATH_MAX := n + 4 }

/-! ## The completion engine of `commands_completion.c`

The match session (`vle_compl_*`), the file system and the completers of the expression
engine are collaborators of this code; the embedding records the calls made to them, in
order, and keeps the working directory of the process as explicit state. -/

/-- The values of `CompletionType` that the code names. -/
inductive CompletionType
  | CT_ALL
  | CT_ALL_WOS
  | CT_FILE
  | CT_FILE_WOE
  | CT_DIRONLY
  | CT_EXECONLY
  | CT_DIREXEC
  deriving DecidableEq, Repr

/-- The values of `CompletionPreProcessing`. -/
inductive CompletionPreProcessing
  | CPP_NONE
  | CPP_SQUOTES_UNESCAPE
  | CPP_DQUOTES_UNESCAPE
  deriving DecidableEq, Repr

/-- The command identifiers that `complete_args` names; `other n` stands for every
other identifier. -/
inductive CmdId
  | COM_SET
  | COM_UNLET
  | COM_HELP
  | COM_HISTORY
  | COM_INVERT
  | COM_CHOWN
  | COM_FILE
  | COM_HIGHLIGHT
  | COM_CD
  | COM_PUSHD
  | COM_EXECUTE
  | COM_SOURCE
  | COM_WINDO
  | COM_WINRUN
  | COM_COLORSCHEME
  | COM_SYNC
  | COM_MKDIR
  | COM_COPY
  | COM_MOVE
  | COM_ALINK
  | COM_RLINK
  | COM_SPLIT
  | COM_VSPLIT
  | COM_FIND
  | COM_TOUCH
  | COM_RENAME
  | other (n : Nat)
  deriving DecidableEq, Repr

/-- A call made by the completion code to one of its collaborators: to the match session
(`vle_compl_*`), to the file system, to a completer of the expression engine or of the
color schemes, or to the status bar.  A string argument is the C string passed. -/
inductive Call
  | reset
  | add_match (s : List Char)
  | add_path_match (s : List Char)
  | finish_group
  | add_last_match (s : List Char)
  | add_last_path_match (s : List Char)
  | unite_groups
  | next
  | opendir (dirname : List Char)
  | chdir (dirname : List Char)
  | closedir
  | complete_options (args : List Char)
  | complete_real_option_names (s : List Char)
  | function_complete_name (s : List Char)
  | complete_variables (s : List Char)
  | complete_colorschemes (s : List Char)
  | status_bar_error (msg : List Char)
  deriving DecidableEq, Repr

/-- Whether a call is one to the file system. -/
def Call.isFs : Call → Bool
  | .opendir _ => true
  | .chdir _ => true
  | .closedir => true
  | _ => false

/-- The state that the completion code works on: the calls made so far, in order, and
the working directory of the process. -/
structure World where
  /-- The calls made so far. -/
  calls : List Call
  /-- The working directory of the process. -/
  cwd : List Char
  deriving DecidableEq, Repr

/-- The state after one more call. -/
def World.call (w : World) (c : Call) : World := { w with calls := w.calls ++ [c] }

/-- The values of `d_type` that the code tells apart. -/
inductive DType
  | DT_DIR
  | DT_LNK
  | DT_OTHER
  deriving DecidableEq, Repr

/-- A directory entry as `os_readdir` returns it, with the answers of the tests that the
code makes on it while the directory of the entry is the working directory. -/
structure Dirent where
  /-- The field `d_name`. -/
  d_name : List Char
  /-- The field `d_type`. -/
  d_type : DType
  /-- The value of `is_dirent_targets_dir(d)` (a function of `utils/fs.h`, not part of
  the sources at hand), as a truth value. -/
  targets_dir : Bool
  /-- Whether `get_symlink_type(d->d_name) != SLT_UNKNOWN`. -/
  symlink_known : Bool
  /-- Whether `os_access(d->d_name, X_OK) == 0`. -/
  access_x : Bool
  deriving DecidableEq, Repr

/-- The function `is_dirent_targets_exec(d)` of the non-Windows build. -/
def is_dirent_targets_exec (d : Dirent) : Bool :=
  if d.d_type = DType.DT_DIR then false
  else if d.d_type = DType.DT_LNK ∧ d.symlink_known = true then false
  else d.access_x

/-- What the completion code reads from its surroundings. -/
structure CompEnv where
  /-- The surroundings of `expand_tilde`. -/
  tilde : TildeEnv
  /-- The function `cmds_expand_envvars`. -/
  expand_envvars : List Char → List Char
  /-- The function `os_opendir` followed by the `os_readdir` calls: the entries of the
  directory `dirname` seen from the working directory `cwd`, `none` for `NULL`. -/
  opendir : (cwd dirname : List Char) → Option (List Dirent)
  /-- The function `vifm_chdir`: the new working directory when the call returns 0,
  `none` when it fails. -/
  chdir : (cwd dirname : List Char) → Option (List Char)
  /-- The string `curr_view->curr_dir`. -/
  curr_dir : List Char
  /-- The string `other_view->curr_dir`. -/
  other_dir : List Char
  /-- The directories that `get_paths` returns. -/
  paths : List (List Char)
  /-- The constant `PATH_MAX`. -/
  PATH_MAX : Nat
  /-- The function `command_accepts_expr`. -/
  command_accepts_expr : CmdId → Bool
  /-- The offset `start - args` that `complete_options(args, &start)` leaves. -/
  complete_options_start : (args : List Char) → Nat
  /-- The offset `start - args` that `function_complete_name(arg, &start)` leaves, for
  `arg = args + arg_off`. -/
  function_complete_name_start : (args : List Char) → (arg_off : Nat) → Nat
  /-- The offset `start - args` that `complete_variables(str, &start)` leaves, for
  `str = args + str_off` and `start = args + start_off` before the call. -/
  complete_variables_start : (args : List Char) → (str_off start_off : Nat) → Nat
  /-- The flag `cfg.use_vim_help`. -/
  use_vim_help : Bool
  /-- The array `tags`. -/
  tags : List (List Char)
  /-- The names `pw_name` that the `getpwent` calls return. -/
  users : List (List Char)
  /-- The commands of the records of `ft_get_all_programs(typed_fname)`. -/
  ft_programs : List (List Char)
  /-- The commands of the records of `get_magic_handlers(typed_fname)`. -/
  magic_handlers : List (List Char)
  /-- The name that `extract_cmd_name(command, 1, sizeof(command), command)` stores. -/
  extract_cmd_name : List Char → List Char
  /-- The function `escape_chars(command, "|")`. -/
  escape_chars : List Char → List Char
  /-- The array `HI_GROUPS`. -/
  HI_GROUPS : List (List Char)
  /-- The array `XTERM256_COLOR_NAMES`. -/
  XTERM256_COLOR_NAMES : List (List Char)
  /-- The array `LIGHT_COLOR_NAMES`. -/
  LIGHT_COLOR_NAMES : List (List Char)
  /-- The array `environ`. -/
  environ : List (List Char)
  /-- The function `expand_squotes_escaping`, as a function of the string. -/
  expand_squotes_escaping : List Char → List Char
  /-- The function `expand_dquotes_escaping`, as a function of the string. -/
  expand_dquotes_escaping : List Char → List Char

/-! ### Library functions -/

/-- The C library function `tolower` in the C locale. -/
def tolower (c : Char) : Char := c.toLower

/-- The test `strncasecmp(a, b, n) == 0`. -/
def strncasecmpEq : List Char → List Char → Nat → Bool
  | _, _, 0 => true
  | a, b, n + 1 =>
    if tolower (peek a 0) ≠ tolower (peek b 0) then false
    else if peek a 0 = NUL then true
    else strncasecmpEq a.tail b.tail n

/-- The test `strstr(haystack, needle) != NULL`. -/
def strstrFound (haystack needle : List Char) : Bool :=
  (cstr haystack).tails.any (fun t => (cstr needle).isPrefixOf t)

/-- Modelled from the spec: `after_last` of `utils/str.h` is not part of the sources at
hand; it is taken to return the pointer just after the last occurrence of the character
in the string, or the string itself when the character does not occur.  The result is
the offset of that pointer. -/
def after_last (str : List Char) (c : Char) : Nat :=
  match strrchr str c with
  | some i => i + 1
  | none => 0

/-- Modelled from the spec: `ends_with` of `utils/str.h` is not part of the sources at
hand; it is taken to tell whether the string `str` ends with the string `suf`. -/
def ends_with (str suf : List Char) : Bool := (cstr suf).reverse.isPrefixOf (cstr str).reverse

/-- The comparison `p > q` of two pointers into the same string, each given as an
offset or `none` for `NULL`: a pointer that is not `NULL` is greater than `NULL`. -/
def ptrGt : Option Nat → Option Nat → Bool
  | some x, some y => decide (y < x)
  | some _, none => true
  | none, _ => false

/-- The function `is_root_dir(path)` of the non-Windows build. -/
def is_root_dir (path : List Char) : Bool := peek path 0 = '/' ∧ peek path 1 = NUL

/-! ### The walk of a directory -/

/-- One iteration of the loop of `filename_completion_internal` for the entry `d`: `none`
when the iteration ends in `continue`, otherwise the string passed to
`vle_compl_add_path_match`. -/
def entryMatch (filename : List Char) (type : CompletionType) (d : Dirent) :
    Option (List Char) :=
  if peek filename 0 = NUL ∧ peek d.d_name 0 = '.' then none
  else if strnoscmpEq d.d_name filename (cstrlen filename) = false then none
  else if type = CompletionType.CT_DIRONLY ∧ d.targets_dir = false then none
  else if type = CompletionType.CT_EXECONLY ∧ is_dirent_targets_exec d = false then none
  else if type = CompletionType.CT_DIREXEC ∧ d.targets_dir = false ∧
      is_dirent_targets_exec d = false then none
  else if d.targets_dir = true ∧ type ≠ CompletionType.CT_ALL_WOS then
    some (snprintf_s (cstrlen d.d_name + 1 + 1) (cstr d.d_name ++ ['/']))
  else some (cstr d.d_name)

/-- The loop of `filename_completion_internal` over the entries that `os_readdir` still
has to return. -/
def walkLoop (filename : List Char) (type : CompletionType) : List Dirent → World → World
  | [], w => w
  | d :: rest, w =>
    match entryMatch filename type d with
    | none => walkLoop filename type rest w
    | some m => walkLoop filename type rest (w.call (Call.add_path_match m))

/-- The function `filename_completion_internal(dir, dirname, filename, type)`; `dir` is
given by the entries that `os_readdir` returns. -/
def filename_completion_internal (dir : List Dirent) (filename : List Char)
    (type : CompletionType) (w : World) : World :=
  let w1 := (walkLoop filename type dir w).call Call.finish_group
  if type ≠ CompletionType.CT_EXECONLY then
    w1.call (Call.add_last_path_match (cstr filename))
  else w1

/-- What `filename_completion` holds after the expansions and the split at the last
`'/'`: the strings `dirname` and `filename`, and the block that `filename` points to. -/
structure SplitDirFile where
  /-- The string `dirname`. -/
  dirname : List Char
  /-- The characters that the block of `filename` is given, up to the NUL. -/
  filename : List Char
  /-- The number of bytes of the block of `filename`: it is allocated by
  `strdup(dirname)` before the environment variables are expanded, so it has
  `strlen(expand_tilde(str)) + 1` bytes. -/
  filename_size : Nat
  /-- The number of bytes, the NUL included, that the last copy into the block of
  `filename` stores: `strcpy(filename, ++temp)` when it is called, `strdup` otherwise.
  The block is overrun when this is more than `filename_size`. -/
  filename_stored : Nat
  deriving DecidableEq, Repr

/-- The split of `filename_completion`: `dirname = expand_tilde(str)`,
`filename = strdup(dirname)`, `dirname = cmds_expand_envvars(dirname)`, and then either
`strcpy(filename, ++temp); *temp = '\0';` for the last `'/'` of `dirname`, or
`dirname = "."`.  The `strcpy` is not bounded by the size of the block: the characters
it stores are recorded here together with the size of the block. -/
def splitDirFile (env : CompEnv) (str : List Char) (type : CompletionType) : SplitDirFile :=
  let dirname0 := expand_tilde env.tilde str
  let filename0 := dirname0
  let size := cstrlen dirname0 + 1
  let dirname1 := env.expand_envvars dirname0
  match strrchr dirname1 '/' with
  | some i =>
    if type ≠ CompletionType.CT_FILE ∧ type ≠ CompletionType.CT_FILE_WOE then
      { dirname := cstr (dirname1.set (i + 1) NUL)
        filename := cstr (dirname1.drop (i + 1))
        filename_size := size
        filename_stored := cstrlen (dirname1.drop (i + 1)) + 1 }
    else
      { dirname := ['.'], filename := cstr filename0, filename_size := size,
        filename_stored := size }
  | none =>
    { dirname := ['.'], filename := cstr filename0, filename_size := size,
      filename_stored := size }

/-- The function `filename_completion(str, type)` of the non-Windows build.  When the
`strcpy` of the split overruns the block of `filename`, the behaviour of the C code is
not defined; the embedding then goes on with the characters that were stored. -/
def filename_completion (env : CompEnv) (str : List Char) (type : CompletionType)
    (w : World) : World :=
  if peek str 0 = '~' ∧ strchr str '/' = none then
    w.call (Call.add_path_match (expand_tilde env.tilde str))
  else
    let df := splitDirFile env str type
    let w1 := w.call (Call.opendir df.dirname)
    match env.opendir w.cwd df.dirname with
    | none => w1.call (Call.add_path_match df.filename)
    | some dir =>
      let w2 := w1.call (Call.chdir df.dirname)
      match env.chdir w.cwd df.dirname with
      | none => (w2.call (Call.add_path_match df.filename)).call Call.closedir
      | some cwd1 =>
        let w3 := filename_completion_internal dir df.filename type { w2 with cwd := cwd1 }
        let w4 := w3.call (Call.chdir env.curr_dir)
        let w5 : World :=
          match env.chdir w4.cwd env.curr_dir with
          | none => w4
          | some cwd2 => { w4 with cwd := cwd2 }
        w5.call Call.closedir

/-- The function `filename_completion_in_dir(path, str, type)`. -/
def filename_completion_in_dir (env : CompEnv) (path str : List Char)
    (type : CompletionType) (w : World) : World :=
  let buf :=
    if is_root_dir str then snprintf_s env.PATH_MAX str
    else snprintf_s_slash_s env.PATH_MAX path str
  filename_completion env buf type w

/-- The loop of `complete_command_name` over the directories not yet visited. -/
def commandNameLoop (env : CompEnv) (beginning : List Char) : List (List Char) → World → World
  | [], w => w
  | p :: rest, w =>
    let w1 := w.call (Call.chdir p)
    match env.chdir w.cwd p with
    | none => commandNameLoop env beginning rest w1
    | some cwd1 =>
      commandNameLoop env beginning rest
        (filename_completion env beginning CompletionType.CT_EXECONLY { w1 with cwd := cwd1 })

/-- The function `complete_command_name(beginning)`. -/
def complete_command_name (env : CompEnv) (beginning : List Char) (w : World) : World :=
  (commandNameLoop env beginning env.paths w).call
    (Call.add_last_path_match (cstr beginning))

/-! ### The completers of keywords and names -/

/-- A loop that passes to `vle_compl_add_match` every item of a list that passes a
test. -/
def addMatching (test : List Char → Bool) : List (List Char) → World → World
  | [], w => w
  | x :: rest, w =>
    if test x then addMatching test rest (w.call (Call.add_match (cstr x)))
    else addMatching test rest w

/-- The two calls that end most completers: `vle_compl_finish_group()` and
`vle_compl_add_last_match(str)`. -/
def finishWith (str : List Char) (w : World) : World :=
  (w.call Call.finish_group).call (Call.add_last_match (cstr str))

/-- The function `complete_from_string_list(str, list, list_len)`. -/
def complete_from_string_list (str : List Char) (list : List (List Char)) (w : World) :
    World :=
  finishWith str (addMatching (fun item => strncmpEq str item (cstrlen str)) list w)

/-- The function `complete_history(str)`. -/
def complete_history (str : List Char) (w : World) : World :=
  complete_from_string_list str
    [".".toList, "dir".toList, "@".toList, "input".toList, "/".toList, "search".toList,
      "fsearch".toList, "?".toList, "bsearch".toList, ":".toList, "cmd".toList,
      "=".toList, "filter".toList] w

/-- The function `complete_invert(str)`. -/
def complete_invert (str : List Char) (w : World) : World :=
  complete_from_string_list str ["f".toList, "s".toList, "o".toList] w

/-- The function `complete_help(str)`. -/
def complete_help (env : CompEnv) (str : List Char) (w : World) : World :=
  if env.use_vim_help = false then w
  else finishWith str (addMatching (fun tag => strstrFound tag str) env.tags w)

/-- The function `complete_user_name(str)`. -/
def complete_user_name (env : CompEnv) (str : List Char) (w : World) : World :=
  finishWith str (addMatching (fun name => strncmpEq name str (cstrlen str)) env.users w)

/-- The function `complete_chown(str)` of the non-Windows build: the state after the
call and the value returned. -/
def complete_chown (env : CompEnv) (str : List Char) (w : World) : World × Nat :=
  match strchr str ':' with
  | none => (complete_user_name env str w, 0)
  | some colon => (complete_user_name env (str.drop (colon + 1)) w, colon + 1)

/-- The loop of `complete_progs(str, records)` over the commands of the records. -/
def complete_progs (env : CompEnv) (str : List Char) : List (List Char) → World → World
  | [], w => w
  | rec :: rest, w =>
    let command := env.extract_cmd_name rec
    if strnoscmpEq command str (cstrlen str) then
      complete_progs env str rest (w.call (Call.add_match (cstr (env.escape_chars command))))
    else complete_progs env str rest w

/-- The function `complete_filetype(str)`. -/
def complete_filetype (env : CompEnv) (str : List Char) (w : World) : World :=
  finishWith str
    (complete_progs env str env.magic_handlers (complete_progs env str env.ft_programs w))

/-- The function `complete_highlight_groups(str)`. -/
def complete_highlight_groups (env : CompEnv) (str : List Char) (w : World) : World :=
  finishWith str
    (addMatching (fun g => strncasecmpEq str g (cstrlen str)) env.HI_GROUPS w)

/-- The array `STYLES` of `complete_highlight_arg`. -/
def STYLES : List (List Char) :=
  ["bold".toList, "underline".toList, "reverse".toList, "inverse".toList,
    "standout".toList, "none".toList]

/-- The function `complete_highlight_arg(str)`: the state after the call and the value
returned. -/
def complete_highlight_arg (env : CompEnv) (str : List Char) (w : World) : World × Nat :=
  match strchr str '=' with
  | none =>
    let len := cstrlen str
    let w1 := addMatching (fun a => strncmpEq str a len)
      ["cterm".toList, "ctermfg".toList, "ctermbg".toList] w
    (finishWith str w1, 0)
  | some e =>
    let result := e + 1
    let equal := str.drop (e + 1)
    let len := cstrlen equal
    if strncmpEq str "cterm".toList (e + 1 - 1) then
      let rc : Nat × List Char :=
        match strrchr equal ',' with
        | some comma => (result + (comma + 1), equal.drop (comma + 1))
        | none => (result, equal)
      let w1 := addMatching (fun st => strncasecmpEq rc.2 st (cstrlen rc.2)) STYLES w
      (finishWith rc.2 w1, rc.1)
    else
      let w1 := addMatching (fun c => strncasecmpEq equal c len) ["default".toList] w
      let w2 := addMatching (fun c => strncasecmpEq equal c len) ["none".toList] w1
      let w3 := addMatching (fun c => strncasecmpEq equal c len) env.XTERM256_COLOR_NAMES w2
      let w4 := addMatching (fun c => strncasecmpEq equal c len) env.LIGHT_COLOR_NAMES w3
      (finishWith equal w4, result)

/-- The loop of `complete_envvar(str)` over the entries of `environ` not yet seen. -/
def envvarLoop (str : List Char) : List (List Char) → World → World
  | [], w => w
  | p :: rest, w =>
    if strncmpEq p str (cstrlen str) then
      match strchr p '=' with
      | some equal => envvarLoop str rest (w.call (Call.add_match (cstr (p.set equal NUL))))
      | none => envvarLoop str rest w
    else envvarLoop str rest w

/-- The function `complete_envvar(str)`. -/
def complete_envvar (env : CompEnv) (str : List Char) (w : World) : World :=
  finishWith str (envvarLoop str env.environ w)

/-- The function `complete_winrun(str)`. -/
def complete_winrun (str : List Char) (w : World) : World :=
  finishWith str
    (addMatching (fun v => strncmpEq str v (cstrlen str))
      ["^".toList, "$".toList, "%".toList, ".".toList, ",".toList] w)

/-- The function `complete_colorscheme(str, arg_num)`. -/
def complete_colorscheme (env : CompEnv) (str : List Char) (arg_num : Nat) (w : World) :
    World :=
  if arg_num = 0 then w.call (Call.complete_colorschemes (cstr str))
  else if arg_num = 1 then filename_completion env str CompletionType.CT_DIRONLY w
  else w

/-- The function `cmd_ends_with_space(cmd)`. -/
def cmd_ends_with_space : List Char → Bool
  | [] => false
  | [c] => c = ' '
  | c :: d :: r =>
    if c = NUL then false
    else if d = NUL then c = ' '
    else if c = BACKSLASH then cmd_ends_with_space r
    else cmd_ends_with_space (d :: r)

/-! ### `complete_args` -/

/-- The last branch of `complete_args` after the test for a closing quote: the
pre-processing of the argument and the completion of file names that the command asks
for.  `arg0` is `arg` and `start0` the offset `start - args` before the `switch`,
`slash` the offset of the last `'/'`. -/
def completeGeneric (env : CompEnv) (id : CmdId) (args : List Char) (argc : Nat)
    (arg_pos : Nat) (extra_arg : CompletionPreProcessing) (slash : Option Nat)
    (arg0 : List Char) (arg_num start0 : Nat) (w : World) : World × Nat :=
  let quoted_start : Nat :=
    match slash with
    | none => arg_pos + 1
    | some s => s + 1
  let as : List Char × Nat :=
    match extra_arg with
    | CompletionPreProcessing.CPP_NONE => (arg0, start0)
    | CompletionPreProcessing.CPP_SQUOTES_UNESCAPE =>
      (env.expand_squotes_escaping (cstr (args.drop (arg_pos + 1))), quoted_start)
    | CompletionPreProcessing.CPP_DQUOTES_UNESCAPE =>
      (env.expand_dquotes_escaping (cstr (args.drop (arg_pos + 1))), quoted_start)
  let arg := as.1
  let w1 : World :=
    if id = CmdId.COM_COLORSCHEME then complete_colorscheme env arg arg_num w
    else if id = CmdId.COM_CD ∨ id = CmdId.COM_PUSHD ∨ id = CmdId.COM_SYNC ∨
        id = CmdId.COM_MKDIR then
      filename_completion env arg CompletionType.CT_DIRONLY w
    else if id = CmdId.COM_COPY ∨ id = CmdId.COM_MOVE ∨ id = CmdId.COM_ALINK ∨
        id = CmdId.COM_RLINK then
      filename_completion_in_dir env env.other_dir arg CompletionType.CT_ALL w
    else if id = CmdId.COM_SPLIT ∨ id = CmdId.COM_VSPLIT then
      filename_completion_in_dir env env.curr_dir arg CompletionType.CT_DIRONLY w
    else if id = CmdId.COM_FIND then
      if argc = 1 ∧ cmd_ends_with_space args = false then
        filename_completion env arg CompletionType.CT_DIRONLY w
      else w
    else if id = CmdId.COM_EXECUTE then
      if argc = 0 ∨ (argc = 1 ∧ cmd_ends_with_space args = false) then
        if peek arg 0 = '.' then filename_completion env arg CompletionType.CT_DIREXEC w
        else complete_command_name env arg w
      else filename_completion env arg CompletionType.CT_ALL w
    else if id = CmdId.COM_TOUCH ∨ id = CmdId.COM_RENAME then
      filename_completion env arg CompletionType.CT_ALL_WOS w
    else filename_completion env arg CompletionType.CT_ALL w
  (w1, as.2)

/-- The function `complete_args(id, args, argc, argv, arg_pos, extra_arg)`: the state
after the call and the value returned, the offset `start - args`.  Pointers into `args`
are offsets; `argv` is expected to hold `argc` strings. -/
def complete_args (env : CompEnv) (id : CmdId) (args : List Char) (argc : Nat)
    (argv : List (List Char)) (arg_pos : Nat) (extra_arg : CompletionPreProcessing)
    (w : World) : World × Nat :=
  let arg_off := after_last args ' '
  let arg := args.drop arg_off
  let slash : Option Nat := (strrchr (args.drop arg_pos) '/').map (fun i => arg_pos + i)
  let dollar : Option Nat := (strrchr arg '$').map (fun i => arg_off + i)
  let ampersand : Option Nat := (strrchr arg '&').map (fun i => arg_off + i)
  if id = CmdId.COM_SET then
    (w.call (Call.complete_options (cstr args)), env.complete_options_start args)
  else if env.command_accepts_expr id = true then
    if ptrGt ampersand dollar = true then
      (w.call (Call.complete_real_option_names (cstr (args.drop (ampersand.getD 0 + 1)))),
        ampersand.getD 0 + 1)
    else if dollar = none then
      (w.call (Call.function_complete_name (cstr arg)),
        env.function_complete_name_start args arg_off)
    else
      let var_off := if ptrGt dollar (some arg_off) = true then dollar.getD 0 else arg_off
      (w.call (Call.complete_variables (cstr (args.drop var_off))),
        env.complete_variables_start args var_off arg_off)
  else if id = CmdId.COM_UNLET then
    (w.call (Call.complete_variables (cstr arg)),
      env.complete_variables_start args arg_off arg_off)
  else if id = CmdId.COM_HELP then (complete_help env args w, arg_off)
  else if id = CmdId.COM_HISTORY then (complete_history args w, 0)
  else if id = CmdId.COM_INVERT then (complete_invert args w, 0)
  else if id = CmdId.COM_CHOWN then
    ((complete_chown env args w).1, arg_off + (complete_chown env args w).2)
  else if id = CmdId.COM_FILE then (complete_filetype env args w, arg_off)
  else if id = CmdId.COM_HIGHLIGHT then
    if argc = 0 ∨ (argc = 1 ∧ cmd_ends_with_space args = false) then
      (complete_highlight_groups env args w, arg_off)
    else
      ((complete_highlight_arg env arg w).1, arg_off + (complete_highlight_arg env arg w).2)
  else if (id = CmdId.COM_CD ∨ id = CmdId.COM_PUSHD ∨ id = CmdId.COM_EXECUTE ∨
      id = CmdId.COM_SOURCE) ∧ dollar ≠ none ∧ ptrGt dollar slash = true then
    (complete_envvar env (args.drop (dollar.getD 0 + 1)) w, dollar.getD 0 + 1)
  else if id = CmdId.COM_WINDO then (w, arg_off)
  else if id = CmdId.COM_WINRUN then
    (if argc = 0 then complete_winrun args w else w, arg_off)
  else
    let start0 : Nat :=
      match slash with
      | none => arg_pos
      | some s => s + 1
    if 0 < argc ∧ cmd_ends_with_space args = false then
      if ends_with args [DQUOTE] = true then (w, start0)
      else if ends_with args [APOSTROPHE] = true then (w, start0)
      else
        completeGeneric env id args argc arg_pos extra_arg slash (argv.getD (argc - 1) [])
          (argc - 1) start0 w
    else completeGeneric env id args argc arg_pos extra_arg slash arg argc start0 w

/-- Whether `complete_args` takes its last branch, the one that completes file names:
none of the conditions of the branches before it holds. -/
def takesLastBranch (env : CompEnv) (id : CmdId) (args : List Char) (arg_pos : Nat) : Bool :=
  let arg_off := after_last args ' '
  let slash : Option Nat := (strrchr (args.drop arg_pos) '/').map (fun i => arg_pos + i)
  let dollar : Option Nat := (strrchr (args.drop arg_off) '$').map (fun i => arg_off + i)
  decide (id ≠ CmdId.COM_SET) && !env.command_accepts_expr id &&
    decide (id ≠ CmdId.COM_UNLET) && decide (id ≠ CmdId.COM_HELP) &&
    decide (id ≠ CmdId.COM_HISTORY) && decide (id ≠ CmdId.COM_INVERT) &&
    decide (id ≠ CmdId.COM_CHOWN) && decide (id ≠ CmdId.COM_FILE) &&
    decide (id ≠ CmdId.COM_HIGHLIGHT) &&
    !(decide (id = CmdId.COM_CD ∨ id = CmdId.COM_PUSHD ∨ id = CmdId.COM_EXECUTE ∨
        id = CmdId.COM_SOURCE) && decide (dollar ≠ none) && ptrGt dollar slash) &&
    decide (id ≠ CmdId.COM_WINDO) && decide (id ≠ CmdId.COM_WINRUN)

/-! ### Surroundings of the examples -/

/-- A directory entry that is a directory. -/
def direntDir (name : List Char) : Dirent :=
  { d_name := name, d_type := DType.DT_DIR, targets_dir := true, symlink_known := false,
    access_x := true }

/-- A directory entry that is a plain file without the permission to execute. -/
def direntFile (name : List Char) : Dirent :=
  { d_name := name, d_type := DType.DT_OTHER, targets_dir := false, symlink_known := false,
    access_x := false }

/-- A directory entry that is an executable file. -/
def direntExec (name : List Char) : Dirent :=
  { d_name := name, d_type := DType.DT_OTHER, targets_dir := false, symlink_known := false,
    access_x := true }

/-- The fixture directory of the spec: the directories `src`, `srv` and `bin`. -/
def fixtureDir : List Dirent :=
  [direntDir "src".toList, direntDir "srv".toList, direntDir "bin".toList]

/-- A directory with hidden and plain entries of every kind. -/
def mixedDir : List Dirent :=
  [direntDir ".git".toList, direntFile ".bashrc".toList, direntDir "src".toList,
    direntFile "notes".toList, direntExec "run".toList]

/-- A file system for the examples.  The directories `.`, `proj/`, `/usr/bin` and
`/home/u` exist; `locked/` can be opened but not entered; nothing else exists.  The
view shows `/home/u`. -/
def compEnvExample : CompEnv :=
  { tilde := tildeEnvBob
    expand_envvars := fun s => s
    opendir := fun _ dirname =>
      if dirname = ".".toList ∨ dirname = "proj/".toList then some fixtureDir
      else if dirname = "locked/".toList then some mixedDir
      else none
    chdir := fun cwd dirname =>
      if dirname = ".".toList then some cwd
      else if dirname = "proj/".toList then some (cwd ++ "/proj".toList)
      else if dirname = "/usr/bin".toList ∨ dirname = "/home/u".toList then some dirname
      else none
    curr_dir := "/home/u".toList
    other_dir := "/home/u".toList
    paths := ["/usr/bin".toList]
    PATH_MAX := 4096
    command_accepts_expr := fun id => decide (id = CmdId.other 0)
    complete_options_start := fun _ => 0
    function_complete_name_start := fun _ arg_off => arg_off
    complete_variables_start := fun _ str_off _ => str_off
    use_vim_help := false
    tags := []
    users := ["root".toList, "bob".toList]
    ft_programs := []
    magic_handlers := []
    extract_cmd_name := fun s => s
    escape_chars := fun s => s
    HI_GROUPS := ["Win".toList, "Border".toList]
    XTERM256_COLOR_NAMES := ["black".toList, "red".toList, "green".toList, "blue".toList]
    LIGHT_COLOR_NAMES := ["lightblack".toList, "lightred".toList]
    environ := ["HOME=/home/u".toList]
    expand_squotes_escaping := fun s => s
    expand_dquotes_escaping := fun s => s }

/-- The state before a completion in the examples: no call made yet, the working
directory is that of the view. -/
def worldHome : World := { calls := [], cwd := "/home/u".toList }

/-- The state in which `complete_command_name` calls `filename_completion`: the working
directory is a directory of the search list. -/
def worldBin : World := { calls := [], cwd := "/usr/bin".toList }

/-- The file system of the examples when the directory that the view shows,
`/home/u/old`, has been removed and can no longer be entered; `/usr/` can be opened and
entered, nothing else can. -/
def compEnvGone : CompEnv :=
  { compEnvExample with
    curr_dir := "/home/u/old".toList
    opendir := fun _ dirname => if dirname = "/usr/".toList then some fixtureDir else none
    chdir := fun _ dirname => if dirname = "/usr/".toList then some "/usr".toList else none }

/-- The state before a completion while the view shows the removed directory: no call
made yet, the working directory is still that of the view. -/
def worldGone : World := { calls := [], cwd := "/home/u/old".toList }

/-! ## More functions of `path.c` -/

/-- The iterations of the `for` loop of `escape_filename`, in order: for each one the
character `*string` that the `switch` looks at and the bytes stored before the iteration
(`dup == ret` is an empty list of bytes).  The arguments are those of `escapeLoop`. -/
def escapeLoopTrace (quote_percent : Bool) : Nat → List Char → List Char →
    List (Char × List Char)
  | 0, _, _ => []
  | n + 1, string, out =>
    let c := peek string 0
    let out1 :=
      if c = '%' then (if quote_percent then out ++ ['%'] else out)
      else if isShellMeta c then out ++ [BACKSLASH]
      else if c = '~' then (if out = [] then out ++ [BACKSLASH] else out)
      else out
    (c, out) :: escapeLoopTrace quote_percent n string.tail (out1 ++ [c])

/-- The iterations of the loop in the call `escape_filename(string, quote_percent)`. -/
def escape_filename_trace (string : List Char) (quote_percent : Bool) :
    List (Char × List Char) :=
  let len := cstrlen string
  let start : List Char × List Char :=
    if peek string 0 = '-' then (['.', '/'], string)
    else if peek string 0 = '~' then ([peek string 0], string.tail)
    else ([], string)
  escapeLoopTrace quote_percent len start.2 start.1

/-- The function `path_starts_with(path, begin)`. -/
def path_starts_with (path begin : List Char) : Bool :=
  let len := cstrlen begin
  let len := if 0 < len ∧ peek begin (len - 1) = '/' then len - 1 else len
  if strnoscmpEq path begin len = false then false
  else peek path len = NUL || peek path len = '/'

/-- The function `paths_are_equal(s, t)`.  The arrays `s_can` and `t_can` have
`strlen + 8` bytes, in `size_t` arithmetic; `ms` and `mt` are the memory of the two
arrays, and the byte before each of them, as the function finds them. -/
def paths_are_equal (s t : List Char) (ms mt : Mem) : Bool :=
  let s_can := canonicalize_path s ms ((cstrlen s + 8) % SIZE_MOD)
  let t_can := canonicalize_path t mt ((cstrlen t + 8) % SIZE_MOD)
  stroscmpEq s_can t_can

/-- The loop `while(slash > path && slash[0] == '/') slash--;` of
`get_last_path_component`, on the offset of `slash`. -/
def skipSlashesBack (path : List Char) : Nat → Nat
  | 0 => 0
  | s + 1 => if peek path (s + 1) = '/' then skipSlashesBack path s else s + 1

/-- The loop `while(slash > path + 1 && slash[-1] != '/') slash--;` of
`get_last_path_component`, on the offset of `slash`. -/
def backToComponent (path : List Char) : Nat → Nat
  | 0 => 0
  | s + 1 => if 1 < s + 1 ∧ peek path s ≠ '/' then backToComponent path s else s + 1

/-- The function `get_last_path_component(path)`: the offset in `path` of the pointer
returned. -/
def get_last_path_component (path : List Char) : Nat :=
  match strrchr path '/' with
  | none => 0
  | some slash =>
    if peek path (slash + 1) = NUL then
      backToComponent path (skipSlashesBack path slash)
    else slash + 1

/-- The function `replace_home_part(directory)`: the string it leaves in its static
buffer of `PATH_MAX` bytes, which holds `old` before the call.  In
`strncat(strcpy(buf, "~"), directory + len, sizeof(buf) - strlen(buf) - 1)` the two
arguments that touch `buf` are evaluated in an order that the language leaves open:
`strlen_first` tells whether `strlen(buf)` is evaluated before `strcpy(buf, "~")`, and so
on the string `old`, or after it, on the string `"~"`.  `strncat` then appends at most
`sizeof(buf) - strlen(buf) - 1` characters, in `size_t` arithmetic, to the string `"~"`,
without regard to the size of the buffer.  `strnoscmp` is taken to be `strncmp`. -/
def replace_home_part (env : TildeEnv) (PATH_MAX : Nat) (strlen_first : Bool)
    (directory old : List Char) : List Char :=
  let len := (cstrlen env.home_dir + SIZE_MOD - 1) % SIZE_MOD
  let buf :=
    if strnoscmpEq directory env.home_dir len = true ∧
        (peek directory len = NUL ∨ peek directory len = '/') then
      let strlen_buf := if strlen_first then cstrlen old else 1
      '~' :: (cstr (directory.drop len)).take
        ((PATH_MAX + 2 * SIZE_MOD - strlen_buf % SIZE_MOD - 1) % SIZE_MOD)
    else copy_str old PATH_MAX directory
  if is_root_dir buf = false then chospStr buf else buf

/-! ## More functions of `commands_completion.c` -/

/-- The indices of the characters that `cmd_ends_with_space` reads, in order, when it is
called with a pointer to the offset `pos` of a string whose characters from there on are
the list: `cmd[0]` and, when that is not NUL, `cmd[1]` in the test of the loop, and
`cmd[0]` in the `return` statement. -/
def cmdEndsReads : List Char → Nat → List Nat
  | [], pos => [pos, pos]
  | [c], pos => if c = NUL then [pos, pos] else [pos, pos + 1, pos]
  | c :: d :: r, pos =>
    if c = NUL then [pos, pos]
    else if d = NUL then [pos, pos + 1, pos]
    else if c = BACKSLASH then pos :: (pos + 1) :: cmdEndsReads r (pos + 2)
    else pos :: (pos + 1) :: cmdEndsReads (d :: r) (pos + 1)

/-- The function `complete_group_name(str)`; `groups` are the names `gr_name` that the
`getgrent` calls return. -/
def complete_group_name (groups : List (List Char)) (str : List Char) (w : World) : World :=
  finishWith str (addMatching (fun name => strncmpEq name str (cstrlen str)) groups w)

/-- The groups of the examples. -/
def groupsExample : List (List Char) := ["wheel".toList, "users".toList]

/-! ### The match session and `fast_run_complete` -/

/-- The file system of the examples when no directory can be read: every directory can
be entered, as in `compEnvExample`, and none can be opened. -/
def compEnvUnreadable : CompEnv :=
  { compEnvExample with opendir := fun _ _ => none }

theorem readN_succ (s : List Char) (n : Nat) :
    readN s (n + 1) = peek s 0 :: readN s.tail n := by
  unfold readN
  rw [List.range_succ_eq_map, List.map_cons, List.map_map]
  congr 1
  apply List.map_congr_left
  intro i _
  cases s <;> simp [peek, List.getD]

theorem readN_cstrlen (s : List Char) : readN s (cstrlen s) = cstr s := by
  induction s with
  | nil => simp [readN, cstrlen, cstr]
  | cons c t ih =>
    by_cases hc : c = NUL
    · simp [readN, cstrlen, cstr, hc]
    · have h1 : cstrlen (c :: t) = cstrlen t + 1 := by simp [cstrlen, hc]
      have h2 : cstr (c :: t) = c :: cstr t := by simp [cstr, hc]
      rw [h1, readN_succ, h2]
      simp [peek, ih]

theorem peek_cstrlen (s : List Char) : peek s (cstrlen s) = NUL := by
  induction s with
  | nil => simp [peek, cstrlen]
  | cons c t ih =>
    by_cases hc : c = NUL
    · simp [peek, cstrlen, hc]
    · have h1 : cstrlen (c :: t) = cstrlen t + 1 := by simp [cstrlen, hc]
      rw [h1]
      simpa [peek] using ih

theorem readN_add_one (s : List Char) (n : Nat) :
    readN s (n + 1) = readN s n ++ [peek s n] := by
  simp [readN, List.range_succ]

theorem escapeLoop_eq (qp : Bool) (n : Nat) :
    ∀ (s out : List Char), (out ≠ [] ∨ peek s 0 ≠ '~') →
      escapeLoop qp n s out = out ++ escapedForm qp (readN s n) := by
  induction n with
  | zero => intro s out _; simp [escapeLoop, readN, escapedForm]
  | succ n ih =>
    intro s out h
    rw [escapeLoop, readN_succ]
    rw [ih _ _ (Or.inl (by simp))]
    simp only [escapedForm, List.flatMap_cons, escChar]
    by_cases h1 : peek s 0 = '%'
    · cases qp <;> simp [h1]
    · by_cases h2 : isShellMeta (peek s 0) = true
      · simp [h1, h2]
      · by_cases h3 : peek s 0 = '~'
        · have hm : isShellMeta '~' = false := by decide
          have hp : ('~' : Char) ≠ '%' := by decide
          rcases h with h | h
          · simp [h3, hm, hp, h]
          · exact absurd h3 h
        · simp [h1, h2, h3]

theorem escChar_no_nul (qp : Bool) (c : Char) (hc : c ≠ NUL) : ∀ x ∈ escChar qp c, x ≠ NUL := by
  intro x hx
  unfold escChar at hx
  split at hx
  · split at hx
    · simp at hx; subst hx; decide
    · simp at hx; subst hx; decide
  · split at hx
    · simp at hx
      rcases hx with hx | hx
      · subst hx; decide
      · subst hx; exact hc
    · simp at hx; subst hx; exact hc

theorem cstr_no_nul (s : List Char) : ∀ x ∈ cstr s, x ≠ NUL := by
  intro x hx
  have := List.mem_takeWhile_imp hx
  simpa using this

theorem escapedForm_no_nul (qp : Bool) (s : List Char) (hs : ∀ x ∈ s, x ≠ NUL) :
    ∀ x ∈ escapedForm qp s, x ≠ NUL := by
  intro x hx
  simp only [escapedForm, List.mem_flatMap] at hx
  obtain ⟨c, hc, hx⟩ := hx
  exact escChar_no_nul qp c (hs c hc) x hx

theorem takeWhile_append_nul (l r : List Char) (hl : ∀ x ∈ l, x ≠ NUL) :
    (l ++ NUL :: r).takeWhile (fun c => c ≠ NUL) = l := by
  induction l with
  | nil => simp
  | cons a t ih =>
    have ha : a ≠ NUL := hl a (by simp)
    have ht : ∀ x ∈ t, x ≠ NUL := fun x hx => hl x (by simp [hx])
    have h := ih ht
    simpa [List.takeWhile_cons, ha] using h

/-- The general form of the result of `escape_filename`: `"./"` when the text begins
with `'-'`, then the escaped form of the text. -/
theorem escape_filename_eq (text : List Char) (qp : Bool) :
    escape_filename text qp =
      (if peek text 0 = '-' then ['.', '/'] else []) ++ escapedForm qp (cstr text) := by
  unfold escape_filename escape_filename_bytes
  by_cases h1 : peek text 0 = '-'
  · simp only [h1, if_true]
    rw [escapeLoop_eq qp _ _ _ (Or.inl (by simp)), readN_cstrlen]
    rw [List.append_assoc, ← List.append_assoc]
    apply takeWhile_append_nul
    intro x hx
    rcases List.mem_append.1 hx with hx | hx
    · simp at hx; rcases hx with hx | hx <;> subst hx <;> decide
    · exact escapedForm_no_nul qp _ (cstr_no_nul text) x hx
  · by_cases h2 : peek text 0 = '~'
    · have hne1 : ('~' : Char) ≠ '-' := by decide
      have hne2 : ('~' : Char) ≠ NUL := by decide
      simp only [h2, hne1, if_true, if_false]
      rw [escapeLoop_eq qp _ _ _ (Or.inl (by simp))]
      cases text with
      | nil => exact absurd h2 (by decide)
      | cons c t =>
        have hc : c = '~' := by simpa [peek] using h2
        subst hc
        have hlen : cstrlen ('~' :: t) = cstrlen t + 1 := by
          simp [cstrlen, hne2]
        have hcs : cstr ('~' :: t) = '~' :: cstr t := by
          simp [cstr, hne2]
        rw [hlen, List.tail_cons, readN_add_one, readN_cstrlen, peek_cstrlen, hcs]
        have hm1 : isShellMeta NUL = false := by decide
        have hm2 : isShellMeta '~' = false := by decide
        have hp1 : NUL ≠ '%' := by decide
        have hp2 : ('~' : Char) ≠ '%' := by decide
        have e1 : escapedForm qp (cstr t ++ [NUL]) = escapedForm qp (cstr t) ++ [NUL] := by
          simp [escapedForm, escChar, hm1, hp1]
        have e2 : escapedForm qp ('~' :: cstr t) = '~' :: escapedForm qp (cstr t) := by
          simp [escapedForm, escChar, hm2, hp2]
        rw [e1, e2]
        simp only [List.nil_append, List.singleton_append, List.cons_append, List.append_assoc]
        have := takeWhile_append_nul ('~' :: escapedForm qp (cstr t)) [NUL] (by
          intro x hx
          rcases List.mem_cons.1 hx with hx | hx
          · subst hx; decide
          · exact escapedForm_no_nul qp _ (cstr_no_nul t) x hx)
        simpa using this
    · simp only [h1, h2, if_false]
      rw [escapeLoop_eq qp _ _ _ (Or.inr h2), readN_cstrlen]
      simp only [List.nil_append]
      apply takeWhile_append_nul
      exact escapedForm_no_nul qp _ (cstr_no_nul text)

/-- C9: for every text and either value of `quote_percent`, the string returned by
`escape_filename` holds the characters of the text in order, each shell metacharacter
preceded by exactly one inserted backslash and no other character preceded by an
inserted backslash (the only other insertions are the `"./"` put before a leading `'-'`
and the `'%'` put before a `'%'` when `quote_percent` is set); and
`escape_filename("it's a test", 0)` has one backslash before the apostrophe and before
each of the two spaces. -/
theorem escape_filename_backslash_before_meta (text : List Char) (quote_percent : Bool) :
    escape_filename text quote_percent =
        (if peek text 0 = '-' then ['.', '/'] else []) ++
          (cstr text).flatMap (fun c =>
            if c = '%' then (if quote_percent then ['%', '%'] else ['%'])
            else if isShellMeta c then [BACKSLASH, c]
            else [c])
      ∧ (∀ c, isShellMeta c = true ↔ c ∈ [APOSTROPHE, BACKSLASH, '\r', '\n', '\t', DQUOTE,
            ';', ' ', '?', '|', '[', ']', '{', '}', '<', '>', BACKTICK, '!', '$', '&',
            '*', '(', ')', '#'])
      ∧ escape_filename "it's a test".toList false =
          ['i', 't', BACKSLASH, APOSTROPHE, 's', BACKSLASH, ' ', 'a', BACKSLASH, ' ',
            't', 'e', 's', 't'] := by
  refine ⟨escape_filename_eq text quote_percent, ?_, by decide⟩
  intro c
  simp [isShellMeta, or_assoc]

/-- C10: for every text whose first character is `'-'`, `escape_filename` returns `"./"`
followed by the escaped form of the whole text, which still begins with the `'-'`; so
the result begins with `'.'`, never with `'-'`. -/
theorem escape_filename_leading_dash (text : List Char) (quote_percent : Bool)
    (h : peek text 0 = '-') :
    escape_filename text quote_percent = ['.', '/'] ++ escapedForm quote_percent (cstr text)
      ∧ (escapedForm quote_percent (cstr text)).head? = some '-'
      ∧ (escape_filename text quote_percent).head? ≠ some '-' := by
  have heq := escape_filename_eq text quote_percent
  rw [if_pos h] at heq
  refine ⟨heq, ?_, ?_⟩
  · cases text with
    | nil => exact absurd h (by decide)
    | cons c t =>
      have hc : c = '-' := by simpa [peek] using h
      subst hc
      have hn : ('-' : Char) ≠ NUL := by decide
      have hp : ('-' : Char) ≠ '%' := by decide
      have hm : isShellMeta '-' = false := by decide
      simp [cstr, escapedForm, escChar, hn, hp, hm]
  · rw [heq]
    simp

/-- Witness of C10: for the text `-rf` the result of `escape_filename` is the text
preceded by a dot and a slash. -/
theorem escape_filename_leading_dash_witness :
    peek "-rf".toList 0 = '-'
      ∧ escape_filename "-rf".toList false = "./-rf".toList
      ∧ (escape_filename "-rf".toList false =
            ['.', '/'] ++ escapedForm false (cstr "-rf".toList)
          ∧ (escapedForm false (cstr "-rf".toList)).head? = some '-'
          ∧ (escape_filename "-rf".toList false).head? ≠ some '-') :=
  ⟨by decide, by decide, escape_filename_leading_dash "-rf".toList false (by decide)⟩

/-! ## Memory lemmas -/

theorem Mem.prefix_length (m : Mem) (n : Nat) : (m.prefix_ n).length = n := by
  simp [Mem.prefix_]

theorem Mem.prefix_succ (m : Mem) (n : Nat) :
    m.prefix_ (n + 1) = m.prefix_ n ++ [m.cells n] := by
  simp [Mem.prefix_, List.range_succ]

theorem Mem.prefix_congr (m m2 : Mem) (n : Nat) (h : ∀ i, i < n → m2.cells i = m.cells i) :
    m2.prefix_ n = m.prefix_ n := by
  unfold Mem.prefix_
  apply List.map_congr_left
  intro i hi
  exact h i (List.mem_range.1 hi)

theorem Mem.write_cells_ne (m : Mem) (i j : Nat) (c : Char) (h : j ≠ i) :
    (m.write i c).cells j = m.cells j := by
  simp [Mem.write, h]

theorem Mem.write_cells_eq (m : Mem) (i : Nat) (c : Char) :
    (m.write i c).cells i = c := by
  simp [Mem.write]

theorem Mem.write_pre (m : Mem) (i : Nat) (c : Char) : (m.write i c).pre = m.pre := rfl

theorem Mem.prefix_write_ge (m : Mem) (i n : Nat) (c : Char) (h : n ≤ i) :
    (m.write i c).prefix_ n = m.prefix_ n := by
  apply Mem.prefix_congr
  intro j hj
  exact Mem.write_cells_ne m i j c (by omega)

theorem Mem.prefix_write (m : Mem) (n : Nat) (c : Char) :
    (m.write n c).prefix_ (n + 1) = m.prefix_ n ++ [c] := by
  rw [Mem.prefix_succ, Mem.prefix_write_ge m n n c (le_refl n), Mem.write_cells_eq]

theorem Mem.prefix_getElem (m : Mem) (n i : Nat) (h : i < n) :
    (m.prefix_ n)[i]? = some (m.cells i) := by
  simp [Mem.prefix_, h]

theorem Mem.last_eq (m : Mem) (qn : Nat) :
    m.last qn = (m.prefix_ qn).getLast?.getD m.pre := by
  cases qn with
  | zero => simp [Mem.last, Mem.prefix_]
  | succ k => simp [Mem.last, Mem.prefix_succ]

theorem Mem.prev_eq (m : Mem) (qn : Nat) :
    (decide (qn ≠ 0) && decide (m.last qn = '/')) = endsSlash (m.prefix_ qn) := by
  cases qn with
  | zero => simp [endsSlash, Mem.prefix_]
  | succ k => simp [Mem.last, Mem.prefix_succ, endsSlash]

theorem Mem.prefix_pred (m : Mem) (qn : Nat) :
    m.prefix_ (qn - 1) = (m.prefix_ qn).dropLast := by
  cases qn with
  | zero => simp [Mem.prefix_]
  | succ k => simp [Mem.prefix_succ]

theorem backToSlash_le (m : Mem) (k : Nat) : backToSlash m k ≤ k := by
  induction k with
  | zero => simp [backToSlash]
  | succ k ih =>
    unfold backToSlash
    split
    · omega
    · omega

theorem backToSlash_live (m : Mem) (k : Nat) :
    m.prefix_ (backToSlash m k) =
      ((m.prefix_ k).reverse.dropWhile (fun c => c ≠ '/')).reverse := by
  induction k with
  | zero => simp [backToSlash, Mem.prefix_]
  | succ k ih =>
    unfold backToSlash
    by_cases h : m.cells k = '/'
    · simp [h, Mem.prefix_succ, List.dropWhile_cons]
    · simp only [ne_eq, h, not_false_eq_true, if_true]
      rw [ih, Mem.prefix_succ]
      simp [List.dropWhile_cons, h]

theorem backToSlash_pop (m : Mem) (qn : Nat) :
    m.prefix_ (backToSlash m (qn - 1)) = popLast (m.prefix_ qn) := by
  rw [backToSlash_live, Mem.prefix_pred]
  rfl

theorem Mem.cells_mem_live (m : Mem) (n i : Nat) (h : i < n) : m.cells i ∈ m.prefix_ n :=
  List.mem_map.2 ⟨i, List.mem_range.2 h, rfl⟩

/-! ## Items of a path -/

theorem isReg_iff (c : Char) : isReg c = true ↔ c ≠ '/' ∧ c ≠ NUL := by
  simp [isReg]

theorem isReg_false_iff (c : Char) : isReg c = false ↔ c = '/' ∨ c = NUL := by
  by_cases h1 : c = '/' <;> by_cases h2 : c = NUL <;> simp [isReg, h1, h2]

theorem peek_zero_cons (c : Char) (r : List Char) : peek (c :: r) 0 = c := rfl

theorem peek_succ_cons (c : Char) (r : List Char) (i : Nat) :
    peek (c :: r) (i + 1) = peek r i := rfl

theorem peek_nil (i : Nat) : peek [] i = NUL := by
  simp [peek]

theorem cstrlen_nil : cstrlen [] = 0 := rfl

theorem cstrlen_cons (c : Char) (r : List Char) (h : c ≠ NUL) :
    cstrlen (c :: r) = cstrlen r + 1 := by
  simp [cstrlen, h]

theorem cstrlen_cons_nul (r : List Char) : cstrlen (NUL :: r) = 0 := by
  simp [cstrlen]

theorem cstrlen_le_length (p : List Char) : cstrlen p ≤ p.length := by
  unfold cstrlen
  exact (List.takeWhile_sublist _).length_le

theorem peek_dropWhile_isReg (r : List Char) :
    isReg (peek (r.dropWhile isReg) 0) = false := by
  induction r with
  | nil => simp [peek_nil]; decide
  | cons d r ih =>
    by_cases hd : isReg d = true
    · simpa [List.dropWhile_cons, hd] using ih
    · simp only [Bool.not_eq_true] at hd
      simp [List.dropWhile_cons, hd, peek_zero_cons]

theorem items_nul (p : List Char) (h : peek p 0 = NUL) : items p = [] := by
  cases p with
  | nil => rfl
  | cons c r =>
    rw [peek_zero_cons] at h
    simp [items, h]

theorem items_slash (r : List Char) : items ('/' :: r) = Item.slash :: items r := by
  have h : ('/' : Char) ≠ NUL := by decide
  simp [items, h]

theorem items_reg (r : List Char) : ∀ (c : Char), isReg c = true →
    items (c :: r) =
      if peek (r.dropWhile isReg) 0 = '/' then
        Item.compSlash (c :: r.takeWhile isReg) :: items (r.dropWhile isReg).tail
      else [Item.compEnd (c :: r.takeWhile isReg)] := by
  induction r with
  | nil =>
    intro c hc
    obtain ⟨h1, h2⟩ := (isReg_iff c).1 hc
    have h3 : NUL ≠ '/' := by decide
    simp [items, h1, h2, peek_nil, h3]
  | cons d r ih =>
    intro c hc
    obtain ⟨h1, h2⟩ := (isReg_iff c).1 hc
    by_cases hd : isReg d = true
    · have e := ih d hd
      rw [items]
      simp only [h1, h2, if_false]
      rw [e]
      simp only [List.dropWhile_cons, List.takeWhile_cons, hd, if_true]
      by_cases hs : peek (List.dropWhile isReg r) 0 = '/'
      · simp [hs]
      · simp [hs]
    · simp only [Bool.not_eq_true] at hd
      rcases (isReg_false_iff d).1 hd with hd2 | hd2
      · subst hd2
        rw [items]
        simp only [h1, h2, if_false]
        rw [items_slash]
        simp [List.dropWhile_cons, List.takeWhile_cons, hd, peek_zero_cons]
      · subst hd2
        have h3 : NUL ≠ '/' := by decide
        rw [items]
        simp only [h1, h2, if_false]
        rw [items_nul (NUL :: r) rfl]
        simp [List.dropWhile_cons, List.takeWhile_cons, hd, peek_zero_cons, h3]

theorem foldl_items_reg (a : FState) (c : Char) (r : List Char) (hc : isReg c = true) :
    (items (c :: r)).foldl stepItem a =
      (items (r.dropWhile isReg)).foldl stepItem (stepComp a (c :: r.takeWhile isReg)) := by
  rw [items_reg r c hc]
  rcases (isReg_false_iff _).1 (peek_dropWhile_isReg r) with h | h
  · rw [if_pos h]
    cases hr : r.dropWhile isReg with
    | nil => rw [hr, peek_nil] at h; exact absurd h (by decide)
    | cons x t =>
      rw [hr, peek_zero_cons] at h
      subst h
      rw [items_slash]
      simp [stepItem]
  · have h3 : NUL ≠ '/' := by decide
    rw [if_neg (by rw [h]; exact h3), items_nul _ h]
    simp [stepItem]

theorem cstrlen_dropWhile (r : List Char) :
    cstrlen (r.dropWhile isReg) + (r.takeWhile isReg).length = cstrlen r := by
  induction r with
  | nil => simp [cstrlen]
  | cons d r ih =>
    by_cases hd : isReg d = true
    · obtain ⟨_, h2⟩ := (isReg_iff d).1 hd
      rw [cstrlen_cons d r h2]
      simp only [List.dropWhile_cons, List.takeWhile_cons, hd, if_true, List.length_cons]
      omega
    · simp only [Bool.not_eq_true] at hd
      simp [List.dropWhile_cons, List.takeWhile_cons, hd]

theorem length_dropWhile_le (r : List Char) : (r.dropWhile isReg).length ≤ r.length :=
  (List.dropWhile_sublist _).length_le

theorem takeWhile_isReg_no_nul (r : List Char) : ∀ x ∈ r.takeWhile isReg, x ≠ NUL := by
  intro x hx
  have := List.mem_takeWhile_imp hx
  exact ((isReg_iff x).1 this).2

theorem takeWhile_isReg_no_slash (r : List Char) : ∀ x ∈ r.takeWhile isReg, x ≠ '/' := by
  intro x hx
  have := List.mem_takeWhile_imp hx
  exact ((isReg_iff x).1 this).1

/-! ## One iteration of the loop of `canonicalize_path` -/

theorem dotCount_cons_dot (r : List Char) : dotCount ('.' :: r) = 1 + dotCount r := by
  simp [dotCount]

theorem dotCount_cons_ne (c : Char) (r : List Char) (h : c ≠ '.') : dotCount (c :: r) = 0 := by
  simp [dotCount, h]

theorem dotCount_eq_zero_of_peek (r : List Char) (h : peek r 0 ≠ '.') : dotCount r = 0 := by
  cases r with
  | nil => rfl
  | cons d r => exact dotCount_cons_ne d r (by simpa [peek_zero_cons] using h)

theorem dotCount_pos_of_peek (r : List Char) (h : peek r 0 = '.') : 0 < dotCount r := by
  cases r with
  | nil => rw [peek_nil] at h; exact absurd h (by decide)
  | cons d r =>
    rw [peek_zero_cons] at h
    subst h
    rw [dotCount_cons_dot]
    omega

/-- The component that starts a path is `"."` exactly when the path starts with a dot
followed by a separator or by the terminator. -/
theorem comp_eq_dot_iff (c : Char) (r : List Char) :
    c :: r.takeWhile isReg = ['.'] ↔ c = '.' ∧ isReg (peek r 0) = false := by
  cases r with
  | nil =>
    simp [peek_nil]
    intro _
    decide
  | cons d r =>
    by_cases hd : isReg d = true
    · simp [List.takeWhile_cons, hd, peek_zero_cons]
    · simp only [Bool.not_eq_true] at hd
      simp [List.takeWhile_cons, hd, peek_zero_cons]

/-- The component that starts a path is `".."` exactly when `startsWithDotDot` holds. -/
theorem comp_eq_dotdot_iff (c : Char) (r : List Char) :
    c :: r.takeWhile isReg = ['.', '.'] ↔ startsWithDotDot (c :: r) = true := by
  have hd : isReg '.' = true := by decide
  cases r with
  | nil =>
    have h : NUL ≠ '.' := by decide
    simp [startsWithDotDot, peek_zero_cons, peek_succ_cons, peek_nil, h]
  | cons d r =>
    by_cases h1 : d = '.'
    · subst h1
      have e : isReg (peek r 0) = false ↔ (peek r 0 = '/' ∨ peek r 0 = NUL) :=
        isReg_false_iff _
      have e2 := comp_eq_dot_iff '.' r
      simp only [List.takeWhile_cons, hd, if_true, startsWithDotDot, peek_zero_cons,
        peek_succ_cons]
      constructor
      · intro h
        have hc : c = '.' := by
          have := List.cons.inj h
          exact this.1
        have ht : '.' :: r.takeWhile isReg = ['.'] := (List.cons.inj h).2
        have := (e2.1 ht).2
        rcases e.1 this with h3 | h3
        · simp [hc, h3]
        · simp [hc, h3]
      · intro h
        simp only [Bool.or_eq_true, Bool.and_eq_true, decide_eq_true_eq] at h
        have hc : c = '.' := by rcases h with h | h <;> exact h.1.1
        have h3 : isReg (peek r 0) = false := by
          rcases h with h | h
          · exact e.2 (Or.inl h.2)
          · exact e.2 (Or.inr h.2)
        rw [hc, e2.2 ⟨rfl, h3⟩]
    · have : ¬ (c :: (d :: r).takeWhile isReg = ['.', '.']) := by
        by_cases hdr : isReg d = true
        · simp [List.takeWhile_cons, hdr, h1]
        · simp only [Bool.not_eq_true] at hdr
          simp [List.takeWhile_cons, hdr]
      simp only [this, false_iff]
      simp [startsWithDotDot, peek_zero_cons, peek_succ_cons, h1]

theorem skip_dotdir_slash (r : List Char) (fully : Bool) :
    skip_dotdir_if_any ('/' :: r) fully = ('/' :: r, false) := by
  have h : ('/' : Char) ≠ '.' := by decide
  simp [skip_dotdir_if_any, dotCount_cons_ne '/' r h]

theorem skip_dotdir_not_dot (c : Char) (r : List Char) (fully : Bool)
    (h : ¬ (c = '.' ∧ isReg (peek r 0) = false)) :
    skip_dotdir_if_any (c :: r) fully = (c :: r, false) := by
  unfold skip_dotdir_if_any
  by_cases hc : c = '.'
  · subst hc
    have hr : isReg (peek r 0) = true := by
      by_cases hh : isReg (peek r 0) = true
      · exact hh
      · exact absurd ⟨rfl, by simpa using hh⟩ h
    obtain ⟨h1, h2⟩ := (isReg_iff _).1 hr
    rw [dotCount_cons_dot]
    by_cases hp : peek r 0 = '.'
    · have := dotCount_pos_of_peek r hp
      have h3 : ¬ (1 + dotCount r = 1) := by omega
      simp [h3]
    · rw [dotCount_eq_zero_of_peek r hp]
      simp [strchrSlash, peek_succ_cons, h1, h2]
  · simp [dotCount_cons_ne c r hc]

theorem skip_dotdir_dot_false (r : List Char) :
    skip_dotdir_if_any ('.' :: r) false = ('.' :: r, false) := by
  unfold skip_dotdir_if_any
  have h : ('.' : Char) ≠ NUL := by decide
  by_cases hc : (decide (dotCount ('.' :: r) = 1) && strchrSlash (peek ('.' :: r) (dotCount ('.' :: r)))) = true
  · simp only [hc, if_true]
    simp only [Bool.and_eq_true, decide_eq_true_eq] at hc
    simp [hc.1, peek_zero_cons, h]
  · simp only [hc]
    simp

theorem skip_dotdir_dot_true (r : List Char) (h : isReg (peek r 0) = false) :
    skip_dotdir_if_any ('.' :: r) true =
      (if peek r 0 = NUL then '.' :: r else r, true) := by
  unfold skip_dotdir_if_any
  have hp : peek r 0 ≠ '.' := by
    intro hh
    rw [hh] at h
    exact absurd h (by decide)
  rw [dotCount_cons_dot, dotCount_eq_zero_of_peek r hp]
  rcases (isReg_false_iff _).1 h with h1 | h1
  · have h3 : ('/' : Char) ≠ NUL := by decide
    simp [strchrSlash, peek_succ_cons, h1, h3]
  · simp [strchrSlash, peek_succ_cons, h1]

/-- The inner copy loop copies the rest of the current component when the capacity
allows it. -/
theorem copyRest_spec (n : Nat) (r : List Char) : ∀ (c : Char) (m : Mem) (q : Nat),
    q + cstrlen r ≤ sizeLimit n →
      (copyRest n (c :: r) m q).1.tail = r.dropWhile isReg ∧
      (copyRest n (c :: r) m q).2.2 = q + (r.takeWhile isReg).length ∧
      (copyRest n (c :: r) m q).2.1.prefix_ (q + (r.takeWhile isReg).length) =
        m.prefix_ q ++ r.takeWhile isReg ∧
      (copyRest n (c :: r) m q).2.1.pre = m.pre ∧
      ∀ i, q + (r.takeWhile isReg).length ≤ i →
        (copyRest n (c :: r) m q).2.1.cells i = m.cells i := by
  induction r with
  | nil =>
    intro c m q _
    simp [copyRest, peek_nil]
  | cons d r ih =>
    intro c m q hq
    by_cases hd : isReg d = true
    · obtain ⟨h1, h2⟩ := (isReg_iff d).1 hd
      rw [cstrlen_cons d r h2] at hq
      have hlt : q < sizeLimit n := by omega
      have hstep : copyRest n (c :: d :: r) m q = copyRest n (d :: r) (m.write q d) (q + 1) := by
        rw [copyRest]
        simp [peek_zero_cons, h1, h2, hlt]
      obtain ⟨i1, i2, i3, i4, i5⟩ := ih d (m.write q d) (q + 1) (by omega)
      rw [hstep]
      simp only [List.dropWhile_cons, List.takeWhile_cons, hd, if_true, List.length_cons]
      have e : q + ((r.takeWhile isReg).length + 1) = q + 1 + (r.takeWhile isReg).length := by
        omega
      rw [e]
      refine ⟨i1, i2, ?_, i4, ?_⟩
      · rw [i3, Mem.prefix_write]
        simp
      · intro i hi
        rw [i5 i hi]
        exact Mem.write_cells_ne m q i d (by omega)
    · have hstep : copyRest n (c :: d :: r) m q = (c :: d :: r, m, q) := by
        rw [copyRest]
        simp only [Bool.not_eq_true] at hd
        rcases (isReg_false_iff d).1 hd with h | h
        · simp [peek_zero_cons, h]
        · simp [peek_zero_cons, h]
      simp only [Bool.not_eq_true] at hd
      rw [hstep]
      simp [List.dropWhile_cons, List.takeWhile_cons, hd]

theorem skip_dotdir_other (c : Char) (r : List Char) (fully : Bool)
    (h : ¬ (fully = true ∧ c :: r.takeWhile isReg = ['.'])) :
    skip_dotdir_if_any (c :: r) fully = (c :: r, false) := by
  cases fully with
  | false =>
    by_cases hc : c = '.'
    · subst hc
      exact skip_dotdir_dot_false r
    · exact skip_dotdir_not_dot c r false (fun hh => hc hh.1)
  | true =>
    apply skip_dotdir_not_dot
    intro hh
    exact h ⟨rfl, (comp_eq_dot_iff c r).2 hh⟩

theorem dropWhile_of_comp_dot (r : List Char) (h : isReg (peek r 0) = false) :
    r.dropWhile isReg = r := by
  cases r with
  | nil => rfl
  | cons d r =>
    rw [peek_zero_cons] at h
    simp [List.dropWhile_cons, h]

theorem tail_tail_of_comp_dotdot (c : Char) (r : List Char)
    (h : c :: r.takeWhile isReg = ['.', '.']) :
    (c :: r).tail.tail = r.dropWhile isReg ∧ cstrlen (r.dropWhile isReg) + 2 ≤ cstrlen (c :: r) + 1
      ∧ (r.dropWhile isReg).length < r.length := by
  have ht : r.takeWhile isReg = ['.'] := (List.cons.inj h).2
  cases r with
  | nil => simp at ht
  | cons d r2 =>
    by_cases hd : isReg d = true
    · simp only [List.takeWhile_cons, hd, if_true] at ht
      have hd2 : d = '.' := (List.cons.inj ht).1
      have ht2 : r2.takeWhile isReg = [] := (List.cons.inj ht).2
      have hr2 : isReg (peek r2 0) = false := ((comp_eq_dot_iff '.' r2).1 (by rw [ht2])).2
      have e := dropWhile_of_comp_dot r2 hr2
      have hn : d ≠ NUL := ((isReg_iff d).1 hd).2
      simp only [List.tail_cons, List.dropWhile_cons, hd, if_true, e, true_and]
      constructor
      · have := cstrlen_cons d r2 hn
        by_cases hc : c = NUL
        · subst hc
          have := (List.cons.inj h).1
          exact absurd this (by decide)
        · rw [cstrlen_cons c (d :: r2) hc, cstrlen_cons d r2 hn]
          omega
      · simp
    · simp only [Bool.not_eq_true] at hd
      simp [List.takeWhile_cons, hd] at ht

/-! ## The loop of `canonicalize_path` computes the item-level description -/

theorem Rel.qn_eq {s : CanonState} {a : FState} {pre : Char} (h : Rel s a pre) :
    a.out.length = s.qn := by
  rw [← h.out_eq, Mem.prefix_length]

theorem Rel.cells_mem {s : CanonState} {a : FState} {pre : Char} (h : Rel s a pre)
    (i : Nat) (hi : i < s.qn) : s.m.cells i ∈ a.out := by
  rw [← h.out_eq]
  exact Mem.cells_mem_live s.m s.qn i hi

theorem Rel.prev_dir_eq {s : CanonState} {a : FState} {pre : Char} (h : Rel s a pre) :
    (decide (s.qn ≠ 0) && decide (s.m.last s.qn = '/')) = endsSlash a.out := by
  rw [Mem.prev_eq, h.out_eq]

theorem Rel.buf_eq {s : CanonState} {a : FState} {pre : Char} (h : Rel s a pre)
    (he : endsSlash a.out = true) :
    bufIsDotDotSlash s.m = (decide (a.out = ['.', '.', '/']) && a.z) := by
  have hout := h.out_eq
  have hz := h.z_eq
  rw [Bool.eq_iff_iff]
  simp only [bufIsDotDotSlash, Bool.and_eq_true, decide_eq_true_eq]
  constructor
  · rintro ⟨⟨⟨h0, h1⟩, h2⟩, h3⟩
    refine ⟨?_, by rw [hz]; simpa using h3⟩
    rcases Nat.lt_or_ge s.qn 4 with hq | hq
    · rw [← hout]
      have hq' : s.qn = 0 ∨ s.qn = 1 ∨ s.qn = 2 ∨ s.qn = 3 := by omega
      rw [← hout] at he
      rcases hq' with e | e | e | e
      · rw [e] at he; simp [Mem.prefix_, endsSlash] at he
      · rw [e] at he
        simp [Mem.prefix_, endsSlash, List.range_succ, h0] at he
      · rw [e] at he
        simp [Mem.prefix_, endsSlash, List.range_succ, h1] at he
      · rw [e]
        simp [Mem.prefix_, List.range_succ, h0, h1, h2]
    · exact absurd h3 (h.nonul _ (h.cells_mem 3 (by omega)))
  · rintro ⟨e, hz'⟩
    have hq : s.qn = 3 := by rw [← h.qn_eq, e]; rfl
    rw [hq] at hout
    rw [e] at hout
    simp only [Mem.prefix_, List.range_succ, List.range_zero, List.nil_append,
      List.map_append, List.map_cons, List.map_nil, List.cons_append, List.cons.injEq,
      and_true] at hout
    refine ⟨⟨⟨hout.1, hout.2.1⟩, hout.2.2⟩, ?_⟩
    rw [hz'] at hz
    simpa using hz.symm

theorem popLast_subset (out : List Char) : ∀ c ∈ popLast out, c ∈ out := by
  intro c hc
  unfold popLast at hc
  rw [List.mem_reverse] at hc
  have h1 := (List.dropWhile_sublist (fun c => decide (c ≠ '/'))
    (l := out.dropLast.reverse)).subset hc
  rw [List.mem_reverse] at h1
  exact (List.dropLast_sublist out).subset h1

theorem popLast_length_le (out : List Char) : (popLast out).length ≤ out.length := by
  unfold popLast
  rw [List.length_reverse]
  have h1 := (List.dropWhile_sublist (fun c => decide (c ≠ '/'))
    (l := out.dropLast.reverse)).length_le
  rw [List.length_reverse] at h1
  have h2 := (List.dropLast_sublist out).length_le
  omega

/-- A state reached by appending the characters `w` to the output is related to the
pushed item-level state. -/
theorem Rel.push {s s2 : CanonState} {a : FState} {pre : Char} (h : Rel s a pre)
    (w : List Char) (hw : ∀ c ∈ w, c ≠ NUL)
    (hq : s2.qn = s.qn + w.length)
    (hp : s2.m.prefix_ s2.qn = a.out ++ w)
    (hpre : s2.m.pre = s.m.pre)
    (hc : ∀ i, s2.qn ≤ i → s2.m.cells i = s.m.cells i) :
    Rel s2 (a.push w) pre := by
  have hn : ∀ c ∈ a.out ++ w, c ≠ NUL := by
    intro c hc
    rcases List.mem_append.1 hc with h1 | h1
    · exact h.nonul c h1
    · exact hw c h1
  refine ⟨hp, ?_, by rw [hpre, h.pre_eq], hn⟩
  simp only [FState.push]
  rw [h.qn_eq, ← hq]
  rcases Nat.lt_or_ge 3 s2.qn with h3 | h3
  · have hm : s2.m.cells 3 ∈ a.out ++ w := by
      rw [← hp]
      exact Mem.cells_mem_live s2.m s2.qn 3 h3
    have hne := hn _ hm
    have h4 : ¬ (s2.qn ≤ 3) := by omega
    simp [hne, h4]
  · rw [hc 3 h3, h.z_eq]
    simp [h3]

theorem canonBody_slash (n : Nat) (s : CanonState) (a : FState) (pre : Char)
    (r : List Char) (hp : s.p = '/' :: r) (hR : Rel s a pre) :
    Rel (canonBody n s) (stepSlash a) pre ∧ (canonBody n s).p = r ∧
      (canonBody n s).qn ≤ s.qn + 1 := by
  have hprev := hR.prev_dir_eq
  have hsd : startsWithDotDot ('/' :: r) = false := by
    have h : ('/' : Char) ≠ '.' := by decide
    simp [startsWithDotDot, peek_zero_cons, h]
  unfold canonBody
  simp only [hp, skip_dotdir_slash, hsd, hprev, peek_zero_cons, Bool.and_false,
    Bool.false_and, if_true, List.tail_cons, Bool.false_eq_true, if_false]
  unfold stepSlash
  by_cases he : endsSlash a.out = true
  · simp only [he, Bool.not_true, Bool.false_eq_true, if_false, if_true]
    exact ⟨⟨hR.out_eq, hR.z_eq, hR.pre_eq, hR.nonul⟩, trivial, by omega⟩
  · simp only [he, Bool.not_eq_true] at he ⊢
    simp only [he, Bool.not_false, if_true, Bool.false_eq_true, if_false]
    refine ⟨?_, trivial, by simp⟩
    apply hR.push ['/']
    · intro c hc
      simp at hc
      subst hc
      decide
    · simp
    · simp only []
      rw [Mem.prefix_write, hR.out_eq]
    · rfl
    · intro i hi
      exact Mem.write_cells_ne s.m s.qn i '/' (by simp at hi; omega)

theorem canonBody_comp (n : Nat) (s : CanonState) (a : FState) (pre : Char)
    (c : Char) (r : List Char) (hp : s.p = c :: r) (hc : isReg c = true)
    (hR : Rel s a pre) (hJ : s.qn + cstrlen s.p ≤ sizeLimit n) :
    Rel (canonBody n s) (stepComp a (c :: r.takeWhile isReg)) pre ∧
      (items (canonBody n s).p).foldl stepItem (stepComp a (c :: r.takeWhile isReg)) =
        (items (r.dropWhile isReg)).foldl stepItem (stepComp a (c :: r.takeWhile isReg)) ∧
      (canonBody n s).p.length ≤ r.length ∧
      (canonBody n s).qn + cstrlen (canonBody n s).p ≤ s.qn + cstrlen s.p := by
  obtain ⟨hc1, hc2⟩ := (isReg_iff c).1 hc
  have hprev := hR.prev_dir_eq
  have hlen : cstrlen s.p = cstrlen r + 1 := by rw [hp, cstrlen_cons c r hc2]
  by_cases hA : endsSlash a.out = true ∧ c :: r.takeWhile isReg = ['.']
  · -- the component is "." and follows a separator: it is skipped
    obtain ⟨he, hw⟩ := hA
    obtain ⟨hcd, hr0⟩ := (comp_eq_dot_iff c r).1 hw
    subst hcd
    have hstep : stepComp a ('.' :: r.takeWhile isReg) = a := by
      simp [stepComp, he, hw]
    have hbody : canonBody n s = { s with p := (if peek r 0 = NUL then '.' :: r else r).tail } := by
      unfold canonBody
      simp only [hp, hprev, he, skip_dotdir_dot_true r hr0, if_true]
    rw [hstep, hbody]
    simp only []
    refine ⟨⟨hR.out_eq, hR.z_eq, hR.pre_eq, hR.nonul⟩, ?_, ?_, ?_⟩
    · rw [dropWhile_of_comp_dot r hr0]
      by_cases h0 : peek r 0 = NUL
      · simp [h0]
      · rcases (isReg_false_iff _).1 hr0 with h1 | h1
        · cases r with
          | nil => rw [peek_nil] at h0; exact absurd rfl h0
          | cons d t =>
            rw [peek_zero_cons] at h1
            subst h1
            have h3 : ('/' : Char) ≠ NUL := by decide
            simp only [peek_zero_cons, h3, if_false, List.tail_cons]
            rw [items_slash]
            simp [stepItem, stepSlash, he]
        · exact absurd h1 h0
    · by_cases h0 : peek r 0 = NUL
      · simp [h0]
      · simp [h0]
    · rw [hlen]
      by_cases h0 : peek r 0 = NUL
      · simp only [h0, if_true, List.tail_cons]
        omega
      · simp only [h0, if_false]
        cases r with
        | nil => simp [cstrlen]
        | cons d t =>
          by_cases hd : d = NUL
          · subst hd; exact absurd rfl h0
          · rw [cstrlen_cons d t hd, List.tail_cons]
            omega
  · have hsk : skip_dotdir_if_any (c :: r) (endsSlash a.out) = (c :: r, false) := by
      apply skip_dotdir_other
      exact hA
    by_cases hB : endsSlash a.out = true ∧ c :: r.takeWhile isReg = ['.', '.'] ∧
        ¬ (a.out = ['.', '.', '/'] ∧ a.z = true)
    · -- the component is ".." and removes the last component of the output
      obtain ⟨he, hw, hnb⟩ := hB
      have hsd : startsWithDotDot (c :: r) = true := (comp_eq_dotdot_iff c r).1 hw
      have hbuf : bufIsDotDotSlash s.m = false := by
        rw [hR.buf_eq he]
        by_cases h1 : a.out = ['.', '.', '/']
        · have : a.z = false := by
            by_cases h2 : a.z = true
            · exact absurd ⟨h1, h2⟩ hnb
            · simpa using h2
          simp [this]
        · simp [h1]
      have hstep : stepComp a (c :: r.takeWhile isReg) = { a with out := popLast a.out } := by
        have hne : ¬ (c :: r.takeWhile isReg = ['.']) := by rw [hw]; simp
        have hnb2 : (decide (a.out = ['.', '.', '/']) && a.z) = false := by
          rw [← hR.buf_eq he]; exact hbuf
        simp only [stepComp, he, hne, hw, hnb2]
        simp
      have hbody : canonBody n s =
          { s with p := (c :: r).tail.tail, qn := backToSlash s.m (s.qn - 1) } := by
        rw [he] at hsk
        unfold canonBody
        simp only [hp, hprev, he, hsk, hsd, hbuf]
        simp
      obtain ⟨t1, t2, t3⟩ := tail_tail_of_comp_dotdot c r hw
      rw [hstep, hbody]
      simp only []
      refine ⟨⟨?_, hR.z_eq, hR.pre_eq, ?_⟩, ?_, ?_, ?_⟩
      · simp only []
        rw [backToSlash_pop, hR.out_eq]
      · intro x hx
        exact hR.nonul x (popLast_subset a.out x hx)
      · rw [t1]
      · rw [t1]; omega
      · rw [t1, hp]
        have := backToSlash_le s.m (s.qn - 1)
        omega
    · -- the component is copied
      have hstep : stepComp a (c :: r.takeWhile isReg) = a.push (c :: r.takeWhile isReg) := by
        unfold stepComp
        have h1 : (endsSlash a.out && decide (c :: r.takeWhile isReg = ['.'])) = false := by
          by_cases he : endsSlash a.out = true
          · have : ¬ (c :: r.takeWhile isReg = ['.']) := fun hh => hA ⟨he, hh⟩
            simp [this]
          · simp only [Bool.not_eq_true] at he
            simp [he]
        have h2 : (endsSlash a.out && decide (c :: r.takeWhile isReg = ['.', '.']) &&
            !(decide (a.out = ['.', '.', '/']) && a.z)) = false := by
          by_cases he : endsSlash a.out = true
          · by_cases hw : c :: r.takeWhile isReg = ['.', '.']
            · have : (a.out = ['.', '.', '/'] ∧ a.z = true) := by
                by_contra hh
                exact hB ⟨he, hw, hh⟩
              simp [this.1, this.2]
            · simp [hw]
          · simp only [Bool.not_eq_true] at he
            simp [he]
        rw [h1, h2]
        simp
      have hcond : (endsSlash a.out && startsWithDotDot (c :: r) && !bufIsDotDotSlash s.m) = false := by
        by_cases he : endsSlash a.out = true
        · by_cases hsd : startsWithDotDot (c :: r) = true
          · have hw := (comp_eq_dotdot_iff c r).2 hsd
            have : (a.out = ['.', '.', '/'] ∧ a.z = true) := by
              by_contra hh
              exact hB ⟨he, hw, hh⟩
            rw [hR.buf_eq he]
            simp [this.1, this.2]
          · simp only [Bool.not_eq_true] at hsd
            simp [hsd]
        · simp only [Bool.not_eq_true] at he
          simp [he]
      have hbody : canonBody n s =
          { p := (copyRest n (c :: r) (s.m.write s.qn c) (s.qn + 1)).1.tail,
            m := (copyRest n (c :: r) (s.m.write s.qn c) (s.qn + 1)).2.1,
            qn := (copyRest n (c :: r) (s.m.write s.qn c) (s.qn + 1)).2.2 } := by
        unfold canonBody
        simp only [hp, hprev, hsk, hcond, peek_zero_cons, hc1]
        simp
      obtain ⟨i1, i2, i3, i4, i5⟩ :=
        copyRest_spec n r c (s.m.write s.qn c) (s.qn + 1) (by omega)
      rw [hstep, hbody]
      simp only []
      refine ⟨?_, ?_, ?_, ?_⟩
      · apply hR.push (c :: r.takeWhile isReg)
        · intro x hx
          rcases List.mem_cons.1 hx with h1 | h1
          · rw [h1]; exact hc2
          · exact takeWhile_isReg_no_nul r x h1
        · simp only [i2, List.length_cons]; omega
        · simp only [i2]
          rw [i3, Mem.prefix_write, hR.out_eq]
          simp
        · simp only [i4]; rfl
        · intro i hi
          simp only [i2] at hi
          rw [i5 i hi]
          exact Mem.write_cells_ne s.m s.qn i c (by omega)
      · rw [i1]
      · rw [i1]; exact length_dropWhile_le r
      · rw [i1, i2, hlen]
        have := cstrlen_dropWhile r
        omega

theorem canonLoop_zero (n : Nat) (s : CanonState) : canonLoop n 0 s = s := rfl

theorem canonLoop_succ (n fuel : Nat) (s : CanonState) :
    canonLoop n (fuel + 1) s =
      if canonCond n s then canonLoop n fuel (canonBody n s) else s := rfl

/-- The loop of `canonicalize_path`, started in a state related to `a` with enough
capacity left for the rest of the input, ends in a state related to the item-level
result. -/
theorem canonLoop_sim (n : Nat) (pre : Char) : ∀ (fuel : Nat) (s : CanonState) (a : FState),
    Rel s a pre → s.qn + cstrlen s.p ≤ sizeLimit n → s.p.length ≤ fuel →
      Rel (canonLoop n fuel s) ((items s.p).foldl stepItem a) pre ∧
        (canonLoop n fuel s).qn ≤ s.qn + cstrlen s.p := by
  intro fuel
  induction fuel with
  | zero =>
    intro s a hR _ hlen
    have hp : s.p = [] := List.length_eq_zero.1 (Nat.le_zero.1 hlen)
    rw [canonLoop_zero, hp]
    exact ⟨by simpa [items] using hR, by omega⟩
  | succ f ih =>
    intro s a hR hJ hlen
    rw [canonLoop_succ]
    cases hp : s.p with
    | nil =>
      have hc : canonCond n s = false := by simp [canonCond, hp, peek_nil]
      rw [hc]
      exact ⟨by simpa [items] using hR, by simp⟩
    | cons c r =>
      by_cases hnul : c = NUL
      · have hc : canonCond n s = false := by simp [canonCond, hp, peek_zero_cons, hnul]
        rw [hc, items_nul (c :: r) (by rw [peek_zero_cons]; exact hnul)]
        exact ⟨by simpa using hR, by simp⟩
      · have hcl : cstrlen s.p = cstrlen r + 1 := by rw [hp, cstrlen_cons c r hnul]
        have hc : canonCond n s = true := by
          have : s.qn < sizeLimit n := by omega
          simp [canonCond, hp, peek_zero_cons, hnul, this]
        rw [hc]
        simp only [if_true]
        rw [hp] at hlen
        simp only [List.length_cons] at hlen
        by_cases hs : c = '/'
        · subst hs
          obtain ⟨b1, b2, b3⟩ := canonBody_slash n s a pre r hp hR
          have := ih (canonBody n s) (stepSlash a) b1 (by rw [b2]; omega) (by rw [b2]; omega)
          rw [b2] at this
          rw [items_slash]
          refine ⟨by simpa [stepItem] using this.1, ?_⟩
          have h2 := this.2
          have hcl2 : cstrlen ('/' :: r) = cstrlen r + 1 := cstrlen_cons '/' r hnul
          omega
        · have hreg : isReg c = true := (isReg_iff c).2 ⟨hs, hnul⟩
          obtain ⟨b1, b2, b3, b4⟩ := canonBody_comp n s a pre c r hp hreg hR hJ
          have := ih (canonBody n s) (stepComp a (c :: r.takeWhile isReg)) b1
            (by omega) (by omega)
          rw [b2] at this
          rw [foldl_items_reg a c r hreg]
          refine ⟨this.1, ?_⟩
          have h2 := this.2
          have hcl2 : cstrlen (c :: r) = cstrlen r + 1 := cstrlen_cons c r hnul
          omega

theorem finish_no_nul (pre : Char) (out : List Char) (h : ∀ c ∈ out, c ≠ NUL) :
    ∀ c ∈ finish pre out, c ≠ NUL := by
  intro c hc
  unfold finish at hc
  split at hc
  · rcases List.mem_append.1 hc with h1 | h1
    · exact h c h1
    · simp at h1; subst h1; decide
  · exact h c hc

/-- What `canonicalize_path` leaves in memory when the capacity allows the whole input
to be scanned: the item-level result, NUL-terminated; `buf[-1]` is not changed. -/
theorem canonicalize_mem_spec (directory : List Char) (m : Mem) (n : Nat)
    (h : cstrlen directory ≤ sizeLimit n) :
    (canonicalize_mem directory m n).1.prefix_ (canonicalize_mem directory m n).2 =
        canonItems directory m.pre (decide (m.cells 3 = NUL)) ∧
      (canonicalize_mem directory m n).1.cells (canonicalize_mem directory m n).2 = NUL ∧
      (canonicalize_mem directory m n).1.pre = m.pre ∧
      (∀ c ∈ canonItems directory m.pre (decide (m.cells 3 = NUL)), c ≠ NUL) ∧
      (canonicalize_mem directory m n).2 ≤ cstrlen directory + 1 := by
  have hR0 : Rel { p := directory, m := m.write 0 NUL, qn := 0 }
      { out := [], z := decide (m.cells 3 = NUL) } m.pre := by
    refine ⟨by simp [Mem.prefix_], ?_, rfl, by simp⟩
    simp [Mem.write]
  obtain ⟨hR, hqn⟩ :=
    canonLoop_sim n m.pre directory.length _ _ hR0 (by simpa using h) (le_refl _)
  simp only [] at hR hqn
  have hlast := Mem.last_eq
    (canonLoop n directory.length { p := directory, m := m.write 0 NUL, qn := 0 }).m
    (canonLoop n directory.length { p := directory, m := m.write 0 NUL, qn := 0 }).qn
  rw [hR.out_eq, hR.pre_eq] at hlast
  refine ⟨?_, ?_, ?_, finish_no_nul _ _ hR.nonul, ?_⟩
  · unfold canonicalize_mem canonItems finish
    simp only [hlast]
    split
    · simp only []
      rw [Mem.prefix_write_ge _ _ _ _ (le_refl _), Mem.prefix_write, hR.out_eq]
    · simp only []
      rw [Mem.prefix_write_ge _ _ _ _ (le_refl _), hR.out_eq]
  · unfold canonicalize_mem
    simp only []
    exact Mem.write_cells_eq _ _ _
  · unfold canonicalize_mem
    simp only []
    split
    · exact hR.pre_eq
    · exact hR.pre_eq
  · unfold canonicalize_mem
    simp only []
    split
    · simp only []; omega
    · simp only []; omega

/-- Whenever the capacity allows the whole input to be scanned (`strlen(directory)` is
at most `buf_size - 1`), `canonicalize_path` computes the item-level description. -/
theorem canonicalize_path_eq_items (directory : List Char) (m : Mem) (n : Nat)
    (h : cstrlen directory ≤ sizeLimit n) :
    canonicalize_path directory m n =
      canonItems directory m.pre (decide (m.cells 3 = NUL)) :=
  (canonicalize_mem_spec directory m n h).1

/-! ## Canonical strings and the item-level steps -/

theorem render_nil (abs : Bool) : render abs [] = if abs then ['/'] else [] := by
  simp [render]

theorem render_append_one (abs : Bool) (cs : List (List Char)) (c : List Char) :
    render abs (cs ++ [c]) = render abs cs ++ c ++ ['/'] := by
  simp [render, List.flatMap_append]

theorem endsSlash_append_slash (x : List Char) : endsSlash (x ++ ['/']) = true := by
  simp [endsSlash]

theorem endsSlash_nil : endsSlash [] = false := by
  simp [endsSlash]

theorem Proper.getLast_ne {c : List Char} (h : Proper c) (x : List Char) :
    endsSlash (x ++ c) = false := by
  obtain ⟨h1, h2⟩ := h
  have hl : (x ++ c).getLast? = c.getLast? := by
    rw [List.getLast?_append]
    cases hc : c.getLast? with
    | none => exact absurd (List.getLast?_eq_none_iff.1 hc) h1
    | some v => simp
  unfold endsSlash
  rw [hl]
  cases hc : c.getLast? with
  | none => simp
  | some v =>
    have hv : v ∈ c := List.mem_of_getLast?_eq_some hc
    have := ((isReg_iff v).1 (h2 v hv)).1
    simp [this]

theorem endsSlash_render (abs : Bool) (comps : List (List Char)) :
    endsSlash (render abs comps) = true ↔ abs = true ∨ comps ≠ [] := by
  rcases List.eq_nil_or_concat comps with h | ⟨cs, c, h⟩
  · subst h
    cases abs <;> simp [render, endsSlash]
  · subst h
    rw [List.concat_eq_append, render_append_one, endsSlash_append_slash]
    simp

theorem render_eq_nil (abs : Bool) (comps : List (List Char)) :
    render abs comps = [] ↔ abs = false ∧ comps = [] := by
  cases abs with
  | true => simp [render]
  | false =>
    cases comps with
    | nil => simp [render]
    | cons c cs => simp [render]

theorem popLast_slash : popLast ['/'] = [] := by
  simp [popLast]

theorem popLast_append (out c : List Char) (hc : ∀ x ∈ c, x ≠ '/')
    (ho : out = [] ∨ endsSlash out = true) : popLast (out ++ c ++ ['/']) = out := by
  unfold popLast
  rw [List.dropLast_concat, List.reverse_append]
  have h1 : (c.reverse ++ out.reverse).dropWhile (fun x => decide (x ≠ '/')) =
      out.reverse.dropWhile (fun x => decide (x ≠ '/')) := by
    apply List.dropWhile_append_of_pos
    intro x hx
    have := hc x (List.mem_reverse.1 hx)
    simp [this]
  rw [h1]
  rcases ho with ho | ho
  · subst ho; simp
  · unfold endsSlash at ho
    have ho' : out.getLast? = some '/' := by simpa using ho
    have h2 : out.reverse.head? = some '/' := by rw [List.head?_reverse]; exact ho'
    cases hr : out.reverse with
    | nil => rw [hr] at h2; simp at h2
    | cons y t =>
      rw [hr] at h2
      simp only [List.head?_cons, Option.some.injEq] at h2
      subst h2
      rw [List.dropWhile_cons]
      simp only [ne_eq, not_true_eq_false, decide_False, Bool.false_eq_true, if_false]
      rw [← hr, List.reverse_reverse]

theorem Proper.no_slash {c : List Char} (h : Proper c) : ∀ x ∈ c, x ≠ '/' :=
  fun x hx => ((isReg_iff x).1 (h.2 x hx)).1

theorem Proper.no_nul {c : List Char} (h : Proper c) : ∀ x ∈ c, x ≠ NUL :=
  fun x hx => ((isReg_iff x).1 (h.2 x hx)).2

theorem popLast_render (abs : Bool) (cs : List (List Char)) (c : List Char)
    (hc : Proper c) : popLast (render abs (cs ++ [c])) = render abs cs := by
  rw [render_append_one]
  apply popLast_append _ _ hc.no_slash
  by_cases h : render abs cs = []
  · exact Or.inl h
  · right
    rw [endsSlash_render]
    by_contra hh
    apply h
    rw [render_eq_nil]
    constructor
    · cases abs <;> simp_all
    · by_contra h3
      exact hh (Or.inr h3)

theorem KcAux_append (z0 abs : Bool) (l : List (List Char)) :
    ∀ (pre : List (List Char)) (c : List Char),
      KcAux z0 abs pre (l ++ [c]) ↔ KcAux z0 abs pre l ∧ okAfter z0 abs (pre ++ l) c := by
  induction l with
  | nil => intro pre c; simp [KcAux]
  | cons x l ih =>
    intro pre c
    show okAfter z0 abs pre x ∧ KcAux z0 abs (pre ++ [x]) (l ++ [c]) ↔
      (okAfter z0 abs pre x ∧ KcAux z0 abs (pre ++ [x]) l) ∧ okAfter z0 abs (pre ++ x :: l) c
    rw [ih (pre ++ [x]) c]
    simp [and_assoc]

theorem Kc_nil (z0 abs : Bool) : Kc z0 abs [] := by
  simp [Kc, KcAux]

theorem KcAux_proper (z0 abs : Bool) (l : List (List Char)) :
    ∀ (pre : List (List Char)), KcAux z0 abs pre l → ∀ c ∈ l, Proper c := by
  induction l with
  | nil => intro pre _ c hc; simp at hc
  | cons x l ih =>
    intro pre h c hc
    simp only [KcAux] at h
    rcases List.mem_cons.1 hc with h1 | h1
    · subst h1; exact h.1.1
    · exact ih _ h.2 c h1

/-- A rendered string equal to `"../"` is the relative path of the single component
`".."`. -/
theorem render_eq_dotdotslash (abs : Bool) (comps : List (List Char))
    (hp : ∀ c ∈ comps, Proper c) (h : render abs comps = ['.', '.', '/']) :
    abs = false ∧ comps = [['.', '.']] := by
  cases abs with
  | true => simp [render] at h
  | false =>
    refine ⟨rfl, ?_⟩
    cases comps with
    | nil => simp [render] at h
    | cons c cs =>
      have hc := hp c (by simp)
      simp only [render, Bool.false_eq_true, if_false, List.nil_append, List.flatMap_cons,
        List.append_assoc] at h
      obtain ⟨hne, hreg⟩ := hc
      have hs := fun x hx => ((isReg_iff x).1 (hreg x hx)).1
      cases c with
      | nil => exact absurd rfl hne
      | cons x1 c1 =>
        cases c1 with
        | nil =>
          -- the component has one character: the second character would be '/'
          simp only [List.cons_append, List.nil_append, List.cons.injEq] at h
          have : ('/' : Char) = '.' := h.2.1
          exact absurd this (by decide)
        | cons x2 c2 =>
          cases c2 with
          | nil =>
            simp only [List.cons_append, List.nil_append, List.cons.injEq] at h
            obtain ⟨e1, e2, _, e4⟩ := h
            subst e1 e2
            cases cs with
            | nil => rfl
            | cons d ds =>
              have hd := hp d (by simp)
              cases d with
              | nil => exact absurd rfl hd.1
              | cons y d' => simp at e4
          | cons x3 c3 =>
            simp only [List.cons_append, List.cons.injEq] at h
            have : x3 = '/' := h.2.2.1
            exact absurd this (hs x3 (by simp))

/-! ## Outputs of `canonicalize_path` are fixed points of the item-level description -/

theorem finish_of_endsSlash (pre : Char) (out : List Char) (h : endsSlash out = true) :
    finish pre out = out := by
  unfold endsSlash at h
  have h' : out.getLast? = some '/' := by simpa using h
  simp [finish, h']

theorem finish_open (pre : Char) (x c : List Char) (hc : Proper c) :
    finish pre (x ++ c) = x ++ c ++ ['/'] := by
  have h := hc.getLast_ne x
  unfold endsSlash at h
  unfold finish
  cases hl : (x ++ c).getLast? with
  | none =>
    have := List.getLast?_eq_none_iff.1 hl
    have : c = [] := (List.append_eq_nil.1 this).2
    exact absurd this hc.1
  | some v =>
    rw [hl] at h
    have hv : v ≠ '/' := by simpa using h
    simp [hv]

theorem stepSlash_closed (z0 : Bool) (a : FState) (h : InvC z0 a) : InvC z0 (stepSlash a) := by
  obtain ⟨abs, comps, ho, hk, hz⟩ := h
  unfold stepSlash
  by_cases he : endsSlash a.out = true
  · simp only [he, if_true]
    exact ⟨abs, comps, ho, hk, hz⟩
  · simp only [he, Bool.false_eq_true, if_false]
    have he' : ¬ (abs = true ∨ comps ≠ []) := by
      rw [← endsSlash_render, ← ho]; exact he
    have hn : a.out = [] := by
      rw [ho, render_eq_nil]
      constructor
      · cases abs <;> simp_all
      · by_contra h3; exact he' (Or.inr h3)
    refine ⟨true, [], ?_, Kc_nil z0 true, ?_⟩
    · simp [FState.push, hn, render]
    · intro h1
      simp only [FState.push, Bool.and_eq_true] at h1
      exact hz h1.1

theorem stepSlash_open (a : FState) (abs : Bool) (comps : List (List Char)) (c : List Char)
    (ho : a.out = render abs comps) (hc : Proper c) :
    (stepSlash (a.push c)).out = render abs (comps ++ [c]) ∧
      (stepSlash (a.push c)).z =
        (a.z && decide (a.out.length + c.length ≤ 3) &&
          decide (a.out.length + c.length + 1 ≤ 3)) := by
  have he : endsSlash (a.push c).out = false := hc.getLast_ne a.out
  unfold stepSlash
  simp only [he, Bool.false_eq_true, if_false]
  constructor
  · simp [FState.push, render_append_one, ho]
  · simp [FState.push]

theorem stepComp_closed (z0 : Bool) (a : FState) (c : List Char) (h : InvC z0 a)
    (hc : Proper c) :
    InvC z0 (stepComp a c) ∨
      ∃ abs comps, a.out = render abs comps ∧ Kc z0 abs comps ∧ okAfter z0 abs comps c ∧
        (a.z = true → z0 = true) ∧ stepComp a c = a.push c := by
  obtain ⟨abs, comps, ho, hk, hz⟩ := h
  by_cases hA : endsSlash a.out = true ∧ c = ['.']
  · left
    have : stepComp a c = a := by simp [stepComp, hA.1, hA.2]
    rw [this]
    exact ⟨abs, comps, ho, hk, hz⟩
  · by_cases hB : endsSlash a.out = true ∧ c = ['.', '.'] ∧
        ¬ (a.out = ['.', '.', '/'] ∧ a.z = true)
    · left
      obtain ⟨he, hw, hnb⟩ := hB
      have hstep : stepComp a c = { a with out := popLast a.out } := by
        have hne : ¬ (c = ['.']) := by rw [hw]; simp
        have hnb2 : (decide (a.out = ['.', '.', '/']) && a.z) = false := by
          by_cases h1 : a.out = ['.', '.', '/']
          · have : a.z = false := by
              by_cases h2 : a.z = true
              · exact absurd ⟨h1, h2⟩ hnb
              · simpa using h2
            simp [this]
          · simp [h1]
        simp only [stepComp, he, hne, hw, hnb2]
        simp
      rw [hstep]
      rcases List.eq_nil_or_concat comps with hn | ⟨cs, x, hn⟩
      · subst hn
        have habs : abs = true := by
          have := (endsSlash_render abs []).1 (by rw [← ho]; exact he)
          simpa using this
        subst habs
        refine ⟨false, [], ?_, Kc_nil z0 false, hz⟩
        simp [ho, render, popLast]
      · subst hn
        rw [List.concat_eq_append] at ho hk
        have hk2 := (KcAux_append z0 abs cs [] x).1 hk
        refine ⟨abs, cs, ?_, hk2.1, hz⟩
        simp only []
        rw [ho, popLast_render abs cs x hk2.2.1]
    · right
      have hstep : stepComp a c = a.push c := by
        unfold stepComp
        have h1 : (endsSlash a.out && decide (c = ['.'])) = false := by
          by_cases he : endsSlash a.out = true
          · have : ¬ (c = ['.']) := fun hh => hA ⟨he, hh⟩
            simp [this]
          · simp only [Bool.not_eq_true] at he
            simp [he]
        have h2 : (endsSlash a.out && decide (c = ['.', '.']) &&
            !(decide (a.out = ['.', '.', '/']) && a.z)) = false := by
          by_cases he : endsSlash a.out = true
          · by_cases hw : c = ['.', '.']
            · have : (a.out = ['.', '.', '/'] ∧ a.z = true) := by
                by_contra hh
                exact hB ⟨he, hw, hh⟩
              simp [this.1, this.2]
            · simp [hw]
          · simp only [Bool.not_eq_true] at he
            simp [he]
        rw [h1, h2]
        simp
      have hnE : endsSlash a.out = false → abs = false ∧ comps = [] := by
        intro he
        have he' : ¬ (abs = true ∨ comps ≠ []) := by
          rw [← endsSlash_render, ← ho, he]; simp
        constructor
        · cases abs <;> simp_all
        · by_contra h3; exact he' (Or.inr h3)
      refine ⟨abs, comps, ho, hk, ⟨hc, ?_, ?_⟩, hz, hstep⟩
      · intro hw
        have he : endsSlash a.out = false := by
          by_cases he : endsSlash a.out = true
          · exact absurd ⟨he, hw⟩ hA
          · simpa using he
        have := hnE he
        simpa using this.symm
      · intro hw
        by_cases he : endsSlash a.out = true
        · have hs : a.out = ['.', '.', '/'] ∧ a.z = true := by
            by_contra hh
            exact hB ⟨he, hw, hh⟩
          have := render_eq_dotdotslash abs comps (KcAux_proper z0 abs comps [] hk)
            (by rw [← ho]; exact hs.1)
          exact ⟨this.1, Or.inr ⟨by simpa using this.2, hz hs.2⟩⟩
        · have := hnE (by simpa using he)
          exact ⟨this.1, Or.inl (by simpa using this.2)⟩

theorem proper_of_reg (c : Char) (r : List Char) (hc : isReg c = true) :
    Proper (c :: r.takeWhile isReg) := by
  refine ⟨by simp, ?_⟩
  intro x hx
  rcases List.mem_cons.1 hx with h | h
  · rw [h]; exact hc
  · exact List.mem_takeWhile_imp h

/-- Whatever the input, the item-level result is the `finish` of a canonical string. -/
theorem foldl_items_inv (z0 : Bool) (pre : Char) : ∀ (k : Nat) (p : List Char) (a : FState),
    p.length ≤ k → InvC z0 a →
      ∃ abs comps, Kc z0 abs comps ∧
        finish pre ((items p).foldl stepItem a).out = finish pre (render abs comps) := by
  intro k
  induction k with
  | zero =>
    intro p a hlen hI
    have hp : p = [] := List.length_eq_zero.1 (Nat.le_zero.1 hlen)
    subst hp
    obtain ⟨abs, comps, ho, hk, _⟩ := hI
    exact ⟨abs, comps, hk, by simp [items, ho]⟩
  | succ k ih =>
    intro p a hlen hI
    cases p with
    | nil =>
      obtain ⟨abs, comps, ho, hk, _⟩ := hI
      exact ⟨abs, comps, hk, by simp [items, ho]⟩
    | cons c r =>
      simp only [List.length_cons] at hlen
      by_cases hnul : c = NUL
      · obtain ⟨abs, comps, ho, hk, _⟩ := hI
        refine ⟨abs, comps, hk, ?_⟩
        rw [items_nul (c :: r) (by rw [peek_zero_cons]; exact hnul)]
        simp [ho]
      · by_cases hs : c = '/'
        · subst hs
          rw [items_slash]
          simp only [List.foldl_cons, stepItem]
          exact ih r (stepSlash a) (by omega) (stepSlash_closed z0 a hI)
        · have hreg : isReg c = true := (isReg_iff c).2 ⟨hs, hnul⟩
          have hw := proper_of_reg c r hreg
          rw [items_reg r c hreg]
          by_cases h0 : peek (r.dropWhile isReg) 0 = '/'
          · simp only [h0, if_true, List.foldl_cons, stepItem]
            have hl : (r.dropWhile isReg).tail.length ≤ k := by
              have := length_dropWhile_le r
              have := List.length_tail (r.dropWhile isReg)
              omega
            apply ih _ _ hl
            rcases stepComp_closed z0 a _ hI hw with h1 | ⟨abs, comps, ho, hk, hok, hz, hst⟩
            · exact stepSlash_closed z0 _ h1
            · rw [hst]
              obtain ⟨e1, e2⟩ := stepSlash_open a abs comps _ ho hw
              refine ⟨abs, comps ++ [c :: r.takeWhile isReg], e1, ?_, ?_⟩
              · exact (KcAux_append z0 abs comps [] _).2 ⟨hk, by simpa using hok⟩
              · intro hh
                rw [e2] at hh
                simp only [Bool.and_eq_true] at hh
                exact hz hh.1.1
          · simp only [h0, if_false, List.foldl_cons, List.foldl_nil, stepItem]
            rcases stepComp_closed z0 a _ hI hw with h1 | ⟨abs, comps, ho, hk, hok, hz, hst⟩
            · obtain ⟨abs, comps, ho, hk, _⟩ := h1
              exact ⟨abs, comps, hk, by rw [ho]⟩
            · refine ⟨abs, comps ++ [c :: r.takeWhile isReg],
                (KcAux_append z0 abs comps [] _).2 ⟨hk, by simpa using hok⟩, ?_⟩
              rw [hst]
              simp only [FState.push]
              rw [finish_open pre _ _ hw, ho, ← render_append_one,
                finish_of_endsSlash pre _ ((endsSlash_render _ _).2 (Or.inr (by simp)))]

theorem items_proper_slash (c : List Char) (hc : Proper c) (x : List Char) :
    items (c ++ '/' :: x) = Item.compSlash c :: items x := by
  obtain ⟨hne, hreg⟩ := hc
  cases c with
  | nil => exact absurd rfl hne
  | cons y c' =>
    have hy : isReg y = true := hreg y (by simp)
    have hc' : ∀ v ∈ c', isReg v = true := fun v hv => hreg v (by simp [hv])
    have hsl : isReg '/' = false := by decide
    have ht : (c' ++ '/' :: x).takeWhile isReg = c' := by
      rw [List.takeWhile_append_of_pos hc']
      simp [List.takeWhile_cons, hsl]
    have hd : (c' ++ '/' :: x).dropWhile isReg = '/' :: x := by
      rw [List.dropWhile_append_of_pos hc']
      simp [List.dropWhile_cons, hsl]
    rw [List.cons_append, items_reg _ y hy, ht, hd]
    simp [peek_zero_cons]

theorem items_proper_end (c : List Char) (hc : Proper c) :
    items c = [Item.compEnd c] := by
  obtain ⟨hne, hreg⟩ := hc
  cases c with
  | nil => exact absurd rfl hne
  | cons y c' =>
    have hy : isReg y = true := hreg y (by simp)
    have hc' : ∀ v ∈ c', isReg v = true := fun v hv => hreg v (by simp [hv])
    have ht : c'.takeWhile isReg = c' := List.takeWhile_eq_self_iff.2 hc'
    have hd : c'.dropWhile isReg = [] := List.dropWhile_eq_nil_iff.2 hc'
    have h3 : NUL ≠ '/' := by decide
    rw [items_reg _ y hy, ht, hd]
    simp [peek_nil, h3]

theorem stepComp_push_of_okAfter (z0 abs : Bool) (pre : List (List Char)) (c : List Char)
    (a : FState) (ho : a.out = render abs pre)
    (hz : a.z = (z0 && decide (a.out.length ≤ 3))) (hok : okAfter z0 abs pre c) :
    stepComp a c = a.push c := by
  obtain ⟨_, h1, h2⟩ := hok
  unfold stepComp
  have e1 : (endsSlash a.out && decide (c = ['.'])) = false := by
    by_cases hw : c = ['.']
    · obtain ⟨hp, ha⟩ := h1 hw
      subst hp ha
      simp [ho, render, endsSlash]
    · simp [hw]
  have e2 : (endsSlash a.out && decide (c = ['.', '.']) &&
      !(decide (a.out = ['.', '.', '/']) && a.z)) = false := by
    by_cases hw : c = ['.', '.']
    · obtain ⟨ha, hp⟩ := h2 hw
      subst ha
      rcases hp with hp | ⟨hp, hz0⟩
      · subst hp
        simp [ho, render, endsSlash]
      · subst hp
        have ho' : a.out = ['.', '.', '/'] := by rw [ho]; simp [render]
        have hz' : a.z = true := by rw [hz, ho', hz0]; rfl
        simp [ho', hz']
    · simp [hw]
  rw [e1, e2]
  simp

/-- Scanning a canonical string rebuilds it: the items of the components `rest`, each
followed by a separator, extend the output `render abs pre` to
`render abs (pre ++ rest)`. -/
theorem replay (z0 abs : Bool) : ∀ (rest pre : List (List Char)) (t : List Char)
    (a : FState), a.out = render abs pre → a.z = (z0 && decide (a.out.length ≤ 3)) →
    KcAux z0 abs pre rest →
      ∃ a2 : FState, a2.out = render abs (pre ++ rest) ∧
        a2.z = (z0 && decide (a2.out.length ≤ 3)) ∧
        (items (rest.flatMap (fun c => c ++ ['/']) ++ t)).foldl stepItem a =
          (items t).foldl stepItem a2 := by
  intro rest
  induction rest with
  | nil =>
    intro pre t a ho hz _
    exact ⟨a, by simpa using ho, hz, by simp⟩
  | cons c rest ih =>
    intro pre t a ho hz hk
    simp only [KcAux] at hk
    obtain ⟨hok, hk2⟩ := hk
    have hc := hok.1
    have hst := stepComp_push_of_okAfter z0 abs pre c a ho hz hok
    obtain ⟨e1, e2⟩ := stepSlash_open a abs pre c ho hc
    have hz2 : (stepSlash (a.push c)).z =
        (z0 && decide ((stepSlash (a.push c)).out.length ≤ 3)) := by
      rw [e2, hz, e1, render_append_one, ← ho]
      simp only [List.length_append, List.length_cons, List.length_nil]
      by_cases h3 : a.out.length + c.length + 1 ≤ 3
      · have h4 : a.out.length ≤ 3 := by omega
        have h5 : a.out.length + c.length ≤ 3 := by omega
        simp [h3, h4, h5]
      · have h6 : ¬ (a.out.length + c.length + (0 + 1) ≤ 3) := by omega
        simp [h3, h6]
    obtain ⟨a2, f1, f2, f3⟩ := ih (pre ++ [c]) t (stepSlash (a.push c)) e1 hz2 hk2
    refine ⟨a2, by simpa using f1, f2, ?_⟩
    rw [← f3]
    have e : (c :: rest).flatMap (fun c => c ++ ['/']) ++ t =
        c ++ '/' :: (rest.flatMap (fun c => c ++ ['/']) ++ t) := by
      simp
    rw [e, items_proper_slash c hc]
    simp only [List.foldl_cons, stepItem, hst]

/-- The item-level description maps a canonical string to itself. -/
theorem canonItems_render (z0 abs : Bool) (pre : Char) (comps : List (List Char))
    (hk : Kc z0 abs comps) :
    canonItems (render abs comps) pre z0 = finish pre (render abs comps) := by
  unfold canonItems
  cases abs with
  | false =>
    obtain ⟨a2, f1, _, f3⟩ := replay z0 false comps [] [] { out := [], z := z0 }
      (by simp [render]) (by simp) hk
    have e : render false comps = comps.flatMap (fun c => c ++ ['/']) ++ [] := by
      simp [render]
    rw [e, f3]
    simp only [items, List.foldl_nil]
    rw [f1]
    simp [render]
  | true =>
    obtain ⟨a2, f1, _, f3⟩ := replay z0 true comps [] [] { out := ['/'], z := z0 }
      (by simp [render]) (by simp) hk
    have e : render true comps = '/' :: (comps.flatMap (fun c => c ++ ['/']) ++ []) := by
      simp [render]
    have hs : stepSlash { out := [], z := z0 } = { out := ['/'], z := z0 } := by
      simp [stepSlash, endsSlash, FState.push]
    rw [e, items_slash]
    simp only [List.foldl_cons, stepItem, hs]
    rw [f3]
    simp only [items, List.foldl_nil]
    rw [f1]
    simp [render]

/-- The item-level description of `canonicalize_path` is idempotent. -/
theorem canonItems_idem (p : List Char) (pre : Char) (z0 : Bool) :
    canonItems (canonItems p pre z0) pre z0 = canonItems p pre z0 := by
  obtain ⟨abs, comps, hk, ho⟩ := foldl_items_inv z0 pre p.length p { out := [], z := z0 }
    (le_refl _) ⟨false, [], by simp [render], Kc_nil z0 false, fun h => h⟩
  have hp : canonItems p pre z0 = finish pre (render abs comps) := ho
  rw [hp]
  by_cases hn : render abs comps = []
  · rw [hn]
    by_cases hpre : pre = '/'
    · have : finish pre [] = [] := by simp [finish, hpre]
      rw [this]
      simp [canonItems, items, finish, hpre]
    · have : finish pre [] = ['/'] := by simp [finish, hpre]
      rw [this]
      have hs : stepSlash { out := [], z := z0 } = { out := ['/'], z := z0 } := by
        simp [stepSlash, endsSlash, FState.push]
      unfold canonItems
      rw [items_slash]
      simp [items, stepItem, hs, finish]
  · have he : endsSlash (render abs comps) = true := by
      rw [endsSlash_render]
      by_contra hh
      apply hn
      rw [render_eq_nil]
      constructor
      · cases abs <;> simp_all
      · by_contra h3; exact hh (Or.inr h3)
    rw [finish_of_endsSlash pre _ he, canonItems_render z0 abs pre comps hk,
      finish_of_endsSlash pre _ he]

theorem sizeLimit_eq (n : Nat) (h1 : 0 < n) (h2 : n < SIZE_MOD) : sizeLimit n = n - 1 := by
  unfold sizeLimit
  have e : n + SIZE_MOD - 1 = (n - 1) + SIZE_MOD := by omega
  rw [e, Nat.add_mod_right, Nat.mod_eq_of_lt (by omega)]

/-! ## `canonicalize_path`: the claims -/

theorem cstrlen_of_no_nul (s : List Char) (h : ∀ c ∈ s, c ≠ NUL) : cstrlen s = s.length := by
  unfold cstrlen
  rw [List.takeWhile_eq_self_iff.2]
  intro c hc
  simpa using h c hc

/-- C1, amended: for every path, every capacity that leaves room for the whole path, an
added separator and the NUL (`strlen(p) + 2 <= buf_size`, so nothing is truncated) and
every initial content of the destination memory, canonicalizing the output of
`canonicalize_path` again, into memory with the same initial content, returns the same
string. -/
theorem canonicalize_path_idempotent (p : List Char) (m : Mem) (buf_size : Nat)
    (h1 : cstrlen p + 2 ≤ buf_size) (h2 : buf_size < SIZE_MOD) :
    canonicalize_path (canonicalize_path p m buf_size) m buf_size =
      canonicalize_path p m buf_size := by
  have hl : sizeLimit buf_size = buf_size - 1 := sizeLimit_eq buf_size (by omega) h2
  obtain ⟨e1, _, _, e4, e5⟩ := canonicalize_mem_spec p m buf_size (by rw [hl]; omega)
  have hlen : (canonicalize_path p m buf_size).length ≤ cstrlen p + 1 := by
    unfold canonicalize_path
    rw [Mem.prefix_length]
    exact e5
  have hnn : ∀ c ∈ canonicalize_path p m buf_size, c ≠ NUL := by
    intro c hc
    apply e4 c
    rw [← e1]
    exact hc
  have hc2 : cstrlen (canonicalize_path p m buf_size) ≤ sizeLimit buf_size := by
    rw [cstrlen_of_no_nul _ hnn, hl]
    omega
  rw [canonicalize_path_eq_items _ m buf_size hc2,
    canonicalize_path_eq_items p m buf_size (by rw [hl]; omega)]
  exact canonItems_idem p m.pre _

/-- Witness of C1 (amended) on the path of the spec example with a zero-filled buffer
of 4096 bytes. -/
theorem canonicalize_path_idempotent_witness :
    cstrlen "/usr/./local/../bin/".toList + 2 ≤ 4096 ∧ 4096 < SIZE_MOD ∧
      canonicalize_path (canonicalize_path "/usr/./local/../bin/".toList Mem.zero 4096)
          Mem.zero 4096 =
        canonicalize_path "/usr/./local/../bin/".toList Mem.zero 4096 :=
  ⟨by decide, by decide,
    canonicalize_path_idempotent "/usr/./local/../bin/".toList Mem.zero 4096
      (by decide) (by decide)⟩

/-- Counterexample to C1 as stated: with capacity 3 the path `/.a` is truncated to
`/./`, and canonicalizing `/./` again with the same capacity gives `/`. -/
theorem canonicalize_path_not_idempotent_when_truncated :
    canonicalize_path "/.a".toList Mem.zero 3 = "/./".toList ∧
      canonicalize_path (canonicalize_path "/.a".toList Mem.zero 3) Mem.zero 3 =
        "/".toList ∧
      canonicalize_path (canonicalize_path "/.a".toList Mem.zero 3) Mem.zero 3 ≠
        canonicalize_path "/.a".toList Mem.zero 3 := by
  decide

/-- C2, the failing input: for the empty path and a destination whose preceding byte is
`'/'`, `canonicalize_path` stores the empty string, which does not end in `'/'`.  This is
the call `canonicalize_path("", buf + 3, ...)` that `make_rel_path("/", "/x")` makes
after `strcat(buf, "../")`; there the final test `*q != '/'` reads `buf[2]`. -/
theorem canonicalize_path_empty_after_slash :
    ((strcatUps (Mem.zero.write 0 NUL) 1 0).shift 3).pre = '/' ∧
      canonicalize_path [] ((strcatUps (Mem.zero.write 0 NUL) 1 0).shift 3) 4093 = [] ∧
      canonicalize_path [] { pre := '/', cells := fun _ => NUL } 4096 = [] := by
  decide

/-- C3, the failing input: for the absolute path `/..` and a destination whose preceding
byte is `'/'`, `canonicalize_path` stores the empty string, while the reference
normaliser gives `/`; with any other preceding byte the code gives `/` too. -/
theorem canonicalize_path_root_parent_after_slash :
    canonicalize_path "/..".toList { pre := '/', cells := fun _ => NUL } 4096 = [] ∧
      canonicalize_path "/..".toList ((strcatUps (Mem.zero.write 0 NUL) 1 0).shift 3) 4093
        = [] ∧
      refNormalise "/..".toList = "/".toList ∧
      canonicalize_path "/..".toList Mem.zero 4096 = "/".toList ∧
      canonicalize_path "/usr/./local/../bin/".toList Mem.zero 4096 = "/usr/bin/".toList ∧
      refNormalise "/usr/./local/../bin/".toList = "/usr/bin/".toList := by
  decide

/-- C4, the failing input: three unresolvable leading `..` components are not kept;
in a zero-filled buffer `canonicalize_path` maps the string `../../../` to `../` (and
four of them to `/`), while one or two are kept. -/
theorem canonicalize_path_three_parents :
    dotDotSlashes 3 = "../../../".toList ∧
      canonicalize_path "../../../".toList Mem.zero 4096 = "../".toList ∧
      canonicalize_path (dotDotSlashes 3) Mem.zero 4096 = dotDotSlashes 1 ∧
      canonicalize_path (dotDotSlashes 4) Mem.zero 4096 = ['/'] ∧
      canonicalize_path (dotDotSlashes 1) Mem.zero 4096 = dotDotSlashes 1 ∧
      canonicalize_path (dotDotSlashes 2) Mem.zero 4096 = dotDotSlashes 2 := by
  decide

/-- C5, the failing input: with `buf_size = 2` and the path `a`, `canonicalize_path`
stores `a`, `/` and the NUL, that is 3 bytes: the NUL lands at index 2, one past the
end of the buffer. -/
theorem canonicalize_path_writes_past_capacity :
    canonicalize_path ['a'] Mem.zero 2 = ['a', '/'] ∧
      (canonicalize_mem ['a'] Mem.zero 2).2 = 2 ∧
      (canonicalize_mem ['a'] Mem.zero 2).1.cells 2 = NUL ∧
      ¬ ((canonicalize_mem ['a'] Mem.zero 2).2 + 1 ≤ 2) := by
  decide

/-! ## C strings in memory: `strlen`, `chosp`, `strcat` -/

theorem strlenFrom_spec (m : Mem) : ∀ (k fuel i : Nat), k ≤ fuel →
    (∀ j, j < k → m.cells (i + j) ≠ NUL) → m.cells (i + k) = NUL →
      Mem.strlenFrom m fuel i = k := by
  intro k
  induction k with
  | zero =>
    intro fuel i _ _ h0
    cases fuel with
    | zero => rfl
    | succ f => simp [Mem.strlenFrom, h0] at *; simpa using h0
  | succ k ih =>
    intro fuel i hf hne h0
    cases fuel with
    | zero => omega
    | succ f =>
      have h1 : m.cells i ≠ NUL := by simpa using hne 0 (by omega)
      rw [Mem.strlenFrom]
      simp only [h1, if_false]
      have := ih f (i + 1) (by omega)
        (fun j hj => by have := hne (j + 1) (by omega); rwa [show i + 1 + j = i + (j + 1) by omega])
        (by rwa [show i + 1 + k = i + (k + 1) by omega])
      omega

theorem Holds.cells_ne {m : Mem} {s : List Char} (h : Holds m s) (j : Nat)
    (hj : j < s.length) : m.cells j ≠ NUL := by
  apply h.2.2
  have := Mem.cells_mem_live m s.length j hj
  rwa [h.1] at this

theorem Holds.strlen {m : Mem} {s : List Char} (h : Holds m s) (bound : Nat)
    (hb : s.length ≤ bound) : m.strlen bound = s.length := by
  unfold Mem.strlen
  apply strlenFrom_spec m s.length bound 0 hb
  · intro j hj
    simpa using h.cells_ne j hj
  · simpa using h.2.1

theorem Holds.nil_iff (m : Mem) : Holds m [] ↔ m.cells 0 = NUL := by
  simp [Holds, Mem.prefix_]

theorem Holds.cells_last {m : Mem} {s : List Char} (h : Holds m s) (hs : s ≠ []) :
    some (m.cells (s.length - 1)) = s.getLast? := by
  have hl : 0 < s.length := List.length_pos.2 hs
  have h1 := Mem.prefix_getElem m s.length (s.length - 1) (by omega)
  rw [h.1] at h1
  rw [← h1, List.getLast?_eq_getElem?]

theorem Holds.dropLast_write {m : Mem} {s : List Char} (h : Holds m s) (hs : s ≠ []) :
    Holds (m.write (s.length - 1) NUL) s.dropLast := by
  have hl : 0 < s.length := List.length_pos.2 hs
  have hlen : s.dropLast.length = s.length - 1 := by simp
  refine ⟨?_, ?_, ?_⟩
  · rw [hlen, Mem.prefix_write_ge m _ _ _ (le_refl _), Mem.prefix_pred, h.1]
  · rw [hlen]; exact Mem.write_cells_eq _ _ _
  · intro c hc
    exact h.2.2 c ((List.dropLast_sublist s).subset hc)

/-- The function `chosp` removes one trailing slash of the string in the buffer. -/
theorem chosp_holds (m : Mem) (s : List Char) (bound : Nat) (h : Holds m s)
    (hb : s.length ≤ bound) : Holds (chosp m bound) (chospStr s) := by
  unfold chosp chospStr
  by_cases hs : s = []
  · subst hs
    have : m.cells 0 = NUL := (Holds.nil_iff m).1 h
    simp [this, h]
  · have h0 : m.cells 0 ≠ NUL := h.cells_ne 0 (List.length_pos.2 hs)
    simp only [h0, if_false]
    rw [h.strlen bound hb]
    have hl := h.cells_last hs
    by_cases hsl : s.getLast? = some '/'
    · rw [hsl] at hl
      have : m.cells (s.length - 1) = '/' := by simpa using hl
      simp only [this, hsl, if_true]
      exact h.dropLast_write hs
    · have : m.cells (s.length - 1) ≠ '/' := by
        intro hh
        rw [hh] at hl
        exact hsl hl.symm
      simp only [this, hsl, if_false]
      exact h

theorem countSlashes_holds (m : Mem) (s : List Char) (h : Holds m s) :
    countSlashes m s.length = s.count '/' := by
  unfold countSlashes
  rw [h.1]

theorem dotDotSlashes_length (n : Nat) : (dotDotSlashes n).length = 3 * n := by
  induction n with
  | zero => rfl
  | succ n ih => simp [dotDotSlashes, ih]; omega

theorem dotDotSlashes_no_nul (n : Nat) : ∀ c ∈ dotDotSlashes n, c ≠ NUL := by
  induction n with
  | zero => simp [dotDotSlashes]
  | succ n ih =>
    intro c hc
    simp only [dotDotSlashes, List.mem_cons] at hc
    rcases hc with h | h | h | h
    · subst h; decide
    · subst h; decide
    · subst h; decide
    · exact ih c h

theorem strcatUp_holds (m : Mem) (s : List Char) (h : Holds m s) :
    Holds (strcatUp m s.length) (s ++ ['.', '.', '/']) ∧ (strcatUp m s.length).pre = m.pre := by
  have hlen : (s ++ ['.', '.', '/']).length = s.length + 3 := by simp
  refine ⟨⟨?_, ?_, ?_⟩, rfl⟩
  · rw [hlen]
    unfold strcatUp
    rw [Mem.prefix_write_ge _ _ _ _ (le_refl _), Mem.prefix_write, Mem.prefix_write,
      Mem.prefix_write, h.1]
    simp
  · rw [hlen]
    unfold strcatUp
    exact Mem.write_cells_eq _ _ _
  · intro c hc
    rcases List.mem_append.1 hc with h1 | h1
    · exact h.2.2 c h1
    · simp only [List.mem_cons, List.mem_singleton] at h1
      rcases h1 with h1 | h1 | h1 | h1
      · subst h1; decide
      · subst h1; decide
      · subst h1; decide
      · simp at h1

theorem strcatUps_holds (n : Nat) : ∀ (m : Mem) (s : List Char), Holds m s →
    Holds (strcatUps m n s.length) (s ++ dotDotSlashes n) ∧
      (strcatUps m n s.length).pre = m.pre := by
  induction n with
  | zero =>
    intro m s h
    simpa [strcatUps, dotDotSlashes] using h
  | succ n ih =>
    intro m s h
    obtain ⟨h1, h2⟩ := strcatUp_holds m s h
    have := ih (strcatUp m s.length) (s ++ ['.', '.', '/']) h1
    have hlen : (s ++ ['.', '.', '/']).length = s.length + 3 := by simp
    rw [hlen] at this
    rw [strcatUps]
    refine ⟨?_, by rw [this.2, h2]⟩
    have e : s ++ dotDotSlashes (n + 1) = s ++ ['.', '.', '/'] ++ dotDotSlashes n := by
      simp [dotDotSlashes]
    rw [e]
    exact this.1

theorem Mem.unshift_live (m m2 : Mem) (off k : Nat) :
    (m.unshift m2 off).prefix_ (off + k) = m.prefix_ off ++ m2.prefix_ k := by
  induction k with
  | zero =>
    simp only [Nat.add_zero]
    rw [show m2.prefix_ 0 = [] by simp [Mem.prefix_], List.append_nil]
    apply Mem.prefix_congr
    intro i hi
    simp [Mem.unshift, hi]
  | succ k ih =>
    rw [← Nat.add_assoc, Mem.prefix_succ, ih, Mem.prefix_succ]
    simp [Mem.unshift]

theorem Mem.unshift_cells (m m2 : Mem) (off k : Nat) :
    (m.unshift m2 off).cells (off + k) = m2.cells k := by
  simp [Mem.unshift]

/-- The buffer holds `s ++ t` after the code has stored `t` at `buf + strlen(s)`. -/
theorem Holds.unshift {m m2 : Mem} {s t : List Char} (hs : Holds m s)
    (ht : m2.prefix_ t.length = t) (h0 : m2.cells t.length = NUL) (hn : ∀ c ∈ t, c ≠ NUL) :
    Holds (m.unshift m2 s.length) (s ++ t) := by
  refine ⟨?_, ?_, ?_⟩
  · rw [List.length_append, Mem.unshift_live, hs.1, ht]
  · rw [List.length_append, Mem.unshift_cells, h0]
  · intro c hc
    rcases List.mem_append.1 hc with h | h
    · exact hs.2.2 c h
    · exact hn c h

theorem Holds.shift_pre {m : Mem} {s : List Char} (hs : Holds m s) :
    (m.shift s.length).pre = s.getLast?.getD m.pre := by
  unfold Mem.shift
  simp only []
  rw [Mem.last_eq, hs.1]

/-! ## The prefix loop of `make_rel_path` -/

theorem peek_append_right (a b : List Char) (i : Nat) :
    peek (a ++ b) (a.length + i) = peek b i := by
  unfold peek
  simp [List.getD, List.getElem?_append_right]

theorem peek_append_length (a b : List Char) : peek (a ++ b) a.length = peek b 0 := by
  simpa using peek_append_right a b 0

theorem slashed_nil : slashed [] = [] := rfl

theorem slashed_cons (c : List Char) (cs : List (List Char)) :
    slashed (c :: cs) = '/' :: c ++ slashed cs := by
  simp [slashed]

theorem slashed_append (a b : List (List Char)) : slashed (a ++ b) = slashed a ++ slashed b := by
  simp [slashed]

theorem slashed_head (cs : List (List Char)) : isReg (peek (slashed cs) 0) = false := by
  cases cs with
  | nil => simp [slashed, peek_nil]; decide
  | cons c cs => rw [slashed_cons]; simp [peek_zero_cons]; decide

theorem slashed_no_nul (cs : List (List Char)) (h : ∀ c ∈ cs, Proper c) :
    ∀ x ∈ slashed cs, x ≠ NUL := by
  intro x hx
  simp only [slashed, List.mem_flatMap] at hx
  obtain ⟨c, hc, hx⟩ := hx
  rcases List.mem_cons.1 hx with h1 | h1
  · subst h1; decide
  · exact (h c hc).no_nul x h1

theorem takeWhile_proper (c r : List Char) (hc : Proper c) (hr : isReg (peek r 0) = false) :
    (c ++ r).takeWhile isReg = c ∧ (c ++ r).dropWhile isReg = r := by
  have h1 : ∀ v ∈ c, isReg v = true := hc.2
  rw [List.takeWhile_append_of_pos h1, List.dropWhile_append_of_pos h1]
  cases r with
  | nil => simp
  | cons d r =>
    rw [peek_zero_cons] at hr
    simp [List.takeWhile_cons, List.dropWhile_cons, hr]

/-- In a string `A ++ "/" ++ c ++ R`, where `c` is a component and `R` is empty or
starts with a separator, `strchr` from the first character of `c` stops right after
`c`. -/
theorem strchrOrEnd_comp (A c R : List Char) (hc : Proper c)
    (hR : isReg (peek R 0) = false) (hn : ∀ x ∈ A ++ '/' :: c ++ R, x ≠ NUL) :
    strchrOrEnd (A ++ '/' :: c ++ R) (A.length + 1) = A.length + 1 + c.length := by
  have hd : (A ++ '/' :: c ++ R).drop (A.length + 1) = c ++ R := by
    have e : A ++ '/' :: c ++ R = (A ++ ['/']) ++ (c ++ R) := by simp
    rw [e, show A.length + 1 = (A ++ ['/']).length by simp, List.drop_left]
  have hj : nextSlash (A ++ '/' :: c ++ R) (A.length + 1) = A.length + 1 + c.length := by
    unfold nextSlash
    rw [hd, (takeWhile_proper c R hc hR).1]
  unfold strchrOrEnd
  simp only [hj]
  have hp : peek (A ++ '/' :: c ++ R) (A.length + 1 + c.length) = peek R 0 := by
    have e : A ++ '/' :: c ++ R = (A ++ '/' :: c) ++ R := by simp
    rw [e, show A.length + 1 + c.length = (A ++ '/' :: c).length by simp; omega]
    exact peek_append_length _ _
  rw [hp]
  by_cases h0 : peek R 0 = '/'
  · simp [h0]
  · simp only [h0, if_false]
    have hnul : peek R 0 = NUL := by
      rcases (isReg_false_iff _).1 hR with h | h
      · exact absurd h h0
      · exact h
    have hRn : R = [] := by
      cases R with
      | nil => rfl
      | cons d R' =>
        rw [peek_zero_cons] at hnul
        exact absurd hnul (hn d (by simp))
    subst hRn
    rw [cstrlen_of_no_nul _ hn]
    simp
    omega

theorem strncmpEq_iff (n : Nat) : ∀ (a b : List Char), (∀ c ∈ a, c ≠ NUL) →
    n ≤ a.length → n ≤ b.length → (strncmpEq a b n = true ↔ a.take n = b.take n) := by
  induction n with
  | zero => intro a b _ _ _; simp [strncmpEq]
  | succ n ih =>
    intro a b ha hla hlb
    cases a with
    | nil => simp at hla
    | cons x a' =>
      cases b with
      | nil => simp at hlb
      | cons y b' =>
        have hx : x ≠ NUL := ha x (by simp)
        simp only [List.length_cons] at hla hlb
        rw [strncmpEq]
        simp only [peek_zero_cons, List.tail_cons, List.take_succ_cons, List.cons.injEq]
        by_cases hxy : x = y
        · subst hxy
          simp only [ne_eq, not_true_eq_false, if_false, hx, true_and]
          exact ih a' b' (fun c hc => ha c (by simp [hc])) (by omega) (by omega)
        · simp [hxy]

theorem strnoscmpEq_take (a b : List Char) (n : Nat) (ha : ∀ c ∈ a, c ≠ NUL)
    (hla : n ≤ a.length) (hlb : n ≤ b.length) :
    strnoscmpEq a b n = true ↔ a.take n = b.take n :=
  strncmpEq_iff n a b ha hla hlb

theorem commonLen_le_left (cs : List (List Char)) : ∀ ds, commonLen cs ds ≤ cs.length := by
  induction cs with
  | nil => intro ds; simp [commonLen]
  | cons c cs ih =>
    intro ds
    cases ds with
    | nil => simp [commonLen]
    | cons d ds =>
      simp only [commonLen]
      split
      · have := ih ds; simp; omega
      · omega

theorem commonLen_take (cs : List (List Char)) :
    ∀ ds, cs.take (commonLen cs ds) = ds.take (commonLen cs ds) := by
  induction cs with
  | nil => intro ds; simp [commonLen]
  | cons c cs ih =>
    intro ds
    cases ds with
    | nil => simp [commonLen]
    | cons d ds =>
      simp only [commonLen]
      split
      · rename_i h
        subst h
        simp [ih ds]
      · simp

theorem commonLen_stop (cs : List (List Char)) : ∀ ds c d cs2 ds2,
    cs.drop (commonLen cs ds) = c :: cs2 → ds.drop (commonLen cs ds) = d :: ds2 → c ≠ d := by
  induction cs with
  | nil => intro ds c d cs2 ds2 h; simp at h
  | cons x cs ih =>
    intro ds c d cs2 ds2 h1 h2
    cases ds with
    | nil => simp at h2
    | cons y ds =>
      simp only [commonLen] at h1 h2
      by_cases hxy : x = y
      · simp only [hxy, if_true, List.drop_succ_cons] at h1 h2
        exact ih ds c d cs2 ds2 h1 h2
      · simp only [hxy, if_false, List.drop_zero, List.cons.injEq] at h1 h2
        rw [← h1.1, ← h2.1]
        exact hxy

theorem peek_length (s : List Char) : peek s s.length = NUL := by
  simp [peek, List.getD]

theorem relLoop_zero (path base : List Char) (p b : Nat) :
    relLoop path base 0 p b = (p, b) := rfl

theorem relLoop_succ (path base : List Char) (fuel p b : Nat) :
    relLoop path base (fuel + 1) p b =
      if peek path p ≠ NUL && peek path (p + 1) ≠ NUL &&
          peek base b ≠ NUL && peek base (b + 1) ≠ NUL then
        if strchrOrEnd path (p + 1) ≠ strchrOrEnd base (b + 1) ||
            !strnoscmpEq path base (strchrOrEnd path (p + 1)) then (p, b)
        else relLoop path base fuel (strchrOrEnd path (p + 1)) (strchrOrEnd base (b + 1))
      else (p, b) := rfl

theorem slashed_snoc_length (pre : List (List Char)) (r : List Char) :
    (slashed (pre ++ [r])).length = (slashed pre).length + 1 + r.length := by
  rw [slashed_append, slashed_cons, slashed_nil]
  simp
  omega

/-- The first loop of `make_rel_path` skips the shared leading components `rest` and
stops at the first components that differ, or where one of the paths ends. -/
theorem relLoop_common (cs2 ds2 : List (List Char))
    (hstop : ∀ c d cs3 ds3, cs2 = c :: cs3 → ds2 = d :: ds3 → c ≠ d) :
    ∀ (rest pre : List (List Char)) (fuel : Nat), rest.length ≤ fuel →
      (∀ c ∈ pre ++ rest ++ cs2, Proper c) → (∀ c ∈ pre ++ rest ++ ds2, Proper c) →
      relLoop (slashed (pre ++ rest ++ cs2)) (slashed (pre ++ rest ++ ds2)) fuel
          (slashed pre).length (slashed pre).length =
        ((slashed (pre ++ rest)).length, (slashed (pre ++ rest)).length) := by
  intro rest
  induction rest with
  | nil =>
    intro pre fuel _ hP hB
    simp only [List.append_nil] at hP hB ⊢
    cases fuel with
    | zero => rfl
    | succ f =>
      rw [relLoop_succ]
      split
      · rename_i hcond
        simp only [Bool.and_eq_true, decide_eq_true_eq] at hcond
        obtain ⟨⟨⟨hc1, hc2⟩, hc3⟩, hc4⟩ := hcond
        cases cs2 with
        | nil =>
          simp only [List.append_nil] at hc1
          exact absurd (peek_length _) (by simpa using hc1)
        | cons c cs3 =>
          cases ds2 with
          | nil =>
            simp only [List.append_nil] at hc3
            exact absurd (peek_length _) (by simpa using hc3)
          | cons d ds3 =>
            have hne := hstop c d cs3 ds3 rfl rfl
            have hPc : Proper c := hP c (by simp)
            have hPd : Proper d := hB d (by simp)
            have eP : slashed (pre ++ c :: cs3) = slashed pre ++ '/' :: c ++ slashed cs3 := by
              rw [slashed_append, slashed_cons]; simp
            have eB : slashed (pre ++ d :: ds3) = slashed pre ++ '/' :: d ++ slashed ds3 := by
              rw [slashed_append, slashed_cons]; simp
            have hnP := slashed_no_nul _ hP
            have hnB := slashed_no_nul _ hB
            have p1 := strchrOrEnd_comp (slashed pre) c (slashed cs3) hPc (slashed_head cs3)
              (by rw [← eP]; exact hnP)
            have b1 := strchrOrEnd_comp (slashed pre) d (slashed ds3) hPd (slashed_head ds3)
              (by rw [← eB]; exact hnB)
            rw [← eP] at p1
            rw [← eB] at b1
            rw [p1, b1]
            by_cases hl : c.length = d.length
            · have hcmp : strnoscmpEq (slashed (pre ++ c :: cs3)) (slashed (pre ++ d :: ds3))
                  ((slashed pre).length + 1 + c.length) = false := by
                by_contra hh
                simp only [Bool.not_eq_false] at hh
                rw [strnoscmpEq_take _ _ _ hnP (by rw [eP]; simp; omega)
                  (by rw [eB]; simp; omega)] at hh
                have t1 : (slashed (pre ++ c :: cs3)).take ((slashed pre).length + 1 + c.length)
                    = slashed pre ++ '/' :: c := by
                  rw [eP, show slashed pre ++ '/' :: c ++ slashed cs3 =
                    (slashed pre ++ '/' :: c) ++ slashed cs3 by simp]
                  rw [show (slashed pre).length + 1 + c.length = (slashed pre ++ '/' :: c).length
                    by simp; omega]
                  exact List.take_left _ _
                have t2 : (slashed (pre ++ d :: ds3)).take ((slashed pre).length + 1 + c.length)
                    = slashed pre ++ '/' :: d := by
                  rw [eB, show slashed pre ++ '/' :: d ++ slashed ds3 =
                    (slashed pre ++ '/' :: d) ++ slashed ds3 by simp]
                  rw [show (slashed pre).length + 1 + c.length = (slashed pre ++ '/' :: d).length
                    by simp; omega]
                  exact List.take_left _ _
                rw [t1, t2] at hh
                have := List.append_cancel_left hh
                exact hne (List.cons.inj this).2
              simp [hcmp]
            · have : (slashed pre).length + 1 + c.length ≠ (slashed pre).length + 1 + d.length := by
                omega
              simp [this]
      · rfl
  | cons r rest ih =>
    intro pre fuel hf hP hB
    cases fuel with
    | zero => simp at hf
    | succ f =>
      simp only [List.length_cons] at hf
      have hPr : Proper r := hP r (by simp)
      have eP : slashed (pre ++ r :: rest ++ cs2) =
          slashed pre ++ '/' :: r ++ slashed (rest ++ cs2) := by
        rw [List.append_assoc, slashed_append, List.cons_append, slashed_cons]; simp
      have eB : slashed (pre ++ r :: rest ++ ds2) =
          slashed pre ++ '/' :: r ++ slashed (rest ++ ds2) := by
        rw [List.append_assoc, slashed_append, List.cons_append, slashed_cons]; simp
      have hnP := slashed_no_nul _ hP
      have hnB := slashed_no_nul _ hB
      have p1 := strchrOrEnd_comp (slashed pre) r (slashed (rest ++ cs2)) hPr (slashed_head _)
        (by rw [← eP]; exact hnP)
      have b1 := strchrOrEnd_comp (slashed pre) r (slashed (rest ++ ds2)) hPr (slashed_head _)
        (by rw [← eB]; exact hnB)
      rw [← eP] at p1
      rw [← eB] at b1
      have hsl : ('/' : Char) ≠ NUL := by decide
      have hr0 : peek r 0 ≠ NUL := by
        cases r with
        | nil => exact absurd rfl hPr.1
        | cons x r' => rw [peek_zero_cons]; exact hPr.no_nul x (by simp)
      have q1 : ∀ R, peek (slashed pre ++ '/' :: r ++ R) (slashed pre).length = '/' := by
        intro R
        rw [show slashed pre ++ '/' :: r ++ R = slashed pre ++ ('/' :: (r ++ R)) by simp,
          peek_append_length, peek_zero_cons]
      have q2 : ∀ R, peek (slashed pre ++ '/' :: r ++ R) ((slashed pre).length + 1) =
          peek r 0 := by
        intro R
        rw [show slashed pre ++ '/' :: r ++ R = slashed pre ++ ('/' :: (r ++ R)) by simp,
          peek_append_right, peek_succ_cons]
        cases r with
        | nil => exact absurd rfl hPr.1
        | cons x r' => rfl
      have hcond : (peek (slashed (pre ++ r :: rest ++ cs2)) (slashed pre).length ≠ NUL &&
          peek (slashed (pre ++ r :: rest ++ cs2)) ((slashed pre).length + 1) ≠ NUL &&
          peek (slashed (pre ++ r :: rest ++ ds2)) (slashed pre).length ≠ NUL &&
          peek (slashed (pre ++ r :: rest ++ ds2)) ((slashed pre).length + 1) ≠ NUL) = true := by
        rw [eP, eB, q1, q2, q1, q2]
        simp [hsl, hr0]
      have t1 : ∀ R, (slashed pre ++ '/' :: r ++ R).take ((slashed pre).length + 1 + r.length)
          = slashed pre ++ '/' :: r := by
        intro R
        rw [show slashed pre ++ '/' :: r ++ R = (slashed pre ++ '/' :: r) ++ R by simp]
        rw [show (slashed pre).length + 1 + r.length = (slashed pre ++ '/' :: r).length
          by simp; omega]
        exact List.take_left _ _
      have hcmp : strnoscmpEq (slashed (pre ++ r :: rest ++ cs2))
          (slashed (pre ++ r :: rest ++ ds2)) ((slashed pre).length + 1 + r.length) = true := by
        rw [strnoscmpEq_take _ _ _ hnP (by rw [eP]; simp; omega) (by rw [eB]; simp; omega)]
        rw [eP, eB, t1, t1]
      rw [relLoop_succ, hcond]
      simp only [if_true]
      rw [p1, b1, hcmp]
      simp only [ne_eq, not_true_eq_false, decide_False, Bool.not_true, Bool.or_self,
        Bool.false_eq_true, if_false]
      have hlen := slashed_snoc_length pre r
      have e1 : pre ++ r :: rest ++ cs2 = (pre ++ [r]) ++ rest ++ cs2 := by simp
      have e2 : pre ++ r :: rest ++ ds2 = (pre ++ [r]) ++ rest ++ ds2 := by simp
      have e3 : pre ++ r :: rest = (pre ++ [r]) ++ rest := by simp
      rw [← hlen, e1, e2, e3]
      exact ih (pre ++ [r]) f (by omega) (by rw [← e1]; exact hP) (by rw [← e2]; exact hB)

/-! ## `canonicalize_path` on canonical paths without a trailing separator -/

theorem KcAux_of_clean (z0 abs : Bool) (rest : List (List Char)) :
    ∀ (pre : List (List Char)), (∀ c ∈ rest, Clean c) → KcAux z0 abs pre rest := by
  induction rest with
  | nil => intro pre _; simp [KcAux]
  | cons c rest ih =>
    intro pre h
    have hc := h c (by simp)
    refine ⟨⟨hc.1, fun hh => absurd hh hc.2.1, fun hh => absurd hh hc.2.2⟩, ?_⟩
    exact ih _ (fun x hx => h x (by simp [hx]))

theorem Kc_of_clean (z0 abs : Bool) (cs : List (List Char)) (h : ∀ c ∈ cs, Clean c) :
    Kc z0 abs cs := KcAux_of_clean z0 abs cs [] h

/-- The item-level description maps a canonical string without its trailing separator
to the canonical string. -/
theorem canonItems_render_open (z0 abs : Bool) (pre : Char) (cs : List (List Char))
    (c : List Char) (hk : Kc z0 abs (cs ++ [c])) :
    canonItems (render abs cs ++ c) pre z0 = render abs (cs ++ [c]) := by
  obtain ⟨hk1, hok⟩ := (KcAux_append z0 abs cs [] c).1 hk
  simp only [List.nil_append] at hok
  have hc := hok.1
  have key : ∀ (a : FState), a.out = render abs [] →
      a.z = (z0 && decide (a.out.length ≤ 3)) →
      finish pre ((items (cs.flatMap (fun c => c ++ ['/']) ++ c)).foldl stepItem a).out =
        render abs (cs ++ [c]) := by
    intro a ho hz
    obtain ⟨a2, f1, f2, f3⟩ := replay z0 abs cs [] c a ho hz hk1
    simp only [List.nil_append] at f1
    rw [f3, items_proper_end c hc]
    simp only [List.foldl_cons, List.foldl_nil, stepItem]
    rw [stepComp_push_of_okAfter z0 abs cs c a2 f1 f2 hok]
    simp only [FState.push]
    rw [finish_open pre _ _ hc, f1, render_append_one]
  unfold canonItems
  cases abs with
  | false =>
    have e : render false cs ++ c = cs.flatMap (fun c => c ++ ['/']) ++ c := by
      simp [render]
    rw [e]
    exact key { out := [], z := z0 } (by simp [render]) (by simp)
  | true =>
    have e : render true cs ++ c = '/' :: (cs.flatMap (fun c => c ++ ['/']) ++ c) := by
      simp [render]
    have hs : stepSlash { out := [], z := z0 } = { out := ['/'], z := z0 } := by
      simp [stepSlash, endsSlash, FState.push]
    rw [e, items_slash]
    simp only [List.foldl_cons, stepItem, hs]
    exact key { out := ['/'], z := z0 } (by simp [render]) (by simp)

theorem slashed_snoc (cs : List (List Char)) (c : List Char) :
    slashed (cs ++ [c]) = render true cs ++ c := by
  induction cs with
  | nil => simp [slashed, render]
  | cons x cs ih =>
    rw [List.cons_append, slashed_cons, ih]
    simp [render]

theorem render_true_tail (cs : List (List Char)) (c : List Char) :
    (render true cs ++ c).tail = render false cs ++ c := by
  simp [render]

theorem render_true_dropLast (cs : List (List Char)) (c : List Char) :
    (render true (cs ++ [c])).dropLast = slashed (cs ++ [c]) := by
  rw [render_append_one, slashed_snoc, List.dropLast_concat]

theorem count_slash_slashed (cs : List (List Char)) (h : ∀ c ∈ cs, Proper c) :
    (slashed cs).count '/' = cs.length := by
  induction cs with
  | nil => simp [slashed]
  | cons c cs ih =>
    rw [slashed_cons]
    have hc : c.count '/' = 0 := by
      rw [List.count_eq_zero]
      intro hh
      exact (h c (by simp)).no_slash '/' hh rfl
    have := ih (fun x hx => h x (by simp [hx]))
    simp [List.count_append, List.count_cons, hc, this]

theorem canonItems_nil (pre : Char) (z0 : Bool) : canonItems [] pre z0 = finish pre [] := by
  simp [canonItems, items]

theorem canonItems_slash (pre : Char) (z0 : Bool) : canonItems ['/'] pre z0 = ['/'] := by
  have hs : stepSlash { out := [], z := z0 } = { out := ['/'], z := z0 } := by
    simp [stepSlash, endsSlash, FState.push]
  unfold canonItems
  rw [items_slash]
  simp [items, stepItem, hs, finish]

theorem chospStr_finish_nil (pre : Char) : chospStr (finish pre []) = [] := by
  by_cases h : pre = '/'
  · simp [finish, h, chospStr]
  · simp [finish, h, chospStr]

/-- After `canonicalize_path` and `chosp`, the rest of the base, `""`, `"/"` or
`"/d1/.../dn"`, is back to `"/d1/.../dn"` (empty for no component). -/
theorem chospStr_canonItems_base (b : List Char) (bs : List (List Char)) (pre : Char)
    (z0 : Bool) (hb : b = slashed bs ∨ (b = ['/'] ∧ bs = [])) (hc : ∀ c ∈ bs, Clean c) :
    chospStr (canonItems b pre z0) = slashed bs := by
  rcases hb with hb | ⟨hb, hbs⟩
  · rcases List.eq_nil_or_concat bs with h | ⟨init, d, h⟩
    · subst h
      rw [hb, slashed_nil, canonItems_nil, chospStr_finish_nil]
    · rw [List.concat_eq_append] at h
      subst h
      rw [hb, slashed_snoc, canonItems_render_open z0 true pre init d (Kc_of_clean _ _ _ hc)]
      rw [← slashed_snoc, ← render_true_dropLast]
      unfold chospStr
      have : (render true (init ++ [d])).getLast? = some '/' := by
        rw [render_append_one]; simp
      simp [this]
  · subst hbs
    rw [hb, canonItems_slash]
    simp [chospStr, slashed]

/-- What the second `canonicalize_path` of `make_rel_path` stores for the rest of the
path, `""`, `"/"` or `"/c1/.../cm"`, once its leading separator is skipped. -/
theorem canonItems_path_rest (p : List Char) (ps : List (List Char)) (pre : Char) (z0 : Bool)
    (hp : p = slashed ps ∨ (p = ['/'] ∧ ps = [])) (hc : ∀ c ∈ ps, Clean c) :
    canonItems (if peek p 0 = '/' then p.tail else p) pre z0 =
      if ps = [] then finish pre [] else render false ps := by
  rcases hp with hp | ⟨hp, hps⟩
  · rcases List.eq_nil_or_concat ps with h | ⟨init, c, h⟩
    · subst h
      have h3 : NUL ≠ '/' := by decide
      rw [hp, slashed_nil]
      simp [peek_nil, h3, canonItems_nil]
    · rw [List.concat_eq_append] at h
      subst h
      have h0 : peek (slashed (init ++ [c])) 0 = '/' := by
        rw [slashed_snoc]; simp [render, peek_zero_cons]
      rw [hp, h0]
      simp only [if_true]
      rw [slashed_snoc, render_true_tail,
        canonItems_render_open z0 false pre init c (Kc_of_clean _ _ _ hc)]
      simp
  · subst hps
    rw [hp]
    simp [peek_zero_cons, canonItems_nil]

/-! ## `make_rel_path` after its first loop -/

theorem chosp_pre (m : Mem) (bound : Nat) : (chosp m bound).pre = m.pre := by
  unfold chosp
  split
  · rfl
  · simp only []
    split
    · rfl
    · rfl

theorem chospStr_length_le (s : List Char) : (chospStr s).length ≤ s.length := by
  unfold chospStr
  split
  · simp
  · exact le_refl _

theorem Holds.cells_zero_iff {m : Mem} {s : List Char} (h : Holds m s) :
    m.cells 0 = NUL ↔ s = [] := by
  constructor
  · intro h0
    by_contra hs
    exact h.cells_ne 0 (List.length_pos.2 hs) h0
  · intro hs
    subst hs
    exact (Holds.nil_iff m).1 h

theorem Holds.of_spec {m : Mem} {k : Nat} {s : List Char} (h1 : m.prefix_ k = s)
    (h2 : m.cells k = NUL) (h3 : ∀ c ∈ s, c ≠ NUL) : Holds m s ∧ k = s.length := by
  have hk : k = s.length := by rw [← h1, Mem.prefix_length]
  subst hk
  exact ⟨⟨h1, h2, h3⟩, rfl⟩

theorem slashed_length_ge (cs : List (List Char)) : cs.length ≤ (slashed cs).length := by
  induction cs with
  | nil => simp
  | cons c cs ih =>
    rw [slashed_cons]
    simp
    omega

/-- The first half of `make_rel_path` after its loop leaves one `"../"` per component
of the rest of the base in the buffer. -/
theorem relCount_spec (PATH_MAX : Nat) (b : List Char) (bs : List (List Char)) (m0 : Mem)
    (hb : b = slashed bs ∨ (b = ['/'] ∧ bs = [])) (hbs : ∀ c ∈ bs, Clean c)
    (h1 : b.length + 1 ≤ PATH_MAX) (h3 : PATH_MAX < SIZE_MOD) :
    Holds (relCount PATH_MAX b m0).1 (dotDotSlashes bs.length) ∧
      (relCount PATH_MAX b m0).2 = bs.length ∧
      (relCount PATH_MAX b m0).1.pre = m0.pre := by
  have hl : sizeLimit PATH_MAX = PATH_MAX - 1 := sizeLimit_eq PATH_MAX (by omega) h3
  have hcl := cstrlen_le_length b
  obtain ⟨e1, e2, e3, e4, _⟩ := canonicalize_mem_spec b m0 PATH_MAX (by rw [hl]; omega)
  obtain ⟨H1, hk⟩ := Holds.of_spec e1 e2 e4
  have H2 := chosp_holds _ _ ((canonicalize_mem b m0 PATH_MAX).2 + 1) H1 (by omega)
  rw [chospStr_canonItems_base b bs _ _ hb hbs] at H2
  have hle : (slashed bs).length ≤ (canonicalize_mem b m0 PATH_MAX).2 + 1 := by
    have := chospStr_length_le (canonItems b m0.pre (decide (m0.cells 3 = NUL)))
    rw [chospStr_canonItems_base b bs _ _ hb hbs] at this
    omega
  have hns : countSlashes (chosp (canonicalize_mem b m0 PATH_MAX).1
        ((canonicalize_mem b m0 PATH_MAX).2 + 1))
      ((chosp (canonicalize_mem b m0 PATH_MAX).1
        ((canonicalize_mem b m0 PATH_MAX).2 + 1)).strlen
          ((canonicalize_mem b m0 PATH_MAX).2 + 1)) = bs.length := by
    rw [H2.strlen _ hle, countSlashes_holds _ _ H2,
      count_slash_slashed bs (fun c hc => (hbs c hc).1)]
  have H3 : Holds ((chosp (canonicalize_mem b m0 PATH_MAX).1
      ((canonicalize_mem b m0 PATH_MAX).2 + 1)).write 0 NUL) [] :=
    (Holds.nil_iff _).2 (Mem.write_cells_eq _ _ _)
  obtain ⟨H4, hpre⟩ := strcatUps_holds bs.length _ [] H3
  simp only [List.nil_append, List.length_nil] at H4 hpre
  unfold relCount
  simp only [hns]
  refine ⟨H4, trivial, ?_⟩
  rw [hpre, Mem.write_pre, chosp_pre, e3]

theorem dotDotSlashes_getLast (n : Nat) (pre : Char) (h : 0 < n) :
    (dotDotSlashes n).getLast?.getD pre = '/' := by
  induction n with
  | zero => omega
  | succ n ih =>
    cases n with
    | zero => simp [dotDotSlashes]
    | succ k =>
      have := ih (by omega)
      rw [dotDotSlashes]
      rw [show dotDotSlashes (k + 1) = '.' :: '.' :: '/' :: dotDotSlashes k from rfl] at this ⊢
      simpa [List.getLast?_cons_cons] using this

theorem chospStr_concat_slash (s : List Char) : chospStr (s ++ ['/']) = s := by
  simp [chospStr]

theorem render_false_eq (ps : List (List Char)) :
    render false ps = ps.flatMap (fun c => c ++ ['/']) := by
  simp [render]

/-- The second half of `make_rel_path` after its loop appends the rest of the path to
the `"../"` sequence, removes the trailing separator, and replaces an empty result by
`"."`; stated for every capacity `sizeof(buf) - strlen(buf)`, computed in `size_t`,
that lets `canonicalize_path` scan the whole rest. -/
theorem relAppend_spec_wide (PATH_MAX : Nat) (p : List Char) (ps : List (List Char))
    (m2 : Mem) (ns : Nat) (hp : p = slashed ps ∨ (p = ['/'] ∧ ps = []))
    (hps : ∀ c ∈ ps, Clean c) (H : Holds m2 (dotDotSlashes ns))
    (hfit : cstrlen (if peek p 0 = '/' then p.tail else p) ≤
      sizeLimit ((PATH_MAX + SIZE_MOD - 3 * ns % SIZE_MOD) % SIZE_MOD)) :
    (relAppend PATH_MAX p m2 ns).1.prefix_ (relAppend PATH_MAX p m2 ns).2 =
      if dotDotSlashes ns ++ ps.flatMap (fun c => c ++ ['/']) = [] then ['.']
      else (dotDotSlashes ns ++ ps.flatMap (fun c => c ++ ['/'])).dropLast := by
  have hoff : (dotDotSlashes ns).length = 3 * ns := dotDotSlashes_length ns
  obtain ⟨e1, e2, _, e4, _⟩ := canonicalize_mem_spec (if peek p 0 = '/' then p.tail else p)
    (m2.shift (3 * ns)) ((PATH_MAX + SIZE_MOD - 3 * ns % SIZE_MOD) % SIZE_MOD) hfit
  have hpre : (m2.shift (3 * ns)).pre = (dotDotSlashes ns).getLast?.getD m2.pre := by
    rw [← hoff]; exact H.shift_pre
  rw [canonItems_path_rest p ps _ _ hp hps] at e1 e4
  unfold relAppend
  simp only []
  generalize canonicalize_mem (if peek p 0 = '/' then p.tail else p)
    (m2.shift (3 * ns)) ((PATH_MAX + SIZE_MOD - 3 * ns % SIZE_MOD) % SIZE_MOD) = c2
    at e1 e2 e4 ⊢
  obtain ⟨H2, hk⟩ := Holds.of_spec e1 e2 e4
  have H5 := H.unshift H2.1 H2.2.1 H2.2.2
  rw [hoff] at H5
  have H6 := chosp_holds _ _ (3 * ns + c2.2 + 1) H5
    (by rw [List.length_append, hoff]; omega)
  have hfin : ∀ (t : List Char) (m4 : Mem) (bound : Nat), Holds m4 t → t.length ≤ bound →
      (if m4.cells 0 = NUL then ((m4.write 0 '.').write 1 NUL, 1)
        else (m4, m4.strlen bound)).1.prefix_
        (if m4.cells 0 = NUL then ((m4.write 0 '.').write 1 NUL, 1)
        else (m4, m4.strlen bound)).2 = if t = [] then ['.'] else t := by
    intro t m4 bound Ht hb
    by_cases h0 : m4.cells 0 = NUL
    · have ht : t = [] := Ht.cells_zero_iff.1 h0
      simp only [h0, ht, if_true]
      rw [Mem.prefix_write_ge _ _ _ _ (le_refl _), Mem.prefix_write]
      simp [Mem.prefix_]
    · have ht : t ≠ [] := fun hh => h0 (Ht.cells_zero_iff.2 hh)
      simp only [h0, ht, if_false]
      rw [Ht.strlen bound hb, Ht.1]
  have hb6 : (chospStr (dotDotSlashes ns ++
      (if ps = [] then finish (m2.shift (3 * ns)).pre [] else render false ps))).length ≤
      3 * ns + c2.2 + 1 := by
    have := chospStr_length_le (dotDotSlashes ns ++
      (if ps = [] then finish (m2.shift (3 * ns)).pre [] else render false ps))
    rw [List.length_append, hoff, ← hk] at this
    omega
  rw [hfin _ _ _ H6 hb6]
  by_cases hps0 : ps = []
  · subst hps0
    simp only [if_true, List.flatMap_nil, List.append_nil]
    cases ns with
    | zero =>
      simp only [dotDotSlashes, List.nil_append, chospStr_finish_nil, if_true]
    | succ k =>
      have hf : finish (m2.shift (3 * (k + 1))).pre [] = [] := by
        rw [hpre, dotDotSlashes_getLast (k + 1) _ (by omega)]
        simp [finish]
      rw [hf, List.append_nil]
      have hne : dotDotSlashes (k + 1) ≠ [] := by simp [dotDotSlashes]
      have hlast : (dotDotSlashes (k + 1)).getLast? = some '/' := by
        have := dotDotSlashes_getLast (k + 1) 'x' (by omega)
        cases hg : (dotDotSlashes (k + 1)).getLast? with
        | none => exact absurd (List.getLast?_eq_none_iff.1 hg) hne
        | some v => rw [hg] at this; simpa using this
      have hd : (dotDotSlashes (k + 1)).dropLast ≠ [] := by
        simp [dotDotSlashes]
      simp only [chospStr, hlast, if_true, hd, hne, if_false]
  · simp only [hps0, if_false]
    rcases List.eq_nil_or_concat ps with h | ⟨init, c, h⟩
    · exact absurd h hps0
    · rw [List.concat_eq_append] at h
      subst h
      have hc : Proper c := (hps c (by simp)).1
      have hcne : c ≠ [] := hc.1
      rw [render_false_eq]
      have e : dotDotSlashes ns ++ (init ++ [c]).flatMap (fun c => c ++ ['/']) =
          (dotDotSlashes ns ++ init.flatMap (fun c => c ++ ['/']) ++ c) ++ ['/'] := by
        simp
      rw [e, chospStr_concat_slash, List.dropLast_concat]
      have hne : dotDotSlashes ns ++ init.flatMap (fun c => c ++ ['/']) ++ c ≠ [] := by
        simp [hcne]
      have hne2 : (dotDotSlashes ns ++ init.flatMap (fun c => c ++ ['/']) ++ c) ++ ['/'] ≠ [] := by
        simp
      simp only [hne, hne2, if_false]

/-- The second half of `make_rel_path` when the result fits into the buffer. -/
theorem relAppend_spec (PATH_MAX : Nat) (p : List Char) (ps : List (List Char)) (m2 : Mem)
    (ns : Nat) (hp : p = slashed ps ∨ (p = ['/'] ∧ ps = [])) (hps : ∀ c ∈ ps, Clean c)
    (H : Holds m2 (dotDotSlashes ns)) (h2 : p.length + 3 * ns + 1 ≤ PATH_MAX)
    (h3 : PATH_MAX < SIZE_MOD) :
    (relAppend PATH_MAX p m2 ns).1.prefix_ (relAppend PATH_MAX p m2 ns).2 =
      if dotDotSlashes ns ++ ps.flatMap (fun c => c ++ ['/']) = [] then ['.']
      else (dotDotSlashes ns ++ ps.flatMap (fun c => c ++ ['/'])).dropLast := by
  have hcap : (PATH_MAX + SIZE_MOD - 3 * ns % SIZE_MOD) % SIZE_MOD = PATH_MAX - 3 * ns := by
    have e1 : 3 * ns % SIZE_MOD = 3 * ns := Nat.mod_eq_of_lt (by omega)
    have e2 : PATH_MAX + SIZE_MOD - 3 * ns = (PATH_MAX - 3 * ns) + SIZE_MOD := by omega
    rw [e1, e2, Nat.add_mod_right, Nat.mod_eq_of_lt (by omega)]
  have hl : sizeLimit (PATH_MAX - 3 * ns) = PATH_MAX - 3 * ns - 1 :=
    sizeLimit_eq _ (by omega) (by omega)
  have hplen : (if peek p 0 = '/' then p.tail else p).length ≤ p.length := by
    split
    · simp
    · exact le_refl _
  have hcl := cstrlen_le_length (if peek p 0 = '/' then p.tail else p)
  exact relAppend_spec_wide PATH_MAX p ps m2 ns hp hps H (by rw [hcap, hl]; omega)


/-! ## `make_rel_path` on canonical absolute paths -/

theorem absPath_of_ne (cs : List (List Char)) (h : cs ≠ []) : absPath cs = slashed cs := by
  simp [absPath, slashed, h]

theorem commonLen_nil_right (cs : List (List Char)) : commonLen cs [] = 0 := by
  cases cs <;> rfl

theorem commonLen_nil_left (ds : List (List Char)) : commonLen [] ds = 0 := rfl

/-- The first loop of `make_rel_path` on two canonical absolute paths stops right after
their shared leading components. -/
theorem relLoop_absPath (cs ds : List (List Char)) (hcs : ∀ c ∈ cs, Proper c)
    (hds : ∀ c ∈ ds, Proper c) :
    relLoop (absPath cs) (absPath ds) (cstrlen (absPath cs)) 0 0 =
      ((slashed (cs.take (commonLen cs ds))).length,
        (slashed (cs.take (commonLen cs ds))).length) := by
  by_cases hc : cs = []
  · subst hc
    have h1 : cstrlen (absPath []) = 1 := by decide
    have h2 : peek (absPath []) (0 + 1) = NUL := by decide
    rw [h1, relLoop_succ, h2]
    simp [commonLen, slashed]
  · by_cases hd : ds = []
    · subst hd
      rw [commonLen_nil_right]
      simp only [List.take_zero, slashed_nil, List.length_nil]
      cases cstrlen (absPath cs) with
      | zero => rfl
      | succ f =>
        have h2 : peek (absPath []) (0 + 1) = NUL := by decide
        rw [relLoop_succ, h2]
        simp
    · rw [absPath_of_ne cs hc, absPath_of_ne ds hd]
      have e1 : cs = [] ++ cs.take (commonLen cs ds) ++ cs.drop (commonLen cs ds) := by
        simp
      have e2 : ds = [] ++ cs.take (commonLen cs ds) ++ ds.drop (commonLen cs ds) := by
        rw [commonLen_take cs ds]; simp
      have hfuel : (cs.take (commonLen cs ds)).length ≤ cstrlen (slashed cs) := by
        rw [cstrlen_of_no_nul _ (slashed_no_nul cs hcs)]
        have := slashed_length_ge cs
        have := commonLen_le_left cs ds
        simp
        omega
      have := relLoop_common (cs.drop (commonLen cs ds)) (ds.drop (commonLen cs ds))
        (fun c d cs3 ds3 h1 h2 => commonLen_stop cs ds c d cs3 ds3 h1 h2)
        (cs.take (commonLen cs ds)) [] (cstrlen (slashed cs)) hfuel
        (by rw [← e1]; exact hcs) (by rw [← e2]; exact hds)
      rw [← e1, ← e2] at this
      simpa [slashed] using this

theorem drop_slashed_take (cs : List (List Char)) (k : Nat) :
    (slashed cs).drop (slashed (cs.take k)).length = slashed (cs.drop k) := by
  have e : slashed cs = slashed (cs.take k) ++ slashed (cs.drop k) := by
    rw [← slashed_append, List.take_append_drop]
  rw [e, List.drop_left]

/-- On canonical absolute paths `make_rel_path` computes the relative path of the spec
whenever the base fits into the buffer and the capacity `sizeof(buf) - strlen(buf)`
given to the second `canonicalize_path`, computed in `size_t`, lets it scan the whole
rest of the path; the result need not fit into the buffer. -/
theorem make_rel_path_eq_relRef_wide (PATH_MAX : Nat) (cs ds : List (List Char)) (m0 : Mem)
    (hcs : ∀ c ∈ cs, Clean c) (hds : ∀ c ∈ ds, Clean c)
    (h1 : (absPath ds).length + 1 ≤ PATH_MAX) (h3 : PATH_MAX < SIZE_MOD)
    (hfit : (absPath cs).length ≤
      sizeLimit ((PATH_MAX + SIZE_MOD - 3 * (ds.length - commonLen cs ds) % SIZE_MOD)
        % SIZE_MOD)) :
    make_rel_path PATH_MAX (absPath cs) (absPath ds) m0 = relRef cs ds := by
  have hL := relLoop_absPath cs ds (fun c hc => (hcs c hc).1) (fun c hc => (hds c hc).1)
  have hp : (absPath cs).drop (slashed (cs.take (commonLen cs ds))).length =
        slashed (cs.drop (commonLen cs ds)) ∨
      ((absPath cs).drop (slashed (cs.take (commonLen cs ds))).length = ['/'] ∧
        cs.drop (commonLen cs ds) = []) := by
    by_cases hc : cs = []
    · subst hc
      right
      simp [commonLen, slashed, absPath]
    · left
      rw [absPath_of_ne cs hc, drop_slashed_take]
  have hb : (absPath ds).drop (slashed (cs.take (commonLen cs ds))).length =
        slashed (ds.drop (commonLen cs ds)) ∨
      ((absPath ds).drop (slashed (cs.take (commonLen cs ds))).length = ['/'] ∧
        ds.drop (commonLen cs ds) = []) := by
    by_cases hd : ds = []
    · subst hd
      right
      rw [commonLen_nil_right]
      simp [slashed, absPath]
    · left
      rw [absPath_of_ne ds hd, commonLen_take cs ds, drop_slashed_take]
  have hcs2 : ∀ c ∈ cs.drop (commonLen cs ds), Clean c :=
    fun c hc => hcs c (List.mem_of_mem_drop hc)
  have hds2 : ∀ c ∈ ds.drop (commonLen cs ds), Clean c :=
    fun c hc => hds c (List.mem_of_mem_drop hc)
  have hlb : ((absPath ds).drop (slashed (cs.take (commonLen cs ds))).length).length + 1 ≤
      PATH_MAX := by
    rw [List.length_drop]; omega
  obtain ⟨r1, r2, _⟩ := relCount_spec PATH_MAX _ (ds.drop (commonLen cs ds)) m0 hb hds2 hlb h3
  have hlp : cstrlen (if peek ((absPath cs).drop
        (slashed (cs.take (commonLen cs ds))).length) 0 = '/'
      then ((absPath cs).drop (slashed (cs.take (commonLen cs ds))).length).tail
      else (absPath cs).drop (slashed (cs.take (commonLen cs ds))).length) ≤
      sizeLimit ((PATH_MAX + SIZE_MOD - 3 * (ds.drop (commonLen cs ds)).length % SIZE_MOD)
        % SIZE_MOD) := by
    rw [List.length_drop]
    refine le_trans (cstrlen_le_length _) (le_trans ?_ hfit)
    split
    · rw [List.length_tail, List.length_drop]; omega
    · rw [List.length_drop]; omega
  have hA := relAppend_spec_wide PATH_MAX _ (cs.drop (commonLen cs ds)) _
    (ds.drop (commonLen cs ds)).length hp hcs2 r1 hlp
  unfold make_rel_path make_rel_path_mem
  simp only [hL, r2]
  rw [hA, List.length_drop]
  rfl

theorem render_true_ne (cs : List (List Char)) : render true cs ≠ ['.', '.', '/'] := by
  simp [render]

/-- On an absolute output that ends a component, `".."` removes the last component. -/
theorem stepComp_dotdot_abs (a : FState) (cs : List (List Char)) (x : List Char)
    (ho : a.out = render true (cs ++ [x])) (hx : Proper x) :
    (stepComp a ['.', '.']).out = render true cs := by
  have he : endsSlash a.out = true := by
    rw [ho, endsSlash_render]; simp
  have hne : a.out ≠ ['.', '.', '/'] := by rw [ho]; exact render_true_ne _
  unfold stepComp
  simp only [he, hne]
  simp only [Bool.true_and, decide_False, Bool.false_and, Bool.not_false, Bool.and_true,
    decide_True, if_true]
  have h1 : ¬ (['.', '.'] = ['.']) := by simp
  simp only [h1, decide_False, Bool.false_eq_true, if_false]
  rw [ho, popLast_render true cs x hx]

theorem stepSlash_abs (a : FState) (cs : List (List Char)) (ho : a.out = render true cs) :
    stepSlash a = a := by
  have he : endsSlash a.out = true := by
    rw [ho, endsSlash_render]; simp
  simp [stepSlash, he]

/-- C8, the failing input: for the one-character path `a`, `make_rel_path(p, p)` is `a`,
not `.`; the first loop, guarded by `p[1] != 0`, never runs on it.  For longer paths,
such as `ab` or `/a`, and for `/`, the result is `.`. -/
theorem make_rel_path_self_single_char :
    make_rel_path 4096 "a".toList "a".toList Mem.zero = "a".toList ∧
      make_rel_path 4096 "ab".toList "ab".toList Mem.zero = ".".toList ∧
      make_rel_path 4096 "/a".toList "/a".toList Mem.zero = ".".toList ∧
      make_rel_path 4096 "/".toList "/".toList Mem.zero = ".".toList := by
  decide

/-! ## `canonicalize_path` for every capacity: separators and bounds

The facts of this section hold for every input, every capacity and every initial
content of the destination memory, truncated outputs included. -/

theorem copyRest_general (n : Nat) (p : List Char) : ∀ (m : Mem) (q : Nat),
    q ≤ sizeLimit n →
      q ≤ (copyRest n p m q).2.2 ∧ (copyRest n p m q).2.2 ≤ sizeLimit n ∧
      (copyRest n p m q).2.1.pre = m.pre ∧
      (∀ i, i < q → (copyRest n p m q).2.1.cells i = m.cells i) ∧
      (∀ i, q ≤ i → i < (copyRest n p m q).2.2 → (copyRest n p m q).2.1.cells i ≠ '/') := by
  induction p with
  | nil =>
    intro m q hq
    show q ≤ q ∧ q ≤ sizeLimit n ∧ m.pre = m.pre ∧ (∀ i, i < q → m.cells i = m.cells i) ∧
      (∀ i, q ≤ i → i < q → m.cells i ≠ '/')
    exact ⟨le_refl _, hq, rfl, fun _ _ => rfl, fun i h1 h2 => by omega⟩
  | cons c rest ih =>
    intro m q hq
    rw [copyRest]
    split
    · rename_i hcond
      simp only [Bool.and_eq_true, decide_eq_true_eq] at hcond
      obtain ⟨⟨_, h2⟩, h3⟩ := hcond
      have h2' : peek rest 0 ≠ '/' := by simpa using h2
      obtain ⟨i1, i2, i3, i4, i5⟩ := ih (m.write q (peek rest 0)) (q + 1) (by omega)
      refine ⟨by omega, i2, by rw [i3]; rfl, ?_, ?_⟩
      · intro i hi
        rw [i4 i (by omega)]
        exact Mem.write_cells_ne m q i _ (by omega)
      · intro i h5 h6
        rcases Nat.eq_or_lt_of_le h5 with h7 | h7
        · subst h7
          rw [i4 q (by omega), Mem.write_cells_eq]
          exact h2'
        · exact i5 i (by omega) h6
    · show q ≤ q ∧ q ≤ sizeLimit n ∧ m.pre = m.pre ∧ (∀ i, i < q → m.cells i = m.cells i) ∧
        (∀ i, q ≤ i → i < q → m.cells i ≠ '/')
      exact ⟨le_refl _, hq, rfl, fun _ _ => rfl, fun i h1 h2 => by omega⟩

theorem NoDouble.mono {m : Mem} {q q2 : Nat} (h : NoDouble m q) (hq : q2 ≤ q) :
    NoDouble m q2 :=
  fun i hi => h i (by omega)

theorem NoDouble.extend {m m2 : Mem} {q q2 : Nat} (h : NoDouble m q)
    (hsame : ∀ i, i < q → m2.cells i = m.cells i)
    (hnew : ∀ i, q ≤ i → i < q2 → m2.cells i ≠ '/') : NoDouble m2 q2 := by
  intro i hi hh
  rcases Nat.lt_or_ge (i + 1) q with h1 | h1
  · rw [hsame i (by omega), hsame (i + 1) h1] at hh
    exact h i h1 hh
  · exact hnew (i + 1) h1 hi hh.2

theorem NoDouble.slash {m : Mem} {q : Nat} (h : NoDouble m q)
    (hl : q = 0 ∨ m.last q ≠ '/') : NoDouble (m.write q '/') (q + 1) := by
  intro i hi hh
  rcases Nat.lt_or_ge (i + 1) q with h1 | h1
  · rw [Mem.write_cells_ne m q i _ (by omega), Mem.write_cells_ne m q (i + 1) _ (by omega)] at hh
    exact h i h1 hh
  · have hq : q = i + 1 := by omega
    rcases hl with hl | hl
    · omega
    · subst hq
      rw [Mem.write_cells_ne m (i + 1) i _ (by omega)] at hh
      exact hl hh.1

/-- One iteration of the loop keeps the output free of doubled separators, within the
limit `buf_size - 1`, and does not touch `buf[-1]`. -/
theorem canonBody_general (n : Nat) (s : CanonState) (hc : canonCond n s = true)
    (hnd : NoDouble s.m s.qn) :
    NoDouble (canonBody n s).m (canonBody n s).qn ∧ (canonBody n s).qn ≤ sizeLimit n ∧
      (canonBody n s).m.pre = s.m.pre := by
  simp only [canonCond, Bool.and_eq_true, decide_eq_true_eq] at hc
  obtain ⟨_, hlt⟩ := hc
  unfold canonBody
  simp only []
  split
  · exact ⟨hnd, Nat.le_of_lt hlt, rfl⟩
  · split
    · refine ⟨hnd.mono ?_, ?_, rfl⟩
      · have := backToSlash_le s.m (s.qn - 1)
        simp only []
        omega
      · have := backToSlash_le s.m (s.qn - 1)
        simp only []
        omega
    · split
      · split
        · rename_i hprev
          refine ⟨?_, by simp only []; omega, rfl⟩
          apply hnd.slash
          by_cases hq : s.qn = 0
          · exact Or.inl hq
          · right
            intro hl
            simp [hq, hl] at hprev
        · exact ⟨hnd, Nat.le_of_lt hlt, rfl⟩
      · rename_i hns
        obtain ⟨i1, i2, i3, i4, i5⟩ := copyRest_general n
          (skip_dotdir_if_any s.p (decide (s.qn ≠ 0) && decide (s.m.last s.qn = '/'))).1
          (s.m.write s.qn
            (peek (skip_dotdir_if_any s.p
              (decide (s.qn ≠ 0) && decide (s.m.last s.qn = '/'))).1 0))
          (s.qn + 1) (by omega)
        refine ⟨?_, i2, by rw [i3]; rfl⟩
        apply hnd.extend
        · intro i hi
          simp only []
          rw [i4 i (by omega)]
          exact Mem.write_cells_ne s.m s.qn i _ (by omega)
        · intro i h5 h6
          simp only [] at h6 ⊢
          rcases Nat.eq_or_lt_of_le h5 with h7 | h7
          · rw [← h7, i4 s.qn (by omega), Mem.write_cells_eq]
            exact hns
          · exact i5 i (by omega) h6

theorem canonLoop_general (n : Nat) : ∀ (fuel : Nat) (s : CanonState),
    NoDouble s.m s.qn → s.qn ≤ sizeLimit n →
      NoDouble (canonLoop n fuel s).m (canonLoop n fuel s).qn ∧
        (canonLoop n fuel s).qn ≤ sizeLimit n ∧ (canonLoop n fuel s).m.pre = s.m.pre := by
  intro fuel
  induction fuel with
  | zero => intro s h1 h2; exact ⟨h1, h2, rfl⟩
  | succ f ih =>
    intro s h1 h2
    rw [canonLoop_succ]
    by_cases hc : canonCond n s = true
    · simp only [hc, if_true]
      obtain ⟨b1, b2, b3⟩ := canonBody_general n s hc h1
      obtain ⟨c1, c2, c3⟩ := ih (canonBody n s) b1 b2
      exact ⟨c1, c2, by rw [c3, b3]⟩
    · simp only [hc, if_false]
      exact ⟨h1, h2, rfl⟩

/-- For every input, capacity and initial memory: the output of `canonicalize_path` has
no two adjacent `'/'`, the NUL is stored at most at index `buf_size` (one byte past the
buffer, never further), and the output ends in `'/'` unless it is empty, which requires
`buf[-1]` to be `'/'`. -/
theorem canonicalize_mem_general (directory : List Char) (m : Mem) (n : Nat) :
    NoDouble (canonicalize_mem directory m n).1 (canonicalize_mem directory m n).2 ∧
      (canonicalize_mem directory m n).2 ≤ sizeLimit n + 1 ∧
      ((canonicalize_path directory m n).getLast? = some '/' ∨
        (canonicalize_path directory m n = [] ∧ m.pre = '/')) := by
  obtain ⟨h1, h2, h3⟩ := canonLoop_general n directory.length
    { p := directory, m := m.write 0 NUL, qn := 0 } (fun i hi => by simp at hi)
    (Nat.zero_le _)
  simp only [] at h1 h2 h3
  unfold canonicalize_path canonicalize_mem
  simp only []
  split
  · rename_i hl
    refine ⟨?_, by simp only []; omega, ?_⟩
    · intro i hi hh
      simp only [] at hi hh
      rw [Mem.write_cells_ne _ _ i _ (by omega), Mem.write_cells_ne _ _ (i + 1) _ (by omega)] at hh
      refine (NoDouble.slash h1 ?_) i hi hh
      by_cases hq : (canonLoop n directory.length
          { p := directory, m := m.write 0 NUL, qn := 0 }).qn = 0
      · exact Or.inl hq
      · exact Or.inr hl
    · left
      simp only []
      rw [Mem.prefix_write_ge _ _ _ _ (le_refl _), Mem.prefix_write]
      simp
  · rename_i hl
    have hl' : (canonLoop n directory.length
        { p := directory, m := m.write 0 NUL, qn := 0 }).m.last
        (canonLoop n directory.length { p := directory, m := m.write 0 NUL, qn := 0 }).qn
        = '/' := by simpa using hl
    refine ⟨?_, by simp only []; omega, ?_⟩
    · intro i hi hh
      simp only [] at hi hh
      rw [Mem.write_cells_ne _ _ i _ (by omega), Mem.write_cells_ne _ _ (i + 1) _ (by omega)] at hh
      exact h1 i hi hh
    · simp only []
      rw [Mem.prefix_write_ge _ _ _ _ (le_refl _)]
      rw [Mem.last_eq] at hl'
      cases hg : ((canonLoop n directory.length
          { p := directory, m := m.write 0 NUL, qn := 0 }).m.prefix_
          (canonLoop n directory.length
            { p := directory, m := m.write 0 NUL, qn := 0 }).qn).getLast? with
      | none =>
        right
        rw [hg] at hl'
        simp only [Option.getD_none] at hl'
        exact ⟨List.getLast?_eq_none_iff.1 hg, by rw [← hl', h3]; rfl⟩
      | some v =>
        left
        rw [hg] at hl'
        simp only [Option.getD_some] at hl'
        rw [hl']

/-- For every input, capacity and initial memory, the output of `canonicalize_path`
contains no two adjacent `'/'`. -/
theorem canonicalize_path_no_adjacent_slashes (directory : List Char) (m : Mem) (n : Nat) :
    ¬ List.IsInfix ['/', '/'] (canonicalize_path directory m n) := by
  rintro ⟨s, t, hst⟩
  obtain ⟨hnd, _, _⟩ := canonicalize_mem_general directory m n
  have hlen : s.length + 2 + t.length = (canonicalize_mem directory m n).2 := by
    have := congrArg List.length hst
    simp only [List.length_append, List.length_cons, List.length_nil] at this
    unfold canonicalize_path at this
    rw [Mem.prefix_length] at this
    omega
  have g0 := Mem.prefix_getElem (canonicalize_mem directory m n).1
    (canonicalize_mem directory m n).2 s.length (by omega)
  have g1 := Mem.prefix_getElem (canonicalize_mem directory m n).1
    (canonicalize_mem directory m n).2 (s.length + 1) (by omega)
  have e : (canonicalize_mem directory m n).1.prefix_ (canonicalize_mem directory m n).2 =
      s ++ ['/', '/'] ++ t := hst.symm
  rw [e] at g0 g1
  have a0 : (s ++ ['/', '/'] ++ t)[s.length]? = some '/' := by
    rw [List.append_assoc, List.getElem?_append_right (le_refl _)]
    simp
  have a1 : (s ++ ['/', '/'] ++ t)[s.length + 1]? = some '/' := by
    rw [List.append_assoc, List.getElem?_append_right (by omega)]
    simp
  rw [a0] at g0
  rw [a1] at g1
  exact hnd s.length (by omega)
    ⟨(Option.some.inj g0).symm, (Option.some.inj g1).symm⟩

/-- For every input, capacity and initial memory with `buf[-1]` other than `'/'`, the
output of `canonicalize_path` ends in `'/'`. -/
theorem canonicalize_path_ends_in_slash (directory : List Char) (m : Mem) (n : Nat)
    (hpre : m.pre ≠ '/') : (canonicalize_path directory m n).getLast? = some '/' := by
  obtain ⟨_, _, h⟩ := canonicalize_mem_general directory m n
  rcases h with h | h
  · exact h
  · exact absurd h.2 hpre

/-- For every input and capacity `1 <= buf_size < 2^64`, `canonicalize_path` stores at
most `buf_size + 1` bytes, the NUL included: at most one byte past the buffer. -/
theorem canonicalize_path_bytes_le (directory : List Char) (m : Mem) (n : Nat)
    (h1 : 0 < n) (h2 : n < SIZE_MOD) : (canonicalize_mem directory m n).2 + 1 ≤ n + 1 := by
  obtain ⟨_, h, _⟩ := canonicalize_mem_general directory m n
  rw [sizeLimit_eq n h1 h2] at h
  omega

/-! ## `canonicalize_path` and the reference normaliser on absolute paths -/

theorem splitOnSlash_slash (r : List Char) : splitOnSlash ('/' :: r) = [] :: splitOnSlash r := by
  simp [splitOnSlash]

theorem splitOnSlash_ne_nil (p : List Char) : splitOnSlash p ≠ [] := by
  cases p with
  | nil => simp [splitOnSlash]
  | cons c r =>
    rw [splitOnSlash]
    split
    · simp
    · split <;> simp

theorem splitOnSlash_reg (r : List Char) : ∀ (c : Char), c ≠ '/' → (∀ x ∈ r, x ≠ NUL) →
    splitOnSlash (c :: r) =
      (c :: r.takeWhile isReg) ::
        (if peek (r.dropWhile isReg) 0 = '/' then splitOnSlash (r.dropWhile isReg).tail
          else []) := by
  induction r with
  | nil =>
    intro c hc _
    have h3 : NUL ≠ '/' := by decide
    simp [splitOnSlash, hc, peek_nil, h3]
  | cons d r ih =>
    intro c hc hn
    have hdn : d ≠ NUL := hn d (by simp)
    have hrn : ∀ x ∈ r, x ≠ NUL := fun x hx => hn x (by simp [hx])
    by_cases hd : d = '/'
    · subst hd
      have hsl : isReg '/' = false := by decide
      rw [splitOnSlash]
      simp only [hc, if_false]
      rw [splitOnSlash_slash]
      simp [List.takeWhile_cons, List.dropWhile_cons, hsl, peek_zero_cons]
    · have hreg : isReg d = true := (isReg_iff d).2 ⟨hd, hdn⟩
      rw [splitOnSlash]
      simp only [hc, if_false]
      rw [ih d hd hrn]
      simp [List.takeWhile_cons, List.dropWhile_cons, hreg]

theorem refStep_proper (kept : List (List Char)) (w : List Char)
    (hk : ∀ c ∈ kept, Proper c) (hw : Proper w) : ∀ c ∈ refStep kept w, Proper c := by
  unfold refStep
  split
  · exact hk
  · split
    · intro c hc
      exact hk c ((List.dropLast_sublist kept).subset hc)
    · intro c hc
      rcases List.mem_append.1 hc with h | h
      · exact hk c h
      · simp at h; subst h; exact hw

/-- On an absolute output that ends a component, a component followed by a separator
acts as one step of the reference normaliser. -/
theorem stepItem_abs_ref (a : FState) (kept : List (List Char)) (w : List Char)
    (ho : a.out = render true kept) (hk : ∀ c ∈ kept, Proper c) (hw : Proper w) :
    (stepSlash (stepComp a w)).out = render true (refStep kept w) := by
  have he : endsSlash a.out = true := by rw [ho, endsSlash_render]; simp
  have hne : a.out ≠ ['.', '.', '/'] := by rw [ho]; exact render_true_ne _
  have hw0 : w ≠ [] := hw.1
  by_cases h1 : w = ['.']
  · subst h1
    have : stepComp a ['.'] = a := by simp [stepComp, he]
    rw [this, stepSlash_abs a kept ho, ho]
    simp [refStep]
  · by_cases h2 : w = ['.', '.']
    · subst h2
      have hr : refStep kept ['.', '.'] = kept.dropLast := by simp [refStep]
      rw [hr]
      rcases List.eq_nil_or_concat kept with hn | ⟨cs, x, hn⟩
      · subst hn
        have hs : (stepComp a ['.', '.']).out = [] := by
          simp [stepComp, ho, render, popLast, endsSlash]
        simp [stepSlash, FState.push, hs, render, endsSlash]
      · rw [List.concat_eq_append] at hn
        subst hn
        have h3 := stepComp_dotdot_abs a cs x ho (hk x (by simp))
        rw [stepSlash_abs _ cs h3, h3]
        simp
    · have hst : stepComp a w = a.push w := by
        unfold stepComp
        simp [h1, h2]
      have hr : refStep kept w = kept ++ [w] := by simp [refStep, h1, h2, hw0]
      rw [hst, hr]
      exact (stepSlash_open a true kept w ho hw).1

/-- On an absolute output that ends a component, a final component followed by the code
after the loop acts as one step of the reference normaliser, provided `buf[-1]` is not
`'/'`. -/
theorem stepComp_abs_ref_finish (a : FState) (kept : List (List Char)) (w : List Char)
    (pre : Char) (hpre : pre ≠ '/') (ho : a.out = render true kept)
    (hk : ∀ c ∈ kept, Proper c) (hw : Proper w) :
    finish pre (stepComp a w).out = render true (refStep kept w) := by
  have he : endsSlash a.out = true := by rw [ho, endsSlash_render]; simp
  have hne : a.out ≠ ['.', '.', '/'] := by rw [ho]; exact render_true_ne _
  have hw0 : w ≠ [] := hw.1
  by_cases h1 : w = ['.']
  · subst h1
    have : stepComp a ['.'] = a := by simp [stepComp, he]
    rw [this, finish_of_endsSlash pre _ he, ho]
    simp [refStep]
  · by_cases h2 : w = ['.', '.']
    · subst h2
      have hr : refStep kept ['.', '.'] = kept.dropLast := by simp [refStep]
      rw [hr]
      rcases List.eq_nil_or_concat kept with hn | ⟨cs, x, hn⟩
      · subst hn
        have hs : (stepComp a ['.', '.']).out = [] := by
          simp [stepComp, ho, render, popLast, endsSlash]
        rw [hs]
        simp [finish, hpre, render]
      · rw [List.concat_eq_append] at hn
        subst hn
        have h3 := stepComp_dotdot_abs a cs x ho (hk x (by simp))
        rw [h3, finish_of_endsSlash pre _ ((endsSlash_render _ _).2 (Or.inl rfl))]
        simp
    · have hst : stepComp a w = a.push w := by
        unfold stepComp
        simp [h1, h2]
      have hr : refStep kept w = kept ++ [w] := by simp [refStep, h1, h2, hw0]
      rw [hst, hr]
      simp only [FState.push]
      rw [finish_open pre _ _ hw, ho, render_append_one]

theorem foldl_items_abs_ref (pre : Char) (hpre : pre ≠ '/') : ∀ (k : Nat) (p : List Char)
    (kept : List (List Char)) (a : FState), p.length ≤ k → (∀ x ∈ p, x ≠ NUL) →
    a.out = render true kept → (∀ c ∈ kept, Proper c) →
      finish pre ((items p).foldl stepItem a).out =
        render true ((splitOnSlash p).foldl refStep kept) := by
  intro k
  induction k with
  | zero =>
    intro p kept a hlen _ ho _
    have hp : p = [] := List.length_eq_zero.1 (Nat.le_zero.1 hlen)
    subst hp
    have he : endsSlash (render true kept) = true := by rw [endsSlash_render]; simp
    simp [items, splitOnSlash, refStep, finish_of_endsSlash pre _ he, ho]
  | succ k ih =>
    intro p kept a hlen hn ho hk
    have he : endsSlash (render true kept) = true := by rw [endsSlash_render]; simp
    cases p with
    | nil => simp [items, splitOnSlash, refStep, finish_of_endsSlash pre _ he, ho]
    | cons c r =>
      simp only [List.length_cons] at hlen
      have hcn : c ≠ NUL := hn c (by simp)
      have hrn : ∀ x ∈ r, x ≠ NUL := fun x hx => hn x (by simp [hx])
      by_cases hs : c = '/'
      · subst hs
        rw [items_slash, splitOnSlash_slash]
        simp only [List.foldl_cons, stepItem]
        rw [stepSlash_abs a kept ho]
        have : refStep kept [] = kept := by simp [refStep]
        rw [this]
        exact ih r kept a (by omega) hrn ho hk
      · have hreg : isReg c = true := (isReg_iff c).2 ⟨hs, hcn⟩
        have hw := proper_of_reg c r hreg
        rw [items_reg r c hreg, splitOnSlash_reg r c hs hrn]
        by_cases h0 : peek (r.dropWhile isReg) 0 = '/'
        · simp only [h0, if_true, List.foldl_cons, stepItem]
          have hl : (r.dropWhile isReg).tail.length ≤ k := by
            have := length_dropWhile_le r
            have := List.length_tail (r.dropWhile isReg)
            omega
          have hn2 : ∀ x ∈ (r.dropWhile isReg).tail, x ≠ NUL := by
            intro x hx
            exact hrn x ((List.dropWhile_sublist _).subset (List.mem_of_mem_tail hx))
          exact ih _ _ _ hl hn2 (stepItem_abs_ref a kept _ ho hk hw)
            (refStep_proper kept _ hk hw)
        · simp only [h0, if_false, List.foldl_cons, List.foldl_nil, stepItem]
          exact stepComp_abs_ref_finish a kept _ pre hpre ho hk hw

/-- For every absolute path (without NUL inside) and a capacity large enough to hold it,
`canonicalize_path` equals the reference normaliser, provided the byte before the
destination, `buf[-1]`, is not `'/'`. -/
theorem canonicalize_path_abs_eq_ref (r : List Char) (m : Mem) (buf_size : Nat)
    (hn : ∀ x ∈ r, x ≠ NUL) (h1 : r.length + 2 ≤ buf_size) (h2 : buf_size < SIZE_MOD)
    (hpre : m.pre ≠ '/') :
    canonicalize_path ('/' :: r) m buf_size = refNormalise ('/' :: r) := by
  have hl : sizeLimit buf_size = buf_size - 1 := sizeLimit_eq buf_size (by omega) h2
  have hc := cstrlen_le_length ('/' :: r)
  simp only [List.length_cons] at hc
  rw [canonicalize_path_eq_items _ m buf_size (by rw [hl]; omega)]
  have hs : stepSlash { out := [], z := decide (m.cells 3 = NUL) } =
      { out := ['/'], z := decide (m.cells 3 = NUL) } := by
    simp [stepSlash, endsSlash, FState.push]
  unfold canonItems refNormalise
  rw [items_slash, splitOnSlash_slash]
  simp only [List.foldl_cons, stepItem, hs]
  have := foldl_items_abs_ref m.pre hpre r.length r [] { out := ['/'], z := decide (m.cells 3 = NUL) }
    (le_refl _) hn (by simp [render]) (by simp)
  rw [this]
  simp [render, refStep]

/-! ## The bounded loops of the embedding run to completion

`canonLoop`, `relLoop` and `Mem.strlen` take a bound on the number of iterations.  The
theorems of this section show that the bounds used by `canonicalize_mem`,
`make_rel_path_mem` and `chosp` are never reached before the loop of the C code would
have stopped by itself. -/

theorem skip_dotdir_suffix (p : List Char) (fully : Bool) (hp : p ≠ []) :
    (skip_dotdir_if_any p fully).1 ≠ [] ∧
      (skip_dotdir_if_any p fully).1.length ≤ p.length := by
  cases p with
  | nil => exact absurd rfl hp
  | cons c r =>
    by_cases h : fully = true ∧ c :: r.takeWhile isReg = ['.']
    · obtain ⟨hf, hw⟩ := h
      obtain ⟨hc, hr0⟩ := (comp_eq_dot_iff c r).1 hw
      subst hc hf
      rw [skip_dotdir_dot_true r hr0]
      by_cases h0 : peek r 0 = NUL
      · simp [h0]
      · simp only [h0, if_false]
        constructor
        · intro hr
          subst hr
          exact h0 (peek_nil 0)
        · simp
    · rw [skip_dotdir_other c r fully h]
      simp

theorem copyRest_suffix (n : Nat) (p : List Char) : ∀ (m : Mem) (q : Nat), p ≠ [] →
    (copyRest n p m q).1 ≠ [] ∧ (copyRest n p m q).1.length ≤ p.length := by
  induction p with
  | nil => intro m q hp; exact absurd rfl hp
  | cons c rest ih =>
    intro m q _
    rw [copyRest]
    split
    · rename_i hcond
      have hr : rest ≠ [] := by
        intro hr
        subst hr
        simp [peek_nil] at hcond
      obtain ⟨i1, i2⟩ := ih (m.write q (peek rest 0)) (q + 1) hr
      exact ⟨i1, by simp only [List.length_cons]; omega⟩
    · simp

/-- Every iteration of the loop of `canonicalize_path` consumes at least one character
of the input. -/
theorem canonBody_length_lt (n : Nat) (s : CanonState) (hc : canonCond n s = true) :
    (canonBody n s).p.length < s.p.length := by
  have hp : s.p ≠ [] := by
    intro hp
    simp [canonCond, hp, peek_nil] at hc
  have hlen : 0 < s.p.length := List.length_pos.2 hp
  obtain ⟨k1, k2⟩ := skip_dotdir_suffix s.p
    (decide (s.qn ≠ 0) && decide (s.m.last s.qn = '/')) hp
  have k3 : 0 < (skip_dotdir_if_any s.p
      (decide (s.qn ≠ 0) && decide (s.m.last s.qn = '/'))).1.length := List.length_pos.2 k1
  unfold canonBody
  simp only []
  split
  · simp only [List.length_tail]; omega
  · split
    · simp only [List.length_tail]; omega
    · split
      · split
        · simp only [List.length_tail]; omega
        · simp only [List.length_tail]; omega
      · obtain ⟨c1, c2⟩ := copyRest_suffix n _
          (s.m.write s.qn (peek (skip_dotdir_if_any s.p
            (decide (s.qn ≠ 0) && decide (s.m.last s.qn = '/'))).1 0)) (s.qn + 1) k1
        have c3 := List.length_pos.2 c1
        simp only [List.length_tail]
        omega

/-- The loop of `canonicalize_path` has stopped by itself within `strlen`-many
iterations: at the state that `canonLoop` returns the loop condition is false. -/
theorem canonLoop_finished (n : Nat) : ∀ (fuel : Nat) (s : CanonState),
    s.p.length ≤ fuel → canonCond n (canonLoop n fuel s) = false := by
  intro fuel
  induction fuel with
  | zero =>
    intro s hlen
    have hp : s.p = [] := List.length_eq_zero.1 (Nat.le_zero.1 hlen)
    simp [canonLoop, canonCond, hp, peek_nil]
  | succ f ih =>
    intro s hlen
    rw [canonLoop_succ]
    by_cases hc : canonCond n s = true
    · simp only [hc, if_true]
      apply ih
      have := canonBody_length_lt n s hc
      omega
    · simp only [hc, if_false]
      simpa using hc

/-- The state in which `canonicalize_mem` leaves the loop satisfies the exit condition
of the C loop. -/
theorem canonicalize_mem_loop_finished (directory : List Char) (m : Mem) (n : Nat) :
    canonCond n (canonLoop n directory.length
      { p := directory, m := m.write 0 NUL, qn := 0 }) = false :=
  canonLoop_finished n directory.length _ (le_refl _)

/-- The bounded `strlen` is exact whenever a NUL lies within the bound: it returns the
index of the first NUL. -/
theorem strlenFrom_exact (m : Mem) : ∀ (fuel i k : Nat), k < fuel → m.cells (i + k) = NUL →
    m.cells (i + Mem.strlenFrom m fuel i) = NUL ∧
      ∀ j, j < Mem.strlenFrom m fuel i → m.cells (i + j) ≠ NUL := by
  intro fuel
  induction fuel with
  | zero => intro i k hk; omega
  | succ f ih =>
    intro i k hk h0
    rw [Mem.strlenFrom]
    by_cases hi : m.cells i = NUL
    · simp [hi]
    · simp only [hi, if_false]
      cases k with
      | zero => simp at h0; exact absurd h0 hi
      | succ k =>
        obtain ⟨e1, e2⟩ := ih (i + 1) k (by omega)
          (by rwa [show i + 1 + k = i + (k + 1) by omega])
        constructor
        · rwa [show i + (1 + Mem.strlenFrom m f (i + 1)) = i + 1 + Mem.strlenFrom m f (i + 1)
            by omega]
        · intro j hj
          cases j with
          | zero => simpa using hi
          | succ j =>
            have := e2 j (by omega)
            rwa [show i + 1 + j = i + (j + 1) by omega] at this

/-- The scans of `strlen` made by `make_rel_path` through `chosp` are exact: the buffer
left by `canonicalize_path` has its NUL within the bound given to `chosp`. -/
theorem strlen_after_canonicalize (directory : List Char) (m : Mem) (n : Nat) :
    (canonicalize_mem directory m n).1.cells
        ((canonicalize_mem directory m n).1.strlen ((canonicalize_mem directory m n).2 + 1))
        = NUL ∧
      ∀ j, j < (canonicalize_mem directory m n).1.strlen ((canonicalize_mem directory m n).2 + 1)
        → (canonicalize_mem directory m n).1.cells j ≠ NUL := by
  have h0 : (canonicalize_mem directory m n).1.cells (0 + (canonicalize_mem directory m n).2)
      = NUL := by
    unfold canonicalize_mem
    simp only [Nat.zero_add]
    exact Mem.write_cells_eq _ _ _
  have := strlenFrom_exact (canonicalize_mem directory m n).1
    ((canonicalize_mem directory m n).2 + 1) 0 (canonicalize_mem directory m n).2
    (by omega) h0
  simpa [Mem.strlen] using this

theorem cstrlen_drop (s : List Char) : ∀ (i : Nat), i ≤ cstrlen s →
    cstrlen s = i + cstrlen (s.drop i) := by
  induction s with
  | nil => intro i hi; simp [cstrlen_nil] at hi; subst hi; simp [cstrlen_nil]
  | cons c r ih =>
    intro i hi
    cases i with
    | zero => simp
    | succ i =>
      by_cases hc : c = NUL
      · subst hc
        rw [cstrlen_cons_nul] at hi
        omega
      · rw [cstrlen_cons c r hc] at hi ⊢
        have := ih i (by omega)
        simp only [List.drop_succ_cons]
        omega

theorem takeWhile_isReg_le_cstrlen (t : List Char) :
    (t.takeWhile isReg).length ≤ cstrlen t := by
  induction t with
  | nil => simp
  | cons c r ih =>
    by_cases hc : c = NUL
    · subst hc
      have : isReg NUL = false := by decide
      simp [List.takeWhile_cons, this]
    · rw [cstrlen_cons c r hc]
      rw [List.takeWhile_cons]
      split
      · simp only [List.length_cons]; omega
      · simp

theorem strchrOrEnd_bounds (s : List Char) (i : Nat) (hi : i ≤ cstrlen s) :
    i ≤ strchrOrEnd s i ∧ strchrOrEnd s i ≤ cstrlen s := by
  have h1 := cstrlen_drop s i hi
  have h2 := takeWhile_isReg_le_cstrlen (s.drop i)
  unfold strchrOrEnd nextSlash
  simp only []
  split
  · constructor <;> omega
  · exact ⟨hi, le_refl _⟩

theorem peek_ne_nul_lt (s : List Char) (i : Nat) (hi : i ≤ cstrlen s) (h : peek s i ≠ NUL) :
    i < cstrlen s := by
  rcases Nat.lt_or_ge i (cstrlen s) with h1 | h1
  · exact h1
  · have : i = cstrlen s := le_antisymm hi h1
    subst this
    exact absurd (peek_cstrlen s) h

/-- Once the bound on the iterations covers the rest of `path`, a larger bound does not
change what the first loop of `make_rel_path` returns: every iteration moves `p`
forward, and `p` never passes the terminator of `path`. -/
theorem relLoop_fuel_stable (path base : List Char) : ∀ (fuel p b : Nat),
    p ≤ cstrlen path → cstrlen path ≤ p + fuel →
    ∀ extra, relLoop path base (fuel + extra) p b = relLoop path base fuel p b := by
  intro fuel
  induction fuel with
  | zero =>
    intro p b hp hf extra
    have hpe : peek path p = NUL := by
      have : p = cstrlen path := by omega
      subst this
      exact peek_cstrlen path
    cases extra with
    | zero => rfl
    | succ e =>
      rw [show 0 + (e + 1) = e + 1 by omega, relLoop_succ, relLoop_zero]
      simp [hpe]
  | succ f ih =>
    intro p b hp hf extra
    rw [show f + 1 + extra = (f + extra) + 1 by omega, relLoop_succ, relLoop_succ]
    by_cases hc : (peek path p ≠ NUL && peek path (p + 1) ≠ NUL &&
          peek base b ≠ NUL && peek base (b + 1) ≠ NUL) = true
    · simp only [hc, if_true]
      have hp0 : peek path p ≠ NUL := by
        simp only [Bool.and_eq_true, decide_eq_true_eq] at hc
        exact hc.1.1.1
      have hlt := peek_ne_nul_lt path p hp hp0
      obtain ⟨g1, g2⟩ := strchrOrEnd_bounds path (p + 1) hlt
      rw [ih (strchrOrEnd path (p + 1)) (strchrOrEnd base (b + 1)) g2 (by omega) extra]
    · simp only [hc]
      simp

/-- The bound `strlen(path)` that `make_rel_path_mem` gives to the first loop is never
the reason why the loop stops. -/
theorem make_rel_path_loop_finished (path base : List Char) (extra : Nat) :
    relLoop path base (cstrlen path + extra) 0 0 = relLoop path base (cstrlen path) 0 0 :=
  relLoop_fuel_stable path base (cstrlen path) 0 0 (Nat.zero_le _) (by omega) extra

/-- After the `strcat` loop of `make_rel_path` the static buffer holds `nslashes` times
`"../"`, so `strlen(buf)` is `3 * nslashes`: the offset that `relAppend` uses for
`buf + strlen(buf)`. -/
theorem strcatUps_strlen (m : Mem) (n : Nat) :
    Holds (strcatUps (m.write 0 NUL) n 0) (dotDotSlashes n) ∧
      (strcatUps (m.write 0 NUL) n 0).strlen (3 * n + 1) = 3 * n := by
  have h0 : Holds (m.write 0 NUL) [] := (Holds.nil_iff _).2 (Mem.write_cells_eq _ _ _)
  have h1 := (strcatUps_holds n (m.write 0 NUL) [] h0).1
  simp only [List.length_nil, List.nil_append] at h1
  refine ⟨h1, ?_⟩
  have := h1.strlen (3 * n + 1) (by rw [dotDotSlashes_length]; omega)
  rw [this, dotDotSlashes_length]

/-! ## `escape_filename`: un-escaping, the percent sign, the size of the block -/

theorem shellUnescape_cons_ne (c : Char) (r : List Char) (h : c ≠ BACKSLASH) :
    shellUnescape (c :: r) = c :: shellUnescape r := by
  cases r with
  | nil => simp [shellUnescape, h]
  | cons d r => simp [shellUnescape, h]

theorem shellUnescape_backslash (d : Char) (r : List Char) :
    shellUnescape (BACKSLASH :: d :: r) = d :: shellUnescape r := by
  simp [shellUnescape]

theorem isShellMeta_backslash : isShellMeta BACKSLASH = true := by decide

theorem shellUnescape_escChar (qp : Bool) (c : Char) (rest : List Char) :
    shellUnescape (escChar qp c ++ rest) =
      (if c = '%' then (if qp then ['%', '%'] else ['%']) else [c]) ++ shellUnescape rest := by
  have hp : ('%' : Char) ≠ BACKSLASH := by decide
  unfold escChar
  by_cases h1 : c = '%'
  · subst h1
    cases qp
    · simp [shellUnescape_cons_ne _ _ hp]
    · simp [shellUnescape_cons_ne _ _ hp]
  · simp only [h1, if_false]
    by_cases h2 : isShellMeta c = true
    · simp only [h2, if_true]
      exact shellUnescape_backslash c rest
    · have hb : c ≠ BACKSLASH := by
        intro hb
        subst hb
        exact h2 isShellMeta_backslash
      simp only [h2]
      exact shellUnescape_cons_ne c rest hb

theorem shellUnescape_escapedForm (qp : Bool) (text : List Char) :
    shellUnescape (escapedForm qp text) = if qp then doublePercent text else text := by
  induction text with
  | nil => cases qp <;> simp [escapedForm, doublePercent, shellUnescape]
  | cons c t ih =>
    have e : escapedForm qp (c :: t) = escChar qp c ++ escapedForm qp t := by
      simp [escapedForm]
    rw [e, shellUnescape_escChar, ih]
    cases qp
    · by_cases h1 : c = '%' <;> simp [h1]
    · by_cases h1 : c = '%' <;> simp [h1, doublePercent]

/-- Un-escaping the result of `escape_filename`, in general: the `"./"` put before a
leading `'-'` stays, and with `quote_percent` set every `'%'` comes back doubled. -/
theorem shellUnescape_escape_filename (text : List Char) (qp : Bool) :
    shellUnescape (escape_filename text qp) =
      (if peek text 0 = '-' then ['.', '/'] else []) ++
        (if qp then doublePercent (cstr text) else cstr text) := by
  rw [escape_filename_eq]
  have h1 : ('.' : Char) ≠ BACKSLASH := by decide
  have h2 : ('/' : Char) ≠ BACKSLASH := by decide
  by_cases h : peek text 0 = '-'
  · simp only [h, if_true, List.cons_append, List.nil_append]
    rw [shellUnescape_cons_ne _ _ h1, shellUnescape_cons_ne _ _ h2, shellUnescape_escapedForm]
  · simp only [h, if_false, List.nil_append]
    exact shellUnescape_escapedForm qp (cstr text)

theorem doublePercent_of_not_mem (text : List Char) (h : '%' ∉ text) :
    doublePercent text = text := by
  induction text with
  | nil => rfl
  | cons c t ih =>
    have hc : c ≠ '%' := fun e => h (by simp [e])
    have ht : '%' ∉ t := fun e => h (by simp [e])
    have := ih ht
    simp only [doublePercent, List.flatMap_cons, hc, if_false] at this ⊢
    rw [this]
    rfl

/-- C11, amended: for every text that does not begin with `'-'`, with `quote_percent`
not set or no `'%'` in the text, un-escaping the result of `escape_filename` (each
backslash dropped, the character after it taken literally) gives back the text. -/
theorem escape_filename_round_trip (text : List Char) (quote_percent : Bool)
    (h1 : peek text 0 ≠ '-') (h2 : quote_percent = false ∨ '%' ∉ cstr text) :
    shellUnescape (escape_filename text quote_percent) = cstr text := by
  rw [shellUnescape_escape_filename]
  simp only [h1, if_false, List.nil_append]
  rcases h2 with h2 | h2
  · simp [h2]
  · rw [doublePercent_of_not_mem _ h2]
    simp

/-- Witness of C11 (amended): the spec example `it's a test`, and a text with every
kind of character that is escaped. -/
theorem escape_filename_round_trip_witness :
    peek "it's a test".toList 0 ≠ '-' ∧
      shellUnescape (escape_filename "it's a test".toList false) = "it's a test".toList ∧
      shellUnescape (escape_filename "it's a test".toList false) =
        cstr "it's a test".toList :=
  ⟨by decide, by decide,
    escape_filename_round_trip "it's a test".toList false (by decide) (Or.inl rfl)⟩

/-- Counterexample to C11 as stated: the text `-rf` is escaped to a dot, a slash and the
text, which un-escapes to itself, not to `-rf`; and with `quote_percent` set the text
`50%` is escaped to `50%%`, which un-escapes to `50%%`. -/
theorem escape_filename_round_trip_fails :
    escape_filename "-rf".toList false = "./-rf".toList ∧
      shellUnescape (escape_filename "-rf".toList false) = "./-rf".toList ∧
      shellUnescape (escape_filename "-rf".toList false) ≠ "-rf".toList ∧
      shellUnescape (escape_filename "-rf".toList true) ≠ "-rf".toList ∧
      escape_filename "50%".toList true = "50%%".toList ∧
      shellUnescape (escape_filename "50%".toList true) ≠ "50%".toList := by
  decide

theorem escapedForm_append (qp : Bool) (a b : List Char) :
    escapedForm qp (a ++ b) = escapedForm qp a ++ escapedForm qp b := by
  simp [escapedForm]

/-- C12: for a `'%'` anywhere in the text (the text is `a`, `'%'`, `b`), the result of
`escape_filename` is the result for what stands before (the optional `"./"` and the
escaped form of `a`), then `%` when `quote_percent` is 0 and `%%` when it is set, then
the escaped form of `b`; what is emitted for the `'%'` holds no backslash. -/
theorem escape_filename_percent (text a b : List Char) (quote_percent : Bool)
    (h : cstr text = a ++ '%' :: b) :
    escape_filename text quote_percent =
        (if peek text 0 = '-' then ['.', '/'] else []) ++ escapedForm quote_percent a ++
          (if quote_percent then ['%', '%'] else ['%']) ++ escapedForm quote_percent b
      ∧ escChar quote_percent '%' = (if quote_percent then ['%', '%'] else ['%'])
      ∧ BACKSLASH ∉ escChar quote_percent '%' := by
  have e : escChar quote_percent '%' = (if quote_percent then ['%', '%'] else ['%']) := by
    simp [escChar]
  refine ⟨?_, e, ?_⟩
  · rw [escape_filename_eq, h, escapedForm_append]
    have e2 : escapedForm quote_percent ('%' :: b) =
        escChar quote_percent '%' ++ escapedForm quote_percent b := by
      simp [escapedForm]
    rw [e2, e]
    simp only [List.append_assoc]
  · rw [e]
    cases quote_percent <;> decide

/-- Witness of C12: the text `a b%c` with and without `quote_percent`. -/
theorem escape_filename_percent_witness :
    cstr "a b%c".toList = "a b".toList ++ '%' :: "c".toList ∧
      escape_filename "a b%c".toList false = ['a', BACKSLASH, ' ', 'b', '%', 'c'] ∧
      escape_filename "a b%c".toList true = ['a', BACKSLASH, ' ', 'b', '%', '%', 'c'] ∧
      (escape_filename "a b%c".toList true =
          (if peek "a b%c".toList 0 = '-' then ['.', '/'] else []) ++
            escapedForm true "a b".toList ++
            (if true then ['%', '%'] else ['%']) ++ escapedForm true "c".toList
        ∧ escChar true '%' = (if true then ['%', '%'] else ['%'])
        ∧ BACKSLASH ∉ escChar true '%') :=
  ⟨by decide, by decide, by decide,
    escape_filename_percent "a b%c".toList "a b".toList "c".toList true (by decide)⟩

theorem escapeLoop_length_le (qp : Bool) (n : Nat) : ∀ (s out : List Char),
    (escapeLoop qp n s out).length ≤ out.length + 2 * n := by
  induction n with
  | zero => intro s out; simp [escapeLoop]
  | succ n ih =>
    intro s out
    rw [escapeLoop]
    refine le_trans (ih _ _) ?_
    simp only [List.length_append, List.length_singleton]
    have : (if peek s 0 = '%' then (if qp = true then out ++ ['%'] else out)
        else if isShellMeta (peek s 0) = true then out ++ [BACKSLASH]
        else if peek s 0 = '~' then (if out = [] then out ++ [BACKSLASH] else out)
        else out).length ≤ out.length + 1 := by
      split
      · split <;> simp
      · split
        · simp
        · split
          · split <;> simp
          · simp
    omega

/-- C13: for every text and either flag, the bytes that `escape_filename` stores in the
block it allocates, the terminating NUL included (and, on the path for a leading `'~'`,
the NUL that the loop copies), number at most `2 * n + 3` for a text of length `n`,
which is the size requested from `malloc`. -/
theorem escape_filename_bytes_le (text : List Char) (quote_percent : Bool) :
    (escape_filename_bytes text quote_percent).length ≤ 2 * cstrlen text + 3 ∧
      escape_filename_alloc text = (2 * cstrlen text + 3) % SIZE_MOD := by
  constructor
  · unfold escape_filename_bytes
    simp only [List.length_append, List.length_singleton]
    have hl := escapeLoop_length_le quote_percent (cstrlen text)
    split
    · have := hl text ['.', '/']
      simp only [List.length_cons, List.length_nil] at this
      dsimp only
      omega
    · split
      · have := hl text.tail [peek text 0]
        simp only [List.length_cons, List.length_nil] at this
        dsimp only
        omega
      · have := hl text []
        simp only [List.length_nil] at this
        dsimp only
        omega
  · unfold escape_filename_alloc
    rw [show (cstrlen text * 2 % SIZE_MOD + 2 + 1) = cstrlen text * 2 % SIZE_MOD + 3 by rfl]
    rw [show 2 * cstrlen text + 3 = cstrlen text * 2 + 3 by omega]
    exact (Nat.mod_add_mod _ _ _)

/-! ## `make_rel_path`: the `strcat` loop is not bounded by the size of the buffer -/

theorem absPath_replicate_length (k : Nat) (hk : 0 < k) :
    (absPath (List.replicate k ['a'])).length = 2 * k := by
  have hne : List.replicate k ['a'] ≠ [] := by
    cases k with
    | zero => omega
    | succ k => simp [List.replicate_succ]
  rw [absPath_of_ne _ hne]
  clear hne hk
  induction k with
  | zero => simp [slashed]
  | succ k ih =>
    rw [List.replicate_succ, slashed_cons, List.length_append, ih]
    simp only [List.length_cons, List.length_nil]
    omega

theorem commonLen_x_replicate (k : Nat) :
    commonLen [['x']] (List.replicate k ['a']) = 0 := by
  cases k with
  | zero => simp [commonLen]
  | succ k =>
    rw [List.replicate_succ]
    have h : (['x'] : List Char) ≠ ['a'] := by decide
    simp [commonLen, h]

/-- For the path `/x` and a base of `k` components `a`, which fits into the buffer,
`make_rel_path` builds `k` times `"../"` followed by `x`, however large the buffer is:
`3 * k + 1` characters, also when that is more than `PATH_MAX`. -/
theorem make_rel_path_many_parents (PATH_MAX k : Nat) (m0 : Mem) (hk : 0 < k)
    (h1 : 2 * k + 1 ≤ PATH_MAX) (h2 : PATH_MAX < 3 * k) (h3 : PATH_MAX + 3 * k < SIZE_MOD) :
    make_rel_path PATH_MAX "/x".toList (absPath (List.replicate k ['a'])) m0 =
      dotDotSlashes k ++ ['x'] := by
  have hx : absPath [['x']] = "/x".toList := by decide
  have hcs : ∀ c ∈ [['x']], Clean c := by decide
  have hds : ∀ c ∈ List.replicate k ['a'], Clean c := by
    intro c hc
    rw [List.eq_of_mem_replicate hc]
    decide
  have hlen := absPath_replicate_length k hk
  have hfit : (absPath [['x']]).length ≤
      sizeLimit ((PATH_MAX + SIZE_MOD - 3 * ((List.replicate k ['a']).length -
        commonLen [['x']] (List.replicate k ['a'])) % SIZE_MOD) % SIZE_MOD) := by
    rw [commonLen_x_replicate, List.length_replicate, hx]
    simp only [sizeLimit, SIZE_MOD, String.toList, List.length_cons, List.length_nil] at h3 ⊢
    omega
  have h := make_rel_path_eq_relRef_wide PATH_MAX [['x']] (List.replicate k ['a']) m0 hcs hds
    (by omega) (by omega) hfit
  rw [hx] at h
  rw [h]
  unfold relRef
  simp only [commonLen_x_replicate, List.length_replicate, Nat.sub_zero, List.drop_zero,
    List.flatMap_cons, List.flatMap_nil, List.append_nil]
  have e : dotDotSlashes k ++ (['x'] ++ ['/']) = (dotDotSlashes k ++ ['x']) ++ ['/'] := by
    simp
  rw [e, List.dropLast_concat]
  simp

/-- C14, the failing input: with `PATH_MAX = 4096`, the path `/x` and the base made of
1400 components `a` (2800 characters), `make_rel_path` assembles 1400 times `"../"`
followed by `x`: 4201 characters and the NUL, whatever the static buffer held before.
The same with a buffer of 8 bytes, the path `/x` and the base `/a/b/c`: the result
`../../../x` takes 11 bytes. -/
theorem make_rel_path_exceeds_path_max :
    (absPath (List.replicate 1400 ['a'])).length = 2800 ∧
      (∀ m0, make_rel_path 4096 "/x".toList (absPath (List.replicate 1400 ['a'])) m0 =
        dotDotSlashes 1400 ++ ['x']) ∧
      (∀ m0, (make_rel_path 4096 "/x".toList (absPath (List.replicate 1400 ['a'])) m0).length
        + 1 = 4202) ∧
      make_rel_path 8 "/x".toList "/a/b/c".toList Mem.zero = "../../../x".toList ∧
      (make_rel_path_mem 8 "/x".toList "/a/b/c".toList Mem.zero).2 + 1 = 11 := by
  have hS : 4096 + 3 * 1400 < SIZE_MOD := by decide
  refine ⟨absPath_replicate_length 1400 (by omega), ?_, ?_, by decide, by decide⟩
  · intro m0
    exact make_rel_path_many_parents 4096 1400 m0 (by omega) (by omega) (by omega) hS
  · intro m0
    rw [make_rel_path_many_parents 4096 1400 m0 (by omega) (by omega) (by omega) hS,
      List.length_append, dotDotSlashes_length]
    rfl

/-! ## `expand_tilde` -/

theorem cstr_nil : cstr [] = [] := rfl

theorem cstr_cons (c : Char) (r : List Char) (h : c ≠ NUL) : cstr (c :: r) = c :: cstr r := by
  simp [cstr, h]

theorem cstr_cons_nul (r : List Char) : cstr (NUL :: r) = [] := by
  simp [cstr]

theorem cstr_cons_inv (s t : List Char) (x : Char) (h : cstr s = x :: t) :
    ∃ s2, s = x :: s2 ∧ x ≠ NUL ∧ cstr s2 = t := by
  cases s with
  | nil => simp [cstr] at h
  | cons y s2 =>
    by_cases hy : y = NUL
    · subst hy
      rw [cstr_cons_nul] at h
      exact absurd h (by simp)
    · rw [cstr_cons y s2 hy] at h
      obtain ⟨h1, h2⟩ := List.cons.inj h
      subst h1
      exact ⟨s2, rfl, hy, h2⟩

theorem cstr_length (s : List Char) : (cstr s).length = cstrlen s := rfl

theorem cstr_of_no_nul (s : List Char) (h : ∀ c ∈ s, c ≠ NUL) : cstr s = s := by
  unfold cstr
  rw [List.takeWhile_eq_self_iff]
  intro c hc
  simpa using h c hc

theorem cstr_cstr (s : List Char) : cstr (cstr s) = cstr s :=
  cstr_of_no_nul _ (cstr_no_nul s)

theorem strchr_none (c : Char) (hc : c ≠ NUL) : ∀ (s : List Char), c ∉ cstr s →
    strchr s c = none := by
  intro s
  induction s with
  | nil => intro _; rfl
  | cons x r ih =>
    intro h
    by_cases hx : x = NUL
    · subst hx
      rw [strchr]
      simp [hc.symm]
    · rw [cstr_cons x r hx] at h
      have h1 : x ≠ c := fun e => h (by simp [e])
      have h2 : c ∉ cstr r := fun e => h (by simp [e])
      rw [strchr]
      simp [h1, hx, ih h2]

theorem strchr_some (c : Char) : ∀ (a s b : List Char),
    cstr s = a ++ c :: b → c ∉ a → strchr s c = some a.length := by
  intro a
  induction a with
  | nil =>
    intro s b h _
    obtain ⟨s2, e, _, _⟩ := cstr_cons_inv s b c (by simpa using h)
    subst e
    simp [strchr]
  | cons y a ih =>
    intro s b h hn
    obtain ⟨s2, e, hy, h2⟩ := cstr_cons_inv s (a ++ c :: b) y (by simpa using h)
    subst e
    have h1 : y ≠ c := fun e => hn (by simp [e])
    have h3 : c ∉ a := fun e => hn (by simp [e])
    rw [strchr]
    simp [h1, hy, ih s2 b h2 h3]

theorem peek_of_cstr (s t : List Char) (i : Nat) (h : cstr s = t) (hi : i < t.length) :
    peek s i = peek t i := by
  subst h
  induction s generalizing i with
  | nil => simp [cstr] at hi
  | cons x r ih =>
    by_cases hx : x = NUL
    · subst hx
      simp [cstr_cons_nul] at hi
    · rw [cstr_cons x r hx] at hi ⊢
      cases i with
      | zero => rfl
      | succ i =>
        rw [peek_succ_cons, peek_succ_cons]
        exact ih i (by simpa using hi)

theorem peek_cstr_end (s : List Char) : peek s (cstr s).length = NUL := peek_cstrlen s

/-- C16, amended: for every string `rest`, `expand_tilde("~/" ++ rest)` is `cfg.home_dir`
followed by `rest`, with nothing put between them, and `expand_tilde("~")` is
`cfg.home_dir`. -/
theorem expand_tilde_home (env : TildeEnv) (rest : List Char) :
    expand_tilde env ('~' :: '/' :: rest) = cstr env.home_dir ++ cstr rest ∧
      expand_tilde env ['~'] = cstr env.home_dir := by
  constructor
  · simp [expand_tilde, try_replace_tilde, peek, format_str_ss]
  · simp [expand_tilde, try_replace_tilde, peek, format_str_ss, cstr]

/-- Counterexample to C16 as stated: with the home directory `/home/u/` the path `~`
expands to `/home/u/` and `~/x` to `/home/u/x`, which is not the expansion of `~`
followed by `/` and `x`; with the home directory `/home/u` the path `~/x` expands to
`/home/ux`. -/
theorem expand_tilde_home_no_separator :
    expand_tilde tildeEnvBob "~".toList = "/home/u/".toList ∧
      expand_tilde tildeEnvBob "~/x".toList = "/home/u/x".toList ∧
      expand_tilde tildeEnvBob "~/x".toList ≠
        expand_tilde tildeEnvBob "~".toList ++ "/".toList ++ "x".toList ∧
      expand_tilde tildeEnvBare "~".toList = "/home/u".toList ∧
      expand_tilde tildeEnvBare "~/x".toList = "/home/ux".toList ∧
      expand_tilde tildeEnvBare "~/x".toList ≠
        expand_tilde tildeEnvBare "~".toList ++ "/".toList ++ "x".toList := by
  decide

/-- The name that `try_replace_tilde` looks up for a path `~name` or `~name/...` with a
name shorter than the array `name`, and the outcome when the name is not found. -/
theorem try_replace_tilde_unknown (env : TildeEnv) (path name rest : List Char)
    (hp : cstr path = '~' :: name ++ rest) (hne : name ≠ []) (hs : '/' ∉ name)
    (hr : rest = [] ∨ peek rest 0 = '/') (hlen : name.length < env.NAME_MAX)
    (hdb : env.getpwnam name = none) :
    try_replace_tilde env path = none := by
  obtain ⟨p1, e1, _, hp1⟩ := cstr_cons_inv path (name ++ rest) '~' hp
  cases name with
  | nil => exact absurd rfl hne
  | cons n0 name1 =>
    obtain ⟨p2, e2, hn0, hp2⟩ := cstr_cons_inv p1 (name1 ++ rest) n0 (by simpa using hp1)
    subst e1 e2
    have hn0s : n0 ≠ '/' := fun e => hs (by simp [e])
    have h0 : peek ('~' :: n0 :: p2) 0 = '~' := rfl
    have h1 : peek ('~' :: n0 :: p2) 1 = n0 := rfl
    have hcs : cstr (n0 :: p2) = n0 :: name1 ++ rest := by simpa using hp1
    unfold try_replace_tilde
    simp only [h0, h1, ne_eq, not_true_eq_false, if_false, hn0, hn0s, or_self]
    rcases hr with hr | hr
    · subst hr
      have hno : '/' ∉ cstr ('~' :: n0 :: p2) := by
        rw [hp]
        simp only [List.append_nil, List.mem_cons, not_or]
        exact ⟨by decide, fun e => hn0s e.symm, fun e => hs (by simp [e])⟩
      rw [strchr_none '/' (by decide) _ hno]
      have hnm : env.NAME_MAX ≠ 0 := by omega
      have hcopy : copy_str [] env.NAME_MAX (('~' :: n0 :: p2).drop 1) = n0 :: name1 := by
        unfold copy_str
        simp only [hnm, if_false, List.drop_succ_cons, List.drop_zero, hcs, List.append_nil]
        apply List.take_of_length_le
        omega
      simp only [hcopy, hdb]
    · cases rest with
      | nil => exact absurd hr (by decide)
      | cons r0 rest1 =>
        have hr0 : r0 = '/' := by simpa [peek] using hr
        subst hr0
        have hsl := strchr_some '/' ('~' :: n0 :: name1) ('~' :: n0 :: p2) rest1
          hp
          (by
            simp only [List.mem_cons, not_or]
            exact ⟨by decide, fun e => hn0s e.symm, fun e => hs (by simp [e])⟩)
        rw [hsl]
        have hname : snprintf_s (('~' :: n0 :: name1).length - 1 + 1)
            (('~' :: n0 :: p2).drop 1) = n0 :: name1 := by
          unfold snprintf_s
          simp only [List.drop_succ_cons, List.drop_zero, hcs, List.length_cons,
            Nat.add_sub_cancel]
          rw [show n0 :: name1 ++ '/' :: rest1 = (n0 :: name1) ++ '/' :: rest1 by rfl]
          rw [List.take_left' (by simp)]
        simp only [hname, hdb]

/-- C15, amended: `expand_tilde` returns a string equal to its input whenever the path
does not start with `'~'`, and whenever it starts with `~name`, where `name`, the text
up to the first `'/'` or the end, is not empty, shorter than the array `name`
(`NAME_MAX`) and not found in the identity database.  The function always returns a
string. -/
theorem expand_tilde_unchanged (env : TildeEnv) (path : List Char)
    (h : peek path 0 ≠ '~' ∨
      ∃ name rest, cstr path = '~' :: name ++ rest ∧ name ≠ [] ∧ '/' ∉ name ∧
        (rest = [] ∨ peek rest 0 = '/') ∧ name.length < env.NAME_MAX ∧
        env.getpwnam name = none) :
    expand_tilde env path = cstr path := by
  rcases h with h | ⟨name, rest, hp, hne, hs, hr, hlen, hdb⟩
  · simp [expand_tilde, try_replace_tilde, h]
  · simp [expand_tilde, try_replace_tilde_unknown env path name rest hp hne hs hr hlen hdb]

/-- Witness of C15 (amended): the spec example `~nonexistentuser/x` with a database that
knows the user `bob` only, and a path without a tilde. -/
theorem expand_tilde_unchanged_witness :
    expand_tilde tildeEnvBob "~nonexistentuser/x".toList = "~nonexistentuser/x".toList ∧
      expand_tilde tildeEnvBob "~nonexistentuser/x".toList =
        cstr "~nonexistentuser/x".toList ∧
      expand_tilde tildeEnvBob "/etc/x".toList = cstr "/etc/x".toList :=
  ⟨by decide,
    expand_tilde_unchanged tildeEnvBob "~nonexistentuser/x".toList
      (Or.inr ⟨"nonexistentuser".toList, "/x".toList, by decide, by decide, by decide,
        Or.inr (by decide), by decide, by decide⟩),
    expand_tilde_unchanged tildeEnvBob "/etc/x".toList (Or.inl (by decide))⟩

set_option maxRecDepth 100000 in
/-- Counterexample to C15 as stated: with `NAME_MAX = 255`, a database whose only entry
is the name of 254 letters `a`, and the path `~` followed by 255 letters `a`, the name
after the tilde is not found in the database, but `copy_str` cuts it to 254 characters,
the lookup succeeds, and `expand_tilde` returns the home directory of that entry and
a `/`, not its input. -/
theorem expand_tilde_long_name_truncated :
    tildeEnvLong.getpwnam (List.replicate 255 'a') = none ∧
      expand_tilde tildeEnvLong ('~' :: List.replicate 255 'a') = "/home/a/".toList ∧
      expand_tilde tildeEnvLong ('~' :: List.replicate 255 'a') ≠
        '~' :: List.replicate 255 'a' := by
  decide

/-! ## `find_ext_dot`, `get_ext`, `split_ext`, `cut_extension` -/

theorem strrchr_none (c : Char) : ∀ (s : List Char), c ∉ cstr s → strrchr s c = none := by
  intro s
  induction s with
  | nil => intro _; rfl
  | cons x r ih =>
    intro h
    by_cases hx : x = NUL
    · simp [strrchr, hx]
    · rw [cstr_cons x r hx] at h
      have h1 : x ≠ c := fun e => h (by simp [e])
      have h2 : c ∉ cstr r := fun e => h (by simp [e])
      simp [strrchr, hx, ih h2, h1]

theorem strrchr_some (c : Char) : ∀ (a s b : List Char),
    cstr s = a ++ c :: b → c ∉ b → strrchr s c = some a.length := by
  intro a
  induction a with
  | nil =>
    intro s b h hb
    obtain ⟨s2, e, hc, h2⟩ := cstr_cons_inv s b c (by simpa using h)
    subst e
    have := strrchr_none c s2 (by rw [h2]; exact hb)
    simp [strrchr, hc, this]
  | cons y a ih =>
    intro s b h hb
    obtain ⟨s2, e, hy, h2⟩ := cstr_cons_inv s (a ++ c :: b) y (by simpa using h)
    subst e
    simp [strrchr, hy, ih s2 b h2 hb]

theorem strrchr_none_inv (c : Char) : ∀ (s : List Char), strrchr s c = none → c ∉ cstr s := by
  intro s
  induction s with
  | nil => intro _; simp [cstr]
  | cons x r ih =>
    intro h
    by_cases hx : x = NUL
    · subst hx
      simp [cstr_cons_nul]
    · rw [cstr_cons x r hx]
      rw [strrchr] at h
      simp only [hx, if_false] at h
      cases hr : strrchr r c with
      | some j => rw [hr] at h; simp at h
      | none =>
        rw [hr] at h
        have hxc : x ≠ c := by
          intro e
          simp [e] at h
        simp only [List.mem_cons, not_or]
        exact ⟨fun e => hxc e.symm, ih hr⟩

theorem strrchr_some_inv (c : Char) : ∀ (s : List Char) (i : Nat), strrchr s c = some i →
    ∃ a b, cstr s = a ++ c :: b ∧ a.length = i ∧ c ∉ b := by
  intro s
  induction s with
  | nil => intro i h; simp [strrchr] at h
  | cons x r ih =>
    intro i h
    by_cases hx : x = NUL
    · simp [strrchr, hx] at h
    · rw [strrchr] at h
      simp only [hx, if_false] at h
      cases hr : strrchr r c with
      | some j =>
        rw [hr] at h
        obtain ⟨a, b, e1, e2, e3⟩ := ih j hr
        refine ⟨x :: a, b, ?_, ?_, e3⟩
        · rw [cstr_cons x r hx, e1]; rfl
        · simp only [Option.some.injEq] at h
          simp only [List.length_cons, e2]
          exact h
      | none =>
        rw [hr] at h
        by_cases hxc : x = c
        · subst hxc
          simp only [if_true, Option.some.injEq] at h
          exact ⟨[], cstr r, by rw [cstr_cons x r hx]; rfl, by simpa using h,
            strrchr_none_inv x r hr⟩
        · simp [hxc] at h

theorem cstr_drop_of_append : ∀ (a s b : List Char), cstr s = a ++ b →
    cstr (s.drop a.length) = b := by
  intro a
  induction a with
  | nil => intro s b h; simpa using h
  | cons y a ih =>
    intro s b h
    obtain ⟨s2, e, _, h2⟩ := cstr_cons_inv s (a ++ b) y (by simpa using h)
    subst e
    simpa using ih s2 b h2

theorem cstr_set_nul : ∀ (a s b : List Char) (c : Char), cstr s = a ++ c :: b →
    cstr (s.set a.length NUL) = a := by
  intro a
  induction a with
  | nil =>
    intro s b c h
    obtain ⟨s2, e, _, _⟩ := cstr_cons_inv s b c (by simpa using h)
    subst e
    simp [cstr_cons_nul]
  | cons y a ih =>
    intro s b c h
    obtain ⟨s2, e, hy, h2⟩ := cstr_cons_inv s (a ++ c :: b) y (by simpa using h)
    subst e
    simp only [List.length_cons, List.set_cons_succ]
    rw [cstr_cons y _ hy, ih s2 b c h2]

theorem set_self_of_cstr : ∀ (a s b : List Char) (c : Char), cstr s = a ++ c :: b →
    s.set a.length c = s := by
  intro a
  induction a with
  | nil =>
    intro s b c h
    obtain ⟨s2, e, _, _⟩ := cstr_cons_inv s b c (by simpa using h)
    subst e
    simp
  | cons y a ih =>
    intro s b c h
    obtain ⟨s2, e, _, h2⟩ := cstr_cons_inv s (a ++ c :: b) y (by simpa using h)
    subst e
    simp only [List.length_cons, List.set_cons_succ]
    rw [ih s2 b c h2]

theorem drop_set_succ (x : Char) : ∀ (s : List Char) (i : Nat),
    (s.set i x).drop (i + 1) = s.drop (i + 1) := by
  intro s
  induction s with
  | nil => intro i; simp
  | cons y r ih =>
    intro i
    cases i with
    | zero => simp
    | succ i => simpa using ih i

theorem set_set_same (x y : Char) : ∀ (s : List Char) (i : Nat),
    (s.set i x).set i y = s.set i y := by
  intro s
  induction s with
  | nil => intro i; simp
  | cons z r ih =>
    intro i
    cases i with
    | zero => simp
    | succ i => simp [ih i]

theorem getLast_cons_of_ne_nil (x : Char) (t : List Char) (ht : t ≠ []) :
    (x :: t).getLast? = t.getLast? := by
  cases t with
  | nil => exact absurd rfl ht
  | cons y r => exact List.getLast?_cons_cons

theorem mem_of_getLast_some (c : Char) : ∀ (l : List Char), l.getLast? = some c → c ∈ l := by
  intro l
  induction l with
  | nil => intro h; simp at h
  | cons x r ih =>
    intro h
    by_cases hr : r = []
    · subst hr
      simp at h
      simp [h]
    · rw [getLast_cons_of_ne_nil x r hr] at h
      simp [ih h]

/-- When `find_ext_dot` finds a dot: the dot is the last one of the path, no `'/'` comes
after it, and what stands before it is not empty and does not end in `'/'`. -/
theorem find_ext_dot_some (path r e : List Char) (h : cstr path = r ++ '.' :: e)
    (hd : '.' ∉ e) (hs : '/' ∉ e) (hr : r ≠ []) (hl : r.getLast? ≠ some '/') :
    find_ext_dot path = some r.length := by
  have hdot := strrchr_some '.' r path e h hd
  have hlen : r.length ≠ 0 := fun e0 => hr (List.length_eq_zero.1 e0)
  unfold find_ext_dot
  simp only [hdot]
  cases hsl : strrchr path '/' with
  | none => simp [hlen]
  | some j =>
    obtain ⟨a, b, e1, e2, e3⟩ := strrchr_some_inv '/' path j hsl
    rw [h] at e1
    have hj : j + 1 < r.length := by
      rcases List.append_eq_append_iff.1 e1 with ⟨t, h1, h2⟩ | ⟨t, h1, h2⟩
      · cases t with
        | nil =>
          simp only [List.nil_append] at h2
          have := (List.cons.inj h2).1
          exact absurd this (by decide)
        | cons t0 t1 =>
          simp only [List.cons_append] at h2
          obtain ⟨h3, h4⟩ := List.cons.inj h2
          exfalso
          apply hs
          rw [h4]
          simp
      · cases t with
        | nil =>
          simp only [List.nil_append] at h2
          have := (List.cons.inj h2).1
          exact absurd this (by decide)
        | cons t0 t1 =>
          simp only [List.cons_append] at h2
          obtain ⟨h3, h4⟩ := List.cons.inj h2
          subst h3
          have ht1 : t1 ≠ [] := by
            intro ht
            subst ht
            apply hl
            rw [h1]
            simp
          have : 0 < t1.length := List.length_pos.2 ht1
          rw [h1, ← e2]
          simp only [List.length_append, List.length_cons]
          omega
    have h1 : ¬ r.length < j := by omega
    have h2 : r.length ≠ j + 1 := by omega
    simp [hlen, h1, h2]

/-- Conversely, a dot that `find_ext_dot` finds splits the path in that way. -/
theorem find_ext_dot_some_inv (path : List Char) (d : Nat) (h : find_ext_dot path = some d) :
    ∃ r e, cstr path = r ++ '.' :: e ∧ '.' ∉ e ∧ '/' ∉ e ∧ r ≠ [] ∧
      r.getLast? ≠ some '/' ∧ r.length = d := by
  unfold find_ext_dot at h
  cases hdot : strrchr path '.' with
  | none => simp [hdot] at h
  | some d2 =>
    obtain ⟨r, e, e1, e2, e3⟩ := strrchr_some_inv '.' path d2 hdot
    cases hsl : strrchr path '/' with
    | none =>
      simp only [hdot, hsl] at h
      have hno := strrchr_none_inv '/' path hsl
      rw [e1] at hno
      have hd0 : d2 ≠ 0 := by
        intro e0
        simp [e0] at h
      have hd : d2 = d := by
        simp [hd0] at h
        exact h
      refine ⟨r, e, e1, e3, fun hh => hno (by simp [hh]), ?_, ?_, by omega⟩
      · intro hr
        subst hr
        simp at e2
        exact hd0 e2.symm
      · intro hl
        apply hno
        have := mem_of_getLast_some _ _ hl
        simp [this]
    | some j =>
      simp only [hdot, hsl] at h
      have hd0 : d2 ≠ 0 := by
        intro e0
        simp [e0] at h
      have hlt : ¬ d2 < j := by
        intro hh
        simp [hh] at h
      have hne : d2 ≠ j + 1 := by
        intro hh
        simp [hh] at h
      have hd : d2 = d := by
        simp [hd0, hlt, hne] at h
        exact h
      obtain ⟨a, b, f1, f2, f3⟩ := strrchr_some_inv '/' path j hsl
      rw [e1] at f1
      have hr : r ≠ [] := by
        intro hr
        subst hr
        simp at e2
        exact hd0 e2.symm
      rcases List.append_eq_append_iff.1 f1 with ⟨t, h1, h2⟩ | ⟨t, h1, h2⟩
      · cases t with
        | nil =>
          simp only [List.nil_append] at h2
          have := (List.cons.inj h2).1
          exact absurd this (by decide)
        | cons t0 t1 =>
          exfalso
          apply hlt
          rw [← e2, ← f2, h1]
          simp
      · cases t with
        | nil =>
          simp only [List.nil_append] at h2
          have := (List.cons.inj h2).1
          exact absurd this (by decide)
        | cons t0 t1 =>
          simp only [List.cons_append] at h2
          obtain ⟨h3, h4⟩ := List.cons.inj h2
          subst h3
          have ht1 : t1 ≠ [] := by
            intro ht
            subst ht
            apply hne
            rw [← e2, ← f2, h1]
            simp
          refine ⟨r, e, e1, e3, ?_, hr, ?_, by omega⟩
          · intro hh
            apply f3
            rw [h4]
            simp [hh]
          · intro hl
            apply f3
            rw [h4]
            have hl2 : t1.getLast? = some '/' := by
              rw [h1] at hl
              rw [List.getLast?_append_of_ne_nil _ (by simp)] at hl
              rw [getLast_cons_of_ne_nil _ _ ht1] at hl
              exact hl
            have := mem_of_getLast_some _ _ hl2
            simp [this]

theorem find_ext_dot_none (path : List Char)
    (h : ¬ ∃ r e, cstr path = r ++ '.' :: e ∧ '.' ∉ e ∧ '/' ∉ e ∧ r ≠ [] ∧
      r.getLast? ≠ some '/') :
    find_ext_dot path = none := by
  cases hf : find_ext_dot path with
  | none => rfl
  | some d =>
    obtain ⟨r, e, h1, h2, h3, h4, h5, _⟩ := find_ext_dot_some_inv path d hf
    exact absurd ⟨r, e, h1, h2, h3, h4, h5⟩ h

/-- The results of `get_ext` and `split_ext` for a path with an extension. -/
theorem split_ext_found (path r e : List Char) (h : cstr path = r ++ '.' :: e)
    (hd : '.' ∉ e) (hs : '/' ∉ e) (hr : r ≠ []) (hl : r.getLast? ≠ some '/') :
    cstr (get_ext path) = e ∧ cstr (split_ext path).ext_pos = e ∧
      cstr (split_ext path).path = r ∧ (split_ext path).root_len = toCInt r.length := by
  have hf := find_ext_dot_some path r e h hd hs hr hl
  have he : cstr (path.drop (r.length + 1)) = e := by
    have := cstr_drop_of_append (r ++ ['.']) path e (by simpa using h)
    simpa using this
  unfold get_ext split_ext
  simp only [hf]
  refine ⟨he, ?_, cstr_set_nul r path e '.' h, trivial⟩
  rw [drop_set_succ]
  exact he

/-- C17: for every path, if the last `'.'` of the path (the path is `r`, `'.'`, `e` with
no `'.'` in `e`) lies inside the basename (no `'/'` in `e`) and is not the first
character of the basename (`r` is not empty and does not end in `'/'`), then `get_ext`
and `split_ext` give the extension `e`, the text after that dot, and `split_ext` cuts
the path to the root `r`; in every other case both give the empty extension and
`split_ext` leaves the whole path as the root. -/
theorem split_ext_get_ext_spec (path : List Char) :
    (∀ r e, cstr path = r ++ '.' :: e → '.' ∉ e → '/' ∉ e → r ≠ [] →
        r.getLast? ≠ some '/' →
        cstr (get_ext path) = e ∧ cstr (split_ext path).ext_pos = e ∧
          cstr (split_ext path).path = r ∧ (split_ext path).root_len = toCInt r.length) ∧
      ((¬ ∃ r e, cstr path = r ++ '.' :: e ∧ '.' ∉ e ∧ '/' ∉ e ∧ r ≠ [] ∧
          r.getLast? ≠ some '/') →
        cstr (get_ext path) = [] ∧ cstr (split_ext path).ext_pos = [] ∧
          cstr (split_ext path).path = cstr path ∧
          (split_ext path).root_len = toCInt (cstr path).length) := by
  constructor
  · intro r e h hd hs hr hl
    exact split_ext_found path r e h hd hs hr hl
  · intro h
    have hf := find_ext_dot_none path h
    have he : cstr (path.drop (cstrlen path)) = [] := by
      have := cstr_drop_of_append (cstr path) path [] (by simp)
      simpa [cstr_length] using this
    unfold get_ext split_ext
    simp only [hf]
    refine ⟨he, he, ?_, ?_⟩ <;> trivial

/-- What `cut_extension` does to a path that ends in `.tar.` and an extension `E`
without a dot. -/
theorem cut_extension_tar_eq (path R E : List Char)
    (h : cstr path = R ++ ['.', 't', 'a', 'r', '.'] ++ E) (hE : '.' ∉ E) :
    cut_extension path =
      (path.set R.length NUL, path.drop (R.length + 1)) := by
  have h1 : cstr path = (R ++ ['.', 't', 'a', 'r']) ++ '.' :: E := by simpa using h
  have hext := strrchr_some '.' _ path E h1 hE
  have hlen : (R ++ ['.', 't', 'a', 'r']).length = R.length + 4 := by simp
  rw [hlen] at hext
  have hp1 : cstr (path.set (R.length + 4) NUL) = R ++ '.' :: ['t', 'a', 'r'] := by
    have := cstr_set_nul _ path E '.' h1
    rw [hlen] at this
    simpa using this
  have he := strrchr_some '.' R (path.set (R.length + 4) NUL) ['t', 'a', 'r'] hp1 (by decide)
  have htar : stroscmpEq ((path.set (R.length + 4) NUL).drop (R.length + 1))
      ['t', 'a', 'r'] = true := by
    have := cstr_drop_of_append (R ++ ['.']) (path.set (R.length + 4) NUL) ['t', 'a', 'r']
      (by simpa using hp1)
    simp only [List.length_append, List.length_singleton] at this
    unfold stroscmpEq
    rw [this]
    decide
  have hback : (path.set (R.length + 4) NUL).set (R.length + 4) '.' = path := by
    rw [set_set_same]
    have := set_self_of_cstr _ path E '.' h1
    rwa [hlen] at this
  unfold cut_extension
  simp only [hext, he, htar, if_true, hback]
  rw [drop_set_succ]

/-- C18, amended: for every path that ends in `.tar.` followed by an extension `E` with
no `'.'` and no `'/'` in it (the path is `R`, `.tar.`, `E`), `cut_extension` yields the
extension `tar.` followed by `E` and cuts the path to the root `R`, while `split_ext`
yields the extension `E` and the root `R` followed by `.tar`. -/
theorem cut_extension_tar (path R E : List Char)
    (h : cstr path = R ++ ['.', 't', 'a', 'r', '.'] ++ E) (hd : '.' ∉ E) (hs : '/' ∉ E) :
    cstr (cut_extension path).1 = R ∧
      cstr (cut_extension path).2 = ['t', 'a', 'r', '.'] ++ E ∧
      cstr (split_ext path).path = R ++ ['.', 't', 'a', 'r'] ∧
      cstr (split_ext path).ext_pos = E := by
  have h1 : cstr path = R ++ '.' :: (['t', 'a', 'r', '.'] ++ E) := by simpa using h
  have h2 : cstr path = (R ++ ['.', 't', 'a', 'r']) ++ '.' :: E := by simpa using h
  rw [cut_extension_tar_eq path R E h hd]
  refine ⟨cstr_set_nul R path _ '.' h1, ?_, ?_, ?_⟩
  · have := cstr_drop_of_append (R ++ ['.']) path (['t', 'a', 'r', '.'] ++ E)
      (by simpa using h)
    simpa using this
  · exact (split_ext_found path (R ++ ['.', 't', 'a', 'r']) E h2 hd hs (by simp)
      (by simp)).2.2.1
  · exact (split_ext_found path (R ++ ['.', 't', 'a', 'r']) E h2 hd hs (by simp)
      (by simp)).2.1

/-- Witness of C18 (amended): the path `a.tar.gz`. -/
theorem cut_extension_tar_witness :
    cstr "a.tar.gz".toList = "a".toList ++ ['.', 't', 'a', 'r', '.'] ++ "gz".toList ∧
      cstr (cut_extension "a.tar.gz".toList).1 = "a".toList ∧
      cstr (cut_extension "a.tar.gz".toList).2 = "tar.gz".toList ∧
      (cstr (cut_extension "a.tar.gz".toList).1 = "a".toList ∧
        cstr (cut_extension "a.tar.gz".toList).2 = ['t', 'a', 'r', '.'] ++ "gz".toList ∧
        cstr (split_ext "a.tar.gz".toList).path = "a".toList ++ ['.', 't', 'a', 'r'] ∧
        cstr (split_ext "a.tar.gz".toList).ext_pos = "gz".toList) :=
  ⟨by decide, by decide, by decide,
    cut_extension_tar "a.tar.gz".toList "a".toList "gz".toList (by decide) (by decide)
      (by decide)⟩

/-- Counterexample to C18 as stated: for the path `a.tar.gz`, `split_ext` yields the
extension `gz` and the root `a.tar` (of length 5), not `tar.gz` and `a`; `get_ext`
yields `gz` too. -/
theorem split_ext_tar_gz :
    cstr (split_ext "a.tar.gz".toList).ext_pos = "gz".toList ∧
      cstr (split_ext "a.tar.gz".toList).path = "a.tar".toList ∧
      (split_ext "a.tar.gz".toList).root_len = 5 ∧
      cstr (get_ext "a.tar.gz".toList) = "gz".toList ∧
      cstr (split_ext "a.tar.gz".toList).ext_pos ≠ "tar.gz".toList ∧
      cstr (split_ext "dir/x.tar.bz2".toList).ext_pos = "bz2".toList ∧
      cstr (split_ext "dir/x.tar.bz2".toList).path = "dir/x.tar".toList := by
  decide

/-- Examples for `get_ext` and `split_ext`: a plain extension, a dot that starts the
basename, a dot inside a directory name, no dot at all, a dot at the end. -/
theorem split_ext_examples :
    cstr (get_ext "dir/file.txt".toList) = "txt".toList ∧
      cstr (split_ext "dir/file.txt".toList).path = "dir/file".toList ∧
      cstr (get_ext ".bashrc".toList) = [] ∧
      cstr (get_ext "dir/.bashrc".toList) = [] ∧
      cstr (split_ext "dir/.bashrc".toList).path = "dir/.bashrc".toList ∧
      cstr (get_ext "dir.d/file".toList) = [] ∧
      cstr (get_ext "file".toList) = [] ∧
      cstr (get_ext "file.".toList) = [] ∧
      cstr (split_ext "file.".toList).path = "file".toList ∧
      cstr (get_ext ".a.b".toList) = "b".toList := by
  decide

/-! ## `find_cmd_in_path`, `get_cmd_path` -/

theorem strchr_none_inv (c : Char) : ∀ (s : List Char), strchr s c = none → c ∉ cstr s := by
  intro s
  induction s with
  | nil => intro _; simp [cstr]
  | cons x r ih =>
    intro h
    by_cases hx : x = NUL
    · subst hx
      simp [cstr_cons_nul]
    · rw [cstr_cons x r hx]
      rw [strchr] at h
      by_cases hxc : x = c
      · simp [hxc] at h
      · simp only [hxc, hx, if_false] at h
        cases hr : strchr r c with
        | some j => rw [hr] at h; simp at h
        | none =>
          simp only [List.mem_cons, not_or]
          exact ⟨fun e => hxc e.symm, ih hr⟩

theorem contains_slash_iff (path : List Char) : contains_slash path = true ↔ '/' ∈ cstr path := by
  unfold contains_slash
  constructor
  · intro h
    by_contra hn
    rw [strchr_none '/' (by decide) path hn] at h
    simp at h
  · intro h
    cases hs : strchr path '/' with
    | none => exact absurd h (strchr_none_inv '/' path hs)
    | some j => rfl

theorem snprintf_fits (size : Nat) (a b : List Char)
    (h : (cstr a).length + 1 + (cstr b).length < size) :
    snprintf_s_slash_s size a b = cstr a ++ '/' :: cstr b := by
  unfold snprintf_s_slash_s
  apply List.take_of_length_le
  simp only [List.length_append, List.length_cons]
  omega

theorem copy_str_fits (old src : List Char) (dst_len : Nat) (h : (cstr src).length < dst_len) :
    copy_str old dst_len src = cstr src := by
  unfold copy_str
  have : dst_len ≠ 0 := by omega
  simp only [this, if_false]
  apply List.take_of_length_le
  omega

/-- The loop of `find_cmd_in_path` when no candidate of the remaining directories is an
executable: every candidate is tested, 1 is returned, `path` is not written. -/
theorem findLoop_miss (env : PathEnv) (cmd : List Char) (path_len : Nat)
    (path : Option (List Char)) : ∀ (l probed : List (List Char)),
    (∀ d ∈ l, env.executable_exists (snprintf_s_slash_s env.PATH_MAX d cmd) = false) →
    findLoop env cmd path_len path l probed =
      { ret := 1, path := path,
        probed := probed ++ l.map (fun d => snprintf_s_slash_s env.PATH_MAX d cmd) } := by
  intro l
  induction l with
  | nil => intro probed _; simp [findLoop]
  | cons d rest ih =>
    intro probed h
    have hd := h d (by simp)
    rw [findLoop]
    simp only [hd, Bool.false_eq_true, if_false]
    rw [ih _ (fun x hx => h x (by simp [hx]))]
    simp

/-- The loop of `find_cmd_in_path` when the candidate of `d` is the first one that is an
executable: the candidates up to that of `d` are tested, 0 is returned, and the
candidate of `d` is copied to `path` when `path` is not `NULL`. -/
theorem findLoop_hit (env : PathEnv) (cmd : List Char) (path_len : Nat)
    (path : Option (List Char)) (d : List Char) (post : List (List Char)) :
    ∀ (pre probed : List (List Char)),
    (∀ x ∈ pre, env.executable_exists (snprintf_s_slash_s env.PATH_MAX x cmd) = false) →
    env.executable_exists (snprintf_s_slash_s env.PATH_MAX d cmd) = true →
    findLoop env cmd path_len path (pre ++ d :: post) probed =
      { ret := 0,
        path := path.map (fun old =>
          copy_str old path_len (snprintf_s_slash_s env.PATH_MAX d cmd)),
        probed := probed ++
          (pre ++ [d]).map (fun d => snprintf_s_slash_s env.PATH_MAX d cmd) } := by
  intro pre
  induction pre with
  | nil =>
    intro probed _ hd
    simp [findLoop, hd]
  | cons x rest ih =>
    intro probed h hd
    have hx := h x (by simp)
    rw [List.cons_append, findLoop]
    simp only [hx, Bool.false_eq_true, if_false]
    rw [ih _ (fun y hy => h y (by simp [hy])) hd]
    simp

theorem exists_first_hit (f : List Char → Bool) : ∀ (l : List (List Char)),
    (∃ d ∈ l, f d = true) →
    ∃ pre d post, l = pre ++ d :: post ∧ (∀ x ∈ pre, f x = false) ∧ f d = true := by
  intro l
  induction l with
  | nil => intro h; obtain ⟨d, hd, _⟩ := h; simp at hd
  | cons y r ih =>
    intro h
    by_cases hy : f y = true
    · exact ⟨[], y, r, rfl, by simp, hy⟩
    · have hr : ∃ d ∈ r, f d = true := by
        obtain ⟨d, hd, hf⟩ := h
        rcases List.mem_cons.1 hd with e | e
        · subst e; exact absurd hf hy
        · exact ⟨d, e, hf⟩
      obtain ⟨pre, d, post, e1, e2, e3⟩ := ih hr
      refine ⟨y :: pre, d, post, by rw [e1]; rfl, ?_, e3⟩
      intro x hx
      rcases List.mem_cons.1 hx with e | e
      · subst e; simpa using hy
      · exact e2 x e

/-- C20, amended: for every search list in which each candidate `d/cmd` is shorter than
`PATH_MAX`, `find_cmd_in_path` returns 0 exactly when some directory `d` of the list
makes `d/cmd` an existing executable, and 1 otherwise.  When it returns 0 the first such
`d` decides: the candidates up to `d/cmd` have been tested in list order, and `d/cmd` is
copied to `path`, cut to `path_len - 1` characters (so `path` holds `d/cmd` when `path`
is not `NULL` and `d/cmd` is shorter than `path_len`).  When it returns 1, `path` is
left untouched. -/
theorem find_cmd_in_path_spec (env : PathEnv) (cmd : List Char) (path_len : Nat)
    (path : Option (List Char))
    (hfit : ∀ d ∈ env.paths, (cstr d).length + 1 + (cstr cmd).length < env.PATH_MAX) :
    ((find_cmd_in_path env cmd path_len path).ret = 0 ↔
        ∃ d ∈ env.paths, env.executable_exists (cstr d ++ '/' :: cstr cmd) = true) ∧
      ((find_cmd_in_path env cmd path_len path).ret = 0 ∨
        (find_cmd_in_path env cmd path_len path).ret = 1) ∧
      (∀ pre d post, env.paths = pre ++ d :: post →
        (∀ x ∈ pre, env.executable_exists (cstr x ++ '/' :: cstr cmd) = false) →
        env.executable_exists (cstr d ++ '/' :: cstr cmd) = true →
        (find_cmd_in_path env cmd path_len path).ret = 0 ∧
          (find_cmd_in_path env cmd path_len path).path =
            path.map (fun old => copy_str old path_len (cstr d ++ '/' :: cstr cmd)) ∧
          (find_cmd_in_path env cmd path_len path).probed =
            (pre ++ [d]).map (fun x => cstr x ++ '/' :: cstr cmd) ∧
          (∀ old, path = some old → (cstr d).length + 1 + (cstr cmd).length < path_len →
            (find_cmd_in_path env cmd path_len path).path =
              some (cstr d ++ '/' :: cstr cmd))) ∧
      ((∀ d ∈ env.paths, env.executable_exists (cstr d ++ '/' :: cstr cmd) = false) →
        (find_cmd_in_path env cmd path_len path).ret = 1 ∧
          (find_cmd_in_path env cmd path_len path).path = path) := by
  have hsn : ∀ d ∈ env.paths, snprintf_s_slash_s env.PATH_MAX d cmd =
      cstr d ++ '/' :: cstr cmd := fun d hd => snprintf_fits _ d cmd (hfit d hd)
  have hmiss : (∀ d ∈ env.paths, env.executable_exists (cstr d ++ '/' :: cstr cmd) = false) →
      (find_cmd_in_path env cmd path_len path).ret = 1 ∧
        (find_cmd_in_path env cmd path_len path).path = path := by
    intro h
    unfold find_cmd_in_path
    rw [findLoop_miss env cmd path_len path env.paths []
      (fun d hd => by rw [hsn d hd]; exact h d hd)]
    exact ⟨rfl, rfl⟩
  have hhit : ∀ pre d post, env.paths = pre ++ d :: post →
      (∀ x ∈ pre, env.executable_exists (cstr x ++ '/' :: cstr cmd) = false) →
      env.executable_exists (cstr d ++ '/' :: cstr cmd) = true →
      (find_cmd_in_path env cmd path_len path).ret = 0 ∧
        (find_cmd_in_path env cmd path_len path).path =
          path.map (fun old => copy_str old path_len (cstr d ++ '/' :: cstr cmd)) ∧
        (find_cmd_in_path env cmd path_len path).probed =
          (pre ++ [d]).map (fun x => cstr x ++ '/' :: cstr cmd) := by
    intro pre d post e h1 h2
    have hd : d ∈ env.paths := by rw [e]; simp
    have hpre : ∀ x ∈ pre, x ∈ env.paths := fun x hx => by rw [e]; simp [hx]
    unfold find_cmd_in_path
    rw [e, findLoop_hit env cmd path_len path d post pre []
      (fun x hx => by rw [hsn x (hpre x hx)]; exact h1 x hx)
      (by rw [hsn d hd]; exact h2)]
    rw [hsn d hd]
    refine ⟨rfl, rfl, ?_⟩
    simp only [List.nil_append]
    apply List.map_congr_left
    intro x hx
    rcases List.mem_append.1 hx with hx | hx
    · exact hsn x (hpre x hx)
    · simp only [List.mem_singleton] at hx
      subst hx
      exact hsn x hd
  refine ⟨?_, ?_, ?_, hmiss⟩
  · constructor
    · intro h0
      by_contra hn
      have hall : ∀ d ∈ env.paths,
          env.executable_exists (cstr d ++ '/' :: cstr cmd) = false := by
        intro d hd
        by_contra hf
        exact hn ⟨d, hd, by simpa using hf⟩
      rw [(hmiss hall).1] at h0
      exact absurd h0 (by decide)
    · intro h
      obtain ⟨pre, d, post, e1, e2, e3⟩ :=
        exists_first_hit (fun d => env.executable_exists (cstr d ++ '/' :: cstr cmd))
          env.paths h
      exact (hhit pre d post e1 e2 e3).1
  · by_cases h : ∃ d ∈ env.paths, env.executable_exists (cstr d ++ '/' :: cstr cmd) = true
    · obtain ⟨pre, d, post, e1, e2, e3⟩ :=
        exists_first_hit (fun d => env.executable_exists (cstr d ++ '/' :: cstr cmd))
          env.paths h
      exact Or.inl (hhit pre d post e1 e2 e3).1
    · right
      apply (hmiss _).1
      intro d hd
      by_contra hf
      exact h ⟨d, hd, by simpa using hf⟩
  · intro pre d post e h1 h2
    obtain ⟨r1, r2, r3⟩ := hhit pre d post e h1 h2
    refine ⟨r1, r2, r3, ?_⟩
    intro old ho hl
    rw [r2, ho]
    simp only [Option.map_some']
    congr 1
    have := copy_str_fits old (cstr d ++ '/' :: cstr cmd) path_len
      (by
        rw [cstr_of_no_nul]
        · simp only [List.length_append, List.length_cons]; omega
        · intro c hc
          rcases List.mem_append.1 hc with hc | hc
          · exact cstr_no_nul d c hc
          · rcases List.mem_cons.1 hc with hc | hc
            · subst hc; decide
            · exact cstr_no_nul cmd c hc)
    rw [this]
    apply cstr_of_no_nul
    intro c hc
    rcases List.mem_append.1 hc with hc | hc
    · exact cstr_no_nul d c hc
    · rcases List.mem_cons.1 hc with hc | hc
      · subst hc; decide
      · exact cstr_no_nul cmd c hc

/-- Witness of C20 (amended): the search list `/usr/bin`, `/bin` with the one executable
`/bin/ls`; the command `ls` is found in the second directory, the command `lsx` is not
found. -/
theorem find_cmd_in_path_spec_witness :
    (∀ d ∈ pathEnvBin.paths,
        (cstr d).length + 1 + (cstr "ls".toList).length < pathEnvBin.PATH_MAX) ∧
      ((find_cmd_in_path pathEnvBin "ls".toList 4096 (some [])).ret = 0 ↔
        ∃ d ∈ pathEnvBin.paths,
          pathEnvBin.executable_exists (cstr d ++ '/' :: cstr "ls".toList) = true) ∧
      (find_cmd_in_path pathEnvBin "ls".toList 4096 (some [])).ret = 0 ∧
      (find_cmd_in_path pathEnvBin "ls".toList 4096 (some [])).path =
        some "/bin/ls".toList ∧
      (find_cmd_in_path pathEnvBin "ls".toList 4096 (some [])).probed =
        ["/usr/bin/ls".toList, "/bin/ls".toList] ∧
      (find_cmd_in_path pathEnvBin "lsx".toList 4096 (some "old".toList)).ret = 1 ∧
      (find_cmd_in_path pathEnvBin "lsx".toList 4096 (some "old".toList)).path =
        some "old".toList :=
  ⟨by decide,
    (find_cmd_in_path_spec pathEnvBin "ls".toList 4096 (some []) (by decide)).1,
    by decide, by decide, by decide, by decide, by decide⟩

/-- The search in the environment `pathEnvDeep n`: the candidate for `ls` is cut to
`PATH_MAX - 1` characters, which name the executable `l`. -/
theorem find_cmd_in_path_deep (n path_len : Nat) (old : List Char) :
    find_cmd_in_path (pathEnvDeep n) "ls".toList path_len (some old) =
        { ret := 0,
          path := some (copy_str old path_len ('/' :: List.replicate n 'd' ++ ['/', 'l'])),
          probed := ['/' :: List.replicate n 'd' ++ ['/', 'l']] } ∧
      (∀ d ∈ (pathEnvDeep n).paths,
        (pathEnvDeep n).executable_exists (cstr d ++ '/' :: cstr "ls".toList) = false) := by
  have hd : cstr ('/' :: List.replicate n 'd') = '/' :: List.replicate n 'd' := by
    apply cstr_of_no_nul
    intro c hc
    rcases List.mem_cons.1 hc with hc | hc
    · subst hc; decide
    · rw [List.eq_of_mem_replicate hc]; decide
  have hls : cstr "ls".toList = ['l', 's'] := by decide
  have htmp : snprintf_s_slash_s (n + 4) ('/' :: List.replicate n 'd') "ls".toList =
      '/' :: List.replicate n 'd' ++ ['/', 'l'] := by
    unfold snprintf_s_slash_s
    rw [hd, hls]
    have e : '/' :: List.replicate n 'd' ++ '/' :: ['l', 's'] =
        ('/' :: List.replicate n 'd' ++ ['/', 'l']) ++ ['s'] := by simp
    rw [e]
    apply List.take_left'
    simp
  constructor
  · unfold find_cmd_in_path
    simp only [pathEnvDeep, findLoop, htmp, decide_True, if_true, Option.map_some',
      List.nil_append]
  · intro d hdm
    simp only [pathEnvDeep, List.mem_singleton] at hdm
    subst hdm
    rw [hd, hls]
    simp only [pathEnvDeep, decide_eq_false_iff_not]
    intro e
    simp at e

/-- Counterexample to C20 as stated: with `PATH_MAX = 4096`, the one directory `/dd…d`
of 4093 characters and the command `ls`, no directory of the list makes `d/ls` an
existing executable, yet `find_cmd_in_path` returns 0, because the candidate is cut to
4095 characters, which name the existing executable `l`; and with `path_len = 4` the
path stored for the command `ls` found in `/bin` is `/bi`. -/
theorem find_cmd_in_path_cut :
    (pathEnvDeep 4092).PATH_MAX = 4096 ∧
      (∀ d ∈ (pathEnvDeep 4092).paths,
        (pathEnvDeep 4092).executable_exists (cstr d ++ '/' :: cstr "ls".toList) = false) ∧
      (find_cmd_in_path (pathEnvDeep 4092) "ls".toList 4096 (some [])).ret = 0 ∧
      (find_cmd_in_path (pathEnvDeep 3) "ls".toList 7 (some [])).ret = 0 ∧
      (find_cmd_in_path (pathEnvDeep 3) "ls".toList 7 (some [])).path =
        some "/ddd/l".toList ∧
      (find_cmd_in_path pathEnvBin "ls".toList 4 (some [])).ret = 0 ∧
      (find_cmd_in_path pathEnvBin "ls".toList 4 (some [])).path = some "/bi".toList := by
  refine ⟨rfl, (find_cmd_in_path_deep 4092 4096 []).2, ?_, by decide, by decide, by decide,
    by decide⟩
  rw [(find_cmd_in_path_deep 4092 4096 []).1]

theorem starts_with_bang (cmd : List Char) (h : starts_with cmd ['!', '!'] = true) :
    ∃ t, cstr cmd = '!' :: '!' :: t ∧ cstr (cmd.drop 2) = t := by
  unfold starts_with at h
  have hb : cstr ['!', '!'] = ['!', '!'] := by decide
  rw [hb, List.isPrefixOf_iff_prefix] at h
  obtain ⟨t, ht⟩ := h
  refine ⟨t, ht.symm, ?_⟩
  have := cstr_drop_of_append ['!', '!'] cmd t ht.symm
  simpa using this

/-- C19, amended: for every `cmd` that contains a `'/'` and every `path_len > 0`,
`get_cmd_path` tests no candidate of the search list, returns 0 and stores `cmd` without
a leading `!!`, cut to `path_len - 1` characters; so it stores `cmd` itself when `cmd`
does not begin with `!!` and is shorter than `path_len`. -/
theorem get_cmd_path_with_slash (env : PathEnv) (cmd path : List Char) (path_len : Nat)
    (h : '/' ∈ cstr cmd) (hlen : 0 < path_len) :
    (get_cmd_path env cmd path_len path).ret = 0 ∧
      (get_cmd_path env cmd path_len path).probed = [] ∧
      (get_cmd_path env cmd path_len path).path =
        some ((cstr (if starts_with cmd ['!', '!'] then cmd.drop 2 else cmd)).take
          (path_len - 1)) ∧
      (starts_with cmd ['!', '!'] = false → (cstr cmd).length < path_len →
        (get_cmd_path env cmd path_len path).path = some (cstr cmd)) := by
  have hne : path_len ≠ 0 := by omega
  have hcs : contains_slash (if starts_with cmd ['!', '!'] then cmd.drop 2 else cmd) = true := by
    rw [contains_slash_iff]
    by_cases hb : starts_with cmd ['!', '!'] = true
    · obtain ⟨t, e1, e2⟩ := starts_with_bang cmd hb
      simp only [hb, if_true]
      rw [e2]
      rw [e1] at h
      rcases List.mem_cons.1 h with h | h
      · exact absurd h (by decide)
      · rcases List.mem_cons.1 h with h | h
        · exact absurd h (by decide)
        · exact h
    · simp only [hb]
      exact h
  unfold get_cmd_path
  simp only [hcs, if_true]
  refine ⟨trivial, trivial, ?_, ?_⟩
  · simp [copy_str, hne]
  · intro hb hl
    simp only [hb, Bool.false_eq_true, if_false]
    rw [copy_str_fits path cmd path_len hl]

/-- Witness of C19 (amended): the command `./a.out`. -/
theorem get_cmd_path_with_slash_witness :
    '/' ∈ cstr "./a.out".toList ∧
      (get_cmd_path pathEnvBin "./a.out".toList 4096 []).path = some "./a.out".toList ∧
      ((get_cmd_path pathEnvBin "./a.out".toList 4096 []).ret = 0 ∧
        (get_cmd_path pathEnvBin "./a.out".toList 4096 []).probed = []) :=
  ⟨by decide, by decide,
    ⟨(get_cmd_path_with_slash pathEnvBin "./a.out".toList [] 4096 (by decide) (by decide)).1,
      (get_cmd_path_with_slash pathEnvBin "./a.out".toList [] 4096 (by decide)
        (by decide)).2.1⟩⟩

/-- Counterexample to C19 as stated: for the command `!!/bin/ls`, which contains a
`'/'`, `get_cmd_path` stores `/bin/ls`, not the command itself; and with `path_len = 3`
the command `a/b` is stored as `a/`. -/
theorem get_cmd_path_strips_bangs :
    '/' ∈ cstr "!!/bin/ls".toList ∧
      (get_cmd_path pathEnvBin "!!/bin/ls".toList 4096 []).ret = 0 ∧
      (get_cmd_path pathEnvBin "!!/bin/ls".toList 4096 []).path = some "/bin/ls".toList ∧
      (get_cmd_path pathEnvBin "!!/bin/ls".toList 4096 []).path ≠
        some "!!/bin/ls".toList ∧
      (get_cmd_path pathEnvBin "a/b".toList 3 []).path = some "a/".toList := by
  decide

/-! ## The walk of a directory: `filename_completion_internal` -/

/-- The test `strncmp(a, b, strlen(b)) == 0` tells whether `b` is a prefix of `a`. -/
theorem strncmpEq_isPrefixOf : ∀ (b a : List Char),
    strncmpEq a b (cstrlen b) = (cstr b).isPrefixOf (cstr a) := by
  intro b
  induction b with
  | nil => intro a; simp [strncmpEq, cstr, cstrlen]
  | cons y b ih =>
    intro a
    by_cases hy : y = NUL
    · subst hy
      simp [cstrlen_cons_nul, cstr_cons_nul, strncmpEq]
    · rw [cstrlen_cons y b hy, cstr_cons y b hy, strncmpEq]
      cases a with
      | nil =>
        have : NUL ≠ y := fun e => hy e.symm
        simp [peek_nil, peek_zero_cons, cstr, this]
      | cons x a =>
        simp only [peek_zero_cons, List.tail_cons]
        by_cases hxy : x = y
        · subst hxy
          simp only [ne_eq, not_true_eq_false, if_false, hy]
          rw [cstr_cons x a hy, ih a]
          simp
        · simp only [ne_eq, hxy, not_false_eq_true, if_true]
          by_cases hx : x = NUL
          · subst hx
            simp [cstr_cons_nul]
          · rw [cstr_cons x a hx]
            have : (y == x) = false := by
              simp only [beq_eq_false_iff_ne, ne_eq]
              exact fun e => hxy e.symm
            simp [List.isPrefixOf, this]

/-- The test of `filename_completion_internal` on the name of an entry tells whether
the typed fragment is a prefix of the name. -/
theorem strnoscmpEq_isPrefixOf (name filename : List Char) :
    strnoscmpEq name filename (cstrlen filename) = (cstr filename).isPrefixOf (cstr name) :=
  strncmpEq_isPrefixOf filename name

theorem World.call_cwd (w : World) (c : Call) : (w.call c).cwd = w.cwd := rfl

/-- The loop of `filename_completion_internal` adds, in the order of the listing, the
match of every entry that has one, and does nothing else. -/
theorem walkLoop_eq (filename : List Char) (type : CompletionType) :
    ∀ (dir : List Dirent) (w : World),
    walkLoop filename type dir w =
      { calls := w.calls ++ (dir.filterMap (entryMatch filename type)).map Call.add_path_match,
        cwd := w.cwd } := by
  intro dir
  induction dir with
  | nil => intro w; simp [walkLoop]
  | cons d rest ih =>
    intro w
    rw [walkLoop]
    cases h : entryMatch filename type d with
    | none => simp [ih, List.filterMap_cons, h]
    | some m => simp [ih, List.filterMap_cons, h, World.call]

/-- The calls that `filename_completion_internal` makes: one `vle_compl_add_path_match`
for every entry that has a match, in the order of the listing, then
`vle_compl_finish_group`, then `vle_compl_add_last_path_match(filename)` unless the type
is `CT_EXECONLY`; the working directory is not changed. -/
theorem filename_completion_internal_eq (dir : List Dirent) (filename : List Char)
    (type : CompletionType) (w : World) :
    filename_completion_internal dir filename type w =
      { calls := w.calls ++
          (dir.filterMap (entryMatch filename type)).map Call.add_path_match ++
          [Call.finish_group] ++
          (if type = CompletionType.CT_EXECONLY then []
            else [Call.add_last_path_match (cstr filename)]),
        cwd := w.cwd } := by
  unfold filename_completion_internal
  simp only [walkLoop_eq]
  by_cases h : type = CompletionType.CT_EXECONLY
  · simp [h, World.call]
  · simp [h, World.call]

theorem cstr_append_slash (name : List Char) : cstr (cstr name ++ ['/']) = cstr name ++ ['/'] := by
  apply cstr_of_no_nul
  intro c hc
  rcases List.mem_append.1 hc with hc | hc
  · exact cstr_no_nul name c hc
  · simp at hc; subst hc; decide

/-- The string built in the array `with_slash`: the name and a `'/'`, never cut. -/
theorem with_slash_eq (name : List Char) :
    snprintf_s (cstrlen name + 1 + 1) (cstr name ++ ['/']) = cstr name ++ ['/'] := by
  unfold snprintf_s
  rw [cstr_append_slash]
  apply List.take_of_length_le
  simp [cstr_length]

/-- The match of an entry, when it has one: the name followed by `'/'` when the entry
targets a directory and the type is not `CT_ALL_WOS`, the name otherwise. -/
theorem entryMatch_some (filename : List Char) (type : CompletionType) (d : Dirent) :
    entryMatch filename type d = none ∨
      entryMatch filename type d =
        some (if d.targets_dir = true ∧ type ≠ CompletionType.CT_ALL_WOS
          then cstr d.d_name ++ ['/'] else cstr d.d_name) := by
  unfold entryMatch
  split
  · exact Or.inl rfl
  · split
    · exact Or.inl rfl
    · split
      · exact Or.inl rfl
      · split
        · exact Or.inl rfl
        · split
          · exact Or.inl rfl
          · right
            split
            · rw [with_slash_eq]
            · rfl

/-- For the type `CT_DIRONLY` and a fragment that is not empty an entry has a match
exactly when it targets a directory and its name begins with the fragment. -/
theorem entryMatch_dironly (filename : List Char) (d : Dirent) (hf : peek filename 0 ≠ NUL) :
    entryMatch filename CompletionType.CT_DIRONLY d =
      if d.targets_dir = true ∧ (cstr filename).isPrefixOf (cstr d.d_name) = true
      then some (cstr d.d_name ++ ['/']) else none := by
  unfold entryMatch
  rw [strnoscmpEq_isPrefixOf, with_slash_eq]
  by_cases h1 : (cstr filename).isPrefixOf (cstr d.d_name) = true
  · by_cases h2 : d.targets_dir = true
    · simp [hf, h1, h2]
    · simp [hf, h1, h2]
  · by_cases h2 : d.targets_dir = true
    · simp [hf, h1, h2]
    · simp [hf, h1, h2]

theorem filterMap_ite_some {α β : Type} (p : α → Prop) [DecidablePred p] (f : α → β) :
    ∀ (l : List α), l.filterMap (fun x => if p x then some (f x) else none) =
      (l.filter (fun x => decide (p x))).map f := by
  intro l
  induction l with
  | nil => rfl
  | cons x r ih =>
    by_cases h : p x
    · simp [List.filterMap_cons, List.filter_cons, h, ih]
    · simp [List.filterMap_cons, List.filter_cons, h, ih]

/-- C21: for every directory listing and every fragment `f` that is not empty, the
directory-only walk (`filename_completion_internal` with `CT_DIRONLY`) adds exactly the
entries that target a directory and whose name has the prefix `f`, each as its name
followed by `'/'`, in the order of the listing, then finishes the group and adds `f` as
the echo entry; it makes no other call and leaves the working directory alone. -/
theorem dironly_walk (dir : List Dirent) (f : List Char) (w : World)
    (hf : peek f 0 ≠ NUL) :
    filename_completion_internal dir f CompletionType.CT_DIRONLY w =
      { calls := w.calls ++
          ((dir.filter (fun d => decide (d.targets_dir = true ∧
              (cstr f).isPrefixOf (cstr d.d_name) = true))).map
            (fun d => Call.add_path_match (cstr d.d_name ++ ['/']))) ++
          [Call.finish_group, Call.add_last_path_match (cstr f)],
        cwd := w.cwd } := by
  rw [filename_completion_internal_eq]
  have e : entryMatch f CompletionType.CT_DIRONLY =
      fun d => if d.targets_dir = true ∧ (cstr f).isPrefixOf (cstr d.d_name) = true
        then some (cstr d.d_name ++ ['/']) else none := by
    funext d
    exact entryMatch_dironly f d hf
  rw [e, filterMap_ite_some]
  simp [List.map_map, Function.comp_def]

/-- Witness of C21: the fixture of the spec, the entries `src`, `srv` and `bin` with the
fragment `sr`. -/
theorem dironly_walk_witness :
    peek "sr".toList 0 ≠ NUL ∧
      (filename_completion_internal fixtureDir "sr".toList CompletionType.CT_DIRONLY
          worldHome).calls =
        [Call.add_path_match "src/".toList, Call.add_path_match "srv/".toList,
          Call.finish_group, Call.add_last_path_match "sr".toList] ∧
      filename_completion_internal fixtureDir "sr".toList CompletionType.CT_DIRONLY
          worldHome =
        { calls := worldHome.calls ++
            ((fixtureDir.filter (fun d => decide (d.targets_dir = true ∧
                (cstr "sr".toList).isPrefixOf (cstr d.d_name) = true))).map
              (fun d => Call.add_path_match (cstr d.d_name ++ ['/']))) ++
            [Call.finish_group, Call.add_last_path_match (cstr "sr".toList)],
          cwd := worldHome.cwd } :=
  ⟨by decide, by decide,
    dironly_walk fixtureDir "sr".toList worldHome (by decide)⟩

/-- The calls that the walk adds to those made before it. -/
theorem walk_new_calls (dir : List Dirent) (filename : List Char) (type : CompletionType)
    (w : World) :
    (filename_completion_internal dir filename type w).calls.drop w.calls.length =
      (dir.filterMap (entryMatch filename type)).map Call.add_path_match ++
        [Call.finish_group] ++
        (if type = CompletionType.CT_EXECONLY then []
          else [Call.add_last_path_match (cstr filename)]) := by
  rw [filename_completion_internal_eq]
  simp only [List.append_assoc]
  rw [List.drop_left]

theorem mem_walk_matches (dir : List Dirent) (filename : List Char) (type : CompletionType)
    (w : World) (m : List Char)
    (h : Call.add_path_match m ∈
      (filename_completion_internal dir filename type w).calls.drop w.calls.length) :
    ∃ d ∈ dir, entryMatch filename type d = some m := by
  rw [walk_new_calls] at h
  rcases List.mem_append.1 h with h | h
  · rcases List.mem_append.1 h with h | h
    · obtain ⟨x, hx, e⟩ := List.mem_map.1 h
      obtain ⟨d, hd, hm⟩ := List.mem_filterMap.1 hx
      have : x = m := by injection e
      subst this
      exact ⟨d, hd, hm⟩
    · simp at h
  · split at h
    · simp at h
    · simp at h

/-- C22: every match that the walker adds for an entry is the name of the entry followed
by `'/'` when the entry targets a directory and the type is not `CT_ALL_WOS`, and the
name of the entry unmodified in every other case. -/
theorem walker_match_form (dir : List Dirent) (filename : List Char) (type : CompletionType)
    (w : World) :
    (∀ d m, entryMatch filename type d = some m →
        m = if d.targets_dir = true ∧ type ≠ CompletionType.CT_ALL_WOS
          then cstr d.d_name ++ ['/'] else cstr d.d_name) ∧
      (∀ m, Call.add_path_match m ∈
          (filename_completion_internal dir filename type w).calls.drop w.calls.length →
        ∃ d ∈ dir, entryMatch filename type d = some m ∧
          m = if d.targets_dir = true ∧ type ≠ CompletionType.CT_ALL_WOS
            then cstr d.d_name ++ ['/'] else cstr d.d_name) := by
  have h1 : ∀ d m, entryMatch filename type d = some m →
      m = if d.targets_dir = true ∧ type ≠ CompletionType.CT_ALL_WOS
        then cstr d.d_name ++ ['/'] else cstr d.d_name := by
    intro d m hm
    rcases entryMatch_some filename type d with h | h
    · rw [h] at hm; exact absurd hm (by simp)
    · rw [h] at hm; injection hm with e; exact e.symm
  refine ⟨h1, ?_⟩
  intro m hm
  obtain ⟨d, hd, e⟩ := mem_walk_matches dir filename type w m hm
  exact ⟨d, hd, e, h1 d m e⟩

theorem peek_cstr_zero (s : List Char) : peek (cstr s) 0 = peek s 0 := by
  cases s with
  | nil => rfl
  | cons x r =>
    by_cases hx : x = NUL
    · subst hx; simp [cstr_cons_nul, peek_nil, peek_zero_cons]
    · rw [cstr_cons x r hx]; rfl

theorem entryMatch_none_iff (filename : List Char) (type : CompletionType) (d : Dirent)
    (hf : peek filename 0 ≠ NUL) :
    entryMatch filename type d = none ↔
      ((cstr filename).isPrefixOf (cstr d.d_name) = false ∨
        (type = CompletionType.CT_DIRONLY ∧ d.targets_dir = false) ∨
        (type = CompletionType.CT_EXECONLY ∧ is_dirent_targets_exec d = false) ∨
        (type = CompletionType.CT_DIREXEC ∧ d.targets_dir = false ∧
          is_dirent_targets_exec d = false)) := by
  unfold entryMatch
  rw [strnoscmpEq_isPrefixOf]
  simp only [hf, false_and, if_false]
  by_cases h1 : (cstr filename).isPrefixOf (cstr d.d_name) = false
  · simp [h1]
  · simp only [h1, if_false, false_or]
    by_cases h2 : type = CompletionType.CT_DIRONLY ∧ d.targets_dir = false
    · simp [h2]
    · simp only [h2, if_false, false_or]
      by_cases h3 : type = CompletionType.CT_EXECONLY ∧ is_dirent_targets_exec d = false
      · simp [h3]
      · simp only [h3, if_false, false_or]
        by_cases h4 : type = CompletionType.CT_DIREXEC ∧ d.targets_dir = false ∧
            is_dirent_targets_exec d = false
        · simp [h4]
        · simp only [h4, if_false]
          split
          · rename_i hh
            exact absurd hh (by simp)
          · split <;> simp

/-- C23: when the typed fragment is empty, the walker adds no entry whose name begins
with `'.'`, for every listing and every type (an entry with such a name has no match, and
no match that is added begins with `'.'`); when the fragment is not empty, whether an
entry is left out depends only on the prefix test and on the filter of the type, not on
a leading `'.'`. -/
theorem walker_hidden_entries (dir : List Dirent) (filename : List Char)
    (type : CompletionType) (w : World) :
    (peek filename 0 = NUL → ∀ d, peek d.d_name 0 = '.' →
        entryMatch filename type d = none) ∧
      (peek filename 0 = NUL → ∀ m, Call.add_path_match m ∈
          (filename_completion_internal dir filename type w).calls.drop w.calls.length →
        peek m 0 ≠ '.') ∧
      (peek filename 0 ≠ NUL → ∀ d,
        (entryMatch filename type d = none ↔
          ((cstr filename).isPrefixOf (cstr d.d_name) = false ∨
            (type = CompletionType.CT_DIRONLY ∧ d.targets_dir = false) ∨
            (type = CompletionType.CT_EXECONLY ∧ is_dirent_targets_exec d = false) ∨
            (type = CompletionType.CT_DIREXEC ∧ d.targets_dir = false ∧
              is_dirent_targets_exec d = false)))) := by
  have h1 : peek filename 0 = NUL → ∀ d, peek d.d_name 0 = '.' →
      entryMatch filename type d = none := by
    intro hf d hd
    simp [entryMatch, hf, hd]
  refine ⟨h1, ?_, fun hf d => entryMatch_none_iff filename type d hf⟩
  intro hf m hm
  obtain ⟨d, _, e⟩ := mem_walk_matches dir filename type w m hm
  have hnd : peek d.d_name 0 ≠ '.' := by
    intro hd
    rw [h1 hf d hd] at e
    exact absurd e (by simp)
  rcases entryMatch_some filename type d with h | h
  · rw [h] at e; exact absurd e (by simp)
  · rw [h] at e
    injection e with e
    subst e
    split
    · intro hp
      apply hnd
      rw [← peek_cstr_zero]
      cases hc : cstr d.d_name with
      | nil => rw [hc] at hp; exact absurd hp (by decide)
      | cons x r => rw [hc] at hp; exact hp
    · rw [peek_cstr_zero]
      exact hnd

/-- C24: after the entries the walker finishes one group, and that is the only group it
finishes; then it adds the fragment as the echo entry for every type except
`CT_EXECONLY`, for which it adds no echo entry. -/
theorem walker_group_and_echo (dir : List Dirent) (filename : List Char)
    (type : CompletionType) (w : World) :
    (filename_completion_internal dir filename type w).calls.drop w.calls.length =
        (dir.filterMap (entryMatch filename type)).map Call.add_path_match ++
          [Call.finish_group] ++
          (if type = CompletionType.CT_EXECONLY then []
            else [Call.add_last_path_match (cstr filename)]) ∧
      ((filename_completion_internal dir filename type w).calls.drop
        w.calls.length).count Call.finish_group = 1 ∧
      (type = CompletionType.CT_EXECONLY → ∀ s, Call.add_last_path_match s ∉
        (filename_completion_internal dir filename type w).calls.drop w.calls.length) ∧
      (type ≠ CompletionType.CT_EXECONLY →
        ((filename_completion_internal dir filename type w).calls.drop
          w.calls.length).getLast? = some (Call.add_last_path_match (cstr filename))) := by
  have hcount : ∀ l : List (List Char),
      (l.map Call.add_path_match).count Call.finish_group = 0 := by
    intro l
    rw [List.count_eq_zero]
    intro h
    obtain ⟨x, _, e⟩ := List.mem_map.1 h
    exact absurd e (by simp)
  refine ⟨walk_new_calls dir filename type w, ?_, ?_, ?_⟩
  · rw [walk_new_calls, List.count_append, List.count_append, hcount]
    by_cases h : type = CompletionType.CT_EXECONLY
    · simp [h]
    · simp [h]
  · intro h s hs
    rw [walk_new_calls] at hs
    simp only [h, if_true, List.append_nil] at hs
    rcases List.mem_append.1 hs with hs | hs
    · obtain ⟨x, _, e⟩ := List.mem_map.1 hs
      exact absurd e (by simp)
    · simp at hs
  · intro h
    rw [walk_new_calls]
    simp [h]

/-- Examples of walks of a directory that holds the directories `.git` and `src`, the
plain files `.bashrc` and `notes` and the executable `run`. -/
theorem walker_examples :
    (filename_completion_internal mixedDir [] CompletionType.CT_ALL worldHome).calls =
        [Call.add_path_match "src/".toList, Call.add_path_match "notes".toList,
          Call.add_path_match "run".toList, Call.finish_group,
          Call.add_last_path_match []] ∧
      (filename_completion_internal mixedDir ".".toList CompletionType.CT_ALL
          worldHome).calls =
        [Call.add_path_match ".git/".toList, Call.add_path_match ".bashrc".toList,
          Call.finish_group, Call.add_last_path_match ".".toList] ∧
      (filename_completion_internal mixedDir [] CompletionType.CT_ALL_WOS worldHome).calls =
        [Call.add_path_match "src".toList, Call.add_path_match "notes".toList,
          Call.add_path_match "run".toList, Call.finish_group,
          Call.add_last_path_match []] ∧
      (filename_completion_internal mixedDir [] CompletionType.CT_EXECONLY
          worldHome).calls =
        [Call.add_path_match "run".toList, Call.finish_group] ∧
      (filename_completion_internal mixedDir [] CompletionType.CT_DIREXEC
          worldHome).calls =
        [Call.add_path_match "src/".toList, Call.add_path_match "run".toList,
          Call.finish_group, Call.add_last_path_match []] := by
  decide

/-! ## `filename_completion` -/

theorem filename_completion_tilde (env : CompEnv) (str : List Char) (type : CompletionType)
    (w : World) (h : peek str 0 = '~' ∧ strchr str '/' = none) :
    filename_completion env str type w =
      w.call (Call.add_path_match (expand_tilde env.tilde str)) := by
  unfold filename_completion
  simp only [h, and_self, if_true]

theorem filename_completion_open_fails (env : CompEnv) (str : List Char)
    (type : CompletionType) (w : World)
    (hnt : ¬ (peek str 0 = '~' ∧ strchr str '/' = none))
    (ho : env.opendir w.cwd (splitDirFile env str type).dirname = none) :
    filename_completion env str type w =
      (w.call (Call.opendir (splitDirFile env str type).dirname)).call
        (Call.add_path_match (splitDirFile env str type).filename) := by
  unfold filename_completion
  simp only [hnt, if_false, ho]

theorem filename_completion_chdir_fails (env : CompEnv) (str : List Char)
    (type : CompletionType) (w : World) (dir : List Dirent)
    (hnt : ¬ (peek str 0 = '~' ∧ strchr str '/' = none))
    (ho : env.opendir w.cwd (splitDirFile env str type).dirname = some dir)
    (hc : env.chdir w.cwd (splitDirFile env str type).dirname = none) :
    filename_completion env str type w =
      ((((w.call (Call.opendir (splitDirFile env str type).dirname)).call
        (Call.chdir (splitDirFile env str type).dirname)).call
        (Call.add_path_match (splitDirFile env str type).filename)).call Call.closedir) := by
  unfold filename_completion
  simp only [hnt, if_false, ho, hc]

/-- The state after a completed walk: the calls of the walk between those that open and
enter the directory and those that go back to the directory of the view and close the
directory; the working directory is the one that `vifm_chdir(curr_view->curr_dir)`
leads to, and the directory of the walk when that call fails. -/
theorem filename_completion_walked (env : CompEnv) (str : List Char)
    (type : CompletionType) (w : World) (dir : List Dirent) (cwd1 : List Char)
    (hnt : ¬ (peek str 0 = '~' ∧ strchr str '/' = none))
    (ho : env.opendir w.cwd (splitDirFile env str type).dirname = some dir)
    (hc : env.chdir w.cwd (splitDirFile env str type).dirname = some cwd1) :
    filename_completion env str type w =
      { calls := w.calls ++
          [Call.opendir (splitDirFile env str type).dirname,
            Call.chdir (splitDirFile env str type).dirname] ++
          (dir.filterMap (entryMatch (splitDirFile env str type).filename type)).map
            Call.add_path_match ++
          [Call.finish_group] ++
          (if type = CompletionType.CT_EXECONLY then []
            else [Call.add_last_path_match (cstr (splitDirFile env str type).filename)]) ++
          [Call.chdir env.curr_dir, Call.closedir],
        cwd := (env.chdir cwd1 env.curr_dir).getD cwd1 } := by
  unfold filename_completion
  simp only [hnt, if_false, ho, hc, filename_completion_internal_eq, World.call]
  cases hb : env.chdir cwd1 env.curr_dir with
  | none => simp
  | some c => simp

/-- The working directory after `filename_completion`, exit by exit.  On the tilde
shortcut, when the directory cannot be opened and when it cannot be entered, it is the
working directory before the call.  After a completed walk it is the directory that
`vifm_chdir(curr_view->curr_dir)` leads to, and the directory of the walk when that call
fails: the working directory before the call is not kept anywhere. -/
theorem filename_completion_cwd (env : CompEnv) (str : List Char) (type : CompletionType)
    (w : World) :
    ((peek str 0 = '~' ∧ strchr str '/' = none) →
        (filename_completion env str type w).cwd = w.cwd) ∧
      (¬ (peek str 0 = '~' ∧ strchr str '/' = none) →
        env.opendir w.cwd (splitDirFile env str type).dirname = none →
        (filename_completion env str type w).cwd = w.cwd) ∧
      (¬ (peek str 0 = '~' ∧ strchr str '/' = none) →
        env.chdir w.cwd (splitDirFile env str type).dirname = none →
        (filename_completion env str type w).cwd = w.cwd) ∧
      (∀ dir cwd1, ¬ (peek str 0 = '~' ∧ strchr str '/' = none) →
        env.opendir w.cwd (splitDirFile env str type).dirname = some dir →
        env.chdir w.cwd (splitDirFile env str type).dirname = some cwd1 →
        (filename_completion env str type w).cwd = (env.chdir cwd1 env.curr_dir).getD cwd1 ∧
          (env.chdir cwd1 env.curr_dir = some w.cwd →
            (filename_completion env str type w).cwd = w.cwd)) := by
  refine ⟨?_, ?_, ?_, ?_⟩
  · intro h
    rw [filename_completion_tilde env str type w h]
    rfl
  · intro hnt ho
    rw [filename_completion_open_fails env str type w hnt ho]
    rfl
  · intro hnt hc
    cases ho : env.opendir w.cwd (splitDirFile env str type).dirname with
    | none =>
      rw [filename_completion_open_fails env str type w hnt ho]
      rfl
    | some dir =>
      rw [filename_completion_chdir_fails env str type w dir hnt ho hc]
      rfl
  · intro dir cwd1 hnt ho hc
    rw [filename_completion_walked env str type w dir cwd1 hnt ho hc]
    refine ⟨rfl, ?_⟩
    intro hb
    simp [hb]

/-- C26, the failing inputs: `filename_completion` leaks a change of the working
directory.  When the directory of the view, which is also the working directory, has
been removed, the completion of `/usr/s` enters `/usr/` and returns with the working
directory `/usr`: the call `vifm_chdir(curr_view->curr_dir)` fails and its result is
thrown away.  Called with the working directory `/usr/bin`, as `complete_command_name`
calls it after `vifm_chdir(paths[i])`, while the view shows `/home/u`, it returns with
the working directory `/home/u`, not with that of its caller.  And
`complete_command_name`, started in `/home/u` on a search list whose directory `/usr/bin`
can be entered but not opened, returns with the working directory `/usr/bin`: the branch
for the failure makes no call of `vifm_chdir`, and none follows the loop.  When the
directory cannot be opened or entered, and after a walk started in the directory of the
view while that can be entered, `filename_completion` comes back to the directory of its
caller.  In these examples the file name fits its block. -/
theorem filename_completion_cwd_changed :
    worldGone.cwd = compEnvGone.curr_dir ∧
      compEnvGone.chdir "/usr".toList compEnvGone.curr_dir = none ∧
      (filename_completion compEnvGone "/usr/s".toList CompletionType.CT_ALL
        worldGone).cwd = "/usr".toList ∧
      (filename_completion compEnvGone "/usr/s".toList CompletionType.CT_ALL
        worldGone).cwd ≠ worldGone.cwd ∧
      (filename_completion compEnvGone "/usr/s".toList CompletionType.CT_ALL
        worldGone).calls =
        [Call.opendir "/usr/".toList, Call.chdir "/usr/".toList,
          Call.add_path_match "src/".toList, Call.add_path_match "srv/".toList,
          Call.finish_group, Call.add_last_path_match "s".toList,
          Call.chdir "/home/u/old".toList, Call.closedir] ∧
      splitDirFile compEnvGone "/usr/s".toList CompletionType.CT_ALL =
        { dirname := "/usr/".toList, filename := "s".toList, filename_size := 7,
          filename_stored := 2 } ∧
      worldBin.cwd = "/usr/bin".toList ∧
      compEnvExample.curr_dir = "/home/u".toList ∧
      (filename_completion compEnvExample "s".toList CompletionType.CT_EXECONLY
        worldBin).cwd = "/home/u".toList ∧
      (filename_completion compEnvExample "s".toList CompletionType.CT_EXECONLY
        worldBin).cwd ≠ worldBin.cwd ∧
      worldHome.cwd = "/home/u".toList ∧
      (complete_command_name compEnvUnreadable "s".toList worldHome).calls =
        [Call.chdir "/usr/bin".toList, Call.opendir ".".toList,
          Call.add_path_match "s".toList, Call.add_last_path_match "s".toList] ∧
      (complete_command_name compEnvUnreadable "s".toList worldHome).cwd =
        "/usr/bin".toList ∧
      (complete_command_name compEnvUnreadable "s".toList worldHome).cwd ≠ worldHome.cwd ∧
      (filename_completion compEnvExample "/nonexistent/foo".toList CompletionType.CT_ALL
        worldHome).cwd = worldHome.cwd ∧
      (filename_completion compEnvExample "locked/foo".toList CompletionType.CT_ALL
        worldHome).cwd = worldHome.cwd ∧
      (filename_completion compEnvExample "proj/s".toList CompletionType.CT_ALL
        worldHome).cwd = worldHome.cwd := by
  decide

/-! ## `complete_args` -/

/-- C27: for every command that reaches the last branch of `complete_args`, the one
that completes file names, with `argc > 0` and a line that does not end in an unescaped
space: if the line, and so its current token, ends in a quote character, `complete_args`
returns the state unchanged (no call to the match session or to the file system is
made, the working directory is the same) and the splice offset, which is the offset
just after the last `'/'` at or after `arg_pos`, or `arg_pos` when there is none. -/
theorem complete_args_open_quote (env : CompEnv) (id : CmdId) (args : List Char)
    (argc : Nat) (argv : List (List Char)) (arg_pos : Nat)
    (extra_arg : CompletionPreProcessing) (w : World)
    (hb : takesLastBranch env id args arg_pos = true) (hargc : 0 < argc)
    (hsp : cmd_ends_with_space args = false)
    (hq : ends_with args [DQUOTE] = true ∨ ends_with args [APOSTROPHE] = true) :
    complete_args env id args argc argv arg_pos extra_arg w =
      (w, match strrchr (args.drop arg_pos) '/' with
        | none => arg_pos
        | some i => arg_pos + i + 1) := by
  unfold takesLastBranch at hb
  simp only [Bool.and_eq_true, decide_eq_true_eq, Bool.not_eq_true', ne_eq] at hb
  obtain ⟨⟨⟨⟨⟨⟨⟨⟨⟨⟨⟨h1, h2⟩, h3⟩, h4⟩, h5⟩, h6⟩, h7⟩, h8⟩, h9⟩, h10⟩, h11⟩, h12⟩ := hb
  have h10b : ¬ ((id = CmdId.COM_CD ∨ id = CmdId.COM_PUSHD ∨ id = CmdId.COM_EXECUTE ∨
      id = CmdId.COM_SOURCE) ∧
      Option.map (fun i => after_last args ' ' + i)
        (strrchr (List.drop (after_last args ' ') args) '$') ≠ none ∧
      ptrGt (Option.map (fun i => after_last args ' ' + i)
          (strrchr (List.drop (after_last args ' ') args) '$'))
        (Option.map (fun i => arg_pos + i) (strrchr (List.drop arg_pos args) '/')) = true) := by
    intro hh
    obtain ⟨a, b, c⟩ := hh
    simp [a, b, c] at h10
  unfold complete_args
  simp only [h1, h2, h3, h4, h5, h6, h7, h8, h9, h10b, h11, h12, if_false, hargc, hsp,
    and_self, if_true, Bool.false_eq_true]
  rcases hq with hq | hq
  · simp only [hq, if_true]
    cases strrchr (List.drop arg_pos args) '/' <;> rfl
  · by_cases hd : ends_with args [DQUOTE] = true
    · simp only [hd, if_true]
      cases strrchr (List.drop arg_pos args) '/' <;> rfl
    · simp only [hd, hq, if_true, if_false]
      cases strrchr (List.drop arg_pos args) '/' <;> rfl

/-- Witness of C27: the line `proj/sr"` of a command that takes the last branch. -/
theorem complete_args_open_quote_witness :
    takesLastBranch compEnvExample (CmdId.other 1) ("proj/sr".toList ++ [DQUOTE]) 0 = true ∧
      cmd_ends_with_space ("proj/sr".toList ++ [DQUOTE]) = false ∧
      ends_with ("proj/sr".toList ++ [DQUOTE]) [DQUOTE] = true ∧
      complete_args compEnvExample (CmdId.other 1) ("proj/sr".toList ++ [DQUOTE]) 1
          ["proj/sr".toList ++ [DQUOTE]] 0 CompletionPreProcessing.CPP_NONE worldHome =
        (worldHome, match strrchr (("proj/sr".toList ++ [DQUOTE]).drop 0) '/' with
          | none => 0
          | some i => 0 + i + 1) ∧
      (match strrchr (("proj/sr".toList ++ [DQUOTE]).drop 0) '/' with
        | none => 0
        | some i => 0 + i + 1) = 5 ∧
      (complete_args compEnvExample (CmdId.other 1) "proj/sr".toList 1
          ["proj/sr".toList] 0 CompletionPreProcessing.CPP_NONE worldHome).1.calls =
        [Call.opendir "proj/".toList, Call.chdir "proj/".toList,
          Call.add_path_match "src/".toList, Call.add_path_match "srv/".toList,
          Call.finish_group, Call.add_last_path_match "sr".toList,
          Call.chdir "/home/u".toList, Call.closedir] :=
  ⟨by decide, by decide, by decide,
    complete_args_open_quote compEnvExample (CmdId.other 1) ("proj/sr".toList ++ [DQUOTE]) 1
      ["proj/sr".toList ++ [DQUOTE]] 0 CompletionPreProcessing.CPP_NONE worldHome
      (by decide) (by decide) (by decide) (Or.inl (by decide)),
    by decide, by decide⟩

/-- What `complete_args` does for a command that accepts expression syntax: with a
`'&'` in the current argument and no `'$'` after the last one, option names are completed
from the text after the last `'&'` and the offset just after it is returned; with no
`'&'` and no `'$'`, the whole argument is completed as the name of a function; and with
a `'$'` and no `'&'` after the last one, a variable name is completed from the last
`'$'` on. -/
theorem complete_args_expr_eq (env : CompEnv) (id : CmdId) (args : List Char) (argc : Nat)
    (argv : List (List Char)) (arg_pos : Nat) (extra_arg : CompletionPreProcessing)
    (w : World) (h1 : id ≠ CmdId.COM_SET) (h2 : env.command_accepts_expr id = true) :
    (∀ a, strrchr (args.drop (after_last args ' ')) '&' = some a →
        (strrchr (args.drop (after_last args ' ')) '$' = none ∨
          ∃ d, strrchr (args.drop (after_last args ' ')) '$' = some d ∧ d < a) →
        complete_args env id args argc argv arg_pos extra_arg w =
          (w.call (Call.complete_real_option_names
              (cstr (args.drop (after_last args ' ' + a + 1)))),
            after_last args ' ' + a + 1)) ∧
      (strrchr (args.drop (after_last args ' ')) '&' = none →
        strrchr (args.drop (after_last args ' ')) '$' = none →
        complete_args env id args argc argv arg_pos extra_arg w =
          (w.call (Call.function_complete_name (cstr (args.drop (after_last args ' ')))),
            env.function_complete_name_start args (after_last args ' '))) ∧
      (∀ d, strrchr (args.drop (after_last args ' ')) '$' = some d →
        (strrchr (args.drop (after_last args ' ')) '&' = none ∨
          ∃ a, strrchr (args.drop (after_last args ' ')) '&' = some a ∧ a < d) →
        complete_args env id args argc argv arg_pos extra_arg w =
          (w.call (Call.complete_variables (cstr (args.drop (after_last args ' ' + d)))),
            env.complete_variables_start args (after_last args ' ' + d)
              (after_last args ' '))) := by
  refine ⟨?_, ?_, ?_⟩
  · intro a ha hd
    unfold complete_args
    simp only [h1, h2, if_false, if_true, ha, Option.map_some']
    rcases hd with hd | ⟨d, hd, hlt⟩
    · simp [hd, ptrGt]
    · simp [hd, ptrGt, hlt]
  · intro ha hd
    unfold complete_args
    simp [h1, h2, ha, hd, ptrGt]
  · intro d hd ha
    unfold complete_args
    simp only [h1, h2, if_false, if_true, hd, Option.map_some']
    rcases ha with ha | ⟨a, ha, hlt⟩
    · simp only [ha, Option.map_none', ptrGt, Bool.false_eq_true, if_false]
      by_cases h0 : d = 0
      · subst h0
        simp
      · have : 0 < d := Nat.pos_of_ne_zero h0
        simp [this]
    · have hng : ¬ (after_last args ' ' + d < after_last args ' ' + a) := by omega
      simp only [ha, Option.map_some', ptrGt, hng, decide_False, Bool.false_eq_true,
        if_false]
      by_cases h0 : d = 0
      · subst h0
        simp
      · have : 0 < d := Nat.pos_of_ne_zero h0
        simp [this]

/-- C28, amended: for every command that accepts expression syntax and every current
argument, `complete_args` decides by the last `'$'` and the last `'&'` of the argument:
if the argument has a `'&'` and either no `'$'` or the last `'&'` after the last `'$'`,
it completes option names from the text after that `'&'` and returns the offset just
after it; otherwise, if the argument has no `'$'` (and so no `'&'`), it completes the
whole argument as the name of a function; otherwise it completes a variable name that
starts at the last `'$'`. -/
theorem complete_args_expr (env : CompEnv) (id : CmdId) (args : List Char) (argc : Nat)
    (argv : List (List Char)) (arg_pos : Nat) (extra_arg : CompletionPreProcessing)
    (w : World) (h1 : id ≠ CmdId.COM_SET) (h2 : env.command_accepts_expr id = true) :
    (∀ a, strrchr (args.drop (after_last args ' ')) '&' = some a →
        (strrchr (args.drop (after_last args ' ')) '$' = none ∨
          ∃ d, strrchr (args.drop (after_last args ' ')) '$' = some d ∧ d < a) →
        complete_args env id args argc argv arg_pos extra_arg w =
          (w.call (Call.complete_real_option_names
              (cstr (args.drop (after_last args ' ' + a + 1)))),
            after_last args ' ' + a + 1)) ∧
      (strrchr (args.drop (after_last args ' ')) '&' = none →
        strrchr (args.drop (after_last args ' ')) '$' = none →
        complete_args env id args argc argv arg_pos extra_arg w =
          (w.call (Call.function_complete_name (cstr (args.drop (after_last args ' ')))),
            env.function_complete_name_start args (after_last args ' '))) ∧
      (∀ d, strrchr (args.drop (after_last args ' ')) '$' = some d →
        (strrchr (args.drop (after_last args ' ')) '&' = none ∨
          ∃ a, strrchr (args.drop (after_last args ' ')) '&' = some a ∧ a < d) →
        complete_args env id args argc argv arg_pos extra_arg w =
          (w.call (Call.complete_variables (cstr (args.drop (after_last args ' ' + d)))),
            env.complete_variables_start args (after_last args ' ' + d)
              (after_last args ' '))) :=
  complete_args_expr_eq env id args argc argv arg_pos extra_arg w h1 h2

/-- Witness of C28 (amended): the arguments `$x&opt`, `fun` and `&o$x` of a command that
accepts expression syntax, after the first word `a`. -/
theorem complete_args_expr_witness :
    CmdId.other 0 ≠ CmdId.COM_SET ∧ compEnvExample.command_accepts_expr (CmdId.other 0) = true ∧
      complete_args compEnvExample (CmdId.other 0) "a $x&opt".toList 2 [] 0
          CompletionPreProcessing.CPP_NONE worldHome =
        (worldHome.call (Call.complete_real_option_names "opt".toList), 5) ∧
      complete_args compEnvExample (CmdId.other 0) "a fun".toList 2 [] 0
          CompletionPreProcessing.CPP_NONE worldHome =
        (worldHome.call (Call.function_complete_name "fun".toList), 2) ∧
      complete_args compEnvExample (CmdId.other 0) "a &o$x".toList 2 [] 0
          CompletionPreProcessing.CPP_NONE worldHome =
        (worldHome.call (Call.complete_variables "$x".toList), 4) ∧
      (strrchr ("a fun".toList.drop (after_last "a fun".toList ' ')) '&' = none →
        strrchr ("a fun".toList.drop (after_last "a fun".toList ' ')) '$' = none →
        complete_args compEnvExample (CmdId.other 0) "a fun".toList 2 [] 0
            CompletionPreProcessing.CPP_NONE worldHome =
          (worldHome.call (Call.function_complete_name
              (cstr ("a fun".toList.drop (after_last "a fun".toList ' ')))),
            compEnvExample.function_complete_name_start "a fun".toList
              (after_last "a fun".toList ' '))) :=
  ⟨by decide, by decide, by decide, by decide, by decide,
    (complete_args_expr compEnvExample (CmdId.other 0) "a fun".toList 2 [] 0
      CompletionPreProcessing.CPP_NONE worldHome (by decide) (by decide)).2.1⟩

/-- Counterexample to C28 as stated: the argument `&opt` has no `'$'`, so no `'&'` of it
occurs after a `'$'`, and by the claim it would be completed as the name of a function;
`complete_args` completes option names from `opt` and returns the offset 1. -/
theorem complete_args_ampersand_alone :
    strrchr "&opt".toList '$' = none ∧
      complete_args compEnvExample (CmdId.other 0) "&opt".toList 1 ["&opt".toList] 0
          CompletionPreProcessing.CPP_NONE worldHome =
        (worldHome.call (Call.complete_real_option_names "opt".toList), 1) ∧
      complete_args compEnvExample (CmdId.other 0) "&opt".toList 1 ["&opt".toList] 0
          CompletionPreProcessing.CPP_NONE worldHome ≠
        (worldHome.call (Call.function_complete_name "&opt".toList),
          compEnvExample.function_complete_name_start "&opt".toList 0) := by
  decide

/-! ## `complete_highlight_arg` -/

/-- The test `strncmp(a, b, n) == 0` compares the first `n` characters of the two
strings. -/
theorem strncmpEq_take (n : Nat) : ∀ (a b : List Char),
    strncmpEq a b n = true ↔ (cstr a).take n = (cstr b).take n := by
  induction n with
  | zero => intro a b; simp [strncmpEq]
  | succ n ih =>
    intro a b
    rw [strncmpEq]
    cases a with
    | nil =>
      cases b with
      | nil => simp [peek_nil, cstr]
      | cons y b =>
        by_cases hy : y = NUL
        · subst hy
          simp [peek_nil, peek_zero_cons, cstr_cons_nul, cstr_nil]
        · have : NUL ≠ y := fun e => hy e.symm
          simp [peek_nil, peek_zero_cons, cstr_cons y b hy, cstr_nil, this]
    | cons x a =>
      cases b with
      | nil =>
        by_cases hx : x = NUL
        · subst hx
          simp [peek_nil, peek_zero_cons, cstr_cons_nul, cstr_nil]
        · simp [peek_nil, peek_zero_cons, cstr_cons x a hx, cstr_nil, hx]
      | cons y b =>
        simp only [peek_zero_cons, List.tail_cons]
        by_cases hxy : x = y
        · subst hxy
          by_cases hx : x = NUL
          · subst hx
            simp [cstr_cons_nul]
          · simp only [ne_eq, not_true_eq_false, if_false, hx, cstr_cons x a hx,
              cstr_cons x b hx, List.take_succ_cons, List.cons.injEq, true_and]
            exact ih a b
        · simp only [ne_eq, hxy, not_false_eq_true, if_true, Bool.false_eq_true, false_iff]
          by_cases hx : x = NUL
          · subst hx
            have hy : y ≠ NUL := fun e => hxy e.symm
            simp [cstr_cons_nul, cstr_cons y b hy]
          · by_cases hy : y = NUL
            · subst hy
              simp [cstr_cons_nul, cstr_cons x a hx]
            · simp [cstr_cons x a hx, cstr_cons y b hy, hxy]

theorem eq_take_iff_isPrefix (l t : List Char) (e : Nat) (hl : l.length = e) :
    l = t.take e ↔ l <+: t := by
  constructor
  · intro h
    rw [h]
    exact List.take_prefix e t
  · intro h
    obtain ⟨s, hs⟩ := h
    subst hs
    rw [← hl, List.take_left]

/-- The test that `complete_highlight_arg` makes on the attribute, the text before the
first `'='`: it holds exactly when the attribute is a prefix of `cterm`, the empty
attribute and `cterm` itself included. -/
theorem cterm_test_iff (str attr value : List Char) (h : cstr str = attr ++ '=' :: value) :
    strncmpEq str "cterm".toList attr.length = true ↔ attr <+: "cterm".toList := by
  rw [strncmpEq_take, h]
  have hc : cstr "cterm".toList = "cterm".toList := by decide
  rw [hc, List.take_left]
  exact eq_take_iff_isPrefix attr _ attr.length rfl

/-- The calls of a loop that adds the items of a list that pass a test. -/
theorem addMatching_eq (test : List Char → Bool) : ∀ (l : List (List Char)) (w : World),
    addMatching test l w =
      { calls := w.calls ++ (l.filter test).map (fun x => Call.add_match (cstr x)),
        cwd := w.cwd } := by
  intro l
  induction l with
  | nil => intro w; simp [addMatching]
  | cons x r ih =>
    intro w
    rw [addMatching]
    by_cases h : test x = true
    · simp [h, ih, World.call, List.filter_cons]
    · simp [h, ih, List.filter_cons]

/-- The value that `complete_highlight_arg` returns and the echo entry that it adds, in
terms of the test that the code makes on the attribute: 0 and the whole string when
there is no `'='`; when the test holds, the offset just after the last `','` of the
value if there is one; in every other case the offset just after the first `'='`.  The
echo entry is always the last call, and it is the suffix of the string that starts at
the value returned. -/
theorem complete_highlight_arg_offset (env : CompEnv) (str : List Char) (w : World) :
    (strchr str '=' = none → (complete_highlight_arg env str w).2 = 0) ∧
      (∀ e, strchr str '=' = some e → strncmpEq str "cterm".toList e = true →
        ∀ c, strrchr (str.drop (e + 1)) ',' = some c →
          (complete_highlight_arg env str w).2 = e + 1 + (c + 1)) ∧
      (∀ e, strchr str '=' = some e → strncmpEq str "cterm".toList e = true →
        strrchr (str.drop (e + 1)) ',' = none →
          (complete_highlight_arg env str w).2 = e + 1) ∧
      (∀ e, strchr str '=' = some e → strncmpEq str "cterm".toList e = false →
        (complete_highlight_arg env str w).2 = e + 1) ∧
      (complete_highlight_arg env str w).1.calls.getLast? =
        some (Call.add_last_match
          (cstr (str.drop (complete_highlight_arg env str w).2))) := by
  refine ⟨?_, ?_, ?_, ?_, ?_⟩
  · intro h
    simp [complete_highlight_arg, h]
  · intro e h ht c hc
    have ht2 : strncmpEq str ['c', 't', 'e', 'r', 'm'] e = true := ht
    simp [complete_highlight_arg, h, ht2, hc]
  · intro e h ht hc
    have ht2 : strncmpEq str ['c', 't', 'e', 'r', 'm'] e = true := ht
    simp [complete_highlight_arg, h, ht2, hc]
  · intro e h ht
    have ht2 : strncmpEq str ['c', 't', 'e', 'r', 'm'] e = false := ht
    simp [complete_highlight_arg, h, ht2]
  · unfold complete_highlight_arg
    cases h : strchr str '=' with
    | none => simp [finishWith, World.call]
    | some e =>
      simp only [Nat.add_sub_cancel]
      by_cases ht : strncmpEq str "cterm".toList e = true
      · simp only [ht, if_true]
        cases hc : strrchr (str.drop (e + 1)) ',' with
        | none => simp [finishWith, World.call]
        | some c => simp [finishWith, World.call, Nat.add_assoc]
      · simp only [ht]
        simp [finishWith, World.call]

/-- What `complete_highlight_arg` offers for an argument with a `'='`: when the test on
the attribute holds, the style keywords of which the last element of the value is a
prefix up to case, and nothing else; when it does not hold, `default`, `none` and the
color names of which the value is a prefix up to case, and nothing else. -/
theorem complete_highlight_arg_offers (env : CompEnv) (str : List Char) (w : World)
    (e : Nat) (h : strchr str '=' = some e) :
    (strncmpEq str "cterm".toList e = true →
        ∃ last, (complete_highlight_arg env str w).1.calls =
          w.calls ++ (STYLES.filter (fun st => strncasecmpEq last st (cstrlen last))).map
              (fun x => Call.add_match (cstr x)) ++
            [Call.finish_group, Call.add_last_match (cstr last)]) ∧
      (strncmpEq str "cterm".toList e = false →
        (complete_highlight_arg env str w).1.calls =
          w.calls ++
            ((["default".toList] ++ ["none".toList] ++ env.XTERM256_COLOR_NAMES ++
                env.LIGHT_COLOR_NAMES).filter
              (fun c => strncasecmpEq (str.drop (e + 1)) c (cstrlen (str.drop (e + 1))))).map
              (fun x => Call.add_match (cstr x)) ++
            [Call.finish_group, Call.add_last_match (cstr (str.drop (e + 1)))]) := by
  constructor
  · intro ht
    unfold complete_highlight_arg
    simp only [h, Nat.add_sub_cancel, ht, if_true]
    cases hc : strrchr (str.drop (e + 1)) ',' with
    | none =>
      exact ⟨str.drop (e + 1), by simp [addMatching_eq, finishWith, World.call]⟩
    | some c =>
      exact ⟨(str.drop (e + 1)).drop (c + 1),
        by simp [addMatching_eq, finishWith, World.call]⟩
  · intro ht
    unfold complete_highlight_arg
    simp only [h, Nat.add_sub_cancel, ht, Bool.false_eq_true, if_false]
    simp only [addMatching_eq, finishWith, World.call, List.filter_append, List.map_append,
      List.append_assoc]
    rfl

/-- C29, the failing input: for the argument `c=bold,u`, whose attribute `c` is not
`cterm`, `complete_highlight_arg` returns 7, the offset just after the `','`, not 2,
the offset just after the `'='`, and offers the style `underline`; the test on the
attribute compares only as many characters as the attribute has.  For `cterm=bold,u`
it returns 11, for `ctermfg=a,b` it returns 8, for `cte` it returns 0. -/
theorem complete_highlight_arg_short_attr_offset :
    strchr "c=bold,u".toList '=' = some 1 ∧
      (complete_highlight_arg compEnvExample "c=bold,u".toList worldHome).2 = 7 ∧
      (complete_highlight_arg compEnvExample "c=bold,u".toList worldHome).1.calls =
        [Call.add_match "underline".toList, Call.finish_group,
          Call.add_last_match "u".toList] ∧
      (complete_highlight_arg compEnvExample "cterm=bold,u".toList worldHome).2 = 11 ∧
      (complete_highlight_arg compEnvExample "ctermfg=a,b".toList worldHome).2 = 8 ∧
      (complete_highlight_arg compEnvExample "ctermfg=a,b".toList worldHome).1.calls =
        [Call.finish_group, Call.add_last_match "a,b".toList] ∧
      (complete_highlight_arg compEnvExample "cte".toList worldHome).2 = 0 ∧
      (complete_highlight_arg compEnvExample "cte".toList worldHome).1.calls =
        [Call.add_match "cterm".toList, Call.add_match "ctermfg".toList,
          Call.add_match "ctermbg".toList, Call.finish_group,
          Call.add_last_match "cte".toList] := by
  decide

/-- C30, the failing input: for the argument `ct=b`, whose attribute `ct` is not
`cterm`, `complete_highlight_arg` offers the style keyword `bold` and no color name,
although the colors `black` and `blue` begin with `b`; so it does for the empty
attribute of `=b`.  For `cterm=b` it offers `bold`, for `ctermfg=b` and for `x=b` the
colors `black` and `blue`, for `ctermbg=n` the sentinel `none`. -/
theorem complete_highlight_arg_short_attr_styles :
    (complete_highlight_arg compEnvExample "ct=b".toList worldHome).1.calls =
        [Call.add_match "bold".toList, Call.finish_group, Call.add_last_match "b".toList] ∧
      (complete_highlight_arg compEnvExample "=b".toList worldHome).1.calls =
        [Call.add_match "bold".toList, Call.finish_group, Call.add_last_match "b".toList] ∧
      (complete_highlight_arg compEnvExample "cterm=b".toList worldHome).1.calls =
        [Call.add_match "bold".toList, Call.finish_group, Call.add_last_match "b".toList] ∧
      (complete_highlight_arg compEnvExample "ctermfg=b".toList worldHome).1.calls =
        [Call.add_match "black".toList, Call.add_match "blue".toList, Call.finish_group,
          Call.add_last_match "b".toList] ∧
      (complete_highlight_arg compEnvExample "x=b".toList worldHome).1.calls =
        [Call.add_match "black".toList, Call.add_match "blue".toList, Call.finish_group,
          Call.add_last_match "b".toList] ∧
      (complete_highlight_arg compEnvExample "ctermbg=n".toList worldHome).1.calls =
        [Call.add_match "none".toList, Call.finish_group, Call.add_last_match "n".toList] := by
  decide

/-! ## The completers of keywords and of names -/

theorem tolower_nul : tolower NUL = NUL := by decide

theorem tolower_eq_nul (c : Char) (h : tolower c = NUL) : c = NUL := by
  unfold tolower Char.toLower at h
  simp only at h
  split at h
  · rename_i hc
    exfalso
    obtain ⟨h1, h2⟩ := hc
    have e := congrArg Char.toNat h
    revert e
    generalize c.toNat = n at *
    interval_cases n <;> decide
  · exact h

/-- The test `strncasecmp(str, item, strlen(str)) == 0` holds exactly when `str` is a
prefix of `item` up to the case of the letters. -/
theorem strncasecmpEq_isPrefixOf : ∀ (str item : List Char),
    strncasecmpEq str item (cstrlen str) =
      ((cstr str).map tolower).isPrefixOf ((cstr item).map tolower) := by
  intro str
  induction str with
  | nil => intro item; simp [strncasecmpEq, cstr, cstrlen]
  | cons x r ih =>
    intro item
    by_cases hx : x = NUL
    · subst hx
      simp [strncasecmpEq, cstr_cons_nul, cstrlen_cons_nul]
    · have hx2 : tolower x ≠ NUL := fun e => hx (tolower_eq_nul x e)
      rw [cstrlen_cons x r hx, cstr_cons x r hx, strncasecmpEq]
      simp only [peek_zero_cons, List.tail_cons, List.map_cons]
      cases item with
      | nil =>
        simp [peek_nil, tolower_nul, hx2, cstr_nil]
      | cons y g =>
        by_cases hy : y = NUL
        · subst hy
          simp [peek_zero_cons, tolower_nul, hx2, cstr_cons_nul]
        · rw [cstr_cons y g hy]
          simp only [peek_zero_cons, List.tail_cons, List.map_cons]
          by_cases hxy : tolower x = tolower y
          · simp [hxy, hx, ih g, List.isPrefixOf]
          · simp [hxy, List.isPrefixOf]

/-- The test `strncmp(str, item, strlen(str)) == 0` holds exactly when `str` is a prefix
of `item`, letter case included. -/
theorem strncmpEq_self_len (str item : List Char) :
    strncmpEq str item (cstrlen str) = (cstr str).isPrefixOf (cstr item) := by
  rw [Bool.eq_iff_iff, strncmpEq_take, ← cstr_length, List.take_length, List.isPrefixOf_iff_prefix]
  exact eq_take_iff_isPrefix (cstr str) (cstr item) (cstr str).length rfl

theorem finishWith_eq (str : List Char) (w : World) :
    finishWith str w =
      { calls := w.calls ++ [Call.finish_group, Call.add_last_match (cstr str)],
        cwd := w.cwd } := by
  simp [finishWith, World.call]

/-- C31, amended: the completer of the groups of `:highlight` matches up to the case of
the letters, the completer of the kinds of `:history` does not.  For every typed text
`complete_highlight_groups` adds exactly the groups of which the text is a prefix up to
letter case, and `complete_history` adds exactly the kinds of history of which the text
is a prefix as it stands; both then finish the group and add the text as the echo
entry. -/
theorem keyword_completers_case (env : CompEnv) (str : List Char) (w : World) :
    complete_highlight_groups env str w =
        { calls := w.calls ++
            (env.HI_GROUPS.filter (fun g =>
              ((cstr str).map tolower).isPrefixOf ((cstr g).map tolower))).map
              (fun g => Call.add_match (cstr g)) ++
            [Call.finish_group, Call.add_last_match (cstr str)],
          cwd := w.cwd } ∧
      complete_history str w =
        { calls := w.calls ++
            ([".".toList, "dir".toList, "@".toList, "input".toList, "/".toList,
              "search".toList, "fsearch".toList, "?".toList, "bsearch".toList, ":".toList,
              "cmd".toList, "=".toList, "filter".toList].filter (fun item =>
              (cstr str).isPrefixOf (cstr item))).map (fun item => Call.add_match (cstr item)) ++
            [Call.finish_group, Call.add_last_match (cstr str)],
          cwd := w.cwd } := by
  constructor
  · unfold complete_highlight_groups
    rw [finishWith_eq, addMatching_eq]
    have e : (fun g => strncasecmpEq str g (cstrlen str)) =
        fun g => ((cstr str).map tolower).isPrefixOf ((cstr g).map tolower) := by
      funext g
      exact strncasecmpEq_isPrefixOf str g
    rw [e]
  · unfold complete_history complete_from_string_list
    rw [finishWith_eq, addMatching_eq]
    have e : (fun item => strncmpEq str item (cstrlen str)) =
        fun item => (cstr str).isPrefixOf (cstr item) := by
      funext item
      exact strncmpEq_self_len str item
    rw [e]

/-- Counterexample to C31 as stated: for the typed text `DI` the completer of the kinds
of history adds no match, so it does not offer `dir`; for `di` it offers `dir`.  The
completer of the groups of `:highlight` offers `Win` for `wi` and for `WI`. -/
theorem complete_history_case_sensitive :
    (complete_history "DI".toList worldHome).calls =
        [Call.finish_group, Call.add_last_match "DI".toList] ∧
      Call.add_match "dir".toList ∉ (complete_history "DI".toList worldHome).calls ∧
      (complete_history "di".toList worldHome).calls =
        [Call.add_match "dir".toList, Call.finish_group, Call.add_last_match "di".toList] ∧
      (complete_highlight_groups compEnvExample "wi".toList worldHome).calls =
        [Call.add_match "Win".toList, Call.finish_group, Call.add_last_match "wi".toList] ∧
      (complete_highlight_groups compEnvExample "WI".toList worldHome).calls =
        [Call.add_match "Win".toList, Call.finish_group, Call.add_last_match "WI".toList] := by
  decide

/-! ## `complete_chown` -/

/-- What `complete_chown` does: without a `':'` the whole string goes to
`complete_user_name` and 0 is returned; with one, the text after the first `':'` goes to
`complete_user_name` too, and the offset just after that `':'` is returned. -/
theorem complete_chown_eq (env : CompEnv) (str : List Char) (w : World) :
    (strchr str ':' = none → complete_chown env str w = (complete_user_name env str w, 0)) ∧
      (∀ colon, strchr str ':' = some colon →
        complete_chown env str w =
          (complete_user_name env (str.drop (colon + 1)) w, colon + 1)) := by
  constructor
  · intro h
    simp [complete_chown, h]
  · intro colon h
    simp [complete_chown, h]

/-- What `complete_user_name` adds: the names of the users of which the string is a
prefix. -/
theorem complete_user_name_eq (env : CompEnv) (str : List Char) (w : World) :
    complete_user_name env str w =
      { calls := w.calls ++
          (env.users.filter (fun name => (cstr str).isPrefixOf (cstr name))).map
            (fun name => Call.add_match (cstr name)) ++
          [Call.finish_group, Call.add_last_match (cstr str)],
        cwd := w.cwd } := by
  unfold complete_user_name
  rw [finishWith_eq, addMatching_eq]
  have e : (fun name => strncmpEq name str (cstrlen str)) =
      fun name => (cstr str).isPrefixOf (cstr name) := by
    funext name
    exact strncmpEq_isPrefixOf str name
  rw [e]

/-- C32, the failing input: with the users `root` and `bob` and the groups `wheel` and
`users`, `complete_chown` offers no match for the argument `root:w`, although the group
`wheel` begins with `w`, and offers the user `bob` for the argument `x:b`, although no
group begins with `b`: the text after the `':'` is given to `complete_user_name`, not to
`complete_group_name`.  The offset returned, 5 and 2, is the one just after the `':'`;
for the argument `ro` without a `':'` the user `root` is offered and 0 is returned. -/
theorem complete_chown_group_part_users :
    compEnvExample.users = ["root".toList, "bob".toList] ∧
      complete_chown compEnvExample "root:w".toList worldHome =
        ({ calls := [Call.finish_group, Call.add_last_match "w".toList],
           cwd := "/home/u".toList }, 5) ∧
      (complete_group_name groupsExample "w".toList worldHome).calls =
        [Call.add_match "wheel".toList, Call.finish_group, Call.add_last_match "w".toList] ∧
      complete_chown compEnvExample "x:b".toList worldHome =
        ({ calls := [Call.add_match "bob".toList, Call.finish_group,
            Call.add_last_match "b".toList],
           cwd := "/home/u".toList }, 2) ∧
      (complete_group_name groupsExample "b".toList worldHome).calls =
        [Call.finish_group, Call.add_last_match "b".toList] ∧
      complete_args compEnvExample CmdId.COM_CHOWN "root:w".toList 1 ["root:w".toList] 0
          CompletionPreProcessing.CPP_NONE worldHome =
        ({ calls := [Call.finish_group, Call.add_last_match "w".toList],
           cwd := "/home/u".toList }, 5) ∧
      complete_chown compEnvExample "ro".toList worldHome =
        ({ calls := [Call.add_match "root".toList, Call.finish_group,
            Call.add_last_match "ro".toList],
           cwd := "/home/u".toList }, 0) := by
  decide

/-! ## The match session and `fast_run_complete` -/

/-- While bytes have been stored already, or the character at hand is not `'~'`, no
iteration of the loop of `escape_filename` finds a `'~'` with `dup == ret`. -/
theorem escapeLoopTrace_no_tilde_first (qp : Bool) (n : Nat) :
    ∀ (s out : List Char), (out ≠ [] ∨ peek s 0 ≠ '~') →
      ∀ p ∈ escapeLoopTrace qp n s out, ¬ (p.1 = '~' ∧ p.2 = []) := by
  induction n with
  | zero => intro s out _ p hp; simp [escapeLoopTrace] at hp
  | succ n ih =>
    intro s out h p hp
    rw [escapeLoopTrace] at hp
    rcases List.mem_cons.1 hp with hp | hp
    · subst hp
      rintro ⟨h1, h2⟩
      rcases h with h | h
      · exact h h2
      · exact h h1
    · exact ih _ _ (Or.inl (by simp)) p hp

/-- C34: `escape_filename` never puts a backslash in front of a `'~'`.  For every text
and either flag the result is `"./"`, when the text begins with `'-'`, followed by the
text with each of its characters replaced by `escChar`, which for `'~'` is the `'~'`
alone; and in no iteration of the loop is the character at hand a `'~'` while
`dup == ret`, so the statement `*dup++ = '\\'` of the `case '~'` is never run. -/
theorem escape_filename_tilde_verbatim (text : List Char) (qp : Bool) :
    escape_filename text qp =
        (if peek text 0 = '-' then ['.', '/'] else []) ++
          (cstr text).flatMap (escChar qp) ∧
      escChar qp '~' = ['~'] ∧
      ∀ p ∈ escape_filename_trace text qp, ¬ (p.1 = '~' ∧ p.2 = []) := by
  refine ⟨escape_filename_eq text qp, by cases qp <;> decide, ?_⟩
  unfold escape_filename_trace
  by_cases h1 : peek text 0 = '-'
  · simp only [h1, if_true]
    exact escapeLoopTrace_no_tilde_first qp _ _ _ (Or.inl (by simp))
  · by_cases h2 : peek text 0 = '~'
    · have hne : ('~' : Char) ≠ '-' := by decide
      simp only [h2, hne, if_true, if_false]
      exact escapeLoopTrace_no_tilde_first qp _ _ _ (Or.inl (by simp))
    · simp only [h1, h2, if_false]
      exact escapeLoopTrace_no_tilde_first qp _ _ _ (Or.inr h2)

/-! ## `canonicalize_path` on relative paths -/

/-- C35, the failing input: `canonicalize_path` maps the relative path `a/../b` to the
absolute path `/b/`, for every content of the destination memory; it maps `a/..` to `/`
and `a/b/../../c` to `/c/`.  The component that `..` removes is the first one, and the
separator that follows `..` is then stored at the beginning of the buffer.  A relative
path whose `..` leaves a component in front stays relative: `a/b/../c` gives `a/c/`. -/
theorem canonicalize_path_relative_to_absolute :
    peek "a/../b".toList 0 ≠ '/' ∧
      (∀ m : Mem, canonicalize_path "a/../b".toList m 64 = "/b/".toList) ∧
      canonicalize_path "a/../b".toList Mem.zero 4096 = "/b/".toList ∧
      canonicalize_path "a/..".toList Mem.zero 4096 = "/".toList ∧
      canonicalize_path "a/b/../../c".toList Mem.zero 4096 = "/c/".toList ∧
      canonicalize_path "a/b/../c".toList Mem.zero 4096 = "a/c/".toList := by
  refine ⟨by decide, ?_, by decide, by decide, by decide, by decide⟩
  intro m
  rw [canonicalize_path_eq_items _ m 64 (by decide)]
  generalize m.pre = pre
  generalize decide (m.cells 3 = NUL) = z
  cases z <;> rfl

/-! ## `canonicalize_path` with room to spare, `paths_are_equal` -/

theorem canonLoop_qn_le (directory : List Char) (m : Mem) (n : Nat) :
    (canonLoop n directory.length { p := directory, m := m.write 0 NUL, qn := 0 }).qn ≤
      (canonicalize_mem directory m n).2 := by
  unfold canonicalize_mem
  simp only []
  split <;> simp

theorem canonicalize_path_cstr (directory : List Char) (m : Mem) (n : Nat)
    (h : cstrlen directory ≤ sizeLimit n) :
    cstr (canonicalize_path directory m n) = canonicalize_path directory m n := by
  obtain ⟨e1, _, _, e4, _⟩ := canonicalize_mem_spec directory m n h
  apply cstr_of_no_nul
  intro c hc
  apply e4 c
  rw [← e1]
  exact hc

/-- C36: for every path `s` and every capacity of at least `strlen(s) + 3`,
`canonicalize_path` stores a string of at most `strlen(s) + 1` characters and, with its
NUL, no byte beyond the capacity; its loop ends at the NUL of the path with the capacity
test still true, and the string stored is the one that the item-level description gives,
with no component cut.  Hence the two arrays of `strlen + 8` bytes of `paths_are_equal`
are neither truncated nor overflowed, and `paths_are_equal(s, t)` tells whether the
complete canonical forms of `s` and `t` are equal. -/
theorem paths_are_equal_complete (s t : List Char) (ms mt : Mem) (cap : Nat)
    (hcap : cstrlen s + 3 ≤ cap) (hlt : cap < SIZE_MOD)
    (hs : cstrlen s + 8 < SIZE_MOD) (ht : cstrlen t + 8 < SIZE_MOD) :
    (canonicalize_path s ms cap).length ≤ cstrlen s + 1 ∧
      (canonicalize_mem s ms cap).2 + 1 ≤ cap ∧
      peek (canonLoop cap s.length { p := s, m := ms.write 0 NUL, qn := 0 }).p 0 = NUL ∧
      (canonLoop cap s.length { p := s, m := ms.write 0 NUL, qn := 0 }).qn <
        sizeLimit cap ∧
      canonicalize_path s ms cap = canonItems s ms.pre (decide (ms.cells 3 = NUL)) ∧
      (canonicalize_mem s ms ((cstrlen s + 8) % SIZE_MOD)).2 + 1 ≤ cstrlen s + 8 ∧
      (canonicalize_mem t mt ((cstrlen t + 8) % SIZE_MOD)).2 + 1 ≤ cstrlen t + 8 ∧
      paths_are_equal s t ms mt =
        decide (canonItems s ms.pre (decide (ms.cells 3 = NUL)) =
          canonItems t mt.pre (decide (mt.cells 3 = NUL))) := by
  have hl : sizeLimit cap = cap - 1 := sizeLimit_eq cap (by omega) hlt
  have hfit : cstrlen s ≤ sizeLimit cap := by rw [hl]; omega
  obtain ⟨e1, _, _, _, e5⟩ := canonicalize_mem_spec s ms cap hfit
  have hq := canonLoop_qn_le s ms cap
  have hfin := canonicalize_mem_loop_finished s ms cap
  have hqlt : (canonLoop cap s.length { p := s, m := ms.write 0 NUL, qn := 0 }).qn <
      sizeLimit cap := by rw [hl]; omega
  have hms : (cstrlen s + 8) % SIZE_MOD = cstrlen s + 8 := Nat.mod_eq_of_lt hs
  have hmt : (cstrlen t + 8) % SIZE_MOD = cstrlen t + 8 := Nat.mod_eq_of_lt ht
  have hls : sizeLimit (cstrlen s + 8) = cstrlen s + 8 - 1 :=
    sizeLimit_eq _ (by omega) hs
  have hlt2 : sizeLimit (cstrlen t + 8) = cstrlen t + 8 - 1 :=
    sizeLimit_eq _ (by omega) ht
  have hfs : cstrlen s ≤ sizeLimit (cstrlen s + 8) := by rw [hls]; omega
  have hft : cstrlen t ≤ sizeLimit (cstrlen t + 8) := by rw [hlt2]; omega
  obtain ⟨_, _, _, _, s5⟩ := canonicalize_mem_spec s ms (cstrlen s + 8) hfs
  obtain ⟨_, _, _, _, t5⟩ := canonicalize_mem_spec t mt (cstrlen t + 8) hft
  refine ⟨?_, by omega, ?_, hqlt, canonicalize_path_eq_items s ms cap hfit, ?_, ?_, ?_⟩
  · unfold canonicalize_path
    rw [Mem.prefix_length]
    exact e5
  · unfold canonCond at hfin
    simp only [Bool.and_eq_false_imp, bne_iff_ne, ne_eq, decide_eq_false_iff_not] at hfin
    by_contra hne
    have := hfin (by simpa using hne)
    exact this hqlt
  · rw [hms]; omega
  · rw [hmt]; omega
  · unfold paths_are_equal stroscmpEq
    simp only [hms, hmt]
    rw [canonicalize_path_cstr s ms _ hfs, canonicalize_path_cstr t mt _ hft,
      canonicalize_path_eq_items s ms _ hfs, canonicalize_path_eq_items t mt _ hft]

/-- Witness of C36: the path `/usr/./local/../bin` with the capacity `strlen + 3 = 22`,
compared with `/usr/bin/` by `paths_are_equal`. -/
theorem paths_are_equal_complete_witness :
    cstrlen "/usr/./local/../bin".toList + 3 ≤ 22 ∧ 22 < SIZE_MOD ∧
      cstrlen "/usr/./local/../bin".toList + 8 < SIZE_MOD ∧
      cstrlen "/usr/bin/".toList + 8 < SIZE_MOD ∧
      (canonicalize_path "/usr/./local/../bin".toList Mem.zero 22).length ≤
        cstrlen "/usr/./local/../bin".toList + 1 ∧
      canonicalize_path "/usr/./local/../bin".toList Mem.zero 22 = "/usr/bin/".toList ∧
      paths_are_equal "/usr/./local/../bin".toList "/usr/bin/".toList Mem.zero Mem.zero =
        true ∧
      paths_are_equal "/usr/bin".toList "/usr/lib".toList Mem.zero Mem.zero = false :=
  ⟨by decide, by decide, by decide, by decide,
    (paths_are_equal_complete "/usr/./local/../bin".toList "/usr/bin/".toList Mem.zero
      Mem.zero 22 (by decide) (by decide) (by decide) (by decide)).1,
    by decide, by decide, by decide⟩

/-! ## `cmd_ends_with_space` -/

theorem backslash_ne_nul : BACKSLASH ≠ NUL := by decide

theorem cmd_ends_with_space_step (c d : Char) (r : List Char) (hc : c ≠ NUL) (hd : d ≠ NUL) :
    cmd_ends_with_space (c :: d :: r) =
      if c = BACKSLASH then cmd_ends_with_space r else cmd_ends_with_space (d :: r) := by
  rw [cmd_ends_with_space]
  simp only [hc, hd, if_false]

/-- The characters after the terminator of the string have no influence on
`cmd_ends_with_space`. -/
theorem cmd_ends_with_space_cstr : ∀ (n : Nat) (cmd : List Char), cmd.length ≤ n →
    cmd_ends_with_space cmd = cmd_ends_with_space (cstr cmd) := by
  intro n
  induction n with
  | zero =>
    intro cmd h
    have : cmd = [] := List.length_eq_zero.1 (Nat.le_zero.1 h)
    subst this
    rfl
  | succ n ih =>
    intro cmd h
    match cmd, h with
    | [], _ => rfl
    | [c], _ =>
      by_cases hc : c = NUL
      · subst hc
        simp [cstr_cons_nul, cmd_ends_with_space]
        decide
      · rw [cstr_cons c [] hc, cstr_nil]
    | c :: d :: r, h =>
      by_cases hc : c = NUL
      · subst hc
        simp [cstr_cons_nul, cmd_ends_with_space]
      · by_cases hd : d = NUL
        · subst hd
          rw [cstr_cons c _ hc, cstr_cons_nul]
          simp [cmd_ends_with_space, hc]
        · rw [cstr_cons c _ hc, cstr_cons d _ hd,
            cmd_ends_with_space_step c d r hc hd,
            cmd_ends_with_space_step c d (cstr r) hc hd]
          simp only [List.length_cons] at h
          by_cases hb : c = BACKSLASH
          · simp only [hb, if_true]
            exact ih r (by omega)
          · simp only [hb, if_false]
            rw [ih (d :: r) (by simp only [List.length_cons]; omega), cstr_cons d r hd]

/-- The scan of `cmd_ends_with_space` passes a part of the string that does not end in a
backslash and goes on with what follows it. -/
theorem cmd_ends_with_space_append : ∀ (n : Nat) (pre rest : List Char), pre.length ≤ n →
    (∀ x ∈ pre ++ rest, x ≠ NUL) → pre.getLast? ≠ some BACKSLASH → rest ≠ [] →
    cmd_ends_with_space (pre ++ rest) = cmd_ends_with_space rest := by
  intro n
  induction n with
  | zero =>
    intro pre rest h _ _ _
    have : pre = [] := List.length_eq_zero.1 (Nat.le_zero.1 h)
    subst this
    rfl
  | succ n ih =>
    intro pre rest h hn hl hr
    match pre, h, hn, hl with
    | [], _, _, _ => rfl
    | [c], _, hn, hl =>
      obtain ⟨d, r, e⟩ := List.exists_cons_of_ne_nil hr
      subst e
      have hc : c ≠ NUL := hn c (by simp)
      have hd : d ≠ NUL := hn d (by simp)
      have hb : c ≠ BACKSLASH := by
        intro e
        apply hl
        simp [e]
      rw [List.singleton_append, cmd_ends_with_space_step c d r hc hd]
      simp only [hb, if_false]
    | c :: d :: p, h, hn, hl =>
      have hc : c ≠ NUL := hn c (by simp)
      have hd : d ≠ NUL := hn d (by simp)
      simp only [List.length_cons] at h
      rw [List.cons_append, List.cons_append, cmd_ends_with_space_step c d _ hc hd]
      by_cases hb : c = BACKSLASH
      · simp only [hb, if_true]
        apply ih p rest (by omega)
        · intro x hx
          apply hn x
          simp only [List.cons_append, List.mem_cons]
          exact Or.inr (Or.inr hx)
        · intro e
          apply hl
          cases p with
          | nil => simp at e
          | cons y q => simpa [List.getLast?_cons_cons] using e
        · exact hr
      · simp only [hb, if_false]
        rw [← List.cons_append]
        apply ih (d :: p) rest (by simp only [List.length_cons]; omega)
        · intro x hx
          apply hn x
          simp only [List.cons_append, List.mem_cons] at hx ⊢
          exact Or.inr hx
        · intro e
          apply hl
          simpa [List.getLast?_cons_cons] using e
        · exact hr

/-- The scan of a run of `k` backslashes followed by one more character: the result is
non-zero exactly when that character is a space and `k` is even. -/
theorem cmd_ends_with_space_run (x : Char) (hx : x ≠ NUL) : ∀ (k : Nat),
    (cmd_ends_with_space (List.replicate k BACKSLASH ++ [x]) = decide (x = ' ' ∧ Even k)) ∧
      (cmd_ends_with_space (List.replicate (k + 1) BACKSLASH ++ [x]) =
        decide (x = ' ' ∧ Even (k + 1))) := by
  intro k
  induction k with
  | zero =>
    constructor
    · simp [cmd_ends_with_space]
    · simp only [List.replicate_succ, List.replicate_zero, List.nil_append, List.cons_append]
      rw [cmd_ends_with_space_step BACKSLASH x [] backslash_ne_nul hx]
      simp [cmd_ends_with_space]
  | succ k ih =>
    refine ⟨ih.2, ?_⟩
    have e : List.replicate (k + 1 + 1) BACKSLASH ++ [x] =
        BACKSLASH :: BACKSLASH :: (List.replicate k BACKSLASH ++ [x]) := by
      simp [List.replicate_succ]
    rw [e, cmd_ends_with_space_step BACKSLASH BACKSLASH _ backslash_ne_nul backslash_ne_nul]
    simp only [if_true]
    rw [ih.1]
    have : Even (k + 1 + 1) ↔ Even k := by
      rw [Nat.even_add_one, Nat.even_add_one, not_not]
    simp [this]

/-- Every string is a part that does not end in a backslash followed by a run of
backslashes. -/
theorem exists_backslash_run (l : List Char) :
    ∃ pre k, l = pre ++ List.replicate k BACKSLASH ∧ pre.getLast? ≠ some BACKSLASH := by
  induction l using List.reverseRecOn with
  | nil => exact ⟨[], 0, by simp, by simp⟩
  | append_singleton init y ih =>
    by_cases hy : y = BACKSLASH
    · obtain ⟨pre, k, e, h⟩ := ih
      refine ⟨pre, k + 1, ?_, h⟩
      rw [e, hy, List.append_assoc]
      congr 1
      rw [← List.replicate_succ']
    · refine ⟨init ++ [y], 0, by simp, ?_⟩
      simp [List.getLast?_append, hy]

/-- Every index that `cmd_ends_with_space` reads lies at or before the terminator of the
string. -/
theorem cmdEndsReads_le : ∀ (n : Nat) (l : List Char) (pos : Nat), l.length ≤ n →
    ∀ i ∈ cmdEndsReads l pos, i ≤ pos + cstrlen l := by
  intro n
  induction n with
  | zero =>
    intro l pos h i hi
    have : l = [] := List.length_eq_zero.1 (Nat.le_zero.1 h)
    subst this
    simp [cmdEndsReads] at hi
    omega
  | succ n ih =>
    intro l pos h i hi
    match l, h, hi with
    | [], _, hi =>
      simp [cmdEndsReads] at hi
      omega
    | [c], _, hi =>
      by_cases hc : c = NUL
      · simp [cmdEndsReads, hc] at hi
        omega
      · rw [cstrlen_cons c [] hc]
        simp [cmdEndsReads, hc] at hi
        omega
    | c :: d :: r, h, hi =>
      simp only [List.length_cons] at h
      by_cases hc : c = NUL
      · simp [cmdEndsReads, hc] at hi
        omega
      · rw [cstrlen_cons c _ hc]
        by_cases hd : d = NUL
        · simp [cmdEndsReads, hc, hd] at hi
          omega
        · rw [cstrlen_cons d _ hd]
          rw [cmdEndsReads] at hi
          simp only [hc, hd, if_false] at hi
          by_cases hb : c = BACKSLASH
          · simp only [hb, if_true, List.mem_cons] at hi
            rcases hi with hi | hi | hi
            · omega
            · omega
            · have := ih r (pos + 2) (by omega) i hi
              omega
          · simp only [hb, if_false, List.mem_cons] at hi
            rcases hi with hi | hi | hi
            · omega
            · omega
            · have := ih (d :: r) (pos + 1) (by simp only [List.length_cons]; omega) i hi
              rw [cstrlen_cons d r hd] at this
              omega

/-- C37: `cmd_ends_with_space` is defined for every string; the indices it reads all lie
at or before the terminating NUL, and what follows the terminator has no influence on the
result; it returns non-zero exactly when the string is a part that does not end in a
backslash, followed by an even number `k` of backslashes and a final space: the string is
not empty, its last character is a space, and the run of backslashes in front of that
space has even length. -/
theorem cmd_ends_with_space_spec (cmd : List Char) :
    (∀ i ∈ cmdEndsReads cmd 0, i ≤ cstrlen cmd) ∧
      cmd_ends_with_space cmd = cmd_ends_with_space (cstr cmd) ∧
      (cmd_ends_with_space cmd = true ↔
        ∃ pre k, cstr cmd = pre ++ List.replicate k BACKSLASH ++ [' '] ∧
          pre.getLast? ≠ some BACKSLASH ∧ Even k) := by
  refine ⟨?_, cmd_ends_with_space_cstr cmd.length cmd (le_refl _), ?_⟩
  · intro i hi
    have := cmdEndsReads_le cmd.length cmd 0 (le_refl _) i hi
    omega
  · rw [cmd_ends_with_space_cstr cmd.length cmd (le_refl _)]
    have hnn := cstr_no_nul cmd
    generalize cstr cmd = l at hnn
    constructor
    · intro h
      rcases List.eq_nil_or_concat l with e | ⟨init, x, e⟩
      · subst e
        simp [cmd_ends_with_space] at h
      · rw [List.concat_eq_append] at e
        subst e
        obtain ⟨pre, k, e, hp⟩ := exists_backslash_run init
        subst e
        have hx : x ≠ NUL := hnn x (by simp)
        rw [List.append_assoc,
          cmd_ends_with_space_append pre.length pre _ (le_refl _)
            (by rw [← List.append_assoc]; exact hnn) hp (by simp),
          (cmd_ends_with_space_run x hx k).1] at h
        simp only [decide_eq_true_eq] at h
        obtain ⟨h1, h2⟩ := h
        subst h1
        exact ⟨pre, k, rfl, hp, h2⟩
    · rintro ⟨pre, k, e, hp, hk⟩
      subst e
      rw [List.append_assoc,
        cmd_ends_with_space_append pre.length pre _ (le_refl _)
          (by rw [← List.append_assoc]; exact hnn) hp (by simp),
        (cmd_ends_with_space_run ' ' (by decide) k).1]
      simp [hk]

/-- Examples for C37: a final space counts when zero or two backslashes precede it, and
does not count when one or three do; a string without a final space, the empty string
and a string of backslashes give zero. -/
theorem cmd_ends_with_space_examples :
    cmd_ends_with_space "cd ".toList = true ∧
      cmd_ends_with_space ['c', 'd', BACKSLASH, ' '] = false ∧
      cmd_ends_with_space ['c', 'd', BACKSLASH, BACKSLASH, ' '] = true ∧
      cmd_ends_with_space ['c', 'd', BACKSLASH, BACKSLASH, BACKSLASH, ' '] = false ∧
      cmd_ends_with_space ['a', BACKSLASH, 'b', ' '] = true ∧
      cmd_ends_with_space "cd".toList = false ∧
      cmd_ends_with_space [] = false ∧
      cmd_ends_with_space [BACKSLASH, BACKSLASH] = false ∧
      cmd_ends_with_space [' ', NUL, ' ', 'x'] = true ∧
      cmdEndsReads ['c', 'd', BACKSLASH, ' '] 0 = [0, 1, 1, 2, 2, 3, 4, 4] := by
  decide

/-! ## `get_last_path_component` -/

/-- For a path that does not end in `'/'`, `get_last_path_component` returns the offset
just after the last `'/'`, and 0 when there is none. -/
theorem get_last_path_component_plain (path : List Char) :
    (strrchr path '/' = none → get_last_path_component path = 0) ∧
      (∀ i, strrchr path '/' = some i → peek path (i + 1) ≠ NUL →
        get_last_path_component path = i + 1) := by
  constructor
  · intro h
    simp [get_last_path_component, h]
  · intro i h hn
    simp [get_last_path_component, h, hn]

/-- C38, the failing input: for the path `ab/`, `get_last_path_component` returns the
offset 1, that is the string `b/`, which does not start on a component boundary: the
second loop stops at `path + 1` instead of `path`.  So it does for `abc//`.  For the
paths `/ab/`, `x/ab/`, `a/b`, `ab`, `a/` and `/` it returns the offsets 1, 2, 2, 0, 0
and 0. -/
theorem get_last_path_component_relative_dir :
    get_last_path_component "ab/".toList = 1 ∧
      "ab/".toList.drop (get_last_path_component "ab/".toList) = "b/".toList ∧
      peek "ab/".toList 0 ≠ '/' ∧
      get_last_path_component "abc//".toList = 1 ∧
      get_last_path_component "/ab/".toList = 1 ∧
      get_last_path_component "x/ab/".toList = 2 ∧
      get_last_path_component "a/b".toList = 2 ∧
      get_last_path_component "ab".toList = 0 ∧
      get_last_path_component "a/".toList = 0 ∧
      get_last_path_component "/".toList = 0 := by
  decide

/-! ## `path_starts_with` -/

theorem cstr_getLast_slash (s : List Char) :
    (0 < cstrlen s ∧ peek s (cstrlen s - 1) = '/') ↔ (cstr s).getLast? = some '/' := by
  rw [← cstr_length]
  rcases List.eq_nil_or_concat (cstr s) with e | ⟨init, x, e⟩
  · rw [e]
    simp
  · rw [List.concat_eq_append] at e
    have hp : peek s init.length = x := by
      rw [peek_of_cstr s _ init.length e (by simp), peek_append_length]
      rfl
    rw [e]
    simp only [List.length_append, List.length_singleton, Nat.add_sub_cancel,
      List.getLast?_append, List.getLast?_singleton, Option.some.injEq, hp]
    simp

theorem chospStr_length (l : List Char) :
    (chospStr l).length = if l.getLast? = some '/' then l.length - 1 else l.length := by
  unfold chospStr
  split <;> simp

theorem chospStr_eq_take (l : List Char) : chospStr l = l.take (chospStr l).length := by
  unfold chospStr
  split
  · rw [List.length_dropLast, List.dropLast_eq_take]
  · simp

/-- The value of `path_starts_with(path, begin)` in terms of the strings: `b` is `begin`
without one trailing `'/'`. -/
theorem path_starts_with_iff (path begin : List Char) :
    path_starts_with path begin = true ↔
      (cstr path = chospStr (cstr begin) ∨
        (chospStr (cstr begin) ++ ['/']) <+: cstr path) := by
  have hlen : (if 0 < cstrlen begin ∧ peek begin (cstrlen begin - 1) = '/'
      then cstrlen begin - 1 else cstrlen begin) = (chospStr (cstr begin)).length := by
    rw [chospStr_length, cstr_length]
    by_cases h : (cstr begin).getLast? = some '/'
    · rw [if_pos ((cstr_getLast_slash begin).2 h), if_pos h]
    · rw [if_neg (fun e => h ((cstr_getLast_slash begin).1 e)), if_neg h]
  unfold path_starts_with
  simp only [hlen]
  generalize hb : chospStr (cstr begin) = b
  have hbt : (cstr begin).take b.length = b := by
    rw [← hb]
    exact (chospStr_eq_take (cstr begin)).symm
  have htest : strnoscmpEq path begin b.length = true ↔ b <+: cstr path := by
    unfold strnoscmpEq
    rw [strncmpEq_take, hbt]
    constructor
    · intro h
      exact (eq_take_iff_isPrefix b (cstr path) b.length rfl).1 h.symm
    · intro h
      exact ((eq_take_iff_isPrefix b (cstr path) b.length rfl).2 h).symm
  by_cases ht : strnoscmpEq path begin b.length = true
  · obtain ⟨rest, hr⟩ := htest.1 ht
    simp only [ht, Bool.true_eq_false, if_false, Bool.or_eq_true, decide_eq_true_eq]
    cases rest with
    | nil =>
      rw [List.append_nil] at hr
      have hp : peek path b.length = NUL := by
        have := peek_cstr_end path
        rwa [← hr] at this
      simp [hp, ← hr]
    | cons x r =>
      have hp : peek path b.length = x := by
        rw [peek_of_cstr path _ b.length hr.symm (by simp), peek_append_length]
        rfl
      have hx : x ≠ NUL := cstr_no_nul path x (by rw [← hr]; simp)
      rw [hp, ← hr]
      constructor
      · intro h
        rcases h with h | h
        · exact absurd h hx
        · subst h
          exact Or.inr ⟨r, by simp⟩
      · intro h
        rcases h with h | h
        · have := congrArg List.length h
          simp at this
        · obtain ⟨t, e⟩ := h
          simp only [List.append_assoc, List.singleton_append, List.append_cancel_left_eq,
            List.cons.injEq] at e
          exact Or.inr e.1.symm
  · have hf : strnoscmpEq path begin b.length = false := by simpa using ht
    simp only [hf, if_true, Bool.false_eq_true, false_iff]
    intro h
    apply ht
    rw [htest]
    rcases h with h | h
    · rw [h]
    · exact (List.prefix_append b ['/']).trans h

/-- C39: `path_starts_with` tests a prefix made of whole components.  With `b` the
string `begin` without one trailing `'/'`, it returns non-zero exactly when `path` is
equal to `b` or begins with `b` followed by `'/'`; `path_starts_with(p, p)` is non-zero
for every `p`, and `/home/user2` does not start with `/home/user`. -/
theorem path_starts_with_spec (path begin p : List Char) :
    (path_starts_with path begin = true ↔
        (cstr path = chospStr (cstr begin) ∨
          (chospStr (cstr begin) ++ ['/']) <+: cstr path)) ∧
      path_starts_with p p = true ∧
      path_starts_with "/home/user2".toList "/home/user".toList = false ∧
      path_starts_with "/home/user/docs".toList "/home/user/".toList = true := by
  refine ⟨path_starts_with_iff path begin, ?_, by decide, by decide⟩
  rw [path_starts_with_iff]
  unfold chospStr
  by_cases h : (cstr p).getLast? = some '/'
  · simp only [h, if_true]
    right
    have := List.dropLast_append_getLast? '/' h
    rw [this]
  · simp only [h, if_false]
    exact Or.inl trivial

/-! ## `replace_home_part` and `expand_tilde` -/

theorem expand_tilde_slash_eq (env : TildeEnv) (rest : List Char) :
    expand_tilde env ('~' :: '/' :: rest) = cstr env.home_dir ++ cstr rest := by
  simp [expand_tilde, try_replace_tilde, peek, format_str_ss]

/-- The bound that `replace_home_part` passes to `strncat`, when the string whose
length is taken fits the buffer. -/
theorem strncat_limit_eq (PATH_MAX l : Nat) (h1 : l + 1 ≤ PATH_MAX) (h2 : PATH_MAX < SIZE_MOD) :
    (PATH_MAX + 2 * SIZE_MOD - l % SIZE_MOD - 1) % SIZE_MOD = PATH_MAX - l - 1 := by
  have hl : l % SIZE_MOD = l := Nat.mod_eq_of_lt (by omega)
  rw [hl]
  have e : PATH_MAX + 2 * SIZE_MOD - l - 1 = (PATH_MAX - l - 1) + SIZE_MOD * 2 := by omega
  rw [e, Nat.add_mul_mod_self_left, Nat.mod_eq_of_lt (by omega)]

/-- What `replace_home_part` leaves in its buffer for a directory below the home
directory, when the home directory is stored with a `'/'` at its end: `"~"` followed by
the `'/'` and by the rest of the directory, cut to the bound of `strncat`; then `chosp`
is applied.  The bound is `PATH_MAX - 2` when `strlen(buf)` is evaluated after
`strcpy(buf, "~")`, and `PATH_MAX - 1` less the length of the string that the buffer held
before the call when it is evaluated first. -/
theorem replace_home_part_below (env : TildeEnv) (PATH_MAX : Nat) (strlen_first : Bool)
    (rest old : List Char)
    (hhome : (cstr env.home_dir).getLast? = some '/')
    (hsz : cstrlen env.home_dir < SIZE_MOD)
    (hnn : ∀ c ∈ rest, c ≠ NUL)
    (h1 : (if strlen_first then cstrlen old else 1) + 1 ≤ PATH_MAX)
    (hmax : PATH_MAX < SIZE_MOD) :
    replace_home_part env PATH_MAX strlen_first (cstr env.home_dir ++ rest) old =
      chospStr ('~' :: ('/' :: rest).take
        (PATH_MAX - (if strlen_first then cstrlen old else 1) - 1)) := by
  have hH := List.dropLast_append_getLast? '/' hhome
  generalize hh : (cstr env.home_dir).dropLast = h at hH
  have hlenH : cstrlen env.home_dir = h.length + 1 := by
    rw [← cstr_length, ← hH]
    simp
  have hlen : (cstrlen env.home_dir + SIZE_MOD - 1) % SIZE_MOD = h.length := by
    rw [hlenH]
    have e : h.length + 1 + SIZE_MOD - 1 = h.length + SIZE_MOD := by omega
    rw [e, Nat.add_mod_right, Nat.mod_eq_of_lt (by omega)]
  have hdn : ∀ c ∈ cstr env.home_dir ++ rest, c ≠ NUL := by
    intro c hc
    rcases List.mem_append.1 hc with hc | hc
    · exact cstr_no_nul _ c hc
    · exact hnn c hc
  have hd : cstr (cstr env.home_dir ++ rest) = h ++ ('/' :: rest) := by
    rw [cstr_of_no_nul _ hdn, ← hH]
    simp
  have htest : strnoscmpEq (cstr env.home_dir ++ rest) env.home_dir h.length = true := by
    unfold strnoscmpEq
    rw [strncmpEq_take, hd, ← hH]
    simp
  have hpk : peek (cstr env.home_dir ++ rest) h.length = '/' := by
    rw [peek_of_cstr _ _ h.length hd (by simp), peek_append_length]
    rfl
  have hdrop : cstr ((cstr env.home_dir ++ rest).drop h.length) = '/' :: rest :=
    cstr_drop_of_append h _ _ hd
  have hroot : ∀ n, is_root_dir ('~' :: ('/' :: rest).take n) = false := by
    intro n
    simp [is_root_dir, peek_zero_cons]
  unfold replace_home_part
  simp only [hlen, htest, hpk, or_true, and_self, if_true, hdrop,
    strncat_limit_eq PATH_MAX _ h1 hmax, hroot]

/-- Below the home directory `replace_home_part` and `expand_tilde` are inverse when
nothing is cut: for a home directory stored with a `'/'` at its end and a `rest` that is
not empty and does not end in `'/'`, when `"/"` followed by `rest` is within the bound of
`strncat`, `replace_home_part` maps the home directory followed by `rest` to `"~/"`
followed by `rest`, and `expand_tilde` maps that back. -/
theorem replace_home_part_expand_tilde (env : TildeEnv) (PATH_MAX : Nat)
    (strlen_first : Bool) (rest old : List Char)
    (hhome : (cstr env.home_dir).getLast? = some '/')
    (hsz : cstrlen env.home_dir < SIZE_MOD)
    (hrest : rest ≠ []) (hnn : ∀ c ∈ rest, c ≠ NUL) (hlast : rest.getLast? ≠ some '/')
    (hfit : rest.length + 1 + (if strlen_first then cstrlen old else 1) + 1 ≤ PATH_MAX)
    (hmax : PATH_MAX < SIZE_MOD) :
    replace_home_part env PATH_MAX strlen_first (cstr env.home_dir ++ rest) old =
        '~' :: '/' :: rest ∧
      expand_tilde env
          (replace_home_part env PATH_MAX strlen_first (cstr env.home_dir ++ rest) old) =
        cstr env.home_dir ++ rest := by
  have e : replace_home_part env PATH_MAX strlen_first (cstr env.home_dir ++ rest) old =
      '~' :: '/' :: rest := by
    rw [replace_home_part_below env PATH_MAX strlen_first rest old hhome hsz hnn
      (by omega) hmax]
    have ht : ('/' :: rest).take
        (PATH_MAX - (if strlen_first then cstrlen old else 1) - 1) = '/' :: rest := by
      apply List.take_of_length_le
      simp only [List.length_cons]
      omega
    rw [ht]
    unfold chospStr
    obtain ⟨x, r, hr⟩ := List.exists_cons_of_ne_nil hrest
    have hl : ('~' :: '/' :: rest).getLast? = rest.getLast? := by
      rw [hr]
      simp [List.getLast?_cons_cons]
    rw [hl, if_neg hlast]
  refine ⟨e, ?_⟩
  rw [e, expand_tilde_slash_eq, cstr_of_no_nul rest hnn]

/-- When `strlen(buf)` is evaluated before `strcpy(buf, "~")`, a buffer that still holds
`l` characters from an earlier call leaves room for `PATH_MAX - l - 1` characters only:
of a directory made of `k` letters below the home directory, with
`2 <= PATH_MAX - l - 1 <= k`, the letters after the first `PATH_MAX - l - 2` are lost. -/
theorem replace_home_part_stale_cut (env : TildeEnv) (PATH_MAX l k : Nat)
    (hhome : (cstr env.home_dir).getLast? = some '/')
    (hsz : cstrlen env.home_dir < SIZE_MOD)
    (hl : l + 3 ≤ PATH_MAX) (hk : PATH_MAX - l - 1 ≤ k) (hmax : PATH_MAX < SIZE_MOD) :
    replace_home_part env PATH_MAX true (cstr env.home_dir ++ List.replicate k 'a')
        (List.replicate l 'x') =
      '~' :: '/' :: List.replicate (PATH_MAX - l - 2) 'a' := by
  have hlen : cstrlen (List.replicate l 'x') = l := by
    rw [cstrlen_of_no_nul]
    · simp
    · intro c hc
      rw [List.eq_of_mem_replicate hc]
      decide
  have hb := replace_home_part_below env PATH_MAX true (List.replicate k 'a')
    (List.replicate l 'x') hhome hsz
    (by
      intro c hc
      rw [List.eq_of_mem_replicate hc]
      decide)
    (by simp only [if_true, hlen]; omega) hmax
  simp only [if_true, hlen] at hb
  rw [hb]
  have e2 : PATH_MAX - l - 1 = (PATH_MAX - l - 2) + 1 := by omega
  have ht : ('/' :: List.replicate k 'a').take (PATH_MAX - l - 1) =
      '/' :: List.replicate (PATH_MAX - l - 2) 'a' := by
    rw [e2, List.take_succ_cons, List.take_replicate, Nat.min_eq_left (by omega)]
  rw [ht]
  unfold chospStr
  have e3 : PATH_MAX - l - 2 = (PATH_MAX - l - 3) + 1 := by omega
  have hlast : ('~' :: '/' :: List.replicate (PATH_MAX - l - 2) 'a').getLast? = some 'a' := by
    rw [e3, List.replicate_succ']
    have e4 : '~' :: '/' :: (List.replicate (PATH_MAX - l - 3) 'a' ++ ['a']) =
        ('~' :: '/' :: List.replicate (PATH_MAX - l - 3) 'a') ++ ['a'] := by simp
    rw [e4, List.getLast?_append]
    rfl
  rw [hlast]
  simp

/-- C40, the failing input: with the home directory `/home/u/` and a buffer of 32 bytes,
a first call of `replace_home_part`, for `/home/u/projects/vifm/src/utils`, leaves the
25 characters `~/projects/vifm/src/utils` in the static buffer, whatever the order of
evaluation.  In the next call, for `/home/u/src/vifm`, which is shorter than the buffer,
`strlen(buf)` evaluated before `strcpy(buf, "~")` is 25, `strncat` appends 6 characters
only, the result is `~/src/v`, and `expand_tilde` maps it to `/home/u/src/v`; with
`strlen(buf)` evaluated after `strcpy(buf, "~")` the result is `~/src/vifm`.  With a
buffer of 4096 bytes that holds 3001 characters, a directory of 2000 letters below the
home directory is cut to `~/` and 1093 letters. -/
theorem replace_home_part_stale_length :
    replace_home_part tildeEnvBob 32 true "/home/u/projects/vifm/src/utils".toList [] =
        "~/projects/vifm/src/utils".toList ∧
      replace_home_part tildeEnvBob 32 false "/home/u/projects/vifm/src/utils".toList [] =
        "~/projects/vifm/src/utils".toList ∧
      "/home/u/src/vifm".toList.length < 32 ∧
      replace_home_part tildeEnvBob 32 true "/home/u/src/vifm".toList
          "~/projects/vifm/src/utils".toList = "~/src/v".toList ∧
      replace_home_part tildeEnvBob 32 true "/home/u/src/vifm".toList
          "~/projects/vifm/src/utils".toList ≠ "~/src/vifm".toList ∧
      expand_tilde tildeEnvBob (replace_home_part tildeEnvBob 32 true
          "/home/u/src/vifm".toList "~/projects/vifm/src/utils".toList) =
        "/home/u/src/v".toList ∧
      replace_home_part tildeEnvBob 32 false "/home/u/src/vifm".toList
          "~/projects/vifm/src/utils".toList = "~/src/vifm".toList ∧
      replace_home_part tildeEnvBob 4096 true
          (cstr tildeEnvBob.home_dir ++ List.replicate 2000 'a')
          (List.replicate 3001 'x') =
        '~' :: '/' :: List.replicate 1093 'a' := by
  refine ⟨by decide, by decide, by decide, by decide, by decide, by decide, by decide, ?_⟩
  exact replace_home_part_stale_cut tildeEnvBob 4096 3001 2000 (by decide) (by decide)
    (by decide) (by decide) (by decide)

end Vifm
